import Mathlib

/-!
# SafeDispatch layout builder: planner, index mapper, range synthesizer, emitter

A shallow embedding of `lib/Transforms/IPO/SafeDispatchLayoutBuilder.cpp`, and of the
function `SDReturnRange::addCallSite` of `lib/Transforms/IPO/SafeDispatchReturnRange.cpp`.

Conventions of the embedding

* `std::map<K, V>` with `operator[]` is a total function `K → V` whose value at an
  absent key is the value-initialised `V` (`0`, empty vector); a map whose key
  presence is observed (`find`, `count`) is a function into `Option`.
* Unsigned 64-bit quantities are `Nat`, signed ones are `Int`.  All quantities are
  vtable indices; the embedding covers the executions in which they stay below
  `2^63`, where two's-complement arithmetic agrees with `Int` arithmetic.  A difference
  `a - b` of unsigned quantities that the source never takes with `a < b` under the CHA
  invariant `first ≤ addrPt ≤ last` is the difference of natural numbers.
* Where the source computes with a position or a size as a `uint64_t` and the wrap-around
  is reachable (the rounding of `max` in `orderCloud`, the keys and sizes of
  `verifyNewLayouts`, the null test of `createNewVTable`), the reduction modulo `2^64` is
  written out as `u64`.
* A failed `assert`, an out-of-range vector access and an exhausted loop budget are
  `none`.  The functions that change the module return an `Outcome`: the state they reached,
  and whether they ran to their end or stopped at a failed assertion.
* Loops that the source writes as `while(true)` or as a recursion take a `fuel`
  argument.
-/

namespace SDLayoutBuilder

/-! ## Data model -/

abbrev vtbl_name_t := String
abbrev vtbl_t := vtbl_name_t × Nat
abbrev range_t := Nat × Nat
abbrev order_t := List vtbl_t

/-- Modelled from the spec: the type declaration `interleaving_t` lives in the header
`SafeDispatchLayoutBuilder.h`, which is not part of the sources at hand.  The spec's
data model gives it as the pair `(VtableId v, int64 oldPos)`. -/
abbrev interleaving_t := vtbl_t × Int

abbrev interleaving_list_t := List interleaving_t

/-- An element of a vtable array (`llvm::Constant`), as far as the layout builder looks into
it: the null pointer, a constant `bitcast` expression of a named global value (`isFunction`
tells whether that value is a `Function`), or any other constant. -/
inductive Constant where
  | null
  | bitcast (operand : String) (isFunction : Bool)
  | other (name : String)
  deriving DecidableEq

/-- The class-hierarchy oracle `SDBuildCHA` (its implementation is an external
collaborator): the queries that the layout builder makes.  `roots` lists the roots in the
order of `roots_begin() .. roots_end()`; the two overloads `getLayoutClassName(name, order)`
and `getLayoutClassName(vtbl_t)` are one query on the pair; `oldVTables` lists the names that
`oldVTables_begin() .. oldVTables_end()` walks. -/
structure CHA where
  preorder : vtbl_t → order_t
  children : vtbl_t → List vtbl_t
  isUndefined : vtbl_name_t → Bool
  getRange : vtbl_t → range_t
  hasRange : vtbl_t → Bool
  addrPt : vtbl_t → Nat
  getNumAddrPts : vtbl_name_t → Nat
  hasAddrPt : vtbl_name_t → Nat → Bool
  getAddrPtOrder : vtbl_name_t → Nat → Nat
  isRoot : vtbl_name_t → Bool
  hasAncestor : vtbl_t → Bool
  getAncestor : vtbl_t → vtbl_name_t
  knowsAbout : vtbl_t → Bool
  hasFirstDefinedChild : vtbl_t → Bool
  getFirstDefinedChild : vtbl_t → vtbl_t
  roots : List vtbl_name_t
  hasOldVTable : vtbl_name_t → Bool
  getOldVTable : vtbl_name_t → List Constant
  getVTableOrder : vtbl_name_t → Nat → Nat
  getLayoutClassName : vtbl_t → String
  oldVTables : List vtbl_name_t

/-- Modelled from the spec: `SDBuildCHA::isDefined(vtbl_t)` is declared in a header that is
not part of the sources at hand; the spec's oracle interface lists `isDefined(VtableId)` next to
`isUndefined(name)` as the defined/undefined predicate. -/
def CHA.isDefined (cha : CHA) (v : vtbl_t) : Bool := !cha.isUndefined v.1

/-- Modelled from the spec: the overload `SDBuildCHA::isUndefined(vtbl_t)`, which the source
calls next to `isUndefined(name)`, is declared in the same missing header; a sub-vtable is
undefined when the class that owns it is. -/
abbrev CHA.isUndefinedVtbl (cha : CHA) (v : vtbl_t) : Bool := cha.isUndefined v.1

/-- Reduction of an integer to its `uint64_t` value. -/
def u64 (x : Int) : Nat := (x % 2 ^ 64).toNat

/-- Assignment `m[k] = x` on a `std::map` seen as a total function. -/
def upd {β : Type} (m : vtbl_t → β) (k : vtbl_t) (x : β) : vtbl_t → β :=
  fun k' => if k' = k then x else m k'

/-- The loop `for (i = 0; i < pre.size(); i++) indMap[pre[i]] = i`, started at index `i`. -/
def buildIndMapFrom : List vtbl_t → Nat → (vtbl_t → Nat) → (vtbl_t → Nat)
  | [], _, m => m
  | v :: vs, i, m => buildIndMapFrom vs (i + 1) (upd m v i)

/-- `std::map<vtbl_t, uint64_t> indMap` filled from a preorder. -/
def buildIndMap (pre : order_t) : vtbl_t → Nat :=
  buildIndMapFrom pre 0 (fun _ => 0)

/-! ## Pre-pad computation (first half of `interleaveCloud`) -/

/-- Body of the inner loop of `interleaveCloud` (lines 468-499) for one `child` of `parent`. -/
def prePadChild (cha : CHA) (indMap : vtbl_t → Nat) (parent : vtbl_t)
    (prePadMap : vtbl_t → Nat) (child : vtbl_t) : vtbl_t → Nat :=
  if cha.isUndefinedVtbl parent then prePadMap
  else if indMap child < indMap parent then prePadMap
  else
    let parentPreAddrPt := cha.addrPt parent - (cha.getRange parent).1 + prePadMap parent
    let childPreAddrPt := cha.addrPt child - (cha.getRange child).1 + prePadMap child
    upd prePadMap child
      (if parentPreAddrPt > childPreAddrPt then parentPreAddrPt - childPreAddrPt
       else prePadMap child)

/-- Body of the outer loop of `interleaveCloud` (lines 457-501) for one `parent`. -/
def prePadParent (cha : CHA) (indMap : vtbl_t → Nat) (prePadMap : vtbl_t → Nat)
    (parent : vtbl_t) : vtbl_t → Nat :=
  if cha.isUndefinedVtbl parent then prePadMap
  else (cha.children parent).foldl (prePadChild cha indMap parent) prePadMap

/-- The pre-pad loop of `interleaveCloud` over the preorder node set. -/
def prePadLoop (cha : CHA) (preorderNodeSet : order_t) (prePadMap : vtbl_t → Nat) :
    vtbl_t → Nat :=
  preorderNodeSet.foldl (prePadParent cha (buildIndMap preorderNodeSet)) prePadMap

/-! ## The interleaver: `fillVtablePart` -/

def sd_isLE (lhs rhs : Int) : Bool := decide (lhs ≤ rhs)

def sd_isGE (lhs rhs : Int) : Bool := decide (lhs ≥ rhs)

/-- Initial `posMap` entry of node `n` (line 847). -/
def initPos (cha : CHA) (positivePartOn_Off : Bool) (n : vtbl_t) : Int :=
  if positivePartOn_Off then (cha.addrPt n : Int) else (cha.addrPt n : Int) - 1

/-- Initial `lastPosMap` entry of node `n` (line 848). -/
def initLastPos (cha : CHA) (prePadMap : vtbl_t → Nat) (positivePartOn_Off : Bool)
    (n : vtbl_t) : Int :=
  if positivePartOn_Off then ((cha.getRange n).2 : Int)
  else ((cha.getRange n).1 : Int) - (prePadMap n : Int)

/-- The set-up loop of `fillVtablePart` (lines 844-849): fills `posMap` and `lastPosMap`. -/
def initMaps (cha : CHA) (prePadMap : vtbl_t → Nat) (positivePartOn_Off : Bool) :
    List vtbl_t → (vtbl_t → Int) × (vtbl_t → Int) → (vtbl_t → Int) × (vtbl_t → Int)
  | [], maps => maps
  | n :: ns, (posMap, lastPosMap) =>
    initMaps cha prePadMap positivePartOn_Off ns
      (upd posMap n (initPos cha positivePartOn_Off n),
       upd lastPosMap n (initLastPos cha prePadMap positivePartOn_Off n))

/-- One pass of the `for` loop inside `while(true)` (lines 859-866): walks the nodes, appends
to `current` and advances `posMap`. -/
def sweep (cha : CHA) (positivePartOn_Off : Bool) (lastPosMap : vtbl_t → Int) :
    List vtbl_t → (vtbl_t → Int) → interleaving_list_t →
      (vtbl_t → Int) × interleaving_list_t
  | [], posMap, current => (posMap, current)
  | n :: ns, posMap, current =>
    let pos := posMap n
    let check := if positivePartOn_Off then sd_isLE else sd_isGE
    let increment : Int := if positivePartOn_Off then 1 else -1
    if !cha.isUndefined n.1 && check pos (lastPosMap n) then
      sweep cha positivePartOn_Off lastPosMap ns (upd posMap n (posMap n + increment))
        (current ++ [(n, pos)])
    else
      sweep cha positivePartOn_Off lastPosMap ns posMap current

/-- The `while(true)` loop of `fillVtablePart` (lines 857-879). -/
def fillLoop (cha : CHA) (positivePartOn_Off : Bool) (nodesInPreorder : order_t)
    (lastPosMap : vtbl_t → Int) :
    Nat → (vtbl_t → Int) → interleaving_list_t → Option interleaving_list_t
  | 0, _, _ => none
  | fuel + 1, posMap, vtblPartList =>
    let r := sweep cha positivePartOn_Off lastPosMap nodesInPreorder posMap []
    if r.2.length = 0 then some vtblPartList
    else
      fillLoop cha positivePartOn_Off nodesInPreorder lastPosMap fuel r.1
        (if positivePartOn_Off then vtblPartList ++ r.2 else r.2 ++ vtblPartList)

/-- `SDLayoutBuilder::fillVtablePart`.  The insertion iterator of line 872 is read as an
iterator into the list parameter `vtblPartList`. -/
def fillVtablePart (cha : CHA) (prePadMap : vtbl_t → Nat) (fuel : Nat)
    (vtblPartList : interleaving_list_t) (nodesInPreorder : order_t)
    (positivePartOn_Off : Bool) : Option interleaving_list_t :=
  let maps := initMaps cha prePadMap positivePartOn_Off nodesInPreorder
    (fun _ => 0, fun _ => 0)
  fillLoop cha positivePartOn_Off nodesInPreorder maps.2 fuel maps.1 vtblPartList

/-- `SDLayoutBuilder::interleaveCloud` for the cloud rooted at `(vtbl, 0)`, past its entry
assertion `cha->isRoot(vtbl)` (which `planCloud` checks): returns the updated `prePadMap` and
the list stored in `interleavingMap[vtbl]`. -/
def interleaveCloud (cha : CHA) (fuel : Nat) (prePadMap : vtbl_t → Nat)
    (vtbl : vtbl_name_t) : Option ((vtbl_t → Nat) × interleaving_list_t) :=
  let preorderNodeSet := cha.preorder (vtbl, 0)
  let prePadMap1 := prePadLoop cha preorderNodeSet prePadMap
  match fillVtablePart cha prePadMap1 fuel [] preorderNodeSet false with
  | none => none
  | some negative =>
    match fillVtablePart cha prePadMap1 fuel [] preorderNodeSet true with
    | none => none
    | some positive_list_Part => some (prePadMap1, negative ++ positive_list_Part)

/-! ## The orderer: `orderCloud` -/

/-- The `uint64_t` value `size = r.second - r.first + 1` of a node of the cloud. -/
def subVtableSize (cha : CHA) (child : vtbl_t) : Nat :=
  u64 (((cha.getRange child).2 : Int) - ((cha.getRange child).1 : Int) + 1)

/-- The first loop of `orderCloud` (lines 372-377): the largest `size` over all the nodes
of the preorder. -/
def orderCloud_maxSize (cha : CHA) (pre : order_t) : Nat :=
  pre.foldl (fun max child =>
    let size := subVtableSize cha child
    if size > max then size else max) 0

/-- The shift-and-or sequence of `orderCloud` (lines 379-386) on a `uint64_t`. -/
def orderCloud_roundUp (max : Nat) : Nat :=
  let max := u64 ((max : Int) - 1)
  let max := max ||| (max >>> 1)
  let max := max ||| (max >>> 2)
  let max := max ||| (max >>> 4)
  let max := max ||| (max >>> 8)
  let max := max ||| (max >>> 16)
  let max := max ||| (max >>> 32)
  u64 ((max : Int) + 1)

/-- Lines 368-392 of `orderCloud` on the preorder `pre`: the value of `max` after the
power-of-two assertion and the value `max * WORD_WIDTH` (with `WORD_WIDTH` = 8, a `uint64_t`
product) stored in `alignmentMap[vtbl]`. -/
def orderCloud_alignment (cha : CHA) (pre : order_t) : Option (Nat × Nat) :=
  let max := orderCloud_roundUp (orderCloud_maxSize cha pre)
  if max &&& u64 ((max : Int) - 1) ≠ 0 then none
  else some (max, u64 ((max : Int) * 8))

/-- One iteration of the second loop of `orderCloud` (lines 396-415).  A remainder by
`max = 0` is `none`; so is a counting loop whose bound is `2^32` or more, which the `unsigned`
counter never reaches. -/
def orderCloud_child (cha : CHA) (dummyVtable : vtbl_t) (max : Nat)
    (orderedVtbl : interleaving_list_t) (child : vtbl_t) : Option interleaving_list_t :=
  if cha.isUndefined child.1 then some orderedVtbl
  else
    let r := cha.getRange child
    let size := r.2 - r.1 + 1
    let addrpt := cha.addrPt child - r.1
    let padEntries := orderedVtbl.length + addrpt
    if max = 0 then none
    else
      let padSize := if padEntries % max = 0 then 0 else max - padEntries % max
      if padSize ≥ 2 ^ 32 ∨ size ≥ 2 ^ 32 then none
      else
        some (orderedVtbl ++ List.replicate padSize ((dummyVtable, (0 : Int)) : interleaving_t) ++
          (List.range size).map (fun (i : Nat) => ((child, (r.1 : Int) + (i : Int)) :
            interleaving_t)))

/-- `SDLayoutBuilder::orderCloud` for the cloud rooted at `(vtbl, 0)`: the values stored in
`alignmentMap[vtbl]` and in `interleavingMap[vtbl]`.  The computation of `max` is carried out
on `uint64_t` values; the second loop follows the conventions of the embedding. -/
def orderCloud (cha : CHA) (dummyVtable : vtbl_t) (vtbl : vtbl_name_t) :
    Option (Nat × interleaving_list_t) :=
  if !cha.isRoot vtbl then none
  else
    let pre := cha.preorder (vtbl, 0)
    match orderCloud_alignment cha pre with
    | none => none
    | some (max, alignment) =>
      match pre.foldlM (orderCloud_child cha dummyVtable max) [] with
      | none => none
      | some orderedVtbl => some (alignment, orderedVtbl)

/-! ## The index mapper: `calculateNewLayoutInds` -/

/-- The loop of `calculateNewLayoutInds` (lines 530-540), started at `currentIndex`.
`newLayoutInds` records key presence: `none` is an absent key. -/
def newLayoutIndsLoop (dummyVtable : vtbl_t) :
    interleaving_list_t → Nat → (vtbl_t → Option (List Nat)) → (vtbl_t → Option (List Nat))
  | [], _, newLayoutInds => newLayoutInds
  | ivtbl :: rest, currentIndex, newLayoutInds =>
    if ivtbl.1 ≠ dummyVtable then
      newLayoutIndsLoop dummyVtable rest (currentIndex + 1)
        (upd newLayoutInds ivtbl.1 (some ((newLayoutInds ivtbl.1).getD [] ++ [currentIndex])))
    else
      newLayoutIndsLoop dummyVtable rest (currentIndex + 1) newLayoutInds

/-- `SDLayoutBuilder::calculateNewLayoutInds` on the list stored for a root.  The sentinel
`dummyVtable` is a member declared in the header; it is a parameter here. -/
def calculateNewLayoutInds (dummyVtable : vtbl_t) (interleaving : interleaving_list_t)
    (newLayoutInds : vtbl_t → Option (List Nat)) : vtbl_t → Option (List Nat) :=
  newLayoutIndsLoop dummyVtable interleaving 0 newLayoutInds

/-! ## The range synthesizer -/

/-- The order `std::sort` uses on `range_t` (`operator<` of `std::pair`, lexicographic), in
its reflexive form. -/
def rangeLE (a b : range_t) : Prop := a.1 < b.1 ∨ (a.1 = b.1 ∧ a.2 ≤ b.2)

instance : DecidableRel rangeLE := fun a b => by unfold rangeLE; infer_instance

instance : IsTotal range_t rangeLE := ⟨fun a b => by unfold rangeLE; omega⟩

instance : IsTrans range_t rangeLE := ⟨fun a b c => by unfold rangeLE; omega⟩

/-- `std::sort(ranges.begin(), ranges.end())`: the sorted permutation of the vector (the
order is total and equal pairs are identical, so the result does not depend on the sorting
algorithm). -/
def sortRanges (ranges : List range_t) : List range_t := ranges.insertionSort rangeLE

/-- The coalescing loop of `calculateVPtrRangesHelper` (lines 569-584) with its state
`start`, `end`, `coalesced_ranges`. -/
def coalesceLoop : List range_t → Int → Int → List range_t → Int × Int × List range_t
  | [], start, end_, coalesced_ranges => (start, end_, coalesced_ranges)
  | it :: rest, start, end_, coalesced_ranges =>
    if start = -1 then coalesceLoop rest (it.1 : Int) (it.2 : Int) coalesced_ranges
    else if (it.1 : Int) ≤ end_ then
      if (it.2 : Int) > end_ then coalesceLoop rest start (it.2 : Int) coalesced_ranges
      else coalesceLoop rest start end_ coalesced_ranges
    else
      coalesceLoop rest (it.1 : Int) (it.2 : Int)
        (coalesced_ranges ++ [(start.toNat, end_.toNat)])

/-- Lines 567-587: coalesce a sorted vector of ranges.  The variable `end` is not
initialised in the source and is assigned before it is first read; it starts at `0`
here. -/
def coalesce (ranges : List range_t) : List range_t :=
  let r := coalesceLoop ranges (-1) 0 []
  if r.1 ≠ -1 then r.2.2 ++ [(r.1.toNat, r.2.1.toNat)] else r.2.2

/-- `SDLayoutBuilder::calculateVPtrRangesHelper`, with `rangeMap` threaded through the
recursion. -/
def calculateVPtrRangesHelper (cha : CHA) (indMap : vtbl_t → Nat) :
    Nat → vtbl_t → (vtbl_t → Option (List range_t)) → Option (vtbl_t → Option (List range_t))
  | 0, _, _ => none
  | fuel + 1, vtbl, rangeMap =>
    if (rangeMap vtbl).isSome then some rangeMap
    else
      match (cha.children vtbl).foldlM
          (fun rm child => calculateVPtrRangesHelper cha indMap fuel child rm) rangeMap with
      | none => none
      | some rangeMap1 =>
        let ranges := (indMap vtbl, indMap vtbl + 1) ::
          (cha.children vtbl).flatMap (fun child => (rangeMap1 child).getD [])
        some (upd rangeMap1 vtbl (some (coalesce (sortRanges ranges))))

/-- The disjointness loop of `verifyVPtrRanges` (lines 618-622): `lastEnd < range.first`
for each range in turn. -/
def rangesDisjoint : List range_t → Int → Bool
  | [], _ => true
  | range :: rest, lastEnd =>
    decide (lastEnd < (range.1 : Int)) && rangesDisjoint rest (range.2 : Int)

/-- The accumulation `totalRange += range.second - range.first` of `verifyVPtrRanges`. -/
def totalRange (ranges : List range_t) : Nat :=
  ranges.foldl (fun acc range => acc + (range.2 - range.1)) 0

/-- `SDLayoutBuilder::verifyVPtrRanges`: `true` when none of its three assertions fails.
The source walks the keys of `descendantsMap`, which are the nodes of the preorder. -/
def verifyVPtrRanges (cha : CHA) (rangeMap : vtbl_t → Option (List range_t))
    (vtbl : vtbl_name_t) : Bool :=
  let pre := cha.preorder (vtbl, 0)
  let indMap := buildIndMap pre
  pre.all (fun v =>
    let ranges := (rangeMap v).getD []
    rangesDisjoint ranges (-1) &&
    decide (totalRange ranges = (cha.preorder v).length) &&
    (cha.preorder v).all (fun descendant =>
      ranges.any (fun range =>
        decide (range.1 ≤ indMap descendant) && decide (range.2 > indMap descendant))))

/-! ## Address constants and memory ranges -/

def WORD_WIDTH : Nat := 8

def NEW_VTABLE_NAME (vtbl : vtbl_name_t) : String := "_SD" ++ vtbl

/-- The IR constant `add (ptrtoint @global), offset` built by `newVtblAddressConst`: the
address `offset` bytes past the start of the global `global`. -/
structure AddrConst where
  global : String
  offset : Nat
  deriving DecidableEq

abbrev mem_range_t := AddrConst × Nat

/-- `SDLayoutBuilder::newVtblAddressConst`.  `cloudStartMap` tells which new globals have
been registered; `newLayoutInds[vtbl][addrPt]` is an unchecked vector access. -/
def newVtblAddressConst (cha : CHA) (newLayoutInds : vtbl_t → Option (List Nat))
    (cloudStartMap : String → Bool) (vtbl : vtbl_t) : Option AddrConst :=
  if !cha.hasAncestor vtbl then none
  else
    let rootName := cha.getAncestor vtbl
    if !cha.isRoot rootName then none
    else
      let rootName := NEW_VTABLE_NAME rootName
      if cha.getNumAddrPts vtbl.1 = 0 then none
      else
        let addrPt := cha.addrPt vtbl - (cha.getRange vtbl).1
        match newLayoutInds vtbl with
        | none => none
        | some inds =>
          match inds[addrPt]? with
          | none => none
          | some addrPtOff =>
            if !cloudStartMap rootName then none
            else some { global := rootName, offset := addrPtOff * WORD_WIDTH }

/-- The counting loop of `calculateVPtrRanges` (lines 677-678), with `n` iterations left
and the loop variable at `j`. -/
def defCountLoop (cha : CHA) (pre : order_t) : Nat → Nat → Nat → Option Nat
  | 0, _, def_count => some def_count
  | n + 1, j, def_count =>
    match pre[j]? with
    | none => none
    | some v => defCountLoop cha pre n (j + 1) (if cha.isDefined v then def_count + 1 else def_count)

/-- The loop of `calculateVPtrRanges` that skips leading undefined nodes (lines 686-690); it
reads `pre[start]` before it compares `start` with `end`. -/
def skipUndefinedLoop (cha : CHA) (pre : order_t) : Nat → Nat → Nat → Option Nat
  | 0, _, _ => none
  | fuel + 1, start, end_ =>
    match pre[start]? with
    | none => none
    | some v =>
      if cha.isUndefinedVtbl v && decide (start < end_) then
        skipUndefinedLoop cha pre fuel (start + 1) end_
      else some start

/-- The loop over the ranges of one node in `calculateVPtrRanges` (lines 671-698); the
result is what is appended to `memRangeMap[pre[i]]`. -/
def memRangesLoop (cha : CHA) (newLayoutInds : vtbl_t → Option (List Nat))
    (cloudStartMap : String → Bool) (pre : order_t) (fuel : Nat) :
    List range_t → List mem_range_t → Option (List mem_range_t)
  | [], acc => some acc
  | it :: rest, acc =>
    match defCountLoop cha pre (it.2 - it.1) it.1 0 with
    | none => none
    | some def_count =>
      if def_count = 0 then memRangesLoop cha newLayoutInds cloudStartMap pre fuel rest acc
      else
        match skipUndefinedLoop cha pre fuel it.1 it.2 with
        | none => none
        | some start =>
          match pre[start]? with
          | none => none
          | some v =>
            match newVtblAddressConst cha newLayoutInds cloudStartMap v with
            | none => none
            | some a =>
              memRangesLoop cha newLayoutInds cloudStartMap pre fuel rest (acc ++ [(a, def_count)])

/-- `SDLayoutBuilder::calculateVPtrRanges`: returns the new `rangeMap` and `memRangeMap`. -/
def calculateVPtrRanges (cha : CHA) (newLayoutInds : vtbl_t → Option (List Nat))
    (cloudStartMap : String → Bool) (fuel : Nat)
    (rangeMap : vtbl_t → Option (List range_t)) (memRangeMap : vtbl_t → List mem_range_t)
    (vtbl : vtbl_name_t) :
    Option ((vtbl_t → Option (List range_t)) × (vtbl_t → List mem_range_t)) :=
  let pre := cha.preorder (vtbl, 0)
  match calculateVPtrRangesHelper cha (buildIndMap pre) fuel (vtbl, 0) rangeMap with
  | none => none
  | some rangeMap1 =>
    match pre.foldlM (fun mrm v =>
        match memRangesLoop cha newLayoutInds cloudStartMap pre fuel
            ((rangeMap1 v).getD []) (mrm v) with
        | none => none
        | some l => some (upd mrm v l)) memRangeMap with
    | none => none
    | some memRangeMap1 => some (rangeMap1, memRangeMap1)

/-! ## Relocation -/

/-- The part of `createNewVTable` that computes the new index of one use of the old global
`v.first` (lines 791-811): `oldAddrPt` is the constant index of the `getelementptr` user.
`none` is a failed assertion or an out-of-range access, `some none` the `continue` for a use
of another sub-vtable, `some (some K)` the index of the rebuilt `getelementptr`. -/
def createNewVTable_newAddrPt (cha : CHA) (newLayoutInds : vtbl_t → Option (List Nat))
    (v : vtbl_t) (oldAddrPt : Nat) : Option (Option Nat) :=
  if !cha.hasAddrPt v.1 oldAddrPt then none
  else
    let order := cha.getAddrPtOrder v.1 oldAddrPt
    if order ≠ v.2 then some none
    else
      let addrInsideBlock := oldAddrPt - (cha.getRange (v.1, order)).1
      match ((newLayoutInds v).getD [])[addrInsideBlock]? with
      | none => none
      | some newAddrPt => some (some newAddrPt)

/-- `SDLayoutBuilder::translateVtblInd`.  `none` is a failed assertion or an out-of-range
vector access. -/
def translateVtblInd (cha : CHA) (newLayoutInds : vtbl_t → Option (List Nat))
    (name : vtbl_t) (offset : Int) (isRelative : Bool) : Option Int :=
  let name :=
    if cha.isUndefinedVtbl name && cha.hasFirstDefinedChild name then
      cha.getFirstDefinedChild name
    else name
  match newLayoutInds name with
  | none =>
    if cha.knowsAbout name && cha.hasFirstDefinedChild name then none else some offset
  | some newInds =>
    if !cha.hasRange name then none
    else
      let subVtableRange := cha.getRange name
      if isRelative then
        let oldAddrPt : Int := ((cha.addrPt name - subVtableRange.1 : Nat) : Int)
        let fullIndex : Int := oldAddrPt + offset
        if ¬ (fullIndex ≥ 0 ∧ fullIndex ≤ ((subVtableRange.2 - subVtableRange.1 : Nat) : Int)) then
          none
        else
          match newInds[fullIndex.toNat]?, newInds[oldAddrPt.toNat]? with
          | some a, some b => some ((a : Int) - (b : Int))
          | _, _ => none
      else
        if ¬ (0 ≤ offset ∧ offset ≤ (newInds.length : Int)) then none
        else
          match newInds[offset.toNat]? with
          | none => none
          | some a => some (a : Int)

/-- The condition of the assertion of the absolute branch of `translateVtblInd` (line 918):
`assert(0 <= offset && offset <= (int64_t)newInds.size())`. -/
def translateVtblInd_assert (newInds : List Nat) (offset : Int) : Bool :=
  decide (0 ≤ offset ∧ offset ≤ (newInds.length : Int))

/-! ## The module and the state of the pass -/

/-- An operand of an instruction: a `ConstantInt`, the result of the instruction `id` of the
same function, or any other value. -/
inductive Value where
  | constInt (value : Int)
  | inst (id : Nat)
  | other (id : Nat)
  deriving DecidableEq

/-- An instruction of a function body.  `isVCallIndexCall` tells whether it is a `CallInst`
whose called function is the intrinsic `sd_get_vcall_index`; the operands of a call are its
arguments. -/
structure Instruction where
  id : Nat
  isVCallIndexCall : Bool
  operands : List Value
  deriving DecidableEq

/-- A function of the module: its name and its instructions in iteration order.  `hasUsers`
is the state of its use list when `removeOldLayouts` scans the functions
(`user_begin() != user_end()`); a function that has just been created has none. -/
structure Function where
  name : String
  body : List Instruction
  hasUsers : Bool := false
  deriving DecidableEq

/-- A user of a global variable: a constant `getelementptr` expression, whose operand 2 is a
`ConstantInt` (`some index`) or not, or any other user. -/
inductive User where
  | gep (index : Option Int)
  | other
  deriving DecidableEq

structure GlobalVariable where
  name : String
  initializer : List Constant
  alignment : Nat
  users : List User
  deriving DecidableEq

/-- The parts of an `llvm::Module` that the layout builder reads and writes.
`declaresVCallIndex` tells whether `M.getFunction` finds the intrinsic
`sd_get_vcall_index`. -/
structure Module where
  functions : List Function
  globals : List GlobalVariable
  declaresVCallIndex : Bool
  deriving DecidableEq

def Module.getFunction (M : Module) (name : String) : Option Function :=
  M.functions.find? (fun f => decide (f.name = name))

def Module.getGlobalVariable (M : Module) (name : String) : Option GlobalVariable :=
  M.globals.find? (fun g => decide (g.name = name))

/-- The module together with the data members of the pass object.  The members are declared
in the header `SafeDispatchLayoutBuilder.h`, which is not part of the sources at hand; their
shapes are those of their uses in the source. -/
structure State where
  M : Module
  interleave : Bool
  dummyVtable : vtbl_t
  prePadMap : vtbl_t → Nat
  interleavingMap : vtbl_name_t → Option interleaving_list_t
  newLayoutInds : vtbl_t → Option (List Nat)
  alignmentMap : vtbl_name_t → Option Nat
  cloudStartMap : String → Bool
  newVTableStartAddrMap : vtbl_t → Option AddrConst
  rangeMap : vtbl_t → Option (List range_t)
  memRangeMap : vtbl_t → List mem_range_t
  vthunksToRemove : List String

/-- Result of a step that can hit a failing `assert`: the state it reached, and whether it
ran to its end (`done`) or stopped at the assertion (`abort`). -/
inductive Outcome (σ : Type) where
  | done (s : σ)
  | abort (s : σ)
  deriving DecidableEq

def Outcome.bind {σ τ : Type} (o : Outcome σ) (f : σ → Outcome τ) (g : σ → τ) : Outcome τ :=
  match o with
  | .done s => f s
  | .abort s => .abort (g s)

/-- Sequencing of two steps on the same state. -/
def Outcome.andThen {σ : Type} (o : Outcome σ) (f : σ → Outcome σ) : Outcome σ :=
  o.bind f id

def Outcome.state {σ : Type} : Outcome σ → σ
  | .done s => s
  | .abort s => s

def Outcome.isAbort {σ : Type} : Outcome σ → Bool
  | .done _ => false
  | .abort _ => true

/-- Assignment `m[k] = x` on a `std::map` keyed by names. -/
def updName {β : Type} (m : String → β) (k : String) (x : β) : String → β :=
  fun k1 => if k1 = k then x else m k1

/-! ## Thunks: `createThunkFunctions` -/

def NEW_VTHUNK_NAME (funName : String) (parent : String) : String := "_SVT" ++ parent ++ funName

/-- `sd_isVthunk`: the name starts with `_ZTv` or with `_ZTcv`. -/
def sd_isVthunk (name : String) : Bool :=
  "_ZTv".toList.isPrefixOf name.toList || "_ZTcv".toList.isPrefixOf name.toList

/-- `SDLayoutBuilder::getVthunkFunction`: `some (some f)` is the thunk `f`, `some none` is
`NULL`, `none` the failed `assert(thunkF)`. -/
def getVthunkFunction (vtblElement : Constant) : Option (Option String) :=
  match vtblElement with
  | .bitcast operand isFunction =>
    if sd_isVthunk operand then
      if isFunction then some (some operand) else none
    else some none
  | _ => some none

/-- `CI->replaceAllUsesWith(newValue)` inside a function body: every operand that is the
result of the instruction `id` becomes `newValue`. -/
def replaceAllUsesWith (body : List Instruction) (id : Nat) (newValue : Value) :
    List Instruction :=
  body.map (fun inst =>
    { inst with operands := inst.operands.map (fun o => if o = Value.inst id then newValue else o) })

/-- The instruction walk of `createThunkFunctions` (lines 322-345) over the clone of a thunk
of the sub-vtable `v`: `n` instructions are left, the next one is at position `k`. -/
def rewriteVCallIndex (cha : CHA) (newLayoutInds : vtbl_t → Option (List Nat)) (v : vtbl_t) :
    Nat → Nat → List Instruction → Outcome (List Instruction)
  | 0, _, body => .done body
  | n + 1, k, body =>
    match body[k]? with
    | none => .done body
    | some CI =>
      if CI.isVCallIndexCall then
        match CI.operands.head? with
        | some (Value.constInt oldVal) =>
          let oldIndex : Int := Int.tdiv oldVal (WORD_WIDTH : Int)
          match translateVtblInd cha newLayoutInds v oldIndex true with
          | none => .abort body
          | some newIndex =>
            let newValue := Value.constInt (newIndex * (WORD_WIDTH : Int))
            rewriteVCallIndex cha newLayoutInds v n (k + 1)
              (replaceAllUsesWith body CI.id newValue)
        | _ => .abort body
      else rewriteVCallIndex cha newLayoutInds v n (k + 1) body

/-- The body of the inner loop of `createThunkFunctions` (lines 294-348) for the element `c`
at index `vtblInd` of the old vtable of `vtbl`. -/
def createThunkFunctions_elem (cha : CHA) (newLayoutInds : vtbl_t → Option (List Nat))
    (vtbl : vtbl_name_t) (M : Module) (vtblInd : Nat) (c : Constant) : Outcome Module :=
  match getVthunkFunction c with
  | none => .abort M
  | some none => .done M
  | some (some thunkF) =>
    let order := cha.getVTableOrder vtbl vtblInd
    let parentClass := cha.getLayoutClassName (vtbl, order)
    let newThunkName := NEW_VTHUNK_NAME thunkF parentClass
    if (M.getFunction newThunkName).isSome then .done M
    else
      let body := match M.getFunction thunkF with
        | some f => f.body
        | none => []
      if !M.declaresVCallIndex then
        .done { M with functions := M.functions ++ [{ name := newThunkName, body := body }] }
      else
        (rewriteVCallIndex cha newLayoutInds (vtbl, order) body.length 0 body).bind
          (fun body1 =>
            .done { M with functions := M.functions ++ [{ name := newThunkName, body := body1 }] })
          (fun body1 =>
            { M with functions := M.functions ++ [{ name := newThunkName, body := body1 }] })

/-- The loop of `createThunkFunctions` over the elements of one old vtable, from index
`vtblInd` on. -/
def createThunkFunctions_elems (cha : CHA) (newLayoutInds : vtbl_t → Option (List Nat))
    (vtbl : vtbl_name_t) : List Constant → Nat → Module → Outcome Module
  | [], _, M => .done M
  | c :: cs, vtblInd, M =>
    (createThunkFunctions_elem cha newLayoutInds vtbl M vtblInd c).andThen
      (createThunkFunctions_elems cha newLayoutInds vtbl cs (vtblInd + 1))

/-- The body of the outer loop of `createThunkFunctions` (lines 283-349) for the vtable
named `vtbl`. -/
def createThunkFunctions_vtbl (cha : CHA) (newLayoutInds : vtbl_t → Option (List Nat))
    (M : Module) (vtbl : vtbl_name_t) : Outcome Module :=
  if !cha.hasOldVTable vtbl then
    if cha.isUndefined vtbl then .done M else .abort M
  else createThunkFunctions_elems cha newLayoutInds vtbl (cha.getOldVTable vtbl) 0 M

/-- `SDLayoutBuilder::createThunkFunctions`. -/
def createThunkFunctions (cha : CHA) (newLayoutInds : vtbl_t → Option (List Nat))
    (rootName : vtbl_name_t) (M : Module) : Outcome Module :=
  (cha.preorder (rootName, 0)).foldl
    (fun o vtbl => o.andThen (fun M => createThunkFunctions_vtbl cha newLayoutInds M vtbl.1))
    (.done M)

/-! ## The emitter: `createNewVTable` -/

/-- The body of the element loop of `createNewVTable` (lines 720-744) for the entry `ivtbl`:
the element pushed to `newVtableElems` and the thunk inserted into `vthunksToRemove`, if any;
`none` is a failed assertion or an operand index outside the old array.  The test
`ivtbl.second < r.first` compares with the `uint64_t` bound `r.first`, so it is a comparison of
`uint64_t` values; `getOperand` takes an `unsigned`. -/
def createNewVTable_elem (cha : CHA) (dummyVtable : vtbl_t) (M : Module)
    (ivtbl : interleaving_t) : Option (Constant × Option String) :=
  let r := cha.getRange ivtbl.1
  if cha.isUndefined ivtbl.1.1 || decide (ivtbl.1 = dummyVtable) || decide (u64 ivtbl.2 < r.1) then
    some (Constant.null, none)
  else
    if !cha.hasOldVTable ivtbl.1.1 then none
    else
      let vtable := cha.getOldVTable ivtbl.1.1
      match vtable[(ivtbl.2 % 2 ^ 32).toNat]? with
      | none => none
      | some c =>
        match getVthunkFunction c with
        | none => none
        | some none => some (c, none)
        | some (some thunk) =>
          let newThunkName := NEW_VTHUNK_NAME thunk (cha.getLayoutClassName ivtbl.1)
          if (M.getFunction newThunkName).isSome then
            some (Constant.bitcast newThunkName true, some thunk)
          else none

/-- `vthunksToRemove.insert(thunk)` on a `std::set`. -/
def insertThunk (vthunksToRemove : List String) (thunk : Option String) : List String :=
  match thunk with
  | none => vthunksToRemove
  | some t => if t ∈ vthunksToRemove then vthunksToRemove else vthunksToRemove ++ [t]

/-- The element loop of `createNewVTable` (lines 719-745): the state carries
`newVtableElems` and `vthunksToRemove`. -/
def createNewVTable_elems (cha : CHA) (dummyVtable : vtbl_t) (M : Module) :
    interleaving_list_t → List Constant × List String → Outcome (List Constant × List String)
  | [], acc => .done acc
  | ivtbl :: rest, acc =>
    match createNewVTable_elem cha dummyVtable M ivtbl with
    | none => .abort acc
    | some (c, thunk) =>
      createNewVTable_elems cha dummyVtable M rest (acc.1 ++ [c], insertThunk acc.2 thunk)

/-- The effect of `userCE->replaceAllUsesWith(newConst); userCE->destroyConstant()` on the
use lists: `user` leaves the users of the global `oldName`, and the new expression `newUser`
joins the users of the global `newName`. -/
def Module.replaceUser (M : Module) (oldName : String) (user : User) (newName : String)
    (newUser : User) : Module :=
  { M with globals := M.globals.map (fun g =>
      let g1 := if g.name = oldName then { g with users := g.users.erase user } else g
      if g1.name = newName then { g1 with users := g1.users ++ [newUser] } else g1) }

/-- The body of the user loop of `createNewVTable` (lines 783-819) for one user of the old
global of `v`; `vtbl` is the root, whose new global the rebuilt expression points into. -/
def createNewVTable_user (cha : CHA) (vtbl : vtbl_name_t) (v : vtbl_t) (s : State)
    (user : User) : Outcome State :=
  match user with
  | .other => .abort s
  | .gep none => .abort s
  | .gep (some oldConst) =>
    let oldAddrPt := u64 oldConst
    match createNewVTable_newAddrPt cha s.newLayoutInds v oldAddrPt with
    | none => .abort s
    | some none => .done s
    | some (some newAddrPt) =>
      let M1 := Module.replaceUser s.M v.1 user (NEW_VTABLE_NAME vtbl)
        (User.gep (some (newAddrPt : Int)))
      .done { s with M := M1 }

/-- The body of the loop of `createNewVTable` over the cloud (lines 766-821) for the node
`v`. -/
def createNewVTable_node (cha : CHA) (vtbl : vtbl_name_t) (s : State) (v : vtbl_t) :
    Outcome State :=
  let o : Outcome State :=
    if cha.isDefined v then
      if (s.newVTableStartAddrMap v).isSome then .abort s
      else
        match newVtblAddressConst cha s.newLayoutInds s.cloudStartMap v with
        | none => .abort s
        | some a => .done { s with newVTableStartAddrMap := upd s.newVTableStartAddrMap v (some a) }
    else .done s
  o.andThen (fun s =>
    if cha.isUndefined v.1 then .done s
    else
      match s.M.getGlobalVariable v.1 with
      | none => .abort s
      | some globalVar =>
        globalVar.users.foldl
          (fun o user => o.andThen (fun s => createNewVTable_user cha vtbl v s user)) (.done s))

/-- `SDLayoutBuilder::createNewVTable`. -/
def createNewVTable (cha : CHA) (vtbl : vtbl_name_t) (s : State) : Outcome State :=
  let newVtbl := (s.interleavingMap vtbl).getD []
  match createNewVTable_elems cha s.dummyVtable s.M newVtbl ([], s.vthunksToRemove) with
  | .abort acc => .abort { s with vthunksToRemove := acc.2 }
  | .done (newVtableElems, vthunksToRemove) =>
    let s1 : State := { s with
      vthunksToRemove := vthunksToRemove
      M := { s.M with globals := s.M.globals ++
        [{ name := NEW_VTABLE_NAME vtbl, initializer := [], alignment := 0, users := [] }] } }
    match s1.alignmentMap vtbl with
    | none => .abort s1
    | some alignment =>
      let s2 : State := { s1 with
        M := { s.M with globals := s.M.globals ++
          [{ name := NEW_VTABLE_NAME vtbl, initializer := newVtableElems,
             alignment := alignment, users := [] }] }
        cloudStartMap := updName s1.cloudStartMap (NEW_VTABLE_NAME vtbl) true }
      (cha.preorder (vtbl, 0)).foldl
        (fun o v => o.andThen (fun s => createNewVTable_node cha vtbl s v)) (.done s2)

/-! ## The range phase and the driver: `buildNewLayouts` -/

/-- The calls `calculateVPtrRanges(M, vtbl); verifyVPtrRanges(vtbl);` of the third loop of
`buildNewLayouts`. -/
def rangesOfCloud (cha : CHA) (fuel : Nat) (s : State) (vtbl : vtbl_name_t) : Outcome State :=
  match calculateVPtrRanges cha s.newLayoutInds s.cloudStartMap fuel s.rangeMap s.memRangeMap
      vtbl with
  | none => .abort s
  | some (rangeMap, memRangeMap) =>
    let s1 : State := { s with rangeMap := rangeMap, memRangeMap := memRangeMap }
    if verifyVPtrRanges cha rangeMap vtbl then .done s1 else .abort s1

/-- The body of the first loop of `buildNewLayouts` (lines 1089-1112): `interleaveCloud` or
`orderCloud`, then `calculateNewLayoutInds`.  The entry assertion `cha->isRoot(vtbl)` of
`interleaveCloud` is checked here. -/
def planCloud (cha : CHA) (fuel : Nat) (s : State) (vtbl : vtbl_name_t) : Outcome State :=
  let o : Outcome State :=
    if s.interleave then
      if !cha.isRoot vtbl then .abort s
      else
        match interleaveCloud cha fuel s.prePadMap vtbl with
        | none => .abort s
        | some (prePadMap, interleaving) =>
          .done { s with
            prePadMap := prePadMap
            interleavingMap := updName s.interleavingMap vtbl (some interleaving)
            alignmentMap := updName s.alignmentMap vtbl (some WORD_WIDTH) }
    else
      match orderCloud cha s.dummyVtable vtbl with
      | none => .abort s
      | some (alignment, interleaving) =>
        .done { s with
          interleavingMap := updName s.interleavingMap vtbl (some interleaving)
          alignmentMap := updName s.alignmentMap vtbl (some alignment) }
  o.andThen (fun s =>
    match s.interleavingMap vtbl with
    | none => .abort s
    | some interleaving =>
      .done { s with
        newLayoutInds := calculateNewLayoutInds s.dummyVtable interleaving s.newLayoutInds })

/-- The body of the second loop of `buildNewLayouts` (lines 1116-1120):
`createThunkFunctions(M, vtbl); createNewVTable(M, vtbl);`. -/
def emitCloud (cha : CHA) (s : State) (vtbl : vtbl_name_t) : Outcome State :=
  ((createThunkFunctions cha s.newLayoutInds vtbl s.M).bind
    (fun M => .done { s with M := M }) (fun M => { s with M := M })).andThen
    (createNewVTable cha vtbl)

/-- A loop over the roots of the oracle. -/
def forRoots (cha : CHA) (body : State → vtbl_name_t → Outcome State) (s : State) :
    Outcome State :=
  cha.roots.foldl (fun o vtbl => o.andThen (fun s => body s vtbl)) (.done s)

/-- `SDLayoutBuilder::buildNewLayouts`: the three loops over the roots. -/
def buildNewLayouts (cha : CHA) (fuel : Nat) (s : State) : Outcome State :=
  ((forRoots cha (planCloud cha fuel) s).andThen
    (forRoots cha (emitCloud cha))).andThen
    (forRoots cha (rangesOfCloud cha fuel))

/-- The sequence of calls that the three loops of `buildNewLayouts` make (lines 1089-1128)
in a run in which no assertion fails. -/
inductive PhaseCall where
  | interleaveCloud (vtbl : vtbl_name_t)
  | orderCloud (vtbl : vtbl_name_t)
  | calculateNewLayoutInds (vtbl : vtbl_name_t)
  | createThunkFunctions (vtbl : vtbl_name_t)
  | createNewVTable (vtbl : vtbl_name_t)
  | calculateVPtrRanges (vtbl : vtbl_name_t)
  | verifyVPtrRanges (vtbl : vtbl_name_t)
  deriving DecidableEq

def buildNewLayouts_calls (interleave : Bool) (roots : List vtbl_name_t) : List PhaseCall :=
  roots.flatMap (fun vtbl =>
    [if interleave then PhaseCall.interleaveCloud vtbl else PhaseCall.orderCloud vtbl,
     PhaseCall.calculateNewLayoutInds vtbl]) ++
  roots.flatMap (fun vtbl =>
    [PhaseCall.createThunkFunctions vtbl, PhaseCall.createNewVTable vtbl]) ++
  roots.flatMap (fun vtbl =>
    [PhaseCall.calculateVPtrRanges vtbl, PhaseCall.verifyVPtrRanges vtbl])

/-! ## Clean-up: `clearAnalysisResults`, `removeOldLayouts` -/

/-- `SDLayoutBuilder::clearAnalysisResults` on the members of the pass (the call
`cha->clearAnalysisResults()` concerns the oracle). -/
def clearAnalysisResults (s : State) : State :=
  { s with newLayoutInds := fun _ => none, interleavingMap := fun _ => none }

/-- The body of the first loop of `removeOldLayouts` (lines 951-956) for the old vtable
named `name`: the global is looked up, asserted to exist and to have no uses, and erased. -/
def removeOldLayouts_global (M : Module) (name : vtbl_name_t) : Outcome Module :=
  match M.getGlobalVariable name with
  | none => .abort M
  | some var =>
    if var.users ≠ [] then .abort M
    else .done { M with globals := M.globals.eraseP (fun g => decide (g.name = name)) }

/-- The loop `while (!vthunksToRemove.empty())` of `removeOldLayouts`: every function of the
set is erased from the module. -/
def Module.eraseFunctions (M : Module) (vthunksToRemove : List String) : Module :=
  { M with functions := M.functions.filter (fun f => decide (f.name ∉ vthunksToRemove)) }

/-- `SDLayoutBuilder::removeOldLayouts`. -/
def removeOldLayouts (cha : CHA) (s : State) : Outcome State :=
  (cha.oldVTables.foldl (fun (o : Outcome Module) name =>
      o.andThen (fun M => removeOldLayouts_global M name)) (.done s.M)).bind
    (fun M =>
      let M1 := M.eraseFunctions s.vthunksToRemove
      let vthunksToRemove :=
        (M1.functions.filter (fun f => sd_isVthunk f.name && !f.hasUsers)).map (fun f => f.name)
      .done { s with M := M1.eraseFunctions vthunksToRemove, vthunksToRemove := [] })
    (fun M => { s with M := M })

/-! ## The verifier: `verifyNewLayouts` -/

/-- A `std::map<uint64_t, uint64_t>`: its key-value pairs, with distinct keys. -/
abbrev old_new_map_t := List (Nat × Nat)

/-- `m.count(k) != 0`. -/
def mapCount (m : old_new_map_t) (k : Nat) : Bool := m.any (fun p => decide (p.1 = k))

/-- The value read by `m[k]`: the value-initialised `0` at an absent key. -/
def mapGet (m : old_new_map_t) (k : Nat) : Nat :=
  match m.find? (fun p => decide (p.1 = k)) with
  | some p => p.2
  | none => 0

/-- The assignment `m[k] = x`. -/
def mapSet (m : old_new_map_t) (k x : Nat) : old_new_map_t :=
  if mapCount m k then m.map (fun p => if p.1 = k then (k, x) else p) else m ++ [(k, x)]

/-- The first loop of `verifyNewLayouts` (lines 85-107), with the counter at `i`: `none` is
`return false`, `some indMap` the map at the end of the loop. -/
def verifyIndMapLoop (dummyVtable : vtbl_t) :
    interleaving_list_t → Nat → (vtbl_t → Option old_new_map_t) →
      Option (vtbl_t → Option old_new_map_t)
  | [], _, indMap => some indMap
  | elem :: rest, i, indMap =>
    let v := elem.1
    let oldPos := u64 elem.2
    if v = dummyVtable then verifyIndMapLoop dummyVtable rest i indMap
    else
      match indMap v with
      | none =>
        verifyIndMapLoop dummyVtable rest (i + 1) (upd indMap v (some (mapSet [] oldPos i)))
      | some m =>
        if mapCount m oldPos then none
        else verifyIndMapLoop dummyVtable rest (i + 1) (upd indMap v (some (mapSet m oldPos i)))

/-- Step 1 of `verifyNewLayouts` (lines 118-157) for the node `n`: `false` is
`return false`.  The sizes are `uint64_t` values. -/
def verifyDense (cha : CHA) (prePadMap : vtbl_t → Nat) (indMap : vtbl_t → Option old_new_map_t)
    (n : vtbl_t) : Bool :=
  if cha.isUndefined n.1 then true
  else
    match indMap n with
    | none => false
    | some m =>
      let r := cha.getRange n
      let oldVtblSize := u64 ((r.2 : Int) - ((r.1 : Int) - (prePadMap n : Int)) + 1)
      match m.map (fun p => p.1) with
      | [] => false
      | k :: ks =>
        let minKey := ks.foldl min k
        let maxKey := ks.foldl max k
        if u64 ((maxKey : Int) - (minKey : Int) + 1) ≠ oldVtblSize then false
        else if m.length ≠ oldVtblSize then false
        else true

/-- Step 1.5 of `verifyNewLayouts` (lines 165-195) for the pair `pt`, `child`: `false` is
`return false`. -/
def verifyContained (cha : CHA) (prePadMap : vtbl_t → Nat) (orderMap : vtbl_t → Nat)
    (pt child : vtbl_t) : Bool :=
  if cha.isUndefined child.1 then true
  else if orderMap child < orderMap pt then true
  else
    let ptStart : Int := (cha.getRange pt).1
    let ptEnd : Int := (cha.getRange pt).2
    let ptAddrPt : Int := cha.addrPt pt
    let childStart : Int := (cha.getRange child).1
    let childEnd : Int := (cha.getRange child).2
    let childAddrPt : Int := cha.addrPt child
    if u64 (ptAddrPt - ptStart + prePadMap pt) > u64 (childAddrPt - childStart + prePadMap child) ∨
        u64 (ptEnd - ptAddrPt) > u64 (childEnd - childAddrPt) then false
    else true

/-- Step 2 of `verifyNewLayouts` (lines 199-239) for the pair `pt`, `child`: `false` is
`return false`. -/
def verifyAgreement (cha : CHA) (prePadMap : vtbl_t → Nat) (orderMap : vtbl_t → Nat)
    (indMap : vtbl_t → Option old_new_map_t) (pt child : vtbl_t) : Bool :=
  if cha.isUndefined child.1 then true
  else if orderMap child < orderMap pt then true
  else
    let ptStart : Int := (cha.getRange pt).1
    let ptEnd : Int := (cha.getRange pt).2
    let ptAddrPt : Int := cha.addrPt pt
    let childAddrPt : Int := cha.addrPt child
    let ptToChildAdj : Int := childAddrPt - ptAddrPt
    let ptMap := (indMap pt).getD []
    let childMap := (indMap child).getD []
    let newPtAddrPt : Int := mapGet ptMap (u64 ptAddrPt)
    let newChildAddrPt : Int := mapGet childMap (u64 childAddrPt)
    (List.range (u64 (ptEnd - ptStart + prePadMap pt + 1))).all (fun (ind : Nat) =>
      let newPtInd := u64 ((mapGet ptMap (u64 (ptStart + ind - prePadMap pt)) : Int) - newPtAddrPt)
      let newChildInd :=
        u64 ((mapGet childMap (u64 (ptStart + ind - prePadMap pt + ptToChildAdj)) : Int) -
          newChildAddrPt)
      decide (newPtInd = newChildInd))

/-- The body of the loop of `verifyNewLayouts` over the roots (lines 75-240) for the root
`vtbl`: `some b` is `return b`, `none` the end of the body. -/
def verifyCloud (cha : CHA) (dummyVtable : vtbl_t) (interleave : Bool)
    (prePadMap : vtbl_t → Nat) (interleavingMap : vtbl_name_t → Option interleaving_list_t)
    (vtbl : vtbl_name_t) : Option Bool :=
  let interleaving := (interleavingMap vtbl).getD []
  match verifyIndMapLoop dummyVtable interleaving 0 (fun _ => none) with
  | none => some false
  | some indMap =>
    let cloud := cha.preorder (vtbl, 0)
    let orderMap := buildIndMap cloud
    if !cloud.all (verifyDense cha prePadMap indMap) then some false
    else if !interleave then some true
    else if !cloud.all (fun pt => cha.isUndefined pt.1 ||
        (cha.children pt).all (verifyContained cha prePadMap orderMap pt)) then some false
    else if !cloud.all (fun pt => cha.isUndefined pt.1 ||
        (cha.children pt).all (verifyAgreement cha prePadMap orderMap indMap pt)) then some false
    else none

/-- The loop of `verifyNewLayouts` over the roots. -/
def verifyRoots (cha : CHA) (dummyVtable : vtbl_t) (interleave : Bool)
    (prePadMap : vtbl_t → Nat) (interleavingMap : vtbl_name_t → Option interleaving_list_t) :
    List vtbl_name_t → Bool
  | [] => true
  | vtbl :: rest =>
    match verifyCloud cha dummyVtable interleave prePadMap interleavingMap vtbl with
    | some b => b
    | none => verifyRoots cha dummyVtable interleave prePadMap interleavingMap rest

/-- `SDLayoutBuilder::verifyNewLayouts`. -/
def verifyNewLayouts (cha : CHA) (dummyVtable : vtbl_t) (interleave : Bool)
    (prePadMap : vtbl_t → Nat) (interleavingMap : vtbl_name_t → Option interleaving_list_t) :
    Bool :=
  verifyRoots cha dummyVtable interleave prePadMap interleavingMap cha.roots

/-! ## The call-site extraction pass: `SDReturnRange::addCallSite` -/

/-- Metadata as the call-site pass looks at it: an `MDString`, an `MDTuple` with its operands,
an `MDNode` of another kind with its operands, or metadata that is no node. -/
inductive Metadata where
  | mdString (s : String)
  | mdTuple (operands : List Metadata)
  | mdNode (operands : List Metadata)
  | other

/-- The result of `dyn_cast<MDNode>(md)`: `none` is the null pointer. -/
def Metadata.asMDNode : Metadata → Option Metadata
  | .mdTuple operands => some (.mdTuple operands)
  | .mdNode operands => some (.mdNode operands)
  | _ => none

/-- The operands of an `MDNode`; `none` when the metadata is no node (the failed `cast`). -/
def Metadata.nodeOperands : Metadata → Option (List Metadata)
  | .mdTuple operands => some operands
  | .mdNode operands => some operands
  | _ => none

/-- Function `sd_getClassNameFromMD` (lines 35-45); `none` is a failed `cast` or assertion.
The predicate `sd_isVtableName_ref` is declared in `SafeDispatchTools.h`, which is not part of
the sources at hand; it is a parameter. -/
def sd_getClassNameFromMD (sd_isVtableName_ref : String → Bool) (MDNode : Metadata)
    (operandNo : Nat) : Option String :=
  match MDNode with
  | .mdTuple operands =>
    if ¬ (operands.length > operandNo + 1) then none
    else
      match (operands[operandNo]?).bind Metadata.nodeOperands with
      | some nameOperands =>
        match nameOperands[0]? with
        | some (Metadata.mdString strRef) =>
          if sd_isVtableName_ref strRef then some strRef else none
        | _ => none
      | none => none
  | _ => none

/-- Function `sd_getFunctionNameFromMD` (lines 47-55); `none` is a failed `cast` or
assertion. -/
def sd_getFunctionNameFromMD (MDNode : Metadata) (operandNo : Nat) : Option String :=
  match MDNode.nodeOperands with
  | some operands =>
    match operands[operandNo]? with
    | some (Metadata.mdString strRef) => some strRef
    | _ => none
  | none => none

/-- An argument operand of the intrinsic call: a `MetadataAsValue` with its metadata, or
another value. -/
inductive ArgOperand where
  | metadataAsValue (md : Metadata)
  | other

/-- The value of `dyn_cast<MetadataAsValue>(call->getArgOperand(i))->getMetadata()`: `none`
is a missing operand or the null pointer of the failed cast. -/
def getArgMetadata (args : List ArgOperand) (i : Nat) : Option Metadata :=
  match args[i]? with
  | some (.metadataAsValue md) => some md
  | _ => none

/-- A debug location: file name of the scope, line and column. -/
structure DebugLoc where
  filename : String
  line : Nat
  col : Nat
  deriving DecidableEq

/-- The instruction of a call site, with its debug location (`none` when it has none). -/
structure CallSiteInst where
  id : Nat
  debugLoc : Option DebugLoc
  deriving DecidableEq

/-- The members of `SDReturnRange` that `addCallSite` reads and writes. -/
structure ReturnRangeState where
  pseudoDebugLoc : Nat
  CallSiteDebugLocs : List String
  VirtualCallsites : List Nat
  deriving DecidableEq

/-- `SDReturnRange::addCallSite` (lines 193-256).  `args` are the argument operands of the
intrinsic call `CheckedVptrCall`; `getFunctionRange` is `CHA->getFunctionRange`.  The result is
the state of the pass and the call-site instruction after the call; `none` is a failed
assertion or cast.  The scope of the location made up for a call site without one has no
file, so its file name is empty. -/
def addCallSite (sd_isVtableName_ref : String → Bool)
    (getFunctionRange : String → String → List range_t)
    (args : List ArgOperand) (CallSite : CallSiteInst) (st : ReturnRangeState) :
    Option (ReturnRangeState × CallSiteInst) :=
  match getArgMetadata args 1 with
  | none => none
  | some Arg2 =>
    match Arg2.asMDNode with
    | none => none
    | some ClassNameNode =>
      match getArgMetadata args 2 with
      | none => none
      | some _ =>
        match Arg2.asMDNode with
        | none => none
        | some PreciseNameNode =>
          match (getArgMetadata args 3).bind Metadata.asMDNode with
          | none => none
          | some FunctionNameNode =>
            match sd_getClassNameFromMD sd_isVtableName_ref ClassNameNode 0,
                sd_getClassNameFromMD sd_isVtableName_ref PreciseNameNode 0,
                sd_getFunctionNameFromMD FunctionNameNode 0 with
            | some ClassName, some PreciseName, some FunctionName =>
              let Loc : DebugLoc :=
                match CallSite.debugLoc with
                | some l => l
                | none =>
                  { filename := "", line := st.pseudoDebugLoc / 65536,
                    col := st.pseudoDebugLoc % 65536 }
              let st1 : ReturnRangeState :=
                match CallSite.debugLoc with
                | some _ => st
                | none => { st with pseudoDebugLoc := st.pseudoDebugLoc + 1 }
              let CallSite1 : CallSiteInst := { CallSite with debugLoc := some Loc }
              match getFunctionRange FunctionName ClassName with
              | [] => some (st1, CallSite1)
              | r :: _ =>
                some ({ st1 with
                    CallSiteDebugLocs := st1.CallSiteDebugLocs ++
                      [Loc.filename ++ ":" ++ toString Loc.line ++ ":" ++ toString Loc.col ++
                        "," ++ ClassName ++ "," ++ PreciseName ++ "," ++ FunctionName ++
                        "," ++ toString r.1 ++ "," ++ toString r.2]
                    VirtualCallsites := st1.VirtualCallsites ++ [CallSite.id] }, CallSite1)
            | _, _, _ => none

/-! ## Specification vocabulary for the interleaver -/

/-- Position `x` lies among the positions visited when a cursor walks from `lo` to `hi`
(`hi` excluded) upwards (`positive = true`) or downwards. -/
def inIv (positive : Bool) (lo hi x : Int) : Prop :=
  if positive then lo ≤ x ∧ x < hi else hi < x ∧ x ≤ lo

instance (positive : Bool) (lo hi x : Int) : Decidable (inIv positive lo hi x) := by
  unfold inIv; infer_instance

/-- Order of cursor positions in walking direction. -/
def leDir (positive : Bool) (x y : Int) : Prop :=
  if positive then x ≤ y else y ≤ x

instance (positive : Bool) (x y : Int) : Decidable (leDir positive x y) := by
  unfold leDir; infer_instance

/-- One step of the cursor in walking direction. -/
def stepDir (positive : Bool) (x : Int) : Int :=
  if positive then x + 1 else x - 1

/-- Number of steps a cursor at `p` still has to make to pass the last position `l`
(not positive when it has passed it). -/
def gapDir (positive : Bool) (p l : Int) : Int :=
  if positive then l + 1 - p else p - l + 1

/-- The number of entries that a defined node `n` contributes on one side of the address
point: `last(n) - addrPt(n) + 1` on the positive side, `addrPt(n) - first(n) + PrePad[n]` on
the negative side. -/
def sideCount (cha : CHA) (prePadMap : vtbl_t → Nat) (positive : Bool) (n : vtbl_t) : Nat :=
  if positive then (cha.getRange n).2 - cha.addrPt n + 1
  else cha.addrPt n - (cha.getRange n).1 + prePadMap n

/-- Number of rounds of the `while(true)` loop in which node `n` contributes an entry. -/
def liveCount (cha : CHA) (prePadMap : vtbl_t → Nat) (positive : Bool) (n : vtbl_t) : Nat :=
  (gapDir positive (initPos cha positive n) (initLastPos cha prePadMap positive n)).toNat

/-- Old position that node `n` contributes in round `k`. -/
def nthPos (cha : CHA) (positive : Bool) (n : vtbl_t) (k : Nat) : Int :=
  if positive then (cha.addrPt n : Int) + k else (cha.addrPt n : Int) - 1 - k

/-- Closed form of the scratch list of round `k` over a duplicate-free node list. -/
def sweepList (cha : CHA) (prePadMap : vtbl_t → Nat) (positive : Bool) (pre : order_t)
    (k : Nat) : interleaving_list_t :=
  (pre.filter (fun n => !cha.isUndefined n.1 && decide (k < liveCount cha prePadMap positive n))).map
    (fun n => (n, nthPos cha positive n k))

/-- Rounds `k, k+1, .., k+m-1` appended in order (positive part). -/
def posFrom (cha : CHA) (prePadMap : vtbl_t → Nat) (pre : order_t) :
    Nat → Nat → interleaving_list_t
  | _, 0 => []
  | k, m + 1 => sweepList cha prePadMap true pre k ++ posFrom cha prePadMap pre (k + 1) m

/-- Rounds `k, k+1, .., k+m-1`, each inserted in front of the earlier ones (negative part). -/
def negFrom (cha : CHA) (prePadMap : vtbl_t → Nat) (pre : order_t) :
    Nat → Nat → interleaving_list_t
  | _, 0 => []
  | k, m + 1 => negFrom cha prePadMap pre (k + 1) m ++ sweepList cha prePadMap false pre k

/-- Indices, counted from `i`, of the entries of a list that carry the vtable `v`. -/
def indicesOf (v : vtbl_t) : interleaving_list_t → Nat → List Nat
  | [], _ => []
  | e :: es, i => if e.1 = v then i :: indicesOf v es (i + 1) else indicesOf v es (i + 1)

/-- List index of the (first) entry `(v, x)` of an interleaving list; the length of the list
when there is no such entry. -/
def pos (L : interleaving_list_t) (v : vtbl_t) (x : Int) : Nat :=
  @List.indexOf interleaving_t instBEqOfDecidableEq (v, x) L

/-- The entries `(v, first), .., (v, last)` of a sub-vtable, in order. -/
def blockEntries (cha : CHA) (v : vtbl_t) : interleaving_list_t :=
  (List.range ((cha.getRange v).2 - (cha.getRange v).1 + 1)).map
    (fun (i : Nat) => ((v, ((cha.getRange v).1 : Int) + (i : Int)) : interleaving_t))

/-! ## Specification vocabulary for thunks -/

/-- The constant that takes the place of the result of the call `CI` to the intrinsic with a
literal argument `oldLit`: `translateVtblInd(v, oldLit / 8, relative) · 8`, with the division
truncating toward zero. -/
def vcallConst (cha : CHA) (newLayoutInds : vtbl_t → Option (List Nat)) (v : vtbl_t)
    (CI : Instruction) : Option Value :=
  match CI.operands.head? with
  | some (Value.constInt oldLit) =>
    (translateVtblInd cha newLayoutInds v (Int.tdiv oldLit 8) true).map
      (fun newIndex => Value.constInt (newIndex * 8))
  | _ => none

/-- The operand `o` after the rewrite of the calls among `calls`. -/
def substOperand (cha : CHA) (newLayoutInds : vtbl_t → Option (List Nat)) (v : vtbl_t)
    (calls : List Instruction) (o : Value) : Value :=
  match calls.find? (fun CI => CI.isVCallIndexCall && decide (o = Value.inst CI.id)) with
  | some CI => (vcallConst cha newLayoutInds v CI).getD o
  | none => o

/-- The body of a thunk after the rewrite of the calls among `calls`. -/
def substBody (cha : CHA) (newLayoutInds : vtbl_t → Option (List Nat)) (v : vtbl_t)
    (calls : List Instruction) (body : List Instruction) : List Instruction :=
  body.map (fun inst =>
    { inst with operands := inst.operands.map (substOperand cha newLayoutInds v calls) })

/-! ## Specification vocabulary for the driver -/

/-- The loop of `buildNewLayouts` a call belongs to: 1 for planning, 2 for thunks and
emission, 3 for the ranges. -/
def PhaseCall.loop : PhaseCall → Nat
  | .interleaveCloud _ => 1
  | .orderCloud _ => 1
  | .calculateNewLayoutInds _ => 1
  | .createThunkFunctions _ => 2
  | .createNewVTable _ => 2
  | .calculateVPtrRanges _ => 3
  | .verifyVPtrRanges _ => 3

/-! ## Specification vocabulary for clouds -/

/-- Position of `v` in a preorder (the length of the list when `v` is not in it). -/
def ind (pre : order_t) (v : vtbl_t) : Nat :=
  @List.indexOf vtbl_t instBEqOfDecidableEq v pre

/-- Offset of the address point of `v` from the first cell of its sub-vtable. -/
def relAddrPt (cha : CHA) (v : vtbl_t) : Nat := cha.addrPt v - (cha.getRange v).1

/-- The CHA invariant `first ≤ addrPt ≤ last` on the nodes of a preorder. -/
def RangesOk (cha : CHA) (pre : order_t) : Prop :=
  ∀ n ∈ pre, (cha.getRange n).1 ≤ cha.addrPt n ∧ cha.addrPt n ≤ (cha.getRange n).2

instance (cha : CHA) (pre : order_t) : Decidable (RangesOk cha pre) := by
  unfold RangesOk; infer_instance

/-- A cloud that is a forest: no node is listed twice, and every child of a node of the cloud
is in the cloud, comes after its parent in the preorder and has no other parent. -/
def IsForest (cha : CHA) (pre : order_t) : Prop :=
  pre.Nodup ∧
  ∀ p ∈ pre, ∀ c ∈ cha.children p,
    c ∈ pre ∧ ind pre p < ind pre c ∧ ∀ q ∈ pre, c ∈ cha.children q → q = p

instance (cha : CHA) (pre : order_t) : Decidable (IsForest cha pre) := by
  unfold IsForest; infer_instance

/-- The children relation of the oracle. -/
def childEdge (cha : CHA) (p c : vtbl_t) : Prop := c ∈ cha.children p

/-- The preorder of the cloud rooted at `root` is a depth-first preorder: it lists `root`, and
the preorder of every node of the cloud is the node followed by the preorders of its
children. -/
def IsDepthFirst (cha : CHA) (root : vtbl_t) : Prop :=
  root ∈ cha.preorder root ∧
  ∀ v ∈ cha.preorder root, cha.preorder v = v :: (cha.children v).flatMap cha.preorder

instance (cha : CHA) (root : vtbl_t) : Decidable (IsDepthFirst cha root) := by
  unfold IsDepthFirst; infer_instance

/-! ## Specification vocabulary for ranges -/

/-- Index `x` lies in one of the half-open intervals of `R`. -/
def inRanges (R : List range_t) (x : Nat) : Prop := ∃ r ∈ R, r.1 ≤ x ∧ x < r.2

instance (R : List range_t) (x : Nat) : Decidable (inRanges R x) := by
  unfold inRanges; infer_instance

/-- A list of intervals in canonical form: every interval is non-empty and ends strictly
below the start of the next one. -/
def GoodRanges (R : List range_t) : Prop :=
  R.Chain' (fun a b => a.2 < b.1) ∧ ∀ r ∈ R, r.1 < r.2

/-- Every entry of `rangeMap` is canonical, covers exactly the preorder indices of the nodes
reachable from its key, and the entries of the key's children are present. -/
def RangeMapOk (cha : CHA) (indMap : vtbl_t → Nat) (rangeMap : vtbl_t → Option (List range_t)) :
    Prop :=
  ∀ v R, rangeMap v = some R →
    GoodRanges R ∧
    (∀ x, inRanges R x ↔ ∃ d, Relation.ReflTransGen (childEdge cha) v d ∧ indMap d = x) ∧
    ∀ c ∈ cha.children v, (rangeMap c).isSome = true

/-- The cloud rooted at `root` is acyclic: no node of the cloud reaches itself through one or
more children edges. -/
def Acyclic (cha : CHA) (root : vtbl_t) : Prop :=
  ∀ v, Relation.ReflTransGen (childEdge cha) root v → ¬ Relation.TransGen (childEdge cha) v v

/-- For every node `v` of the cloud rooted at `root`, `preorder(v)` lists, without repetition,
exactly `v` and the nodes reachable from `v` through children. -/
def PreorderIsReach (cha : CHA) (root : vtbl_t) : Prop :=
  ∀ v, Relation.ReflTransGen (childEdge cha) root v →
    (cha.preorder v).Nodup ∧
    ∀ d, d ∈ cha.preorder v ↔ Relation.ReflTransGen (childEdge cha) v d

/-- A decidable description of a cloud whose preorders list the reachable nodes: the root is
listed, and for every listed node `v` the list `preorder(v)` has no repetition, contains `v`,
contains the (strictly shorter) preorder of every child, and contains nothing else. -/
def ReachLocal (cha : CHA) (root : vtbl_t) : Prop :=
  root ∈ cha.preorder root ∧
  ∀ v ∈ cha.preorder root,
    (cha.preorder v).Nodup ∧ v ∈ cha.preorder v ∧
    (∀ c ∈ cha.children v, c ∈ cha.preorder root ∧
      (cha.preorder c).length < (cha.preorder v).length ∧
      ∀ d ∈ cha.preorder c, d ∈ cha.preorder v) ∧
    ∀ d ∈ cha.preorder v, d = v ∨ ∃ c ∈ cha.children v, d ∈ cha.preorder c

instance (cha : CHA) (root : vtbl_t) : Decidable (ReachLocal cha root) := by
  unfold ReachLocal; infer_instance

/-- The subtree of each node `v` of the cloud occupies the contiguous block of preorder
positions that starts at `ind[v]`. -/
def SubtreesContiguous (cha : CHA) (root : vtbl_t) : Prop :=
  ∀ v ∈ cha.preorder root,
    cha.preorder v =
      ((cha.preorder root).drop (ind (cha.preorder root) v)).take (cha.preorder v).length

instance (cha : CHA) (root : vtbl_t) : Decidable (SubtreesContiguous cha root) := by
  unfold SubtreesContiguous; infer_instance

/-- The preorder indices covered by a list of ranges, range after range. -/
def cells (R : List range_t) : List Nat :=
  R.flatMap (fun r => List.range' r.1 (r.2 - r.1))

/-- Coalescing as a function of the open interval `[s, e)` and the ranges still to come. -/
def coalesceFrom : Nat → Nat → List range_t → List range_t
  | s, e, [] => [(s, e)]
  | s, e, it :: rest =>
    if it.1 ≤ e then coalesceFrom s (if it.2 > e then it.2 else e) rest
    else (s, e) :: coalesceFrom it.1 it.2 rest

/-! ## Specification vocabulary for memory ranges and for the verifier -/

/-- Number of defined nodes among `pre[s], .., pre[e-1]`. -/
def definedCount (cha : CHA) (pre : order_t) (s e : Nat) : Nat :=
  ((pre.take e).drop s).countP (fun v => cha.isDefined v)

/-- The smallest index in `[s, e)` whose node is defined. -/
def firstDefined (cha : CHA) (pre : order_t) (s e : Nat) : Option Nat :=
  (List.range' s (e - s)).find? (fun j =>
    match pre[j]? with
    | some v => cha.isDefined v
    | none => false)

/-- The entry of `MemRangeMap` that belongs to the interval `it` of a `RangeMap` list: none
when the interval holds no defined node, else the address constant of its first defined node
together with the number of its defined nodes. -/
def memRangeOf (cha : CHA) (newLayoutInds : vtbl_t → Option (List Nat))
    (cloudStartMap : String → Bool) (pre : order_t) (it : range_t) : Option mem_range_t :=
  if definedCount cha pre it.1 it.2 = 0 then none
  else
    match firstDefined cha pre it.1 it.2 with
    | none => none
    | some s1 =>
      match pre[s1]? with
      | none => none
      | some v =>
        (newVtblAddressConst cha newLayoutInds cloudStartMap v).map
          (fun a => (a, definedCount cha pre it.1 it.2))

/-- The old positions, as `uint64_t` values, that the entries of `v` carry in a list, in
list order. -/
def positionsOf (L : interleaving_list_t) (v : vtbl_t) : List Nat :=
  (L.filter (fun e => decide (e.1 = v))).map (fun e => u64 e.2)

/-- A parent/child edge that step 1.5 of `verifyNewLayouts` looks at in the cloud of `root`:
the parent is a defined node of the cloud, the child is defined and not earlier than the
parent in the preorder. -/
def checkedEdge (cha : CHA) (root : vtbl_t) (p c : vtbl_t) : Prop :=
  p ∈ cha.preorder root ∧ cha.isUndefined p.1 = false ∧ c ∈ cha.children p ∧
  cha.isUndefined c.1 = false ∧
  ¬ buildIndMap (cha.preorder root) c < buildIndMap (cha.preorder root) p

instance (cha : CHA) (root p c : vtbl_t) : Decidable (checkedEdge cha root p c) := by
  unfold checkedEdge; infer_instance

/-! ## Scenarios -/

/-- Scenario S2: `A` (cells 0..1, address point 0) and its child `B` (cells 0..3,
address point 2). -/
def chaS2 : CHA where
  preorder := fun v => if v = ("A", 0) then [("A", 0), ("B", 0)]
    else if v = ("B", 0) then [("B", 0)] else []
  children := fun v => if v = ("A", 0) then [("B", 0)] else []
  isUndefined := fun _ => false
  getRange := fun v => if v = ("A", 0) then (0, 1) else (0, 3)
  hasRange := fun _ => true
  addrPt := fun v => if v = ("A", 0) then 0 else 2
  getNumAddrPts := fun _ => 1
  hasAddrPt := fun n k => if n = "A" then k = 0 else k = 2
  getAddrPtOrder := fun _ _ => 0
  isRoot := fun n => n = "A"
  hasAncestor := fun _ => true
  getAncestor := fun _ => "A"
  knowsAbout := fun _ => true
  hasFirstDefinedChild := fun _ => false
  getFirstDefinedChild := fun v => v
  roots := ["A"]
  hasOldVTable := fun n => n = "A" || n = "B"
  getOldVTable := fun n => if n = "A" then [.other "A::f", .other "A::g"]
    else if n = "B" then [.other "B::x", .other "B::y", .other "B::f", .other "B::g"] else []
  getVTableOrder := fun _ _ => 0
  getLayoutClassName := fun v => v.1
  oldVTables := ["A", "B"]

/-- Scenario S3: `A` (cells 0..1, address point 1) and its child `B` (cells 0..2,
address point 0). -/
def chaS3 : CHA where
  preorder := fun v => if v = ("A", 0) then [("A", 0), ("B", 0)]
    else if v = ("B", 0) then [("B", 0)] else []
  children := fun v => if v = ("A", 0) then [("B", 0)] else []
  isUndefined := fun _ => false
  getRange := fun v => if v = ("A", 0) then (0, 1) else (0, 2)
  hasRange := fun _ => true
  addrPt := fun v => if v = ("A", 0) then 1 else 0
  getNumAddrPts := fun _ => 1
  hasAddrPt := fun n k => if n = "A" then k = 1 else k = 0
  getAddrPtOrder := fun _ _ => 0
  isRoot := fun n => n = "A"
  hasAncestor := fun _ => true
  getAncestor := fun _ => "A"
  knowsAbout := fun _ => true
  hasFirstDefinedChild := fun _ => false
  getFirstDefinedChild := fun v => v
  roots := ["A"]
  hasOldVTable := fun n => n = "A" || n = "B"
  getOldVTable := fun n => if n = "A" then [.other "A::x", .other "A::f"]
    else if n = "B" then [.other "B::f", .other "B::g", .other "B::h"] else []
  getVTableOrder := fun _ _ => 0
  getLayoutClassName := fun v => v.1
  oldVTables := ["A", "B"]

/-- A sentinel that is not a vtable of the scenarios. -/
def dummyS : vtbl_t := ("", 0)

/-- Scenario S1 (diamond): `A`, `B : A`, `C : A`, `D : B, C`; every vtable has the cells
0..2 and the address point 1; preorder `A, B, C, D`. -/
def chaS1 : CHA where
  preorder := fun v =>
    if v = ("A", 0) then [("A", 0), ("B", 0), ("C", 0), ("D", 0)]
    else if v = ("B", 0) then [("B", 0), ("D", 0)]
    else if v = ("C", 0) then [("C", 0), ("D", 0)]
    else if v = ("D", 0) then [("D", 0)] else []
  children := fun v =>
    if v = ("A", 0) then [("B", 0), ("C", 0)]
    else if v = ("B", 0) then [("D", 0)]
    else if v = ("C", 0) then [("D", 0)] else []
  isUndefined := fun _ => false
  getRange := fun _ => (0, 2)
  hasRange := fun _ => true
  addrPt := fun _ => 1
  getNumAddrPts := fun _ => 1
  hasAddrPt := fun _ k => k = 1
  getAddrPtOrder := fun _ _ => 0
  isRoot := fun n => n = "A"
  hasAncestor := fun _ => true
  getAncestor := fun _ => "A"
  knowsAbout := fun _ => true
  hasFirstDefinedChild := fun _ => false
  getFirstDefinedChild := fun v => v
  roots := ["A"]
  hasOldVTable := fun _ => false
  getOldVTable := fun _ => []
  getVTableOrder := fun _ _ => 0
  getLayoutClassName := fun v => v.1
  oldVTables := []

/-- A tree-shaped cloud: `A` with children `B` and `C`, `B` with child `D`; preorder
`A, B, D, C`.  `D` has its address point at its first cell and needs padding. -/
def chaT : CHA where
  preorder := fun v =>
    if v = ("A", 0) then [("A", 0), ("B", 0), ("D", 0), ("C", 0)]
    else if v = ("B", 0) then [("B", 0), ("D", 0)]
    else if v = ("C", 0) then [("C", 0)]
    else if v = ("D", 0) then [("D", 0)] else []
  children := fun v =>
    if v = ("A", 0) then [("B", 0), ("C", 0)]
    else if v = ("B", 0) then [("D", 0)] else []
  isUndefined := fun _ => false
  getRange := fun v =>
    if v = ("A", 0) then (0, 1) else if v = ("D", 0) then (0, 3) else (0, 2)
  hasRange := fun _ => true
  addrPt := fun v =>
    if v = ("A", 0) then 1 else if v = ("B", 0) then 1 else if v = ("C", 0) then 2 else 0
  getNumAddrPts := fun _ => 1
  hasAddrPt := fun _ _ => true
  getAddrPtOrder := fun _ _ => 0
  isRoot := fun n => n = "A"
  hasAncestor := fun _ => true
  getAncestor := fun _ => "A"
  knowsAbout := fun _ => true
  hasFirstDefinedChild := fun _ => false
  getFirstDefinedChild := fun v => v
  roots := ["A"]
  hasOldVTable := fun _ => false
  getOldVTable := fun _ => []
  getVTableOrder := fun _ _ => 0
  getLayoutClassName := fun v => v.1
  oldVTables := []

/-- The interleaving list of scenario S1. -/
def listS1 : interleaving_list_t :=
  [(("A", 0), 0), (("B", 0), 0), (("C", 0), 0), (("D", 0), 0),
   (("A", 0), 1), (("B", 0), 1), (("C", 0), 1), (("D", 0), 1),
   (("A", 0), 2), (("B", 0), 2), (("C", 0), 2), (("D", 0), 2)]

/-- The interleaving list of scenario S2. -/
def listS2 : interleaving_list_t :=
  [(("B", 0), 0), (("B", 0), 1), (("A", 0), 0), (("B", 0), 2), (("A", 0), 1), (("B", 0), 3)]

/-- The interleaving list of scenario S3; `B` is padded by one cell, old position `-1`. -/
def listS3 : interleaving_list_t :=
  [(("A", 0), 0), (("B", 0), -1), (("A", 0), 1), (("B", 0), 0), (("B", 0), 1), (("B", 0), 2)]

/-- A cloud of one vtable `A` with `2^61` cells (cells `0 .. 2^61 - 1`, address point 0). -/
def chaHuge : CHA where
  preorder := fun v => if v = ("A", 0) then [("A", 0)] else []
  children := fun _ => []
  isUndefined := fun _ => false
  getRange := fun _ => (0, 2 ^ 61 - 1)
  hasRange := fun _ => true
  addrPt := fun _ => 0
  getNumAddrPts := fun _ => 1
  hasAddrPt := fun _ k => k = 0
  getAddrPtOrder := fun _ _ => 0
  isRoot := fun n => n = "A"
  hasAncestor := fun _ => true
  getAncestor := fun _ => "A"
  knowsAbout := fun _ => true
  hasFirstDefinedChild := fun _ => false
  getFirstDefinedChild := fun v => v
  roots := ["A"]
  hasOldVTable := fun _ => false
  getOldVTable := fun _ => []
  getVTableOrder := fun _ _ => 0
  getLayoutClassName := fun v => v.1
  oldVTables := []

/-- Old vtable elements of scenario S3, and a module that holds the two old vtables, each
with a constant `getelementptr` use of its address point. -/
def moduleS3 : Module where
  functions := []
  globals := [
    { name := "A", initializer := chaS3.getOldVTable "A", alignment := 8,
      users := [.gep (some 1)] },
    { name := "B", initializer := chaS3.getOldVTable "B", alignment := 8,
      users := [.gep (some 0)] }]
  declaresVCallIndex := false

/-- Scenario S4: `Base` (cells 0..1, address point 0) with the children `Derived` (cells
0..4, address point 2), `Left` and `Right` (cells 0..2, address point 0); preorder
`Base, Derived, Left, Right`.  The element 3 of the old vtable of `Derived` is the virtual
thunk `_ZTv0_n16_f`. -/
def chaS4 : CHA where
  preorder := fun v =>
    if v = ("Base", 0) then [("Base", 0), ("Derived", 0), ("Left", 0), ("Right", 0)]
    else if v = ("Derived", 0) then [("Derived", 0)]
    else if v = ("Left", 0) then [("Left", 0)]
    else if v = ("Right", 0) then [("Right", 0)] else []
  children := fun v =>
    if v = ("Base", 0) then [("Derived", 0), ("Left", 0), ("Right", 0)] else []
  isUndefined := fun _ => false
  getRange := fun v =>
    if v = ("Base", 0) then (0, 1) else if v = ("Derived", 0) then (0, 4) else (0, 2)
  hasRange := fun _ => true
  addrPt := fun v => if v = ("Derived", 0) then 2 else 0
  getNumAddrPts := fun _ => 1
  hasAddrPt := fun n k => if n = "Derived" then k = 2 else k = 0
  getAddrPtOrder := fun _ _ => 0
  isRoot := fun n => n = "Base"
  hasAncestor := fun _ => true
  getAncestor := fun _ => "Base"
  knowsAbout := fun _ => true
  hasFirstDefinedChild := fun _ => false
  getFirstDefinedChild := fun v => v
  roots := ["Base"]
  hasOldVTable := fun n => n = "Base" || n = "Derived" || n = "Left" || n = "Right"
  getOldVTable := fun n =>
    if n = "Base" then [.other "Base::f", .other "Base::g"]
    else if n = "Derived" then
      [.other "vbase_offset", .other "Derived::rtti", .other "Derived::f",
       .bitcast "_ZTv0_n16_f" true, .other "Derived::h"]
    else if n = "Left" then [.other "Left::f", .other "Left::g", .other "Left::h"]
    else if n = "Right" then [.other "Right::f", .other "Right::g", .other "Right::h"]
    else []
  getVTableOrder := fun _ _ => 0
  getLayoutClassName := fun v => v.1
  oldVTables := ["Base", "Derived", "Left", "Right"]

/-- The body of the thunk `_ZTv0_n16_f` of scenario S4: the call `getVCallIndex(16)`, an
instruction that uses its result, and one that does not. -/
def bodyS4 : List Instruction :=
  [{ id := 0, isVCallIndexCall := true, operands := [.constInt 16] },
   { id := 1, isVCallIndexCall := false, operands := [.other 0, .inst 0] },
   { id := 2, isVCallIndexCall := false, operands := [.inst 1] }]

/-- The module of scenario S4: the thunk and the four old vtables, each with a constant
`getelementptr` use of its address point. -/
def moduleS4 : Module where
  functions := [{ name := "_ZTv0_n16_f", body := bodyS4 }]
  globals := [
    { name := "Base", initializer := chaS4.getOldVTable "Base", alignment := 8,
      users := [.gep (some 0)] },
    { name := "Derived", initializer := chaS4.getOldVTable "Derived", alignment := 8,
      users := [.gep (some 2)] },
    { name := "Left", initializer := chaS4.getOldVTable "Left", alignment := 8,
      users := [.gep (some 0)] },
    { name := "Right", initializer := chaS4.getOldVTable "Right", alignment := 8,
      users := [.gep (some 0)] }]
  declaresVCallIndex := true

/-- The interleaving list of scenario S4. -/
def listS4 : interleaving_list_t :=
  [(("Derived", 0), 0), (("Derived", 0), 1),
   (("Base", 0), 0), (("Derived", 0), 2), (("Left", 0), 0), (("Right", 0), 0),
   (("Base", 0), 1), (("Derived", 0), 3), (("Left", 0), 1), (("Right", 0), 1),
   (("Derived", 0), 4), (("Left", 0), 2), (("Right", 0), 2)]

/-- The module of scenario S4 with one more user of the old vtable of `Left` that is not a
constant `getelementptr`. -/
def moduleS4other : Module :=
  { moduleS4 with globals := moduleS4.globals.map (fun g =>
      if g.name = "Left" then { g with users := g.users ++ [User.other] } else g) }

/-- The state of the pass before `buildNewLayouts`, on the module `M`. -/
def initState (M : Module) (interleave : Bool) : State where
  M := M
  interleave := interleave
  dummyVtable := dummyS
  prePadMap := fun _ => 0
  interleavingMap := fun _ => none
  newLayoutInds := fun _ => none
  alignmentMap := fun _ => none
  cloudStartMap := fun _ => false
  newVTableStartAddrMap := fun _ => none
  rangeMap := fun _ => none
  memRangeMap := fun _ => []
  vthunksToRemove := []

/-- Two clouds of one vtable each, `A` and `C` (cells 0..1, address point 0), with the roots
in the order `A`, `C`. -/
def chaTwo : CHA where
  preorder := fun v => if v = ("A", 0) then [("A", 0)] else if v = ("C", 0) then [("C", 0)] else []
  children := fun _ => []
  isUndefined := fun _ => false
  getRange := fun _ => (0, 1)
  hasRange := fun _ => true
  addrPt := fun _ => 0
  getNumAddrPts := fun _ => 1
  hasAddrPt := fun _ k => k = 0
  getAddrPtOrder := fun _ _ => 0
  isRoot := fun n => n = "A" || n = "C"
  hasAncestor := fun _ => true
  getAncestor := fun v => v.1
  knowsAbout := fun _ => true
  hasFirstDefinedChild := fun _ => false
  getFirstDefinedChild := fun v => v
  roots := ["A", "C"]
  hasOldVTable := fun n => n = "A" || n = "C"
  getOldVTable := fun n =>
    if n = "A" then [.other "A::f", .other "A::g"]
    else if n = "C" then [.other "C::f", .other "C::g"] else []
  getVTableOrder := fun _ _ => 0
  getLayoutClassName := fun v => v.1
  oldVTables := ["A", "C"]

/-- Lists for the two clouds of `chaTwo`: the list of `A` is the ordered layout of `A`, the
list of `C` holds the entry `(C, 0)` twice. -/
def mapTwo : vtbl_name_t → Option interleaving_list_t :=
  fun n =>
    if n = "A" then some [(("A", 0), 0), (("A", 0), 1)]
    else if n = "C" then some [(("C", 0), 0), (("C", 0), 0), (("C", 0), 1)]
    else none

/-- The module of scenario S4 with one more function, the virtual thunk `_ZTv0_n24_g`, which
is no element of an old vtable and has a user. -/
def moduleS4used : Module :=
  { moduleS4 with functions := moduleS4.functions ++
      [{ name := "_ZTv0_n24_g", body := [], hasUsers := true }] }

/-- A diamond whose preorder lists the shared child last: `A` (cells 0..0, address point 0)
with the children `B` (cells 0..3, address point 3) and `C` (cells 0..5, address point 5),
and `D` (cells 0..0, address point 0), a child of both `B` and `C`; preorder `A, B, C, D`. -/
def chaD : CHA where
  preorder := fun v =>
    if v = ("A", 0) then [("A", 0), ("B", 0), ("C", 0), ("D", 0)]
    else if v = ("B", 0) then [("B", 0), ("D", 0)]
    else if v = ("C", 0) then [("C", 0), ("D", 0)]
    else if v = ("D", 0) then [("D", 0)] else []
  children := fun v =>
    if v = ("A", 0) then [("B", 0), ("C", 0)]
    else if v = ("B", 0) then [("D", 0)]
    else if v = ("C", 0) then [("D", 0)] else []
  isUndefined := fun _ => false
  getRange := fun v =>
    if v = ("B", 0) then (0, 3) else if v = ("C", 0) then (0, 5) else (0, 0)
  hasRange := fun _ => true
  addrPt := fun v => if v = ("B", 0) then 3 else if v = ("C", 0) then 5 else 0
  getNumAddrPts := fun _ => 1
  hasAddrPt := fun n k => if n = "B" then k = 3 else if n = "C" then k = 5 else k = 0
  getAddrPtOrder := fun _ _ => 0
  isRoot := fun n => n = "A"
  hasAncestor := fun _ => true
  getAncestor := fun _ => "A"
  knowsAbout := fun _ => true
  hasFirstDefinedChild := fun _ => false
  getFirstDefinedChild := fun v => v
  roots := ["A"]
  hasOldVTable := fun _ => false
  getOldVTable := fun _ => []
  getVTableOrder := fun _ _ => 0
  getLayoutClassName := fun v => v.1
  oldVTables := []

/-- A cloud of one vtable `A` with the cells 0..1 and the address point 0. -/
def chaOne : CHA where
  preorder := fun v => if v = ("A", 0) then [("A", 0)] else []
  children := fun _ => []
  isUndefined := fun _ => false
  getRange := fun _ => (0, 1)
  hasRange := fun _ => true
  addrPt := fun _ => 0
  getNumAddrPts := fun _ => 1
  hasAddrPt := fun _ k => k = 0
  getAddrPtOrder := fun _ _ => 0
  isRoot := fun n => n = "A"
  hasAncestor := fun _ => true
  getAncestor := fun _ => "A"
  knowsAbout := fun _ => true
  hasFirstDefinedChild := fun _ => false
  getFirstDefinedChild := fun v => v
  roots := ["A"]
  hasOldVTable := fun n => n = "A"
  getOldVTable := fun n => if n = "A" then [.other "A::f", .other "A::g"] else []
  getVTableOrder := fun _ _ => 0
  getLayoutClassName := fun v => v.1
  oldVTables := ["A"]

/-- A chain `P`, `U`, `C` in which the middle vtable `U` is undefined: `P` has the cells 0..2
and the address point 2, `C` has the cell 0 and the address point 0; preorder `P, U, C`. -/
def chaU : CHA where
  preorder := fun v =>
    if v = ("P", 0) then [("P", 0), ("U", 0), ("C", 0)]
    else if v = ("U", 0) then [("U", 0), ("C", 0)]
    else if v = ("C", 0) then [("C", 0)] else []
  children := fun v =>
    if v = ("P", 0) then [("U", 0)] else if v = ("U", 0) then [("C", 0)] else []
  isUndefined := fun n => n = "U"
  getRange := fun v => if v = ("P", 0) then (0, 2) else (0, 0)
  hasRange := fun _ => true
  addrPt := fun v => if v = ("P", 0) then 2 else 0
  getNumAddrPts := fun _ => 1
  hasAddrPt := fun n k => if n = "P" then k = 2 else k = 0
  getAddrPtOrder := fun _ _ => 0
  isRoot := fun n => n = "P"
  hasAncestor := fun _ => true
  getAncestor := fun _ => "P"
  knowsAbout := fun _ => true
  hasFirstDefinedChild := fun v => v = ("U", 0)
  getFirstDefinedChild := fun v => if v = ("U", 0) then ("C", 0) else v
  roots := ["P"]
  hasOldVTable := fun n => n = "P" || n = "C"
  getOldVTable := fun n =>
    if n = "P" then [.other "P::x", .other "P::y", .other "P::f"]
    else if n = "C" then [.other "C::f"] else []
  getVTableOrder := fun _ _ => 0
  getLayoutClassName := fun v => v.1
  oldVTables := ["P", "C"]

/-- Scenario S6: scenario S3 with the sub-vtable of `B` at the cells 1..3 of its array and the
address point 1: `A` has the cells 0..1 and the address point 1.  The pre-pad loop gives
`PrePad[B] = 1`, and the padded range of `B` starts at the old position 0, so no old position
is negative. -/
def chaS6 : CHA where
  preorder := fun v => if v = ("A", 0) then [("A", 0), ("B", 0)]
    else if v = ("B", 0) then [("B", 0)] else []
  children := fun v => if v = ("A", 0) then [("B", 0)] else []
  isUndefined := fun _ => false
  getRange := fun v => if v = ("A", 0) then (0, 1) else (1, 3)
  hasRange := fun _ => true
  addrPt := fun _ => 1
  getNumAddrPts := fun _ => 1
  hasAddrPt := fun _ k => k = 1
  getAddrPtOrder := fun _ _ => 0
  isRoot := fun n => n = "A"
  hasAncestor := fun _ => true
  getAncestor := fun _ => "A"
  knowsAbout := fun _ => true
  hasFirstDefinedChild := fun _ => false
  getFirstDefinedChild := fun v => v
  roots := ["A"]
  hasOldVTable := fun n => n = "A" || n = "B"
  getOldVTable := fun n => if n = "A" then [.other "A::x", .other "A::f"]
    else if n = "B" then [.other "B::top", .other "B::f", .other "B::g", .other "B::h"] else []
  getVTableOrder := fun _ _ => 0
  getLayoutClassName := fun v => v.1
  oldVTables := ["A", "B"]

/-- The interleaving list of scenario S6; the entry `(B, 0)` is the padding cell of `B`. -/
def listS6 : interleaving_list_t :=
  [(("A", 0), 0), (("B", 0), 0), (("A", 0), 1), (("B", 0), 1), (("B", 0), 2), (("B", 0), 3)]

/-- The module of scenario S6: the old vtables of `A` and `B`, each with one constant
`getelementptr` use of its address point. -/
def moduleS6 : Module where
  functions := []
  globals := [
    { name := "A", initializer := chaS6.getOldVTable "A", alignment := 8,
      users := [.gep (some 1)] },
    { name := "B", initializer := chaS6.getOldVTable "B", alignment := 8,
      users := [.gep (some 1)] }]
  declaresVCallIndex := false

/-- The class metadata of a checked-vptr call: a tuple whose first operand is a node that
holds the class name; the second operand stands for the global variable. -/
def classMD (name : String) : Metadata :=
  .mdTuple [.mdNode [.mdString name], .other]

/-- Scenario S5: the argument operands of a checked-vptr call whose second argument carries
the class `_ZTV1A`, whose third argument carries the class `_ZTV1B` and whose fourth argument
carries the function name `f`. -/
def argsS5 : List ArgOperand :=
  [.other, .metadataAsValue (classMD "_ZTV1A"), .metadataAsValue (classMD "_ZTV1B"),
    .metadataAsValue (.mdTuple [.mdString "f"])]

/-- Scenario S5: the call site, at line 3, column 7 of `a.cpp`. -/
def callSiteS5 : CallSiteInst :=
  { id := 0, debugLoc := some { filename := "a.cpp", line := 3, col := 7 } }

/-- Scenario S5: the pass has recorded nothing yet. -/
def stateS5 : ReturnRangeState :=
  { pseudoDebugLoc := 0, CallSiteDebugLocs := [], VirtualCallsites := [] }

/-! ## Interleaver: one sweep -/

theorem upd_same {β : Type} (m : vtbl_t → β) (k : vtbl_t) (x : β) : upd m k x k = x := by
  simp [upd]

theorem upd_other {β : Type} (m : vtbl_t → β) (k k' : vtbl_t) (x : β) (h : k' ≠ k) :
    upd m k x k' = m k' := by
  simp [upd, h]

theorem sweep_nil (cha : CHA) (b : Bool) (lp : vtbl_t → Int) (pm : vtbl_t → Int)
    (cur : interleaving_list_t) : sweep cha b lp [] pm cur = (pm, cur) := rfl

/-- Unfolding of one iteration of the sweep, in terms of the walking direction. -/
theorem sweep_cons (cha : CHA) (b : Bool) (lp : vtbl_t → Int) (n : vtbl_t) (ns : List vtbl_t)
    (pm : vtbl_t → Int) (cur : interleaving_list_t) :
    sweep cha b lp (n :: ns) pm cur =
      if cha.isUndefined n.1 = false ∧ leDir b (pm n) (lp n) then
        sweep cha b lp ns (upd pm n (stepDir b (pm n))) (cur ++ [(n, pm n)])
      else sweep cha b lp ns pm cur := by
  cases b <;> simp [sweep, leDir, stepDir, sd_isLE, sd_isGE, Int.sub_eq_add_neg]

/-- What one sweep does to the cursors and to the scratch list. -/
theorem sweep_spec (cha : CHA) (b : Bool) (lp : vtbl_t → Int) (ns : List vtbl_t) :
    ∀ (pm : vtbl_t → Int) (cur : interleaving_list_t),
      (∀ v, leDir b (pm v) ((sweep cha b lp ns pm cur).1 v)) ∧
      (∀ v x, (sweep cha b lp ns pm cur).2.count (v, x) =
        cur.count (v, x) + if inIv b (pm v) ((sweep cha b lp ns pm cur).1 v) x then 1 else 0) ∧
      (∀ v, (v ∉ ns ∨ cha.isUndefined v.1 = true) → (sweep cha b lp ns pm cur).1 v = pm v) ∧
      (∀ v, leDir b ((sweep cha b lp ns pm cur).1 v) (pm v) ∨
        leDir b ((sweep cha b lp ns pm cur).1 v) (stepDir b (lp v))) ∧
      (∀ v ∈ ns, cha.isUndefined v.1 = false → leDir b (pm v) (lp v) →
        leDir b (stepDir b (pm v)) ((sweep cha b lp ns pm cur).1 v)) := by
  induction ns with
  | nil =>
    intro pm cur
    refine ⟨?_, ?_, ?_, ?_, ?_⟩
    · intro v; cases b <;> simp [sweep_nil, leDir]
    · intro v x; cases b <;> simp [sweep_nil, inIv]
    · intro v _; simp [sweep_nil]
    · intro v; left; cases b <;> simp [sweep_nil, leDir]
    · intro v hv; simp at hv
  | cons n ns ih =>
    intro pm cur
    rw [sweep_cons]
    by_cases hlive : cha.isUndefined n.1 = false ∧ leDir b (pm n) (lp n)
    · rw [if_pos hlive]
      obtain ⟨hdef, hle⟩ := hlive
      obtain ⟨h1, h2, h3, h4, h5⟩ := ih (upd pm n (stepDir b (pm n))) (cur ++ [(n, pm n)])
      have hn := h1 n
      rw [upd_same] at hn
      refine ⟨?_, ?_, ?_, ?_, ?_⟩
      · intro v
        by_cases hv : v = n
        · subst hv
          revert hn; cases b <;> simp [leDir, stepDir] <;> omega
        · have := h1 v; rw [upd_other _ _ _ _ hv] at this; exact this
      · intro v x
        rw [h2 v x, List.count_append]
        by_cases hv : v = n
        · subst hv
          rw [upd_same]
          by_cases hx : x = pm v
          · subst hx
            simp only [List.count_singleton_self]
            revert hn; cases b <;>
              simp only [leDir, stepDir, inIv, Bool.false_eq_true, if_false, if_true] <;>
              intro hn <;> split_ifs <;> omega
          · have : ((v, pm v) : interleaving_t) ≠ (v, x) := by
              intro h; apply hx; exact (Prod.mk.inj h).2.symm
            rw [List.count_singleton, if_neg (by simpa using this)]
            revert hn; cases b <;>
              simp only [leDir, stepDir, inIv, Bool.false_eq_true, if_false, if_true] <;>
              intro hn <;> split_ifs <;> omega
        · rw [upd_other _ _ _ _ hv]
          have : ((n, pm n) : interleaving_t) ≠ (v, x) := by
            intro h; apply hv; exact (Prod.mk.inj h).1.symm
          rw [List.count_singleton, if_neg (by simpa using this)]
          simp
      · intro v hv
        have hvn : v ≠ n := by
          rcases hv with hv | hv
          · intro h; apply hv; simp [h]
          · intro h; rw [h, hdef] at hv; simp at hv
        rw [h3 v (by rcases hv with hv | hv
                     · left; intro h; apply hv; simp [h]
                     · right; exact hv), upd_other _ _ _ _ hvn]
      · intro v
        by_cases hv : v = n
        · subst hv
          have := h4 v
          rw [upd_same] at this
          rcases this with h | h
          · right
            revert h hle; cases b <;> simp [leDir, stepDir] <;> omega
          · right; exact h
        · have := h4 v; rw [upd_other _ _ _ _ hv] at this; exact this
      · intro v hv hd hl
        by_cases hvn : v = n
        · subst hvn; exact hn
        · have hvns : v ∈ ns := by
            rcases List.mem_cons.1 hv with h | h
            · exact absurd h hvn
            · exact h
          have := h5 v hvns hd
          rw [upd_other _ _ _ _ hvn] at this
          exact this hl
    · rw [if_neg hlive]
      simp only [not_and] at hlive
      obtain ⟨h1, h2, h3, h4, h5⟩ := ih pm cur
      refine ⟨h1, h2, ?_, h4, ?_⟩
      · intro v hv
        by_cases hvn : v = n
        · subst hvn
          rcases hv with hv | hv
          · exact absurd (List.mem_cons_self _ _) hv
          · exact h3 v (Or.inr hv)
        · apply h3
          rcases hv with hv | hv
          · left; intro h; apply hv; exact List.mem_cons_of_mem _ h
          · right; exact hv
      · intro v hv hd hl
        by_cases hvn : v = n
        · subst hvn
          exact absurd hl (hlive hd)
        · have hvns : v ∈ ns := by
            rcases List.mem_cons.1 hv with h | h
            · exact absurd h hvn
            · exact h
          exact h5 v hvns hd hl

/-! ## Interleaver: the `while(true)` loop, for an arbitrary node list -/

theorem fillLoop_succ (cha : CHA) (b : Bool) (pre : order_t) (lp : vtbl_t → Int) (fuel : Nat)
    (pm : vtbl_t → Int) (part : interleaving_list_t) :
    fillLoop cha b pre lp (fuel + 1) pm part =
      if (sweep cha b lp pre pm []).2.length = 0 then some part
      else fillLoop cha b pre lp fuel (sweep cha b lp pre pm []).1
        (if b then part ++ (sweep cha b lp pre pm []).2 else (sweep cha b lp pre pm []).2 ++ part) :=
  rfl

theorem fillLoop_mono (cha : CHA) (b : Bool) (pre : order_t) (lp : vtbl_t → Int) :
    ∀ (fuel : Nat) (pm : vtbl_t → Int) (part L : interleaving_list_t),
      fillLoop cha b pre lp fuel pm part = some L →
      fillLoop cha b pre lp (fuel + 1) pm part = some L := by
  intro fuel
  induction fuel with
  | zero => intro pm part L h; simp [fillLoop] at h
  | succ fuel ih =>
    intro pm part L h
    rw [fillLoop_succ] at h
    rw [fillLoop_succ]
    split
    · next hz => rw [if_pos hz] at h; exact h
    · next hz => rw [if_neg hz] at h; exact ih _ _ _ h

theorem fillLoop_mono_le (cha : CHA) (b : Bool) (pre : order_t) (lp : vtbl_t → Int)
    (fuel fuel' : Nat) (hle : fuel ≤ fuel') (pm : vtbl_t → Int) (part L : interleaving_list_t)
    (h : fillLoop cha b pre lp fuel pm part = some L) :
    fillLoop cha b pre lp fuel' pm part = some L := by
  induction hle with
  | refl => exact h
  | step _ ih => exact fillLoop_mono _ _ _ _ _ _ _ _ ih

/-- The loop terminates within `B + 1` rounds when every cursor is at most `B` steps from
its last position, and emits each outstanding position of each defined node once. -/
theorem fillLoop_spec (cha : CHA) (b : Bool) (pre : order_t) (lp pm0 : vtbl_t → Int) :
    ∀ (fuel B : Nat) (pm : vtbl_t → Int) (part : interleaving_list_t),
      B < fuel →
      (∀ v ∈ pre, cha.isUndefined v.1 = false → gapDir b (pm v) (lp v) ≤ (B : Int)) →
      (∀ v, leDir b (pm0 v) (pm v)) →
      (∀ v x, part.count (v, x) = if inIv b (pm0 v) (pm v) x then 1 else 0) →
      (∀ v, leDir b (pm v) (pm0 v) ∨ leDir b (pm v) (stepDir b (lp v))) →
      (∀ v, (v ∉ pre ∨ cha.isUndefined v.1 = true) → pm v = pm0 v) →
      ∃ L, fillLoop cha b pre lp fuel pm part = some L ∧
        ∀ v x, L.count (v, x) =
          if v ∈ pre ∧ cha.isUndefined v.1 = false ∧ inIv b (pm0 v) (stepDir b (lp v)) x
          then 1 else 0 := by
  intro fuel
  induction fuel with
  | zero => intro B pm part hB; omega
  | succ fuel ih =>
    intro B pm part hB hgap hmono hcount hbound hfix
    rw [fillLoop_succ]
    obtain ⟨h1, h2, h3, h4, h5⟩ := sweep_spec cha b lp pre pm []
    generalize hr : sweep cha b lp pre pm [] = r at h1 h2 h3 h4 h5
    by_cases hz : r.2.length = 0
    · rw [if_pos hz]
      refine ⟨part, rfl, ?_⟩
      have hnil : r.2 = [] := List.length_eq_zero.1 hz
      have hsame : ∀ v, r.1 v = pm v := by
        intro v
        have hc := h2 v (pm v)
        rw [hnil] at hc
        have hm := h1 v
        revert hc hm
        cases b <;>
          simp only [leDir, inIv, Bool.false_eq_true, if_false, if_true, List.count_nil] <;>
          intro hc hm <;> split_ifs at hc <;> omega
      intro v x
      rw [hcount]
      by_cases hv : v ∈ pre ∧ cha.isUndefined v.1 = false
      · have hnl : ¬ leDir b (pm v) (lp v) := by
          intro hl
          have := h5 v hv.1 hv.2 hl
          rw [hsame] at this
          revert this
          cases b <;> simp [leDir, stepDir]
        have hb := hbound v
        have hm := hmono v
        revert hnl hb hm
        cases b <;>
          simp only [leDir, stepDir, inIv, Bool.false_eq_true, if_false, if_true, hv, true_and] <;>
          intro hnl hb hm <;> split_ifs <;> omega
      · have hf : pm v = pm0 v := by
          apply hfix
          by_cases hm : v ∈ pre
          · right
            have : ¬ cha.isUndefined v.1 = false := fun h => hv ⟨hm, h⟩
            simpa using this
          · left; exact hm
        have hneg : ¬ (v ∈ pre ∧ cha.isUndefined v.1 = false ∧ inIv b (pm0 v) (stepDir b (lp v)) x) :=
          fun h => hv ⟨h.1, h.2.1⟩
        rw [if_neg hneg, hf]
        cases b <;> simp only [inIv, Bool.false_eq_true, if_false, if_true] <;> split_ifs <;> omega
    · rw [if_neg hz]
      have hBpos : 0 < B := by
        by_contra hB0
        have hB0 : B = 0 := by omega
        apply hz
        have hsame : ∀ v, r.1 v = pm v := by
          intro v
          by_cases hv : v ∈ pre ∧ cha.isUndefined v.1 = false
          · have hg := hgap v hv.1 hv.2
            have hb := h4 v
            have hm := h1 v
            rw [hB0] at hg
            revert hg hb hm
            cases b <;>
              simp only [leDir, stepDir, gapDir, Bool.false_eq_true, if_false, if_true] <;>
              intro hg hb hm <;> push_cast at hg <;> omega
          · apply h3
            by_cases hm : v ∈ pre
            · right
              have : ¬ cha.isUndefined v.1 = false := fun h => hv ⟨hm, h⟩
              simpa using this
            · left; exact hm
        have : r.2 = [] := by
          apply List.eq_nil_iff_forall_not_mem.2
          intro e he
          have hc := h2 e.1 e.2
          rw [hsame] at hc
          have hpos : 0 < r.2.count (e.1, e.2) := List.count_pos_iff.2 he
          revert hc hpos
          cases b <;>
            simp only [inIv, Bool.false_eq_true, if_false, if_true, List.count_nil] <;>
            intro hc hpos <;> split_ifs at hc <;> omega
        rw [this]; rfl
      have hstep := ih (B - 1) r.1 (if b then part ++ r.2 else r.2 ++ part) (by omega) ?_ ?_ ?_ ?_ ?_
      · exact hstep
      · intro v hv hd
        have hg := hgap v hv hd
        have hm := h1 v
        have hp := h5 v hv hd
        have hcast : ((B - 1 : Nat) : Int) = (B : Int) - 1 := by omega
        rw [hcast]
        revert hg hm hp
        cases b <;>
          simp only [leDir, stepDir, gapDir, Bool.false_eq_true, if_false, if_true] <;>
          intro hg hm hp <;>
          by_cases hl : pm v ≤ lp v <;> by_cases hl' : lp v ≤ pm v <;> omega
      · intro v
        have a1 := hmono v
        have a2 := h1 v
        revert a1 a2
        cases b <;> simp only [leDir, Bool.false_eq_true, if_false, if_true] <;> omega
      · intro v x
        have hc : (if b then part ++ r.2 else r.2 ++ part).count (v, x) =
            part.count (v, x) + r.2.count (v, x) := by
          cases b <;> simp [List.count_append, Nat.add_comm]
        rw [hc, hcount, h2]
        have a1 := hmono v
        have a2 := h1 v
        revert a1 a2
        cases b <;>
          simp only [leDir, inIv, Bool.false_eq_true, if_false, if_true, List.count_nil] <;>
          intro a1 a2 <;> split_ifs <;> omega
      · intro v
        have a1 := hbound v
        have a2 := h4 v
        revert a1 a2
        cases b <;> simp only [leDir, Bool.false_eq_true, if_false, if_true] <;> omega
      · intro v hv
        rw [h3 v hv, hfix v hv]

/-! ## Interleaver: `fillVtablePart` and `interleaveCloud`, for an arbitrary node list -/

theorem initMaps_fst (cha : CHA) (pp : vtbl_t → Nat) (b : Bool) (ns : List vtbl_t) :
    ∀ (maps : (vtbl_t → Int) × (vtbl_t → Int)) (v : vtbl_t),
      (initMaps cha pp b ns maps).1 v = if v ∈ ns then initPos cha b v else maps.1 v := by
  induction ns with
  | nil => intro maps v; simp [initMaps]
  | cons n ns ih =>
    intro maps v
    obtain ⟨p, l⟩ := maps
    simp only [initMaps]
    rw [ih]
    by_cases hv : v ∈ ns
    · simp [hv]
    · by_cases hn : v = n
      · subst hn; simp [hv, upd]
      · simp [hv, hn, upd]

theorem initMaps_snd (cha : CHA) (pp : vtbl_t → Nat) (b : Bool) (ns : List vtbl_t) :
    ∀ (maps : (vtbl_t → Int) × (vtbl_t → Int)) (v : vtbl_t),
      (initMaps cha pp b ns maps).2 v = if v ∈ ns then initLastPos cha pp b v else maps.2 v := by
  induction ns with
  | nil => intro maps v; simp [initMaps]
  | cons n ns ih =>
    intro maps v
    obtain ⟨p, l⟩ := maps
    simp only [initMaps]
    rw [ih]
    by_cases hv : v ∈ ns
    · simp [hv]
    · by_cases hn : v = n
      · subst hn; simp [hv, upd]
      · simp [hv, hn, upd]

theorem exists_nat_bound (f : vtbl_t → Int) (l : List vtbl_t) :
    ∃ B : Nat, ∀ v ∈ l, f v ≤ (B : Int) := by
  induction l with
  | nil => exact ⟨0, by simp⟩
  | cons a l ih =>
    obtain ⟨B, hB⟩ := ih
    refine ⟨B + (f a).toNat, ?_⟩
    intro v hv
    rcases List.mem_cons.1 hv with h | h
    · subst h; push_cast; omega
    · have := hB v h; push_cast; omega

/-- The positions one side of the interleaver emits for node `v`: from the address point up
to `last` on the positive side, from `addrPt - 1` down to `first - PrePad` on the negative. -/
theorem fillVtablePart_count (cha : CHA) (pp : vtbl_t → Nat) (pre : order_t) (b : Bool) :
    ∃ L, (∃ f0, ∀ fuel, f0 ≤ fuel → fillVtablePart cha pp fuel [] pre b = some L) ∧
      ∀ v x, L.count (v, x) =
        if v ∈ pre ∧ cha.isUndefined v.1 = false ∧
          inIv b (initPos cha b v) (stepDir b (initLastPos cha pp b v)) x
        then 1 else 0 := by
  obtain ⟨B, hB⟩ := exists_nat_bound
    (fun v => gapDir b ((initMaps cha pp b pre (fun _ => 0, fun _ => 0)).1 v)
      ((initMaps cha pp b pre (fun _ => 0, fun _ => 0)).2 v)) pre
  obtain ⟨L, hL, hcount⟩ := fillLoop_spec cha b pre
    (initMaps cha pp b pre (fun _ => 0, fun _ => 0)).2
    (initMaps cha pp b pre (fun _ => 0, fun _ => 0)).1 (B + 1) B
    (initMaps cha pp b pre (fun _ => 0, fun _ => 0)).1 [] (by omega)
    (fun v hv _ => hB v hv)
    (fun v => by cases b <;> simp [leDir])
    (fun v x => by
      cases b <;> simp only [inIv, Bool.false_eq_true, if_false, if_true, List.count_nil] <;>
        split_ifs <;> omega)
    (fun v => Or.inl (by cases b <;> simp [leDir]))
    (fun v _ => rfl)
  refine ⟨L, ⟨B + 1, fun fuel hf => fillLoop_mono_le _ _ _ _ _ _ hf _ _ _ hL⟩, ?_⟩
  intro v x
  rw [hcount]
  by_cases hv : v ∈ pre
  · rw [initMaps_fst, initMaps_snd, if_pos hv, if_pos hv]
  · simp [hv]

/-- Entries of a part come from defined nodes of the node list. -/
theorem fillVtablePart_mem (cha : CHA) (pp : vtbl_t → Nat) (pre : order_t) (b : Bool)
    (L : interleaving_list_t)
    (hcount : ∀ v x, L.count (v, x) =
        if v ∈ pre ∧ cha.isUndefined v.1 = false ∧
          inIv b (initPos cha b v) (stepDir b (initLastPos cha pp b v)) x
        then 1 else 0) :
    ∀ e ∈ L, e.1 ∈ pre ∧ cha.isUndefined e.1.1 = false := by
  intro e he
  have hpos : 0 < L.count (e.1, e.2) := List.count_pos_iff.2 he
  rw [hcount] at hpos
  split_ifs at hpos with h
  · exact ⟨h.1, h.2.1⟩
  · omega

theorem interleaveCloud_eq (cha : CHA) (fuel : Nat) (pp : vtbl_t → Nat) (vtbl : vtbl_name_t)
    (N P : interleaving_list_t)
    (hN : fillVtablePart cha (prePadLoop cha (cha.preorder (vtbl, 0)) pp) fuel []
      (cha.preorder (vtbl, 0)) false = some N)
    (hP : fillVtablePart cha (prePadLoop cha (cha.preorder (vtbl, 0)) pp) fuel []
      (cha.preorder (vtbl, 0)) true = some P) :
    interleaveCloud cha fuel pp vtbl =
      some (prePadLoop cha (cha.preorder (vtbl, 0)) pp, N ++ P) := by
  simp [interleaveCloud, hN, hP]

/-- Count form of the permutation property of `interleaveCloud`. -/
theorem interleaveCloud_count (cha : CHA) (vtbl : vtbl_name_t) (prePadMap : vtbl_t → Nat) :
    ∃ L, (∃ f0, ∀ fuel, f0 ≤ fuel → interleaveCloud cha fuel prePadMap vtbl =
          some (prePadLoop cha (cha.preorder (vtbl, 0)) prePadMap, L)) ∧
      (∀ v ∈ cha.preorder (vtbl, 0), cha.isUndefined v.1 = false →
        (cha.getRange v).1 ≤ cha.addrPt v → cha.addrPt v ≤ (cha.getRange v).2 →
        ∀ x : Int, L.count (v, x) =
          if ((cha.getRange v).1 : Int) -
              (prePadLoop cha (cha.preorder (vtbl, 0)) prePadMap v : Int) ≤ x ∧
            x ≤ ((cha.getRange v).2 : Int) then 1 else 0) ∧
      (∀ e ∈ L, e.1 ∈ cha.preorder (vtbl, 0) ∧ cha.isUndefined e.1.1 = false) := by
  obtain ⟨N, ⟨fN, hN⟩, cN⟩ := fillVtablePart_count cha
    (prePadLoop cha (cha.preorder (vtbl, 0)) prePadMap) (cha.preorder (vtbl, 0)) false
  obtain ⟨P, ⟨fP, hP⟩, cP⟩ := fillVtablePart_count cha
    (prePadLoop cha (cha.preorder (vtbl, 0)) prePadMap) (cha.preorder (vtbl, 0)) true
  refine ⟨N ++ P, ⟨max fN fP, ?_⟩, ?_, ?_⟩
  · intro fuel hf
    exact interleaveCloud_eq cha fuel prePadMap vtbl N P
      (hN fuel (le_trans (le_max_left _ _) hf)) (hP fuel (le_trans (le_max_right _ _) hf))
  · intro v hv hd h1 h2 x
    rw [List.count_append, cN, cP]
    simp only [hv, hd, true_and, inIv, initPos, initLastPos, stepDir, Bool.false_eq_true,
      if_false, if_true]
    split_ifs <;> omega
  · intro e he
    rcases List.mem_append.1 he with h | h
    · exact fillVtablePart_mem cha _ _ false N cN e h
    · exact fillVtablePart_mem cha _ _ true P cP e h

/-! ## Interleaver: closed form over a duplicate-free node list -/

/-- One sweep over a duplicate-free node list: the live nodes contribute their cursor, in
list order, and each live cursor advances by one step. -/
theorem sweep_nodup (cha : CHA) (b : Bool) (lp : vtbl_t → Int) (ns : List vtbl_t) :
    ∀ (pm : vtbl_t → Int) (cur : interleaving_list_t), ns.Nodup →
      sweep cha b lp ns pm cur =
        (fun v => if v ∈ ns ∧ cha.isUndefined v.1 = false ∧ leDir b (pm v) (lp v)
            then stepDir b (pm v) else pm v,
         cur ++ (ns.filter (fun n => !cha.isUndefined n.1 && decide (leDir b (pm n) (lp n)))).map
            (fun n => (n, pm n))) := by
  induction ns with
  | nil => intro pm cur _; simp [sweep_nil]
  | cons n ns ih =>
    intro pm cur hnd
    have hn : n ∉ ns := (List.nodup_cons.1 hnd).1
    have hns : ns.Nodup := (List.nodup_cons.1 hnd).2
    rw [sweep_cons]
    by_cases hlive : cha.isUndefined n.1 = false ∧ leDir b (pm n) (lp n)
    · rw [if_pos hlive, ih _ _ hns]
      have hfilter : ns.filter (fun m => !cha.isUndefined m.1 &&
            decide (leDir b (upd pm n (stepDir b (pm n)) m) (lp m))) =
          ns.filter (fun m => !cha.isUndefined m.1 && decide (leDir b (pm m) (lp m))) := by
        apply List.filter_congr
        intro m hm
        have : m ≠ n := fun h => hn (h ▸ hm)
        rw [upd_other _ _ _ _ this]
      have hmap : ∀ l : List vtbl_t, n ∉ l →
          l.map (fun m => ((m, upd pm n (stepDir b (pm n)) m) : interleaving_t)) =
          l.map (fun m => (m, pm m)) := by
        intro l hl
        apply List.map_congr_left
        intro m hm
        have : m ≠ n := fun h => hl (h ▸ hm)
        rw [upd_other _ _ _ _ this]
      have hnf : n ∉ ns.filter (fun m => !cha.isUndefined m.1 && decide (leDir b (pm m) (lp m))) :=
        fun h => hn (List.mem_filter.1 h).1
      rw [hfilter, hmap _ hnf]
      congr 1
      · funext v
        by_cases hv : v = n
        · subst hv
          simp [upd_same, hn, hlive]
        · rw [upd_other _ _ _ _ hv]
          simp [hv]
      · simp [List.filter_cons, hlive]
    · rw [if_neg hlive, ih _ _ hns]
      congr 1
      · funext v
        by_cases hv : v = n
        · subst hv
          have : ¬ (cha.isUndefined v.1 = false ∧ leDir b (pm v) (lp v)) := hlive
          simp [hn, this]
        · simp [hv]
      · have : ¬ (!cha.isUndefined n.1 && decide (leDir b (pm n) (lp n))) = true := by
          simpa using hlive
        simp only [List.filter_cons, if_neg this]

/-- Cursor of node `n` after `k` rounds. -/
theorem live_iff (cha : CHA) (pp : vtbl_t → Nat) (b : Bool) (n : vtbl_t) (k : Nat) :
    leDir b (nthPos cha b n (min k (liveCount cha pp b n))) (initLastPos cha pp b n) ↔
      k < liveCount cha pp b n := by
  cases b <;>
    simp only [leDir, nthPos, liveCount, gapDir, initPos, initLastPos, Bool.false_eq_true,
      if_false, if_true] <;> omega

theorem nthPos_step (cha : CHA) (b : Bool) (n : vtbl_t) (k : Nat) :
    stepDir b (nthPos cha b n k) = nthPos cha b n (k + 1) := by
  cases b <;> simp only [stepDir, nthPos, Bool.false_eq_true, if_false, if_true] <;>
    push_cast <;> omega

/-- Round `k` of the loop, started from the cursors reached after `k` rounds. -/
theorem sweep_round (cha : CHA) (pp : vtbl_t → Nat) (b : Bool) (pre : order_t)
    (hnd : pre.Nodup) (lp pm : vtbl_t → Int) (k : Nat)
    (hlp : ∀ n ∈ pre, lp n = initLastPos cha pp b n)
    (hpm : ∀ n ∈ pre, cha.isUndefined n.1 = false →
      pm n = nthPos cha b n (min k (liveCount cha pp b n))) :
    (sweep cha b lp pre pm []).2 = sweepList cha pp b pre k ∧
    ∀ n ∈ pre, cha.isUndefined n.1 = false → (sweep cha b lp pre pm []).1 n =
      nthPos cha b n (min (k + 1) (liveCount cha pp b n)) := by
  rw [sweep_nodup cha b lp pre pm [] hnd]
  have hl : ∀ n ∈ pre, cha.isUndefined n.1 = false →
      (leDir b (pm n) (lp n) ↔ k < liveCount cha pp b n) := by
    intro n hn hd
    rw [hpm n hn hd, hlp n hn]
    exact live_iff cha pp b n k
  constructor
  · simp only [List.nil_append, sweepList]
    have hf : pre.filter (fun n => !cha.isUndefined n.1 && decide (leDir b (pm n) (lp n))) =
        pre.filter (fun n => !cha.isUndefined n.1 && decide (k < liveCount cha pp b n)) := by
      apply List.filter_congr
      intro n hn
      by_cases hd : cha.isUndefined n.1 = false
      · simp [hl n hn hd]
      · simp [hd]
    rw [hf]
    apply List.map_congr_left
    intro n hn
    have hn' := List.mem_filter.1 hn
    have hk : cha.isUndefined n.1 = false ∧ k < liveCount cha pp b n := by simpa using hn'.2
    rw [hpm n hn'.1 hk.1, Nat.min_eq_left (le_of_lt hk.2)]
  · intro n hn hd
    simp only
    by_cases hlive : leDir b (pm n) (lp n)
    · have hk : k < liveCount cha pp b n := (hl n hn hd).1 hlive
      rw [if_pos ⟨hn, hd, hlive⟩, hpm n hn hd, Nat.min_eq_left (le_of_lt hk), nthPos_step,
        Nat.min_eq_left hk]
    · rw [if_neg (fun h => hlive h.2.2), hpm n hn hd]
      have hk : ¬ k < liveCount cha pp b n := fun h => hlive ((hl n hn hd).2 h)
      have : liveCount cha pp b n ≤ k := by omega
      rw [Nat.min_eq_right this, Nat.min_eq_right (by omega)]

theorem sweepList_nil_of_le (cha : CHA) (pp : vtbl_t → Nat) (b : Bool) (pre : order_t)
    (j j' : Nat) (hle : j ≤ j') (h : sweepList cha pp b pre j = []) :
    sweepList cha pp b pre j' = [] := by
  simp only [sweepList, List.map_eq_nil_iff, List.filter_eq_nil_iff] at h ⊢
  intro n hn hc
  apply h n hn
  simp only [Bool.and_eq_true, Bool.not_eq_true', decide_eq_true_eq] at hc ⊢
  exact ⟨hc.1, by omega⟩

theorem exists_rounds (cha : CHA) (pp : vtbl_t → Nat) (b : Bool) (pre : order_t) :
    ∃ R, sweepList cha pp b pre R = [] ∧ ∀ j < R, sweepList cha pp b pre j ≠ [] := by
  have hex : ∃ R, sweepList cha pp b pre R = [] := by
    obtain ⟨B, hB⟩ := exists_nat_bound (fun v => (liveCount cha pp b v : Int)) pre
    refine ⟨B, ?_⟩
    simp only [sweepList, List.map_eq_nil_iff, List.filter_eq_nil_iff]
    intro n hn hc
    simp only [Bool.and_eq_true, Bool.not_eq_true', decide_eq_true_eq] at hc
    have := hB n hn
    simp only at this
    omega
  exact ⟨Nat.find hex, Nat.find_spec hex, fun j hj => Nat.find_min hex hj⟩

/-- Closed form of the `while(true)` loop over a duplicate-free node list. -/
theorem fillLoop_closed (cha : CHA) (pp : vtbl_t → Nat) (b : Bool) (pre : order_t)
    (hnd : pre.Nodup) (lp : vtbl_t → Int)
    (hlp : ∀ n ∈ pre, lp n = initLastPos cha pp b n) :
    ∀ (m k fuel : Nat) (pm : vtbl_t → Int) (part : interleaving_list_t),
      m < fuel →
      (∀ n ∈ pre, cha.isUndefined n.1 = false →
        pm n = nthPos cha b n (min k (liveCount cha pp b n))) →
      (∀ j < m, sweepList cha pp b pre (k + j) ≠ []) →
      sweepList cha pp b pre (k + m) = [] →
      fillLoop cha b pre lp fuel pm part =
        some (if b then part ++ posFrom cha pp pre k m else negFrom cha pp pre k m ++ part) := by
  intro m
  induction m with
  | zero =>
    intro k fuel pm part hf hpm _ hlast
    obtain ⟨fuel, rfl⟩ : ∃ f, fuel = f + 1 := ⟨fuel - 1, by omega⟩
    obtain ⟨h1, _⟩ := sweep_round cha pp b pre hnd lp pm k hlp hpm
    rw [fillLoop_succ, h1]
    simp only [Nat.add_zero] at hlast
    rw [hlast]
    cases b <;> simp [posFrom, negFrom]
  | succ m ih =>
    intro k fuel pm part hf hpm hne hlast
    obtain ⟨fuel, rfl⟩ : ∃ f, fuel = f + 1 := ⟨fuel - 1, by omega⟩
    obtain ⟨h1, h2⟩ := sweep_round cha pp b pre hnd lp pm k hlp hpm
    rw [fillLoop_succ, h1]
    have hk : sweepList cha pp b pre k ≠ [] := by
      have := hne 0 (by omega)
      simpa using this
    have hlen : ¬ (sweepList cha pp b pre k).length = 0 := by
      intro h; exact hk (List.length_eq_zero.1 h)
    rw [if_neg hlen]
    rw [ih (k + 1) fuel _ _ (by omega) h2
      (fun j hj => by
        have := hne (j + 1) (by omega)
        rwa [show k + (j + 1) = k + 1 + j by omega] at this)
      (by rwa [show k + (m + 1) = k + 1 + m by omega] at hlast)]
    cases b <;> simp [posFrom, negFrom]

theorem nthPos_zero (cha : CHA) (b : Bool) (n : vtbl_t) :
    nthPos cha b n 0 = initPos cha b n := by
  cases b <;> simp [nthPos, initPos]

/-- Closed form of `fillVtablePart` over a duplicate-free node list: there is a number `R`
of non-empty rounds, and the part is the rounds `0..R-1` in assembly order. -/
theorem fillVtablePart_closed (cha : CHA) (pp : vtbl_t → Nat) (b : Bool) (pre : order_t)
    (hnd : pre.Nodup) :
    ∃ R, (∀ fuel, R < fuel → fillVtablePart cha pp fuel [] pre b =
        some (if b then posFrom cha pp pre 0 R else negFrom cha pp pre 0 R)) ∧
      (∀ j, R ≤ j → sweepList cha pp b pre j = []) ∧
      (∀ j < R, sweepList cha pp b pre j ≠ []) := by
  obtain ⟨R, hR, hmin⟩ := exists_rounds cha pp b pre
  refine ⟨R, ?_, fun j hj => sweepList_nil_of_le cha pp b pre R j hj hR, hmin⟩
  intro fuel hf
  unfold fillVtablePart
  simp only
  rw [fillLoop_closed cha pp b pre hnd _ (fun n hn => by rw [initMaps_snd, if_pos hn])
    R 0 fuel _ [] hf
    (fun n hn _ => by rw [initMaps_fst, if_pos hn, Nat.zero_min, nthPos_zero])
    (fun j hj => by simpa using hmin j hj) (by simpa using hR)]
  cases b <;> simp

/-! ## Index mapper -/

/-- What `calculateNewLayoutInds` stores for a vtable: the indices of its entries are
appended, in list order; the sentinel and vtables without an entry are left alone. -/
theorem newLayoutIndsLoop_eq (dummy : vtbl_t) (L : interleaving_list_t) :
    ∀ (i : Nat) (m : vtbl_t → Option (List Nat)) (v : vtbl_t),
      newLayoutIndsLoop dummy L i m v =
        if v = dummy ∨ indicesOf v L i = [] then m v
        else some ((m v).getD [] ++ indicesOf v L i) := by
  induction L with
  | nil => intro i m v; simp [newLayoutIndsLoop, indicesOf]
  | cons e es ih =>
    intro i m v
    simp only [newLayoutIndsLoop, indicesOf]
    by_cases hd : e.1 = dummy
    · rw [if_neg (by simpa using hd), ih]
      by_cases hv : v = dummy
      · simp [hv]
      · have : ¬ e.1 = v := fun h => hv (h ▸ hd)
        simp [this]
    · rw [if_pos (by simpa using hd), ih]
      by_cases hev : e.1 = v
      · subst hev
        simp only [upd_same, if_true, hd, false_or, List.cons_ne_nil, if_false,
          Option.getD_some, List.append_assoc, List.singleton_append]
        split_ifs with h
        · rw [h]
        · rfl
      · have : v ≠ e.1 := fun h => hev h.symm
        rw [upd_other _ _ _ _ this]
        simp [hev]

theorem indicesOf_length (v : vtbl_t) (L : interleaving_list_t) :
    ∀ i, (indicesOf v L i).length = (L.filter (fun e => decide (e.1 = v))).length := by
  induction L with
  | nil => intro i; simp [indicesOf]
  | cons e es ih =>
    intro i
    by_cases h : e.1 = v
    · simp [indicesOf, h, List.filter_cons, ih]
    · simp [indicesOf, h, List.filter_cons, ih]

/-- The recorded indices of `v` are at least the start index and strictly increasing. -/
theorem indicesOf_increasing (v : vtbl_t) (L : interleaving_list_t) :
    ∀ i, (∀ x ∈ indicesOf v L i, i ≤ x) ∧ (indicesOf v L i).Pairwise (fun a b => a < b) := by
  induction L with
  | nil => intro i; simp [indicesOf]
  | cons e es ih =>
    intro i
    obtain ⟨h1, h2⟩ := ih (i + 1)
    by_cases h : e.1 = v
    · simp only [indicesOf, h, if_true]
      refine ⟨?_, List.Pairwise.cons (fun x hx => ?_) h2⟩
      · intro x hx
        rcases List.mem_cons.1 hx with hx' | hx'
        · omega
        · have := h1 x hx'; omega
      · have := h1 x hx; omega
    · simp only [indicesOf, h, if_false]
      exact ⟨fun x hx => by have := h1 x hx; omega, h2⟩

/-- The `k`-th recorded index of `v` points at the `k`-th entry of `v`. -/
theorem indicesOf_get (v : vtbl_t) (L : interleaving_list_t) :
    ∀ (i k : Nat) (e : interleaving_t),
      (L.filter (fun e => decide (e.1 = v)))[k]? = some e →
      ∃ j, (indicesOf v L i)[k]? = some (i + j) ∧ L[j]? = some e := by
  induction L with
  | nil => intro i k e h; simp at h
  | cons e0 es ih =>
    intro i k e h
    by_cases h0 : e0.1 = v
    · rw [List.filter_cons_of_pos (by simpa using h0)] at h
      cases k with
      | zero =>
        refine ⟨0, ?_, ?_⟩
        · simp [indicesOf, h0]
        · simpa using h
      | succ k =>
        simp only [List.getElem?_cons_succ] at h
        obtain ⟨j, hj1, hj2⟩ := ih (i + 1) k e h
        refine ⟨j + 1, ?_, ?_⟩
        · simp only [indicesOf, h0, if_true, List.getElem?_cons_succ, hj1]
          congr 1; omega
        · simpa using hj2
    · rw [List.filter_cons_of_neg (by simpa using h0)] at h
      obtain ⟨j, hj1, hj2⟩ := ih (i + 1) k e h
      refine ⟨j + 1, ?_, ?_⟩
      · simp only [indicesOf, h0, if_false, hj1]
        congr 1; omega
      · simpa using hj2

/-! ## Entries of one vtable in the closed form -/

theorem filter_eq_nodup (pre : order_t) (hnd : pre.Nodup) (v : vtbl_t) (q : vtbl_t → Bool) :
    pre.filter (fun n => q n && decide (n = v)) = if v ∈ pre ∧ q v = true then [v] else [] := by
  induction pre with
  | nil => simp
  | cons a l ih =>
    have ha : a ∉ l := (List.nodup_cons.1 hnd).1
    have hl := ih (List.nodup_cons.1 hnd).2
    rw [List.filter_cons, hl]
    by_cases hav : a = v
    · subst hav
      by_cases hq : q a = true
      · simp [hq, ha]
      · simp [hq, ha]
    · have : ¬ v = a := fun h => hav h.symm
      simp [hav, this]

theorem sweepList_filter (cha : CHA) (pp : vtbl_t → Nat) (b : Bool) (pre : order_t)
    (hnd : pre.Nodup) (v : vtbl_t) (k : Nat) :
    (sweepList cha pp b pre k).filter (fun e => decide (e.1 = v)) =
      if v ∈ pre ∧ cha.isUndefined v.1 = false ∧ k < liveCount cha pp b v
      then [(v, nthPos cha b v k)] else [] := by
  unfold sweepList
  rw [List.filter_map, List.filter_filter]
  have : (pre.filter (fun a => ((fun e : interleaving_t => decide (e.1 = v)) ∘
        fun n => (n, nthPos cha b n k)) a &&
        (!cha.isUndefined a.1 && decide (k < liveCount cha pp b a)))) =
      pre.filter (fun n => (!cha.isUndefined n.1 && decide (k < liveCount cha pp b n)) &&
        decide (n = v)) := by
    apply List.filter_congr
    intro n _
    simp only [Function.comp]
    exact Bool.and_comm _ _
  rw [this, filter_eq_nodup pre hnd v]
  by_cases h : v ∈ pre ∧ cha.isUndefined v.1 = false ∧ k < liveCount cha pp b v
  · have h' : v ∈ pre ∧
        (!cha.isUndefined v.1 && decide (k < liveCount cha pp b v)) = true := by
      simpa using h
    rw [if_pos h, if_pos h']; rfl
  · have h' : ¬ (v ∈ pre ∧
        (!cha.isUndefined v.1 && decide (k < liveCount cha pp b v)) = true) := by
      simpa using h
    rw [if_neg h, if_neg h']; rfl

theorem range'_filter_lt (c : Nat) : ∀ (m j : Nat),
    (List.range' j m).filter (fun k => decide (k < c)) = List.range' j (min (j + m) c - j) := by
  intro m
  induction m with
  | zero => intro j; simp
  | succ m ih =>
    intro j
    rw [List.range'_succ, List.filter_cons, ih]
    by_cases h : j < c
    · rw [if_pos (by simpa using h)]
      have : min (j + (m + 1)) c - j = (min (j + 1 + m) c - (j + 1)) + 1 := by omega
      rw [this, List.range'_succ]
    · rw [if_neg (by simpa using h)]
      have h1 : min (j + 1 + m) c - (j + 1) = 0 := by omega
      have h2 : min (j + (m + 1)) c - j = 0 := by omega
      rw [h1, h2]; rfl

theorem posFrom_filter (cha : CHA) (pp : vtbl_t → Nat) (pre : order_t) (hnd : pre.Nodup)
    (v : vtbl_t) (hv : v ∈ pre) (hd : cha.isUndefined v.1 = false) :
    ∀ (m j : Nat), (posFrom cha pp pre j m).filter (fun e => decide (e.1 = v)) =
      ((List.range' j m).filter (fun k => decide (k < liveCount cha pp true v))).map
        (fun k => (v, nthPos cha true v k)) := by
  intro m
  induction m with
  | zero => intro j; simp [posFrom]
  | succ m ih =>
    intro j
    rw [posFrom, List.filter_append, ih, sweepList_filter cha pp true pre hnd, List.range'_succ,
      List.filter_cons]
    by_cases h : j < liveCount cha pp true v
    · rw [if_pos ⟨hv, hd, h⟩, if_pos (by simpa using h)]
      simp
    · rw [if_neg (fun hh => h hh.2.2), if_neg (by simpa using h)]
      simp

theorem negFrom_filter (cha : CHA) (pp : vtbl_t → Nat) (pre : order_t) (hnd : pre.Nodup)
    (v : vtbl_t) (hv : v ∈ pre) (hd : cha.isUndefined v.1 = false) :
    ∀ (m j : Nat), (negFrom cha pp pre j m).filter (fun e => decide (e.1 = v)) =
      (((List.range' j m).filter (fun k => decide (k < liveCount cha pp false v))).map
        (fun k => (v, nthPos cha false v k))).reverse := by
  intro m
  induction m with
  | zero => intro j; simp [negFrom]
  | succ m ih =>
    intro j
    rw [negFrom, List.filter_append, ih, sweepList_filter cha pp false pre hnd, List.range'_succ,
      List.filter_cons]
    by_cases h : j < liveCount cha pp false v
    · rw [if_pos ⟨hv, hd, h⟩, if_pos (by simpa using h)]
      simp
    · rw [if_neg (fun hh => h hh.2.2), if_neg (by simpa using h)]
      simp

/-- A node that no longer contributes in round `R` is live for at most `R` rounds. -/
theorem liveCount_le_rounds (cha : CHA) (pp : vtbl_t → Nat) (b : Bool) (pre : order_t)
    (v : vtbl_t) (hv : v ∈ pre) (hd : cha.isUndefined v.1 = false) (R : Nat)
    (hR : sweepList cha pp b pre R = []) : liveCount cha pp b v ≤ R := by
  simp only [sweepList, List.map_eq_nil_iff, List.filter_eq_nil_iff] at hR
  have := hR v hv
  simp only [Bool.and_eq_true, Bool.not_eq_true', decide_eq_true_eq, not_and] at this
  have := this hd
  omega

/-- The descending run `a-1, .., a-cn` reversed, followed by the ascending run
`a, .., a+cp-1`, is the ascending run of length `cn + cp` from `a - cn`. -/
theorem runs_eq (v : vtbl_t) (a : Int) (cn cp : Nat) :
    ((List.range' 0 cn).map (fun (k : Nat) => ((v, a - 1 - (k : Int)) : interleaving_t))).reverse ++
      (List.range' 0 cp).map (fun (k : Nat) => ((v, a + (k : Int)) : interleaving_t)) =
    (List.range (cn + cp)).map
      (fun (i : Nat) => ((v, a - (cn : Int) + (i : Int)) : interleaving_t)) := by
  rw [List.range_add, List.map_append, ← List.map_reverse, List.reverse_range', List.map_map,
    List.map_map, ← List.range_eq_range']
  congr 1
  · apply List.map_congr_left
    intro i hi
    have : i < cn := List.mem_range.1 hi
    simp only [Function.comp]
    congr 1
    omega
  · apply List.map_congr_left
    intro i _
    simp only [Function.comp]
    congr 1
    push_cast
    omega

/-! ## `interleaveCloud` over a duplicate-free preorder -/

/-- Closed form of the list built by `interleaveCloud`. -/
theorem interleaveCloud_closed (cha : CHA) (vtbl : vtbl_name_t) (prePadMap : vtbl_t → Nat)
    (hnd : (cha.preorder (vtbl, 0)).Nodup) :
    ∃ Rn Rp, (∃ f0, ∀ fuel, f0 ≤ fuel → interleaveCloud cha fuel prePadMap vtbl =
        some (prePadLoop cha (cha.preorder (vtbl, 0)) prePadMap,
          negFrom cha (prePadLoop cha (cha.preorder (vtbl, 0)) prePadMap)
            (cha.preorder (vtbl, 0)) 0 Rn ++
          posFrom cha (prePadLoop cha (cha.preorder (vtbl, 0)) prePadMap)
            (cha.preorder (vtbl, 0)) 0 Rp)) ∧
      (∀ j, Rn ≤ j → sweepList cha (prePadLoop cha (cha.preorder (vtbl, 0)) prePadMap) false
        (cha.preorder (vtbl, 0)) j = []) ∧
      (∀ j, Rp ≤ j → sweepList cha (prePadLoop cha (cha.preorder (vtbl, 0)) prePadMap) true
        (cha.preorder (vtbl, 0)) j = []) := by
  obtain ⟨Rn, hn, hn0, _⟩ := fillVtablePart_closed cha
    (prePadLoop cha (cha.preorder (vtbl, 0)) prePadMap) false (cha.preorder (vtbl, 0)) hnd
  obtain ⟨Rp, hp, hp0, _⟩ := fillVtablePart_closed cha
    (prePadLoop cha (cha.preorder (vtbl, 0)) prePadMap) true (cha.preorder (vtbl, 0)) hnd
  refine ⟨Rn, Rp, ⟨max Rn Rp + 1, ?_⟩, hn0, hp0⟩
  intro fuel hf
  have h1 := hn fuel (by have := le_max_left Rn Rp; omega)
  have h2 := hp fuel (by have := le_max_right Rn Rp; omega)
  simp only [Bool.false_eq_true, if_false] at h1
  simp only [if_true] at h2
  exact interleaveCloud_eq cha fuel prePadMap vtbl _ _ h1 h2

/-- In the closed form, the entries of a defined vtable `v` are its old positions
`first - PrePad .. last`, in increasing order. -/
theorem closed_filter (cha : CHA) (pp : vtbl_t → Nat) (pre : order_t) (hnd : pre.Nodup)
    (v : vtbl_t) (hv : v ∈ pre) (hd : cha.isUndefined v.1 = false)
    (h1 : (cha.getRange v).1 ≤ cha.addrPt v) (h2 : cha.addrPt v ≤ (cha.getRange v).2)
    (Rn Rp : Nat) (hRn : sweepList cha pp false pre Rn = [])
    (hRp : sweepList cha pp true pre Rp = []) :
    (negFrom cha pp pre 0 Rn ++ posFrom cha pp pre 0 Rp).filter (fun e => decide (e.1 = v)) =
      (List.range ((cha.getRange v).2 - (cha.getRange v).1 + pp v + 1)).map
        (fun (i : Nat) => ((v, ((cha.getRange v).1 : Int) - (pp v : Int) + (i : Int)) :
          interleaving_t)) := by
  have hcn := liveCount_le_rounds cha pp false pre v hv hd Rn hRn
  have hcp := liveCount_le_rounds cha pp true pre v hv hd Rp hRp
  rw [List.filter_append, negFrom_filter cha pp pre hnd v hv hd,
    posFrom_filter cha pp pre hnd v hv hd, range'_filter_lt, range'_filter_lt]
  have e1 : min (0 + Rn) (liveCount cha pp false v) - 0 = liveCount cha pp false v := by omega
  have e2 : min (0 + Rp) (liveCount cha pp true v) - 0 = liveCount cha pp true v := by omega
  rw [e1, e2]
  have hn : liveCount cha pp false v = cha.addrPt v - (cha.getRange v).1 + pp v := by
    simp only [liveCount, gapDir, initPos, initLastPos, Bool.false_eq_true, if_false]
    omega
  have hp : liveCount cha pp true v = (cha.getRange v).2 + 1 - cha.addrPt v := by
    simp only [liveCount, gapDir, initPos, initLastPos, if_true]
    omega
  have hf1 : (fun k => ((v, nthPos cha false v k) : interleaving_t)) =
      (fun (k : Nat) => ((v, (cha.addrPt v : Int) - 1 - (k : Int)) : interleaving_t)) := by
    funext k; simp [nthPos]
  have hf2 : (fun k => ((v, nthPos cha true v k) : interleaving_t)) =
      (fun (k : Nat) => ((v, (cha.addrPt v : Int) + (k : Int)) : interleaving_t)) := by
    funext k; simp [nthPos]
  rw [hf1, hf2, runs_eq, hn, hp]
  have hlen : cha.addrPt v - (cha.getRange v).1 + pp v + ((cha.getRange v).2 + 1 - cha.addrPt v) =
      (cha.getRange v).2 - (cha.getRange v).1 + pp v + 1 := by omega
  rw [hlen]
  apply List.map_congr_left
  intro i _
  congr 1
  push_cast [Nat.cast_sub h1]
  omega

theorem pos_of_getElem? (L : interleaving_list_t) (hnd : L.Nodup) (j : Nat)
    (v : vtbl_t) (x : Int) (h : L[j]? = some (v, x)) : pos L v x = j := by
  obtain ⟨hj, he⟩ := List.getElem?_eq_some_iff.1 h
  unfold pos
  rw [← he]
  exact List.indexOf_getElem hnd j hj

theorem beqInst_eq : (instBEqProd : BEq interleaving_t) = instBEqOfDecidableEq := by
  apply beq_ext
  intro x y
  rw [Bool.eq_iff_iff]
  rw [@beq_iff_eq _ instBEqProd _ x y]
  show x = y ↔ decide (x = y) = true
  simp

/-- The list built by `interleaveCloud` has no repeated entry. -/
theorem nodup_of_count (cha : CHA) (pre : order_t) (pp : vtbl_t → Nat)
    (L : interleaving_list_t)
    (hcha : ∀ n ∈ pre, cha.isUndefined n.1 = false →
      (cha.getRange n).1 ≤ cha.addrPt n ∧ cha.addrPt n ≤ (cha.getRange n).2)
    (hcount : ∀ v ∈ pre, cha.isUndefined v.1 = false →
        (cha.getRange v).1 ≤ cha.addrPt v → cha.addrPt v ≤ (cha.getRange v).2 →
        ∀ x : Int, L.count (v, x) =
          if ((cha.getRange v).1 : Int) - (pp v : Int) ≤ x ∧ x ≤ ((cha.getRange v).2 : Int)
          then 1 else 0)
    (hmem : ∀ e ∈ L, e.1 ∈ pre ∧ cha.isUndefined e.1.1 = false) : L.Nodup := by
  rw [List.nodup_iff_count_le_one, ← beqInst_eq]
  intro e
  by_cases he : e ∈ L
  · obtain ⟨h1, h2⟩ := hmem e he
    have := hcount e.1 h1 h2 (hcha e.1 h1 h2).1 (hcha e.1 h1 h2).2 e.2
    rw [show ((e.1, e.2) : interleaving_t) = e from rfl] at this
    rw [this]
    split_ifs <;> omega
  · rw [List.count_eq_zero_of_not_mem he]; omega

/-- Meaning of `NewLayoutInds` on the planner's output, over a duplicate-free preorder. -/
theorem newLayoutInds_interleaved (cha : CHA) (vtbl : vtbl_name_t) (prePadMap : vtbl_t → Nat)
    (dummyVtable : vtbl_t)
    (hnd : (cha.preorder (vtbl, 0)).Nodup)
    (hcha : ∀ n ∈ cha.preorder (vtbl, 0), cha.isUndefined n.1 = false →
      (cha.getRange n).1 ≤ cha.addrPt n ∧ cha.addrPt n ≤ (cha.getRange n).2)
    (hdummy : dummyVtable ∉ cha.preorder (vtbl, 0)) :
    ∃ L, (∃ f0, ∀ fuel, f0 ≤ fuel → interleaveCloud cha fuel prePadMap vtbl =
        some (prePadLoop cha (cha.preorder (vtbl, 0)) prePadMap, L)) ∧
      L.Nodup ∧
      ∀ v ∈ cha.preorder (vtbl, 0), cha.isUndefined v.1 = false →
        ∃ inds, calculateNewLayoutInds dummyVtable L (fun _ => none) v = some inds ∧
          inds.Pairwise (fun a b => a < b) ∧
          inds.length = (cha.getRange v).2 - (cha.getRange v).1 +
            prePadLoop cha (cha.preorder (vtbl, 0)) prePadMap v + 1 ∧
          ∀ k, k ≤ (cha.getRange v).2 - (cha.getRange v).1 +
              prePadLoop cha (cha.preorder (vtbl, 0)) prePadMap v →
            inds[k]? = some (pos L v (((cha.getRange v).1 : Int) -
              (prePadLoop cha (cha.preorder (vtbl, 0)) prePadMap v : Int) + (k : Int))) := by
  obtain ⟨Rn, Rp, ⟨f0, hf0⟩, hRn, hRp⟩ := interleaveCloud_closed cha vtbl prePadMap hnd
  obtain ⟨L', ⟨f1, hf1⟩, hcount, hmem⟩ := interleaveCloud_count cha vtbl prePadMap
  have hLL : L' = negFrom cha (prePadLoop cha (cha.preorder (vtbl, 0)) prePadMap)
            (cha.preorder (vtbl, 0)) 0 Rn ++
          posFrom cha (prePadLoop cha (cha.preorder (vtbl, 0)) prePadMap)
            (cha.preorder (vtbl, 0)) 0 Rp := by
    have a := hf0 (max f0 f1) (le_max_left _ _)
    have b := hf1 (max f0 f1) (le_max_right _ _)
    rw [a] at b
    exact ((Prod.mk.inj (Option.some.inj b)).2).symm
  subst hLL
  have hLnd := nodup_of_count cha _ _ _ hcha hcount hmem
  refine ⟨_, ⟨f0, hf0⟩, hLnd, ?_⟩
  intro v hv hd
  obtain ⟨c1, c2⟩ := hcha v hv hd
  have hF := closed_filter cha (prePadLoop cha (cha.preorder (vtbl, 0)) prePadMap)
    (cha.preorder (vtbl, 0)) hnd v hv hd c1 c2 Rn Rp (hRn Rn le_rfl) (hRp Rp le_rfl)
  have hvd : v ≠ dummyVtable := fun h => hdummy (h ▸ hv)
  have hlen := indicesOf_length v (negFrom cha (prePadLoop cha (cha.preorder (vtbl, 0)) prePadMap)
            (cha.preorder (vtbl, 0)) 0 Rn ++
          posFrom cha (prePadLoop cha (cha.preorder (vtbl, 0)) prePadMap)
            (cha.preorder (vtbl, 0)) 0 Rp) 0
  rw [hF, List.length_map, List.length_range] at hlen
  refine ⟨indicesOf v _ 0, ?_, (indicesOf_increasing v _ 0).2, hlen, ?_⟩
  · unfold calculateNewLayoutInds
    rw [newLayoutIndsLoop_eq]
    have hne : indicesOf v (negFrom cha (prePadLoop cha (cha.preorder (vtbl, 0)) prePadMap)
            (cha.preorder (vtbl, 0)) 0 Rn ++
          posFrom cha (prePadLoop cha (cha.preorder (vtbl, 0)) prePadMap)
            (cha.preorder (vtbl, 0)) 0 Rp) 0 ≠ [] := by
      intro h
      rw [h] at hlen
      simp at hlen
    rw [if_neg (by simp [hvd, hne])]
    simp
  · intro k hk
    have hget : ((negFrom cha (prePadLoop cha (cha.preorder (vtbl, 0)) prePadMap)
            (cha.preorder (vtbl, 0)) 0 Rn ++
          posFrom cha (prePadLoop cha (cha.preorder (vtbl, 0)) prePadMap)
            (cha.preorder (vtbl, 0)) 0 Rp).filter (fun e => decide (e.1 = v)))[k]? =
        some (v, ((cha.getRange v).1 : Int) -
              (prePadLoop cha (cha.preorder (vtbl, 0)) prePadMap v : Int) + (k : Int)) := by
      rw [hF, List.getElem?_map, List.getElem?_range (by omega)]
      rfl
    obtain ⟨j, hj1, hj2⟩ := indicesOf_get v _ 0 k _ hget
    rw [hj1, pos_of_getElem? _ hLnd j v _ hj2]
    simp

/-! ## Pre-pad computation -/

theorem ind_cons_self (a : vtbl_t) (l : order_t) : ind (a :: l) a = 0 := by
  unfold ind; exact List.indexOf_cons_self a l

theorem ind_cons_ne (a v : vtbl_t) (l : order_t) (h : a ≠ v) :
    ind (a :: l) v = ind l v + 1 := by
  unfold ind; exact List.indexOf_cons_ne l h

theorem ind_lt_length (pre : order_t) (v : vtbl_t) : ind pre v < pre.length ↔ v ∈ pre := by
  unfold ind; exact List.indexOf_lt_length

theorem ind_append_of_mem (l₁ l₂ : order_t) (v : vtbl_t) (h : v ∈ l₁) :
    ind (l₁ ++ l₂) v = ind l₁ v := by
  unfold ind; exact List.indexOf_append_of_mem h

theorem ind_append_of_not_mem (l₁ l₂ : order_t) (v : vtbl_t) (h : v ∉ l₁) :
    ind (l₁ ++ l₂) v = l₁.length + ind l₂ v := by
  unfold ind; exact List.indexOf_append_of_not_mem h

theorem ind_inj (pre : order_t) (a b : vtbl_t) (ha : a ∈ pre) (hb : b ∈ pre)
    (h : ind pre a = ind pre b) : a = b := by
  unfold ind at h
  exact (List.indexOf_inj ha hb).1 h

theorem buildIndMapFrom_eq (vs : List vtbl_t) :
    ∀ (i : Nat) (m : vtbl_t → Nat), vs.Nodup →
      ∀ v, buildIndMapFrom vs i m v = if v ∈ vs then i + ind vs v else m v := by
  induction vs with
  | nil => intro i m _ v; simp [buildIndMapFrom]
  | cons a vs ih =>
    intro i m hnd v
    have ha : a ∉ vs := (List.nodup_cons.1 hnd).1
    rw [buildIndMapFrom, ih _ _ (List.nodup_cons.1 hnd).2]
    by_cases hv : v ∈ vs
    · have hne : a ≠ v := fun h => ha (h ▸ hv)
      rw [if_pos hv, if_pos (List.mem_cons_of_mem _ hv), ind_cons_ne a v vs hne]
      omega
    · rw [if_neg hv]
      by_cases hva : v = a
      · subst hva
        rw [upd_same, if_pos (List.mem_cons_self _ _), ind_cons_self]
        rfl
      · rw [upd_other _ _ _ _ hva, if_neg (by simp [hva, hv])]

/-- On a duplicate-free preorder `indMap` gives the position of each member. -/
theorem buildIndMap_eq (pre : order_t) (hnd : pre.Nodup) (v : vtbl_t) (hv : v ∈ pre) :
    buildIndMap pre v = ind pre v := by
  unfold buildIndMap
  rw [buildIndMapFrom_eq pre 0 _ hnd, if_pos hv]
  omega

/-- The inner loop for a defined parent `p` none of whose listed children is skipped:
each listed child receives the padding that lifts it to the parent's padded address-point
offset; nothing else changes. -/
theorem prePadChild_foldl (cha : CHA) (indMap : vtbl_t → Nat) (p : vtbl_t)
    (hp : cha.isUndefined p.1 = false) (cs : List vtbl_t) :
    ∀ (pp : vtbl_t → Nat), p ∉ cs → (∀ c ∈ cs, ¬ indMap c < indMap p) →
      (∀ c ∈ cs, pp c = 0 ∨ pp c = relAddrPt cha p + pp p - relAddrPt cha c) →
      (∀ v, v ∉ cs → cs.foldl (prePadChild cha indMap p) pp v = pp v) ∧
      (∀ c ∈ cs, cs.foldl (prePadChild cha indMap p) pp c =
        relAddrPt cha p + pp p - relAddrPt cha c) := by
  induction cs with
  | nil => intro pp _ _ _; simp
  | cons c cs ih =>
    intro pp hpc hskip hz
    have hcp : p ≠ c := fun h => hpc (h ▸ List.mem_cons_self _ _)
    have hpcs : p ∉ cs := fun h => hpc (List.mem_cons_of_mem _ h)
    have hc0 := hz c (List.mem_cons_self _ _)
    have hstep : prePadChild cha indMap p pp c =
        upd pp c (relAddrPt cha p + pp p - relAddrPt cha c) := by
      unfold prePadChild
      rw [if_neg (by simp [hp]), if_neg (hskip c (List.mem_cons_self _ _))]
      simp only [relAddrPt] at hc0 ⊢
      have hval : (if cha.addrPt p - (cha.getRange p).1 + pp p >
            cha.addrPt c - (cha.getRange c).1 + pp c then
          cha.addrPt p - (cha.getRange p).1 + pp p - (cha.addrPt c - (cha.getRange c).1 + pp c)
          else pp c) =
          cha.addrPt p - (cha.getRange p).1 + pp p - (cha.addrPt c - (cha.getRange c).1) := by
        split_ifs <;> omega
      rw [hval]
    rw [List.foldl_cons, hstep]
    have hp1 : upd pp c (relAddrPt cha p + pp p - relAddrPt cha c) p = pp p :=
      upd_other _ _ _ _ hcp
    obtain ⟨h1, h2⟩ := ih (upd pp c (relAddrPt cha p + pp p - relAddrPt cha c)) hpcs
      (fun c' hc' => hskip c' (List.mem_cons_of_mem _ hc'))
      (fun c' hc' => by
        rw [hp1]
        by_cases h : c' = c
        · subst h; right; rw [upd_same]
        · rw [upd_other _ _ _ _ h]; exact hz c' (List.mem_cons_of_mem _ hc'))
    rw [hp1] at h2
    constructor
    · intro v hv
      have hvc : v ≠ c := fun h => hv (h ▸ List.mem_cons_self _ _)
      rw [h1 v (fun h => hv (List.mem_cons_of_mem _ h)), upd_other _ _ _ _ hvc]
    · intro c' hc'
      by_cases hmem : c' ∈ cs
      · exact h2 c' hmem
      · have : c' = c := by
          rcases List.mem_cons.1 hc' with h | h
          · exact h
          · exact absurd h hmem
        subst this
        rw [h1 c' hmem, upd_same]

/-- Invariant of the outer pre-pad loop on a forest: children of processed defined parents
carry exactly the padding that lifts them to their parent, all other nodes carry none. -/
theorem prePadLoop_inv (cha : CHA) (pre : order_t) (hf : IsForest cha pre) :
    ∀ (todo done : List vtbl_t) (pp : vtbl_t → Nat), pre = done ++ todo →
      (∀ c ∈ pre, (∀ p ∈ done, cha.isUndefined p.1 = false → c ∉ cha.children p) → pp c = 0) →
      (∀ p ∈ done, cha.isUndefined p.1 = false → ∀ c ∈ cha.children p,
        pp c = relAddrPt cha p + pp p - relAddrPt cha c) →
      ∀ p ∈ pre, cha.isUndefined p.1 = false → ∀ c ∈ cha.children p,
        todo.foldl (prePadParent cha (buildIndMap pre)) pp c =
          relAddrPt cha p + todo.foldl (prePadParent cha (buildIndMap pre)) pp p -
            relAddrPt cha c := by
  obtain ⟨hnd, hforest⟩ := hf
  intro todo
  induction todo with
  | nil =>
    intro done pp hpre _ h2 p hp hd c hc
    rw [List.append_nil] at hpre
    subst hpre
    exact h2 p hp hd c hc
  | cons p rest ih =>
    intro done pp hpre h1 h2
    have hpmem : p ∈ pre := by rw [hpre]; simp
    have hnd' : (done ++ p :: rest).Nodup := hpre ▸ hnd
    have hpdone : p ∉ done := by
      intro h
      exact (List.nodup_append.1 hnd').2.2 h (List.mem_cons_self _ _)
    have hindp : ind pre p = done.length := by
      rw [hpre, ind_append_of_not_mem _ _ _ hpdone, ind_cons_self]; rfl
    have hinddone : ∀ q ∈ done, ind pre q < done.length := by
      intro q hq
      rw [hpre, ind_append_of_mem _ _ _ hq]
      exact (ind_lt_length done q).2 hq
    have hdonepre : ∀ q ∈ done, q ∈ pre := by
      intro q hq; rw [hpre]; exact List.mem_append_left _ hq
    rw [List.foldl_cons]
    apply ih (done ++ [p]) (prePadParent cha (buildIndMap pre) pp p) (by rw [hpre]; simp)
    · -- untouched nodes
      intro c hcpre hc
      have hc' : ∀ q ∈ done, cha.isUndefined q.1 = false → c ∉ cha.children q :=
        fun q hq => hc q (List.mem_append_left _ hq)
      unfold prePadParent
      by_cases hd : cha.isUndefined p.1 = true
      · rw [if_pos hd]; exact h1 c hcpre hc'
      · rw [if_neg hd]
        have hd' : cha.isUndefined p.1 = false := by simpa using hd
        have hcp : c ∉ cha.children p := hc p (by simp) hd'
        have hpp : p ∉ cha.children p := by
          intro h
          have := (hforest p hpmem p h).2.1
          omega
        obtain ⟨a1, _⟩ := prePadChild_foldl cha (buildIndMap pre) p hd' (cha.children p) pp hpp
          (fun c' hc' => by
            have hh := hforest p hpmem c' hc'
            rw [buildIndMap_eq pre hnd c' hh.1, buildIndMap_eq pre hnd p hpmem]
            omega)
          (fun c' hc' => by
            left
            apply h1 c' (hforest p hpmem c' hc').1
            intro q hq _ hcq
            have hh := hforest p hpmem c' hc'
            have := hh.2.2 q (hdonepre q hq) hcq
            exact hpdone (this ▸ hq))
        rw [a1 c hcp]
        exact h1 c hcpre hc'
    · -- processed parents
      intro q hq hqd c hc
      unfold prePadParent
      by_cases hd : cha.isUndefined p.1 = true
      · rw [if_pos hd]
        rcases List.mem_append.1 hq with hq' | hq'
        · exact h2 q hq' hqd c hc
        · have : q = p := by simpa using hq'
          rw [this, hd] at hqd
          exact absurd hqd (by simp)
      · rw [if_neg hd]
        have hd' : cha.isUndefined p.1 = false := by simpa using hd
        have hpp : p ∉ cha.children p := by
          intro h
          have := (hforest p hpmem p h).2.1
          omega
        obtain ⟨a1, a2⟩ := prePadChild_foldl cha (buildIndMap pre) p hd' (cha.children p) pp hpp
          (fun c' hc' => by
            have hh := hforest p hpmem c' hc'
            rw [buildIndMap_eq pre hnd c' hh.1, buildIndMap_eq pre hnd p hpmem]
            omega)
          (fun c' hc' => by
            left
            apply h1 c' (hforest p hpmem c' hc').1
            intro q' hq' _ hcq
            have hh := hforest p hpmem c' hc'
            have := hh.2.2 q' (hdonepre q' hq') hcq
            exact hpdone (this ▸ hq'))
        rcases List.mem_append.1 hq with hq' | hq'
        · have hcp : c ∉ cha.children p := by
            intro h
            have hh := hforest q (hdonepre q hq') c hc
            have := hh.2.2 p hpmem h
            exact hpdone (this ▸ hq')
          have hqp : q ∉ cha.children p := by
            intro h
            have := (hforest p hpmem q h).2.1
            have := hinddone q hq'
            omega
          rw [a1 c hcp, a1 q hqp]
          exact h2 q hq' hqd c hc
        · have : q = p := by simpa using hq'
          subst this
          rw [a2 c hc, a1 q hpp]

/-- Result of the pre-pad loop on a forest whose nodes start without padding. -/
theorem prePadLoop_forest (cha : CHA) (pre : order_t) (hf : IsForest cha pre)
    (pp0 : vtbl_t → Nat) (h0 : ∀ v ∈ pre, pp0 v = 0) :
    ∀ p ∈ pre, cha.isUndefined p.1 = false → ∀ c ∈ cha.children p,
      prePadLoop cha pre pp0 c =
        relAddrPt cha p + prePadLoop cha pre pp0 p - relAddrPt cha c :=
  prePadLoop_inv cha pre hf pre [] pp0 rfl (fun c hc _ => h0 c hc) (fun p hp => by simp at hp)

/-! ## Depth-first preorders -/

theorem part_flatMap_of_mem (f : vtbl_t → List vtbl_t) (cs : List vtbl_t) (c : vtbl_t)
    (hc : c ∈ cs) : f c <:+: cs.flatMap f := by
  unfold List.flatMap
  exact List.infix_of_mem_flatten (List.mem_map_of_mem f hc)

/-- In a depth-first preorder the preorder of every listed node is a contiguous part of the
preorder of the node it is listed under, and it is reachable from that node. -/
theorem dfs_sub (cha : CHA) (root : vtbl_t) (hf : IsForest cha (cha.preorder root))
    (hdfs : IsDepthFirst cha root) :
    ∀ (n : Nat) (u : vtbl_t), u ∈ cha.preorder root → (cha.preorder u).length = n →
      ∀ v ∈ cha.preorder u, v ∈ cha.preorder root ∧ cha.preorder v <:+: cha.preorder u ∧
        Relation.ReflTransGen (childEdge cha) u v := by
  intro n
  induction n using Nat.strong_induction_on with
  | _ n ih =>
    intro u hu hlen v hv
    have heq := hdfs.2 u hu
    rw [heq] at hv
    rcases List.mem_cons.1 hv with h | h
    · subst h
      exact ⟨hu, List.infix_refl _, Relation.ReflTransGen.refl⟩
    · obtain ⟨c, hc, hvc⟩ := List.mem_flatMap.1 h
      have hcpre : c ∈ cha.preorder root := (hf.2 u hu c hc).1
      have hinf : cha.preorder c <:+: (cha.children u).flatMap cha.preorder :=
        part_flatMap_of_mem cha.preorder _ c hc
      have hlt : (cha.preorder c).length < n := by
        have := hinf.length_le
        rw [← hlen, heq, List.length_cons]
        omega
      obtain ⟨a1, a2, a3⟩ := ih _ hlt c hcpre rfl v hvc
      refine ⟨a1, ?_, Relation.ReflTransGen.head hc a3⟩
      rw [heq]
      exact a2.trans (hinf.trans (List.suffix_cons _ _).isInfix)

theorem mem_preorder_self (cha : CHA) (root : vtbl_t) (hdfs : IsDepthFirst cha root)
    (v : vtbl_t) (hv : v ∈ cha.preorder root) : v ∈ cha.preorder v := by
  rw [hdfs.2 v hv]; exact List.mem_cons_self _ _

/-- The subtree of a node occupies the contiguous block of preorder positions that starts
at the node. -/
theorem dfs_block (cha : CHA) (root : vtbl_t) (hf : IsForest cha (cha.preorder root))
    (hdfs : IsDepthFirst cha root) (v : vtbl_t) (hv : v ∈ cha.preorder root) :
    ∃ s t, cha.preorder root = s ++ cha.preorder v ++ t ∧ s.length = ind (cha.preorder root) v := by
  obtain ⟨_, ⟨s, t, hst⟩, _⟩ := dfs_sub cha root hf hdfs _ root hdfs.1 rfl v hv
  refine ⟨s, t, hst.symm, ?_⟩
  have hnd : (s ++ cha.preorder v ++ t).Nodup := hst ▸ hf.1
  have hvs : v ∉ s := by
    intro h
    have h1 : (s ++ cha.preorder v).Nodup := (List.nodup_append.1 hnd).1
    exact (List.nodup_append.1 h1).2.2 h (mem_preorder_self cha root hdfs v hv)
  rw [← hst, List.append_assoc, ind_append_of_not_mem _ _ _ hvs, hdfs.2 v hv]
  simp [ind_cons_self]

/-- Every node listed from `p` up to (not including) a node of the subtree of `p` belongs to
the subtree of `p`. -/
theorem dfs_segment (cha : CHA) (root : vtbl_t) (hf : IsForest cha (cha.preorder root))
    (hdfs : IsDepthFirst cha root) (p c : vtbl_t) (hp : p ∈ cha.preorder root)
    (hc : c ∈ cha.preorder p) (m : vtbl_t) (hm : m ∈ cha.preorder root)
    (h1 : ind (cha.preorder root) p ≤ ind (cha.preorder root) m)
    (h2 : ind (cha.preorder root) m < ind (cha.preorder root) c) :
    m ∈ cha.preorder p := by
  obtain ⟨s, t, hst, hs⟩ := dfs_block cha root hf hdfs p hp
  have hnd : (s ++ cha.preorder p ++ t).Nodup := hst ▸ hf.1
  have hcs : c ∉ s := by
    intro h
    have h1 : (s ++ cha.preorder p).Nodup := (List.nodup_append.1 hnd).1
    exact (List.nodup_append.1 h1).2.2 h hc
  have hic : ind (cha.preorder root) c < s.length + (cha.preorder p).length := by
    rw [hst, List.append_assoc, ind_append_of_not_mem _ _ _ hcs,
      ind_append_of_mem _ _ _ hc]
    have := (ind_lt_length (cha.preorder p) c).2 hc
    omega
  rw [hst] at hm
  rcases List.mem_append.1 hm with h | h
  · rcases List.mem_append.1 h with h' | h'
    · have : ind (cha.preorder root) m < s.length := by
        rw [hst, List.append_assoc, ind_append_of_mem _ _ _ h']
        exact (ind_lt_length s m).2 h'
      omega
    · exact h'
  · by_contra hmp
    have hms : m ∉ s ++ cha.preorder p := by
      intro h'
      rcases List.mem_append.1 h' with h'' | h''
      · have : ind (cha.preorder root) m < s.length := by
          rw [hst, List.append_assoc, ind_append_of_mem _ _ _ h'']
          exact (ind_lt_length s m).2 h''
        omega
      · exact hmp h''
    have : ind (cha.preorder root) m =
        (s ++ cha.preorder p).length + ind t m := by
      rw [hst, ind_append_of_not_mem _ _ _ hms]
    rw [List.length_append] at this
    omega

/-- A quantity that does not decrease from parent to child does not decrease from a node
to the nodes of its subtree. -/
theorem mono_of_reach (cha : CHA) (pre : order_t) (hf : IsForest cha pre) (f : vtbl_t → Nat)
    (hedge : ∀ p ∈ pre, ∀ c ∈ cha.children p, f p ≤ f c) (p m : vtbl_t) (hp : p ∈ pre)
    (h : Relation.ReflTransGen (childEdge cha) p m) : m ∈ pre ∧ f p ≤ f m := by
  induction h with
  | refl => exact ⟨hp, le_rfl⟩
  | tail _ hbc ih =>
    obtain ⟨hb, hle⟩ := ih
    exact ⟨(hf.2 _ hb _ hbc).1, le_trans hle (hedge _ hb _ hbc)⟩

/-! ## Positions of entries in the closed form -/

theorem pos_append_of_mem (L₁ L₂ : interleaving_list_t) (v : vtbl_t) (x : Int)
    (h : (v, x) ∈ L₁) : pos (L₁ ++ L₂) v x = pos L₁ v x := by
  unfold pos; exact List.indexOf_append_of_mem h

theorem pos_append_of_not_mem (L₁ L₂ : interleaving_list_t) (v : vtbl_t) (x : Int)
    (h : (v, x) ∉ L₁) : pos (L₁ ++ L₂) v x = L₁.length + pos L₂ v x := by
  unfold pos; exact List.indexOf_append_of_not_mem h

theorem pos_cons_self (L : interleaving_list_t) (v : vtbl_t) (x : Int) :
    pos ((v, x) :: L) v x = 0 := by
  unfold pos; exact List.indexOf_cons_self _ _

theorem pos_cons_ne (L : interleaving_list_t) (e : interleaving_t) (v : vtbl_t) (x : Int)
    (h : e ≠ (v, x)) : pos (e :: L) v x = pos L v x + 1 := by
  unfold pos; exact List.indexOf_cons_ne _ h

theorem mem_sweepList (cha : CHA) (pp : vtbl_t → Nat) (b : Bool) (pre : order_t) (k : Nat)
    (n : vtbl_t) (x : Int) :
    (n, x) ∈ sweepList cha pp b pre k ↔
      n ∈ pre ∧ cha.isUndefined n.1 = false ∧ k < liveCount cha pp b n ∧
        x = nthPos cha b n k := by
  unfold sweepList
  simp only [List.mem_map, List.mem_filter, Bool.and_eq_true, Bool.not_eq_true',
    decide_eq_true_eq, Prod.mk.injEq]
  constructor
  · rintro ⟨m, ⟨hm, hd, hk⟩, rfl, rfl⟩
    exact ⟨hm, hd, hk, rfl⟩
  · rintro ⟨hm, hd, hk, rfl⟩
    exact ⟨n, ⟨hm, hd, hk⟩, rfl, rfl⟩

theorem nthPos_inj (cha : CHA) (b : Bool) (n : vtbl_t) (i k : Nat)
    (h : nthPos cha b n i = nthPos cha b n k) : i = k := by
  revert h
  cases b <;> simp only [nthPos, Bool.false_eq_true, if_false, if_true] <;> omega

theorem mem_negFrom (cha : CHA) (pp : vtbl_t → Nat) (pre : order_t) (e : interleaving_t) :
    ∀ (m j : Nat), e ∈ negFrom cha pp pre j m ↔
      ∃ i, j ≤ i ∧ i < j + m ∧ e ∈ sweepList cha pp false pre i := by
  intro m
  induction m with
  | zero => intro j; simp [negFrom]; intro i h1 h2; omega
  | succ m ih =>
    intro j
    rw [negFrom, List.mem_append, ih]
    constructor
    · rintro (⟨i, h1, h2, h3⟩ | h)
      · exact ⟨i, by omega, by omega, h3⟩
      · exact ⟨j, le_rfl, by omega, h⟩
    · rintro ⟨i, h1, h2, h3⟩
      by_cases hij : i = j
      · right; rw [← hij]; exact h3
      · left; exact ⟨i, by omega, by omega, h3⟩

/-- An entry of round `k` is in no other round. -/
theorem not_mem_sweepList_of_ne (cha : CHA) (pp : vtbl_t → Nat) (b : Bool) (pre : order_t)
    (i k : Nat) (hik : i ≠ k) (n : vtbl_t) :
    (n, nthPos cha b n k) ∉ sweepList cha pp b pre i := by
  intro h
  have := ((mem_sweepList cha pp b pre i n _).1 h).2.2.2
  exact hik (nthPos_inj cha b n i k this.symm)

/-- Inside the positive part, the entries of round `k` sit at a common offset. -/
theorem posFrom_pos (cha : CHA) (pp : vtbl_t → Nat) (pre : order_t) (k : Nat) :
    ∀ (m j : Nat), j ≤ k → k < j + m →
      ∃ A : Nat, ∀ n, (n, nthPos cha true n k) ∈ sweepList cha pp true pre k →
        pos (posFrom cha pp pre j m) n (nthPos cha true n k) =
          A + pos (sweepList cha pp true pre k) n (nthPos cha true n k) := by
  intro m
  induction m with
  | zero => intro j h1 h2; omega
  | succ m ih =>
    intro j h1 h2
    by_cases hjk : j = k
    · subst hjk
      refine ⟨0, fun n hn => ?_⟩
      rw [posFrom, pos_append_of_mem _ _ _ _ hn]
      omega
    · obtain ⟨A, hA⟩ := ih (j + 1) (by omega) (by omega)
      refine ⟨(sweepList cha pp true pre j).length + A, fun n hn => ?_⟩
      rw [posFrom, pos_append_of_not_mem _ _ _ _
        (not_mem_sweepList_of_ne cha pp true pre j k hjk n), hA n hn]
      omega

/-- Inside the negative part, the entries of round `k` sit at a common offset. -/
theorem negFrom_pos (cha : CHA) (pp : vtbl_t → Nat) (pre : order_t) (k : Nat) :
    ∀ (m j : Nat), j ≤ k → k < j + m →
      ∃ A : Nat, ∀ n, (n, nthPos cha false n k) ∈ sweepList cha pp false pre k →
        pos (negFrom cha pp pre j m) n (nthPos cha false n k) =
          A + pos (sweepList cha pp false pre k) n (nthPos cha false n k) := by
  intro m
  induction m with
  | zero => intro j h1 h2; omega
  | succ m ih =>
    intro j h1 h2
    by_cases hjk : j = k
    · subst hjk
      refine ⟨(negFrom cha pp pre (j + 1) m).length, fun n hn => ?_⟩
      have hnot : (n, nthPos cha false n j) ∉ negFrom cha pp pre (j + 1) m := by
        intro h
        obtain ⟨i, h1, _, h3⟩ := (mem_negFrom cha pp pre _ m (j + 1)).1 h
        exact not_mem_sweepList_of_ne cha pp false pre i j (by omega) n h3
      rw [negFrom, pos_append_of_not_mem _ _ _ _ hnot]
    · obtain ⟨A, hA⟩ := ih (j + 1) (by omega) (by omega)
      refine ⟨A, fun n hn => ?_⟩
      have hmem : (n, nthPos cha false n k) ∈ negFrom cha pp pre (j + 1) m :=
        (mem_negFrom cha pp pre _ m (j + 1)).2 ⟨k, by omega, by omega, hn⟩
      rw [negFrom, pos_append_of_mem _ _ _ _ hmem, hA n hn]

/-! ## Relative position of two nodes inside one round -/

theorem pos_filter_head (q : vtbl_t → Bool) (g : vtbl_t → Int) (l : order_t) :
    l.Nodup → ∀ c ∈ l, (∀ m ∈ l, ind l m ≤ ind l c → q m = true) →
      pos ((l.filter q).map (fun n => (n, g n))) c (g c) = ind l c := by
  induction l with
  | nil => intro _ c hc; simp at hc
  | cons a l ih =>
    intro hnd c hc hq
    have ha : a ∉ l := (List.nodup_cons.1 hnd).1
    have hqa : q a = true := hq a (List.mem_cons_self _ _) (by rw [ind_cons_self]; omega)
    rw [List.filter_cons_of_pos hqa, List.map_cons]
    by_cases hac : a = c
    · subst hac
      rw [pos_cons_self, ind_cons_self]
    · have hcl : c ∈ l := by
        rcases List.mem_cons.1 hc with h | h
        · exact absurd h.symm hac
        · exact h
      have hne : ((a, g a) : interleaving_t) ≠ (c, g c) := fun h => hac (Prod.mk.inj h).1
      rw [pos_cons_ne _ _ _ _ hne, ind_cons_ne a c l hac,
        ih (List.nodup_cons.1 hnd).2 c hcl]
      intro m hm hle
      have hma : a ≠ m := fun h => ha (h ▸ hm)
      apply hq m (List.mem_cons_of_mem _ hm)
      rw [ind_cons_ne a m l hma, ind_cons_ne a c l hac]
      omega

/-- When every node listed from `p` up to `c` contributes to a round, the entries of `p` and
`c` in that round are as far apart as `p` and `c` are in the preorder. -/
theorem pos_filter_shift (q : vtbl_t → Bool) (g : vtbl_t → Int) (l : order_t) :
    l.Nodup → ∀ p ∈ l, ∀ c ∈ l, ind l p ≤ ind l c →
      (∀ m ∈ l, ind l p ≤ ind l m → ind l m ≤ ind l c → q m = true) →
      pos ((l.filter q).map (fun n => (n, g n))) c (g c) =
        pos ((l.filter q).map (fun n => (n, g n))) p (g p) + (ind l c - ind l p) := by
  induction l with
  | nil => intro _ p hp; simp at hp
  | cons a l ih =>
    intro hnd p hp c hc hle hq
    have ha : a ∉ l := (List.nodup_cons.1 hnd).1
    by_cases hap : a = p
    · subst hap
      have hqa : q a = true :=
        hq a (List.mem_cons_self _ _) le_rfl (by rw [ind_cons_self]; omega)
      rw [pos_filter_head q g (a :: l) hnd c hc
        (fun m hm hmc => hq m hm (by rw [ind_cons_self]; omega) hmc)]
      rw [List.filter_cons_of_pos hqa, List.map_cons, pos_cons_self, ind_cons_self]
      omega
    · have hpl : p ∈ l := by
        rcases List.mem_cons.1 hp with h | h
        · exact absurd h.symm hap
        · exact h
      have hac : a ≠ c := by
        intro h
        subst h
        rw [ind_cons_self, ind_cons_ne a p l hap] at hle
        omega
      have hcl : c ∈ l := by
        rcases List.mem_cons.1 hc with h | h
        · exact absurd h.symm hac
        · exact h
      have hne1 : ((a, g a) : interleaving_t) ≠ (c, g c) := fun h => hac (Prod.mk.inj h).1
      have hne2 : ((a, g a) : interleaving_t) ≠ (p, g p) := fun h => hap (Prod.mk.inj h).1
      rw [ind_cons_ne a p l hap, ind_cons_ne a c l hac] at hle ⊢
      have hih := ih (List.nodup_cons.1 hnd).2 p hpl c hcl (by omega)
        (fun m hm h1 h2 => by
          have hma : a ≠ m := fun h => ha (h ▸ hm)
          apply hq m (List.mem_cons_of_mem _ hm)
          · rw [ind_cons_ne a m l hma, ind_cons_ne a p l hap]; omega
          · rw [ind_cons_ne a m l hma, ind_cons_ne a c l hac]; omega)
      by_cases hqa : q a = true
      · rw [List.filter_cons_of_pos hqa, List.map_cons, pos_cons_ne _ _ _ _ hne1,
          pos_cons_ne _ _ _ _ hne2, hih]
        omega
      · rw [List.filter_cons_of_neg hqa, hih]
        omega

/-- Instance of `pos_filter_shift` for round `k` of a side of the interleaver. -/
theorem sweepList_shift (cha : CHA) (pp : vtbl_t → Nat) (b : Bool) (pre : order_t)
    (hnd : pre.Nodup) (k : Nat) (p c : vtbl_t) (hp : p ∈ pre) (hc : c ∈ pre)
    (hle : ind pre p ≤ ind pre c)
    (hq : ∀ m ∈ pre, ind pre p ≤ ind pre m → ind pre m ≤ ind pre c →
      cha.isUndefined m.1 = false ∧ k < liveCount cha pp b m) :
    pos (sweepList cha pp b pre k) c (nthPos cha b c k) =
      pos (sweepList cha pp b pre k) p (nthPos cha b p k) + (ind pre c - ind pre p) := by
  unfold sweepList
  exact pos_filter_shift _ (fun n => nthPos cha b n k) pre hnd p hp c hc hle
    (fun m hm h1 h2 => by
      have := hq m hm h1 h2
      simp [this.1, this.2])

/-! ## Index agreement -/

/-- In the list `negative ++ positive`, the entries of round `k` of either side sit at a
common offset from their position inside the round. -/
theorem closed_pos (cha : CHA) (pp : vtbl_t → Nat) (pre : order_t) (Rn Rp : Nat)
    (hRn : ∀ j, Rn ≤ j → sweepList cha pp false pre j = [])
    (hRp : ∀ j, Rp ≤ j → sweepList cha pp true pre j = []) (b : Bool) (k : Nat) :
    ∃ A : Nat, ∀ n, (n, nthPos cha b n k) ∈ sweepList cha pp b pre k →
      pos (negFrom cha pp pre 0 Rn ++ posFrom cha pp pre 0 Rp) n (nthPos cha b n k) =
        A + pos (sweepList cha pp b pre k) n (nthPos cha b n k) := by
  cases b with
  | true =>
    by_cases hk : k < Rp
    · obtain ⟨A, hA⟩ := posFrom_pos cha pp pre k Rp 0 (by omega) (by omega)
      refine ⟨(negFrom cha pp pre 0 Rn).length + A, fun n hn => ?_⟩
      have hnot : (n, nthPos cha true n k) ∉ negFrom cha pp pre 0 Rn := by
        intro h
        obtain ⟨i, _, _, h3⟩ := (mem_negFrom cha pp pre _ Rn 0).1 h
        have := ((mem_sweepList cha pp false pre i n _).1 h3).2.2.2
        simp only [nthPos, Bool.false_eq_true, if_false, if_true] at this
        omega
      rw [pos_append_of_not_mem _ _ _ _ hnot, hA n hn]
      omega
    · refine ⟨0, fun n hn => ?_⟩
      rw [hRp k (by omega)] at hn
      simp at hn
  | false =>
    by_cases hk : k < Rn
    · obtain ⟨A, hA⟩ := negFrom_pos cha pp pre k Rn 0 (by omega) (by omega)
      refine ⟨A, fun n hn => ?_⟩
      have hmem : (n, nthPos cha false n k) ∈ negFrom cha pp pre 0 Rn :=
        (mem_negFrom cha pp pre _ Rn 0).2 ⟨k, by omega, by omega, hn⟩
      rw [pos_append_of_mem _ _ _ _ hmem, hA n hn]
    · refine ⟨0, fun n hn => ?_⟩
      rw [hRn k (by omega)] at hn
      simp at hn

/-- In a depth-first forest, between a parent and one of its children (both included) the
preorder lists only nodes of the parent's subtree. -/
theorem between_reach (cha : CHA) (root : vtbl_t) (hf : IsForest cha (cha.preorder root))
    (hdfs : IsDepthFirst cha root) (p c : vtbl_t) (hp : p ∈ cha.preorder root)
    (hc : c ∈ cha.children p) (m : vtbl_t) (hm : m ∈ cha.preorder root)
    (h1 : ind (cha.preorder root) p ≤ ind (cha.preorder root) m)
    (h2 : ind (cha.preorder root) m ≤ ind (cha.preorder root) c) :
    Relation.ReflTransGen (childEdge cha) p m := by
  have hcpre : c ∈ cha.preorder root := (hf.2 p hp c hc).1
  have hcp : c ∈ cha.preorder p := by
    rw [hdfs.2 p hp]
    apply List.mem_cons_of_mem
    exact List.mem_flatMap.2 ⟨c, hc, mem_preorder_self cha root hdfs c hcpre⟩
  have hmp : m ∈ cha.preorder p := by
    by_cases heq : ind (cha.preorder root) m = ind (cha.preorder root) c
    · rw [ind_inj _ m c hm hcpre heq]; exact hcp
    · exact dfs_segment cha root hf hdfs p c hp hcp m hm h1 (by omega)
  exact (dfs_sub cha root hf hdfs _ p hp rfl m hmp).2.2

/-- In every round in which the parent contributes, the child's entry lies `ind c - ind p`
list positions after the parent's. -/
theorem round_shift (cha : CHA) (root : vtbl_t) (pp : vtbl_t → Nat)
    (hf : IsForest cha (cha.preorder root)) (hdfs : IsDepthFirst cha root)
    (hdef : ∀ n ∈ cha.preorder root, cha.isUndefined n.1 = false)
    (Rn Rp : Nat)
    (hRn : ∀ j, Rn ≤ j → sweepList cha pp false (cha.preorder root) j = [])
    (hRp : ∀ j, Rp ≤ j → sweepList cha pp true (cha.preorder root) j = [])
    (b : Bool)
    (hedge : ∀ p ∈ cha.preorder root, ∀ c ∈ cha.children p,
      liveCount cha pp b p ≤ liveCount cha pp b c)
    (p c : vtbl_t) (hp : p ∈ cha.preorder root) (hc : c ∈ cha.children p)
    (k : Nat) (hk : k < liveCount cha pp b p) :
    pos (negFrom cha pp (cha.preorder root) 0 Rn ++ posFrom cha pp (cha.preorder root) 0 Rp)
        c (nthPos cha b c k) =
      pos (negFrom cha pp (cha.preorder root) 0 Rn ++ posFrom cha pp (cha.preorder root) 0 Rp)
        p (nthPos cha b p k) + (ind (cha.preorder root) c - ind (cha.preorder root) p) := by
  obtain ⟨hcpre, hlt, _⟩ := hf.2 p hp c hc
  obtain ⟨A, hA⟩ := closed_pos cha pp (cha.preorder root) Rn Rp hRn hRp b k
  have hkc : k < liveCount cha pp b c := lt_of_lt_of_le hk (hedge p hp c hc)
  rw [hA p ((mem_sweepList cha pp b _ k p _).2 ⟨hp, hdef p hp, hk, rfl⟩),
    hA c ((mem_sweepList cha pp b _ k c _).2 ⟨hcpre, hdef c hcpre, hkc, rfl⟩),
    sweepList_shift cha pp b (cha.preorder root) hf.1 k p c hp hcpre (le_of_lt hlt)
      (fun m hm h1 h2 => by
        refine ⟨hdef m hm, ?_⟩
        have hr := between_reach cha root hf hdfs p c hp hc m hm h1 h2
        have := (mono_of_reach cha (cha.preorder root) hf (liveCount cha pp b) hedge p m hp hr).2
        omega)]
  omega

theorem liveCount_pos_eq (cha : CHA) (pp : vtbl_t → Nat) (n : vtbl_t)
    (h : cha.addrPt n ≤ (cha.getRange n).2) :
    liveCount cha pp true n = (cha.getRange n).2 - cha.addrPt n + 1 := by
  simp only [liveCount, gapDir, initPos, initLastPos, if_true]
  omega

theorem liveCount_neg_eq (cha : CHA) (pp : vtbl_t → Nat) (n : vtbl_t)
    (h : (cha.getRange n).1 ≤ cha.addrPt n) :
    liveCount cha pp false n = relAddrPt cha n + pp n := by
  simp only [liveCount, gapDir, initPos, initLastPos, relAddrPt, Bool.false_eq_true, if_false]
  omega

/-- Index agreement on the closed form. -/
theorem agreement_closed (cha : CHA) (root : vtbl_t) (pp : vtbl_t → Nat)
    (hf : IsForest cha (cha.preorder root)) (hdfs : IsDepthFirst cha root)
    (hranges : RangesOk cha (cha.preorder root))
    (hdef : ∀ n ∈ cha.preorder root, cha.isUndefined n.1 = false)
    (hbefore : ∀ p ∈ cha.preorder root, ∀ c ∈ cha.children p,
      relAddrPt cha p + pp p ≤ relAddrPt cha c + pp c)
    (hafter : ∀ p ∈ cha.preorder root, ∀ c ∈ cha.children p,
      (cha.getRange p).2 - cha.addrPt p ≤ (cha.getRange c).2 - cha.addrPt c)
    (Rn Rp : Nat)
    (hRn : ∀ j, Rn ≤ j → sweepList cha pp false (cha.preorder root) j = [])
    (hRp : ∀ j, Rp ≤ j → sweepList cha pp true (cha.preorder root) j = [])
    (p c : vtbl_t) (hp : p ∈ cha.preorder root) (hc : c ∈ cha.children p)
    (i : Int) (h1 : ((cha.getRange p).1 : Int) - (pp p : Int) ≤ i)
    (h2 : i ≤ ((cha.getRange p).2 : Int)) :
    (pos (negFrom cha pp (cha.preorder root) 0 Rn ++ posFrom cha pp (cha.preorder root) 0 Rp)
        p i : Int) -
      (pos (negFrom cha pp (cha.preorder root) 0 Rn ++ posFrom cha pp (cha.preorder root) 0 Rp)
        p (cha.addrPt p) : Int) =
    (pos (negFrom cha pp (cha.preorder root) 0 Rn ++ posFrom cha pp (cha.preorder root) 0 Rp)
        c (i + ((cha.addrPt c : Int) - (cha.addrPt p : Int))) : Int) -
      (pos (negFrom cha pp (cha.preorder root) 0 Rn ++ posFrom cha pp (cha.preorder root) 0 Rp)
        c (cha.addrPt c) : Int) := by
  have hcpre : c ∈ cha.preorder root := (hf.2 p hp c hc).1
  obtain ⟨rp1, rp2⟩ := hranges p hp
  have hedgeP : ∀ p ∈ cha.preorder root, ∀ c ∈ cha.children p,
      liveCount cha pp true p ≤ liveCount cha pp true c := by
    intro q hq d hd
    have hdpre : d ∈ cha.preorder root := (hf.2 q hq d hd).1
    rw [liveCount_pos_eq cha pp q (hranges q hq).2, liveCount_pos_eq cha pp d (hranges d hdpre).2]
    have := hafter q hq d hd
    omega
  have hedgeN : ∀ p ∈ cha.preorder root, ∀ c ∈ cha.children p,
      liveCount cha pp false p ≤ liveCount cha pp false c := by
    intro q hq d hd
    have hdpre : d ∈ cha.preorder root := (hf.2 q hq d hd).1
    rw [liveCount_neg_eq cha pp q (hranges q hq).1, liveCount_neg_eq cha pp d (hranges d hdpre).1]
    exact hbefore q hq d hd
  -- the address-point entries: round 0 of the positive side
  have h0 := round_shift cha root pp hf hdfs hdef Rn Rp hRn hRp true hedgeP p c hp hc 0
    (by rw [liveCount_pos_eq cha pp p rp2]; omega)
  have e0p : nthPos cha true p 0 = (cha.addrPt p : Int) := by simp [nthPos]
  have e0c : nthPos cha true c 0 = (cha.addrPt c : Int) := by simp [nthPos]
  rw [e0p, e0c] at h0
  by_cases hside : (cha.addrPt p : Int) ≤ i
  · -- positive side
    have hk := round_shift cha root pp hf hdfs hdef Rn Rp hRn hRp true hedgeP p c hp hc
      (i - (cha.addrPt p : Int)).toNat
      (by rw [liveCount_pos_eq cha pp p rp2]; omega)
    have ekp : nthPos cha true p (i - (cha.addrPt p : Int)).toNat = i := by
      simp only [nthPos, if_true]; omega
    have ekc : nthPos cha true c (i - (cha.addrPt p : Int)).toNat =
        i + ((cha.addrPt c : Int) - (cha.addrPt p : Int)) := by
      simp only [nthPos, if_true]; omega
    rw [ekp, ekc] at hk
    rw [hk, h0]
    push_cast
    omega
  · -- negative side
    have hk := round_shift cha root pp hf hdfs hdef Rn Rp hRn hRp false hedgeN p c hp hc
      ((cha.addrPt p : Int) - 1 - i).toNat
      (by rw [liveCount_neg_eq cha pp p rp1]; simp only [relAddrPt]; omega)
    have ekp : nthPos cha false p ((cha.addrPt p : Int) - 1 - i).toNat = i := by
      simp only [nthPos, Bool.false_eq_true, if_false]; omega
    have ekc : nthPos cha false c ((cha.addrPt p : Int) - 1 - i).toNat =
        i + ((cha.addrPt c : Int) - (cha.addrPt p : Int)) := by
      simp only [nthPos, Bool.false_eq_true, if_false]; omega
    rw [ekp, ekc] at hk
    rw [hk, h0]
    push_cast
    omega

/-! ## Coalescing of sorted ranges -/

theorem inRanges_nil (x : Nat) : ¬ inRanges [] x := by
  simp [inRanges]

theorem inRanges_cons (r : range_t) (R : List range_t) (x : Nat) :
    inRanges (r :: R) x ↔ (r.1 ≤ x ∧ x < r.2) ∨ inRanges R x := by
  simp [inRanges]

/-- The state of the coalescing loop once an interval is open: the loop computes
`coalesceFrom`. -/
theorem coalesceLoop_eq (rest : List range_t) :
    ∀ (s e : Nat) (out : List range_t),
      (coalesceLoop rest (s : Int) (e : Int) out).1 ≠ -1 ∧
      (coalesceLoop rest (s : Int) (e : Int) out).2.2 ++
        [((coalesceLoop rest (s : Int) (e : Int) out).1.toNat,
          (coalesceLoop rest (s : Int) (e : Int) out).2.1.toNat)] =
        out ++ coalesceFrom s e rest := by
  induction rest with
  | nil =>
    intro s e out
    simp only [coalesceLoop, coalesceFrom, Int.toNat_ofNat]
    exact ⟨by omega, trivial⟩
  | cons it rest ih =>
    intro s e out
    have hs : ¬ (s : Int) = -1 := by omega
    simp only [coalesceLoop, if_neg hs, coalesceFrom]
    by_cases h1 : it.1 ≤ e
    · have h1' : (it.1 : Int) ≤ (e : Int) := by exact_mod_cast h1
      rw [if_pos h1', if_pos h1]
      by_cases h2 : it.2 > e
      · have h2' : (it.2 : Int) > (e : Int) := by exact_mod_cast h2
        rw [if_pos h2', if_pos h2]
        exact ih s it.2 out
      · have h2' : ¬ (it.2 : Int) > (e : Int) := by
          intro h; apply h2; exact_mod_cast h
        rw [if_neg h2', if_neg h2]
        exact ih s e out
    · have h1' : ¬ (it.1 : Int) ≤ (e : Int) := by
        intro h; apply h1; exact_mod_cast h
      rw [if_neg h1', if_neg h1]
      have := ih it.1 it.2 (out ++ [((s : Int).toNat, (e : Int).toNat)])
      simp only [Int.toNat_ofNat] at this
      refine ⟨this.1, ?_⟩
      simp only [Int.toNat_ofNat]
      rw [this.2]
      simp

theorem coalesce_nil : coalesce [] = [] := by
  simp [coalesce, coalesceLoop]

theorem coalesce_cons (it : range_t) (rest : List range_t) :
    coalesce (it :: rest) = coalesceFrom it.1 it.2 rest := by
  unfold coalesce
  simp only [coalesceLoop, if_true]
  obtain ⟨h1, h2⟩ := coalesceLoop_eq rest it.1 it.2 []
  rw [if_pos h1, h2]
  simp

/-- Coalescing a sorted run of non-empty ranges that start at or after `s` yields a
canonical list that starts at `s` and covers `[s, e)` and the run. -/
theorem coalesceFrom_spec (rest : List range_t) :
    ∀ (s e : Nat), s < e → (∀ r ∈ rest, s ≤ r.1 ∧ r.1 < r.2) →
      rest.Pairwise (fun a b => a.1 ≤ b.1) →
      (∃ e' tail, coalesceFrom s e rest = (s, e') :: tail ∧ e ≤ e') ∧
      GoodRanges (coalesceFrom s e rest) ∧
      ∀ x, inRanges (coalesceFrom s e rest) x ↔ (s ≤ x ∧ x < e) ∨ inRanges rest x := by
  induction rest with
  | nil =>
    intro s e hse _ _
    refine ⟨⟨e, [], rfl, le_rfl⟩, ⟨by simp [coalesceFrom], ?_⟩, ?_⟩
    · intro r hr
      simp only [coalesceFrom, List.mem_singleton] at hr
      subst hr; exact hse
    · intro x
      simp [coalesceFrom, inRanges]
  | cons it rest ih =>
    intro s e hse hrest hsorted
    have hit := hrest it (List.mem_cons_self _ _)
    have hsorted' := (List.pairwise_cons.1 hsorted)
    simp only [coalesceFrom]
    by_cases h1 : it.1 ≤ e
    · rw [if_pos h1]
      obtain ⟨⟨e', tail, heq, hle⟩, hgood, hcov⟩ := ih s (if it.2 > e then it.2 else e)
        (by split_ifs <;> omega)
        (fun r hr => hrest r (List.mem_cons_of_mem _ hr)) hsorted'.2
      refine ⟨⟨e', tail, heq, by split_ifs at hle <;> omega⟩, hgood, ?_⟩
      intro x
      rw [hcov, inRanges_cons]
      constructor
      · rintro (h | h)
        · by_cases hx : x < e
          · exact Or.inl ⟨h.1, hx⟩
          · right; left
            split_ifs at h <;> omega
        · exact Or.inr (Or.inr h)
      · rintro (h | h | h)
        · left; split_ifs <;> omega
        · left; split_ifs <;> omega
        · exact Or.inr h
    · rw [if_neg h1]
      obtain ⟨⟨e', tail, heq, hle⟩, hgood, hcov⟩ := ih it.1 it.2 hit.2
        (fun r hr => ⟨hsorted'.1 r hr, (hrest r (List.mem_cons_of_mem _ hr)).2⟩) hsorted'.2
      refine ⟨⟨e, _, rfl, le_rfl⟩, ⟨?_, ?_⟩, ?_⟩
      · rw [heq]
        apply List.Chain'.cons
        · simp only; omega
        · rw [← heq]; exact hgood.1
      · intro r hr
        rcases List.mem_cons.1 hr with h | h
        · subst h; exact hse
        · exact hgood.2 r h
      · intro x
        rw [inRanges_cons, hcov, inRanges_cons]

/-- Sorting and coalescing non-empty ranges yields a canonical list with the same
coverage. -/
theorem coalesce_sort_spec (ranges : List range_t) (hne : ∀ r ∈ ranges, r.1 < r.2) :
    GoodRanges (coalesce (sortRanges ranges)) ∧
    ∀ x, inRanges (coalesce (sortRanges ranges)) x ↔ inRanges ranges x := by
  have hperm : (sortRanges ranges).Perm ranges := List.perm_insertionSort rangeLE ranges
  have hsorted : (sortRanges ranges).Sorted rangeLE := List.sorted_insertionSort rangeLE ranges
  have hcov : ∀ x, inRanges (sortRanges ranges) x ↔ inRanges ranges x := by
    intro x
    unfold inRanges
    constructor
    · rintro ⟨r, hr, h⟩; exact ⟨r, hperm.mem_iff.1 hr, h⟩
    · rintro ⟨r, hr, h⟩; exact ⟨r, hperm.mem_iff.2 hr, h⟩
  generalize hS : sortRanges ranges = S at hperm hsorted hcov
  cases S with
  | nil =>
    rw [coalesce_nil]
    exact ⟨⟨by simp, by simp⟩, hcov⟩
  | cons it rest =>
    rw [coalesce_cons]
    have hpw : (it :: rest).Pairwise (fun a b => a.1 ≤ b.1) := by
      have : (it :: rest).Pairwise rangeLE := hsorted
      exact this.imp (fun {a b} h => by unfold rangeLE at h; omega)
    have hall : ∀ r ∈ it :: rest, r.1 < r.2 := fun r hr => hne r (hperm.mem_iff.1 hr)
    obtain ⟨_, hgood, hc⟩ := coalesceFrom_spec rest it.1 it.2 (hall it (List.mem_cons_self _ _))
      (fun r hr => ⟨(List.pairwise_cons.1 hpw).1 r hr, hall r (List.mem_cons_of_mem _ hr)⟩)
      (List.pairwise_cons.1 hpw).2
    refine ⟨hgood, fun x => ?_⟩
    rw [hc, ← hcov, inRanges_cons]

/-! ## The recursive range computation -/

theorem inRanges_flatMap (cs : List vtbl_t) (f : vtbl_t → List range_t) (x : Nat) :
    inRanges (cs.flatMap f) x ↔ ∃ c ∈ cs, inRanges (f c) x := by
  unfold inRanges
  simp only [List.mem_flatMap]
  constructor
  · rintro ⟨r, ⟨c, hc, hr⟩, h⟩; exact ⟨c, hc, r, hr, h⟩
  · rintro ⟨c, hc, r, hr, h⟩; exact ⟨r, ⟨c, hc, hr⟩, h⟩

theorem reach_iff_head (cha : CHA) (v d : vtbl_t) :
    Relation.ReflTransGen (childEdge cha) v d ↔
      d = v ∨ ∃ c ∈ cha.children v, Relation.ReflTransGen (childEdge cha) c d := by
  constructor
  · intro h
    rcases Relation.ReflTransGen.cases_head h with h' | ⟨c, hc, hcd⟩
    · exact Or.inl h'.symm
    · exact Or.inr ⟨c, hc, hcd⟩
  · rintro (h | ⟨c, hc, hcd⟩)
    · rw [h]
    · exact Relation.ReflTransGen.head hc hcd

theorem helper_succ (cha : CHA) (indMap : vtbl_t → Nat) (fuel : Nat) (vtbl : vtbl_t)
    (rangeMap : vtbl_t → Option (List range_t)) :
    calculateVPtrRangesHelper cha indMap (fuel + 1) vtbl rangeMap =
      if (rangeMap vtbl).isSome then some rangeMap
      else
        match (cha.children vtbl).foldlM
            (fun rm child => calculateVPtrRangesHelper cha indMap fuel child rm) rangeMap with
        | none => none
        | some rangeMap1 =>
          some (upd rangeMap1 vtbl (some (coalesce (sortRanges ((indMap vtbl, indMap vtbl + 1) ::
            (cha.children vtbl).flatMap (fun child => (rangeMap1 child).getD []))))))  := by
  rfl

/-- Storing the coalesced ranges of `v` once all its children have correct entries keeps
the map correct. -/
theorem rangeMapOk_insert (cha : CHA) (indMap : vtbl_t → Nat)
    (rm : vtbl_t → Option (List range_t)) (hok : RangeMapOk cha indMap rm) (v : vtbl_t)
    (hch : ∀ c ∈ cha.children v, (rm c).isSome = true) :
    RangeMapOk cha indMap (upd rm v (some (coalesce (sortRanges ((indMap v, indMap v + 1) ::
      (cha.children v).flatMap (fun child => (rm child).getD [])))))) := by
  intro u R hu
  by_cases huv : u = v
  · subst huv
    rw [upd_same] at hu
    have hR := Option.some.inj hu
    have hne : ∀ r ∈ (indMap u, indMap u + 1) ::
        (cha.children u).flatMap (fun child => (rm child).getD []), r.1 < r.2 := by
      intro r hr
      rcases List.mem_cons.1 hr with h | h
      · subst h; simp
      · obtain ⟨c, hc, hrc⟩ := List.mem_flatMap.1 h
        obtain ⟨Rc, hRc⟩ := Option.isSome_iff_exists.1 (hch c hc)
        rw [hRc] at hrc
        exact (hok c Rc hRc).1.2 r hrc
    obtain ⟨hgood, hcov⟩ := coalesce_sort_spec _ hne
    rw [hR] at hgood hcov
    refine ⟨hgood, ?_, ?_⟩
    · intro x
      rw [hcov, inRanges_cons, inRanges_flatMap]
      constructor
      · rintro (h | ⟨c, hc, h⟩)
        · exact ⟨u, Relation.ReflTransGen.refl, by simp only at h; omega⟩
        · obtain ⟨Rc, hRc⟩ := Option.isSome_iff_exists.1 (hch c hc)
          rw [hRc] at h
          obtain ⟨d, hd, hx⟩ := ((hok c Rc hRc).2.1 x).1 h
          exact ⟨d, Relation.ReflTransGen.head hc hd, hx⟩
      · rintro ⟨d, hd, hx⟩
        rcases (reach_iff_head cha u d).1 hd with h | ⟨c, hc, hcd⟩
        · left; subst h; simp only; omega
        · right
          obtain ⟨Rc, hRc⟩ := Option.isSome_iff_exists.1 (hch c hc)
          refine ⟨c, hc, ?_⟩
          rw [hRc]
          exact ((hok c Rc hRc).2.1 x).2 ⟨d, hcd, hx⟩
    · intro c hc
      by_cases hcu : c = u
      · rw [hcu, upd_same]; rfl
      · rw [upd_other _ _ _ _ hcu]; exact hch c hc
  · rw [upd_other _ _ _ _ huv] at hu
    obtain ⟨a1, a2, a3⟩ := hok u R hu
    refine ⟨a1, a2, ?_⟩
    intro c hc
    by_cases hcv : c = v
    · rw [hcv, upd_same]; rfl
    · rw [upd_other _ _ _ _ hcv]; exact a3 c hc

/-- With enough fuel the recursion returns, keeps the map correct, keeps the entries that
were there, and leaves an entry for the node it was called on. -/
theorem helper_spec (cha : CHA) (indMap : vtbl_t → Nat) (inCloud : vtbl_t → Prop)
    (rank : vtbl_t → Nat)
    (hrank : ∀ u, inCloud u → ∀ c ∈ cha.children u, inCloud c ∧ rank c < rank u) :
    ∀ (fuel : Nat) (v : vtbl_t) (rm : vtbl_t → Option (List range_t)),
      inCloud v → rank v < fuel → RangeMapOk cha indMap rm →
      ∃ rm', calculateVPtrRangesHelper cha indMap fuel v rm = some rm' ∧
        RangeMapOk cha indMap rm' ∧ (rm' v).isSome = true ∧
        ∀ u, (rm u).isSome = true → rm' u = rm u := by
  intro fuel
  induction fuel with
  | zero => intro v rm _ h; omega
  | succ fuel ih =>
    intro v rm hv hfuel hok
    rw [helper_succ]
    by_cases hmemo : (rm v).isSome = true
    · rw [if_pos hmemo]
      exact ⟨rm, rfl, hok, hmemo, fun _ _ => rfl⟩
    · rw [if_neg hmemo]
      have hloop : ∀ (cs : List vtbl_t) (rm0 : vtbl_t → Option (List range_t)),
          (∀ c ∈ cs, inCloud c ∧ rank c < fuel) → RangeMapOk cha indMap rm0 →
          ∃ rm1, cs.foldlM
              (fun rm child => calculateVPtrRangesHelper cha indMap fuel child rm) rm0 =
              some rm1 ∧
            RangeMapOk cha indMap rm1 ∧ (∀ c ∈ cs, (rm1 c).isSome = true) ∧
            ∀ u, (rm0 u).isSome = true → rm1 u = rm0 u := by
        intro cs
        induction cs with
        | nil =>
          intro rm0 _ hok0
          exact ⟨rm0, rfl, hok0, by simp, fun _ _ => rfl⟩
        | cons c cs ihcs =>
          intro rm0 hcs hok0
          obtain ⟨hc1, hc2⟩ := hcs c (List.mem_cons_self _ _)
          obtain ⟨rma, ha1, ha2, ha3, ha4⟩ := ih c rm0 hc1 hc2 hok0
          obtain ⟨rmb, hb1, hb2, hb3, hb4⟩ := ihcs rma
            (fun c' hc' => hcs c' (List.mem_cons_of_mem _ hc')) ha2
          refine ⟨rmb, ?_, hb2, ?_, ?_⟩
          · rw [List.foldlM_cons, ha1]
            exact hb1
          · intro c' hc'
            rcases List.mem_cons.1 hc' with h | h
            · subst h
              rw [hb4 c' ha3]; exact ha3
            · exact hb3 c' h
          · intro u hu
            have h1 := ha4 u hu
            rw [hb4 u (by rw [h1]; exact hu), h1]
      obtain ⟨rm1, h1, h2, h3, h4⟩ := hloop (cha.children v) rm
        (fun c hc => by
          have := hrank v hv c hc
          exact ⟨this.1, by omega⟩) hok
      rw [h1]
      refine ⟨_, rfl, rangeMapOk_insert cha indMap rm1 h2 v h3, by rw [upd_same]; rfl, ?_⟩
      intro u hu
      have huv : u ≠ v := fun h => hmemo (h ▸ hu)
      rw [upd_other _ _ _ _ huv]
      exact h4 u hu

theorem foldlM_mono (f g : (vtbl_t → Option (List range_t)) → vtbl_t →
      Option (vtbl_t → Option (List range_t)))
    (hfg : ∀ rm c r, f rm c = some r → g rm c = some r) (cs : List vtbl_t) :
    ∀ rm r, cs.foldlM f rm = some r → cs.foldlM g rm = some r := by
  induction cs with
  | nil => intro rm r h; exact h
  | cons c cs ih =>
    intro rm r h
    rw [List.foldlM_cons] at h ⊢
    cases hf : f rm c with
    | none => rw [hf] at h; simp at h
    | some r1 =>
      rw [hf] at h
      rw [hfg rm c r1 hf]
      exact ih r1 r h

/-- More fuel does not change the result of the recursion. -/
theorem helper_mono (cha : CHA) (indMap : vtbl_t → Nat) :
    ∀ (fuel : Nat) (v : vtbl_t) (rm rm' : vtbl_t → Option (List range_t)),
      calculateVPtrRangesHelper cha indMap fuel v rm = some rm' →
      calculateVPtrRangesHelper cha indMap (fuel + 1) v rm = some rm' := by
  intro fuel
  induction fuel with
  | zero => intro v rm rm' h; simp [calculateVPtrRangesHelper] at h
  | succ fuel ih =>
    intro v rm rm' h
    rw [helper_succ] at h ⊢
    by_cases hmemo : (rm v).isSome = true
    · rw [if_pos hmemo] at h ⊢; exact h
    · rw [if_neg hmemo] at h ⊢
      cases hl : (cha.children v).foldlM
          (fun rm child => calculateVPtrRangesHelper cha indMap fuel child rm) rm with
      | none => rw [hl] at h; simp at h
      | some rm1 =>
        rw [hl] at h
        rw [foldlM_mono _ (fun rm child => calculateVPtrRangesHelper cha indMap (fuel + 1) child rm)
          (fun rm c r hr => ih c rm r hr) _ rm rm1 hl]
        exact h

theorem helper_mono_le (cha : CHA) (indMap : vtbl_t → Nat) (fuel fuel' : Nat)
    (hle : fuel ≤ fuel') (v : vtbl_t) (rm rm' : vtbl_t → Option (List range_t))
    (h : calculateVPtrRangesHelper cha indMap fuel v rm = some rm') :
    calculateVPtrRangesHelper cha indMap fuel' v rm = some rm' := by
  induction hle with
  | refl => exact h
  | step _ ih => exact helper_mono _ _ _ _ _ _ ih

/-! ## Canonical range lists -/

theorem goodRanges_tail (r : range_t) (R : List range_t) (h : GoodRanges (r :: R)) :
    GoodRanges R :=
  ⟨h.1.tail, fun r' hr' => h.2 r' (List.mem_cons_of_mem _ hr')⟩

/-- In a canonical list every interval ends strictly below the start of every later one. -/
theorem goodRanges_pairwise (R : List range_t) (h : GoodRanges R) :
    R.Pairwise (fun a b => a.2 < b.1) := by
  induction R with
  | nil => exact List.Pairwise.nil
  | cons r R ih =>
    have ht := goodRanges_tail r R h
    have hp := ih ht
    refine List.Pairwise.cons ?_ hp
    intro c hc
    cases R with
    | nil => simp at hc
    | cons b R' =>
      have hab : r.2 < b.1 := (List.chain'_cons.1 h.1).1
      rcases List.mem_cons.1 hc with hcb | hcb
      · rw [hcb]; exact hab
      · have h1 := (List.pairwise_cons.1 hp).1 c hcb
        have h2 := h.2 b (List.mem_cons_of_mem _ (List.mem_cons_self _ _))
        omega

theorem mem_cells (R : List range_t) (x : Nat) : x ∈ cells R ↔ inRanges R x := by
  unfold cells inRanges
  simp only [List.mem_flatMap, List.mem_range'_1]
  constructor
  · rintro ⟨r, hr, h1, h2⟩; exact ⟨r, hr, h1, by omega⟩
  · rintro ⟨r, hr, h1, h2⟩; exact ⟨r, hr, h1, by omega⟩

theorem cells_cons (r : range_t) (R : List range_t) :
    cells (r :: R) = List.range' r.1 (r.2 - r.1) ++ cells R := by
  simp [cells, List.flatMap_cons]

theorem cells_nodup (R : List range_t) (h : GoodRanges R) : (cells R).Nodup := by
  induction R with
  | nil => simp [cells]
  | cons r R ih =>
    rw [cells_cons, List.nodup_append]
    refine ⟨List.nodup_range' _ _, ih (goodRanges_tail r R h), ?_⟩
    intro x hx1 hx2
    rw [List.mem_range'_1] at hx1
    obtain ⟨r', hr', h1, _⟩ := (mem_cells R x).1 hx2
    have := (List.pairwise_cons.1 (goodRanges_pairwise _ h)).1 r' hr'
    have := h.2 r (List.mem_cons_self _ _)
    omega

theorem totalRange_eq (R : List range_t) : totalRange R = (cells R).length := by
  unfold totalRange
  have : ∀ (R : List range_t) (acc : Nat),
      R.foldl (fun acc range => acc + (range.2 - range.1)) acc = acc + (cells R).length := by
    intro R
    induction R with
    | nil => intro acc; simp [cells]
    | cons r R ih =>
      intro acc
      rw [List.foldl_cons, ih, cells_cons, List.length_append, List.length_range']
      omega
  rw [this R 0]; omega

theorem rangesDisjoint_of_chain (R : List range_t) :
    ∀ (lastEnd : Int), R.Chain' (fun a b => a.2 < b.1) →
      (∀ r, R.head? = some r → lastEnd < (r.1 : Int)) → rangesDisjoint R lastEnd = true := by
  induction R with
  | nil => intro _ _ _; rfl
  | cons r R ih =>
    intro lastEnd hch hhead
    simp only [rangesDisjoint, Bool.and_eq_true, decide_eq_true_eq]
    refine ⟨hhead r rfl, ih _ hch.tail ?_⟩
    intro r' hr'
    cases R with
    | nil => simp at hr'
    | cons b R' =>
      simp only [List.head?_cons, Option.some.injEq] at hr'
      subst hr'
      have := (List.chain'_cons.1 hch).1
      exact_mod_cast this

/-! ## Clouds given by reachability -/

theorem length_lt_of_subset (l₁ l₂ : List vtbl_t) (hnd : l₁.Nodup) (hsub : l₁ ⊆ l₂)
    (x : vtbl_t) (hx2 : x ∈ l₂) (hx1 : x ∉ l₁) : l₁.length < l₂.length := by
  have hnd' : (x :: l₁).Nodup := List.nodup_cons.2 ⟨hx1, hnd⟩
  have hsub' : (x :: l₁) ⊆ l₂ := by
    intro y hy
    rcases List.mem_cons.1 hy with h | h
    · rw [h]; exact hx2
    · exact hsub h
  have := (List.Nodup.subperm hnd' hsub').length_le
  simp only [List.length_cons] at this
  omega

/-- In an acyclic cloud whose preorders list the reachable nodes, the preorder of a child is
strictly shorter than the preorder of its parent. -/
theorem preorder_length_lt (cha : CHA) (root : vtbl_t) (hacyc : Acyclic cha root)
    (hpre : PreorderIsReach cha root) (u : vtbl_t)
    (hu : Relation.ReflTransGen (childEdge cha) root u) (c : vtbl_t) (hc : c ∈ cha.children u) :
    Relation.ReflTransGen (childEdge cha) root c ∧
      (cha.preorder c).length < (cha.preorder u).length := by
  have hcr : Relation.ReflTransGen (childEdge cha) root c :=
    Relation.ReflTransGen.tail hu hc
  refine ⟨hcr, ?_⟩
  apply length_lt_of_subset _ _ (hpre c hcr).1 _ u
  · exact ((hpre u hu).2 u).2 Relation.ReflTransGen.refl
  · intro h
    have hcu : Relation.ReflTransGen (childEdge cha) c u := ((hpre c hcr).2 u).1 h
    exact hacyc u hu (Relation.TransGen.head' hc hcu)
  · intro d hd
    have : Relation.ReflTransGen (childEdge cha) c d := ((hpre c hcr).2 d).1 hd
    exact ((hpre u hu).2 d).2 (Relation.ReflTransGen.head hc this)

/-- Entries of a correct map: present for every node reachable from a present node. -/
theorem rangeMapOk_reach (cha : CHA) (indMap : vtbl_t → Nat)
    (rm : vtbl_t → Option (List range_t)) (hok : RangeMapOk cha indMap rm) (u v : vtbl_t)
    (hu : (rm u).isSome = true) (h : Relation.ReflTransGen (childEdge cha) u v) :
    (rm v).isSome = true := by
  induction h with
  | refl => exact hu
  | tail _ hbc ih =>
    obtain ⟨R, hR⟩ := Option.isSome_iff_exists.1 ih
    exact (hok _ R hR).2.2 _ hbc

theorem rangeMapOk_empty (cha : CHA) (indMap : vtbl_t → Nat) :
    RangeMapOk cha indMap (fun _ => none) := by
  intro v R h; simp at h

/-- Range synthesis on an acyclic cloud: `calculateVPtrRangesHelper(root)` returns, and in
the resulting map every node of the cloud has a canonical list of ranges that covers exactly
the preorder indices of the nodes of its own preorder. -/
theorem helper_cloud (cha : CHA) (root : vtbl_t) (hacyc : Acyclic cha root)
    (hpre : PreorderIsReach cha root) :
    ∃ rm, (∃ f0, ∀ fuel, f0 ≤ fuel →
        calculateVPtrRangesHelper cha (buildIndMap (cha.preorder root)) fuel root
          (fun _ => none) = some rm) ∧
      ∀ v ∈ cha.preorder root, ∃ R, rm v = some R ∧ GoodRanges R ∧
        ∀ x, inRanges R x ↔ ∃ d ∈ cha.preorder v, ind (cha.preorder root) d = x := by
  have hroot : Relation.ReflTransGen (childEdge cha) root root := Relation.ReflTransGen.refl
  have hspec := helper_spec cha (buildIndMap (cha.preorder root))
    (fun u => Relation.ReflTransGen (childEdge cha) root u)
    (fun u => (cha.preorder u).length)
    (fun u hu c hc => preorder_length_lt cha root hacyc hpre u hu c hc)
  obtain ⟨rm, hrm, hok, hpresent, _⟩ := hspec ((cha.preorder root).length + 1) root
    (fun _ => none) hroot (Nat.lt_succ_self _) (rangeMapOk_empty cha _)
  refine ⟨rm, ⟨(cha.preorder root).length + 1, ?_⟩, ?_⟩
  · intro fuel hf
    exact helper_mono_le cha _ _ fuel hf root _ rm hrm
  · intro v hv
    have hrv : Relation.ReflTransGen (childEdge cha) root v := ((hpre root hroot).2 v).1 hv
    obtain ⟨R, hR⟩ := Option.isSome_iff_exists.1 (rangeMapOk_reach cha _ rm hok root v hpresent hrv)
    obtain ⟨hgood, hcov, _⟩ := hok v R hR
    refine ⟨R, hR, hgood, fun x => ?_⟩
    rw [hcov]
    constructor
    · rintro ⟨d, hd, hx⟩
      have hdpre : d ∈ cha.preorder root := ((hpre root hroot).2 d).2 (hrv.trans hd)
      refine ⟨d, ((hpre v hrv).2 d).2 hd, ?_⟩
      rw [← hx, buildIndMap_eq _ (hpre root hroot).1 d hdpre]
    · rintro ⟨d, hd, hx⟩
      have hvd := ((hpre v hrv).2 d).1 hd
      have hdpre : d ∈ cha.preorder root := ((hpre root hroot).2 d).2 (hrv.trans hvd)
      refine ⟨d, hvd, ?_⟩
      rw [← hx, buildIndMap_eq _ (hpre root hroot).1 d hdpre]

/-! ## The assertions of `verifyVPtrRanges` -/

/-- A canonical list that covers the preorder indices of a duplicate-free list of cloud
nodes has as many cells as the list has nodes. -/
theorem totalRange_eq_length (pre : order_t) (l : List vtbl_t) (hl : l.Nodup)
    (hsub : ∀ d ∈ l, d ∈ pre) (R : List range_t) (hgood : GoodRanges R)
    (hcov : ∀ x, inRanges R x ↔ ∃ d ∈ l, ind pre d = x) : totalRange R = l.length := by
  rw [totalRange_eq]
  have hnd : (l.map (ind pre)).Nodup :=
    List.Nodup.map_on (fun a ha b hb h => ind_inj pre a b (hsub a ha) (hsub b hb) h) hl
  have hperm : (cells R).Perm (l.map (ind pre)) := by
    rw [List.perm_ext_iff_of_nodup (cells_nodup R hgood) hnd]
    intro x
    rw [mem_cells, hcov, List.mem_map]
  rw [hperm.length_eq, List.length_map]

/-- The three assertions of `verifyVPtrRanges` hold on a map whose entries are canonical
and cover the preorder indices of the respective preorders. -/
theorem verifyVPtrRanges_of_good (cha : CHA) (vtbl : vtbl_name_t)
    (rm : vtbl_t → Option (List range_t)) (hnd : (cha.preorder (vtbl, 0)).Nodup)
    (hsub : ∀ v ∈ cha.preorder (vtbl, 0), (cha.preorder v).Nodup ∧
      ∀ d ∈ cha.preorder v, d ∈ cha.preorder (vtbl, 0))
    (hrm : ∀ v ∈ cha.preorder (vtbl, 0), ∃ R, rm v = some R ∧ GoodRanges R ∧
        ∀ x, inRanges R x ↔ ∃ d ∈ cha.preorder v, ind (cha.preorder (vtbl, 0)) d = x) :
    verifyVPtrRanges cha rm vtbl = true := by
  unfold verifyVPtrRanges
  simp only [List.all_eq_true, Bool.and_eq_true, decide_eq_true_eq, List.any_eq_true]
  intro v hv
  obtain ⟨R, hR, hgood, hcov⟩ := hrm v hv
  rw [hR]
  simp only [Option.getD_some]
  refine ⟨⟨?_, ?_⟩, ?_⟩
  · apply rangesDisjoint_of_chain R _ hgood.1
    intro r _
    omega
  · exact totalRange_eq_length _ _ (hsub v hv).1 (hsub v hv).2 R hgood hcov
  · intro d hd
    obtain ⟨r, hr, h1, h2⟩ := (hcov (ind (cha.preorder (vtbl, 0)) d)).2 ⟨d, hd, rfl⟩
    refine ⟨r, hr, ?_⟩
    rw [buildIndMap_eq _ hnd d ((hsub v hv).2 d hd)]
    exact ⟨h1, h2⟩

/-! ## A contiguous set of indices is covered by one interval -/

theorem single_of_block (R : List range_t) (hgood : GoodRanges R) (a n : Nat) (hn : 0 < n)
    (hcov : ∀ x, inRanges R x ↔ a ≤ x ∧ x < a + n) : R = [(a, a + n)] := by
  have hpw := goodRanges_pairwise R hgood
  cases R with
  | nil =>
    have := (hcov a).2 ⟨le_rfl, by omega⟩
    exact absurd this (inRanges_nil a)
  | cons r R' =>
    have hr := hgood.2 r (List.mem_cons_self _ _)
    have hr1 : a ≤ r.1 ∧ r.1 < a + n :=
      (hcov r.1).1 ⟨r, List.mem_cons_self _ _, le_rfl, hr⟩
    cases R' with
    | cons b R'' =>
      exfalso
      have hb := hgood.2 b (List.mem_cons_of_mem _ (List.mem_cons_self _ _))
      have hb1 : a ≤ b.1 ∧ b.1 < a + n :=
        (hcov b.1).1 ⟨b, List.mem_cons_of_mem _ (List.mem_cons_self _ _), le_rfl, hb⟩
      have hrb : r.2 < b.1 := (List.pairwise_cons.1 hpw).1 b (List.mem_cons_self _ _)
      obtain ⟨r', hr', h1, h2⟩ := (hcov r.2).2 ⟨by omega, by omega⟩
      rcases List.mem_cons.1 hr' with h | h
      · subst h; omega
      · have := (List.pairwise_cons.1 hpw).1 r' h
        omega
    | nil =>
      have h1 : r.1 ≤ a := by
        obtain ⟨r', hr', h1, _⟩ := (hcov a).2 ⟨le_rfl, by omega⟩
        have : r' = r := by simpa using hr'
        subst this; exact h1
      have h2 : a + n - 1 < r.2 := by
        obtain ⟨r', hr', _, h2⟩ := (hcov (a + n - 1)).2 ⟨by omega, by omega⟩
        have : r' = r := by simpa using hr'
        subst this; exact h2
      have h3 : r.2 - 1 < a + n :=
        ((hcov (r.2 - 1)).1 ⟨r, List.mem_cons_self _ _, by omega, by omega⟩).2
      have e1 : r.1 = a := by omega
      have e2 : r.2 = a + n := by omega
      rw [show r = (r.1, r.2) from rfl, e1, e2]

/-! ## Clouds described locally -/

theorem reachLocal_mem (cha : CHA) (root : vtbl_t) (h : ReachLocal cha root) (v : vtbl_t)
    (hv : Relation.ReflTransGen (childEdge cha) root v) : v ∈ cha.preorder root := by
  induction hv with
  | refl => exact h.1
  | tail _ hbc ih => exact ((h.2 _ ih).2.2.1 _ hbc).1

theorem reachLocal_reach (cha : CHA) (root : vtbl_t) (h : ReachLocal cha root) :
    ∀ (n : Nat) (v : vtbl_t), v ∈ cha.preorder root → (cha.preorder v).length = n →
      ∀ d ∈ cha.preorder v, Relation.ReflTransGen (childEdge cha) v d := by
  intro n
  induction n using Nat.strong_induction_on with
  | _ n ih =>
    intro v hv hlen d hd
    rcases (h.2 v hv).2.2.2 d hd with hdv | ⟨c, hc, hdc⟩
    · rw [hdv]
    · obtain ⟨hcpre, hlt, _⟩ := (h.2 v hv).2.2.1 c hc
      exact Relation.ReflTransGen.head hc (ih _ (hlen ▸ hlt) c hcpre rfl d hdc)

theorem reachLocal_sub (cha : CHA) (root : vtbl_t) (h : ReachLocal cha root) (v d : vtbl_t)
    (hv : v ∈ cha.preorder root) (hvd : Relation.ReflTransGen (childEdge cha) v d) :
    d ∈ cha.preorder v := by
  induction hvd using Relation.ReflTransGen.head_induction_on with
  | refl => exact (h.2 _ hv).2.1
  | head hac _ ih =>
    obtain ⟨hcpre, _, hsub⟩ := (h.2 _ hv).2.2.1 _ hac
    exact hsub _ (ih hcpre)

/-- A locally described cloud lists, for each of its nodes, the reachable nodes. -/
theorem reachLocal_preorderIsReach (cha : CHA) (root : vtbl_t) (h : ReachLocal cha root) :
    PreorderIsReach cha root := by
  intro v hv
  have hvpre := reachLocal_mem cha root h v hv
  exact ⟨(h.2 v hvpre).1, fun d =>
    ⟨reachLocal_reach cha root h _ v hvpre rfl d, reachLocal_sub cha root h v d hvpre⟩⟩

/-- A locally described cloud is acyclic. -/
theorem reachLocal_acyclic (cha : CHA) (root : vtbl_t) (h : ReachLocal cha root) :
    Acyclic cha root := by
  intro v hv hcyc
  have hvpre := reachLocal_mem cha root h v hv
  have key : ∀ a b, Relation.TransGen (childEdge cha) a b → a ∈ cha.preorder root →
      b ∈ cha.preorder root ∧ (cha.preorder b).length < (cha.preorder a).length := by
    intro a b hab
    induction hab with
    | single hac =>
      intro ha
      exact ⟨((h.2 _ ha).2.2.1 _ hac).1, ((h.2 _ ha).2.2.1 _ hac).2.1⟩
    | tail _ hbc ih =>
      intro ha
      obtain ⟨hb, hlt⟩ := ih ha
      exact ⟨((h.2 _ hb).2.2.1 _ hbc).1, lt_trans ((h.2 _ hb).2.2.1 _ hbc).2.1 hlt⟩
  have := (key v v hcyc hvpre).2
  omega

/-- Round 0 of the positive part lists the address points of the defined nodes. -/
theorem sweepList_zero_pos (cha : CHA) (pp : vtbl_t → Nat) (pre : order_t)
    (hr : RangesOk cha pre) :
    sweepList cha pp true pre 0 =
      (pre.filter (fun n => !cha.isUndefined n.1)).map (fun n => (n, (cha.addrPt n : Int))) := by
  unfold sweepList
  have hf : pre.filter (fun n => !cha.isUndefined n.1 &&
        decide (0 < liveCount cha pp true n)) = pre.filter (fun n => !cha.isUndefined n.1) := by
    apply List.filter_congr
    intro n hn
    have h := hr n hn
    have : 0 < liveCount cha pp true n := by
      simp only [liveCount, gapDir, initPos, initLastPos, if_true]
      omega
    simp [this]
  rw [hf]
  apply List.map_congr_left
  intro n _
  simp [nthPos]

/-- The positive part begins with round 0. -/
theorem posFrom_head (cha : CHA) (pp : vtbl_t → Nat) (pre : order_t) (Rp : Nat)
    (hRp : ∀ j, Rp ≤ j → sweepList cha pp true pre j = []) :
    posFrom cha pp pre 0 Rp = sweepList cha pp true pre 0 ++ posFrom cha pp pre 1 (Rp - 1) := by
  cases Rp with
  | zero => simp [posFrom, hRp 0 (le_refl 0)]
  | succ m => simp [posFrom]

/-- Filtering the slice `[s, e)` of a list gives a slice of the filtered list. -/
theorem filter_slice {α : Type} (p : α → Bool) (l : List α) (s e : Nat) (hse : s ≤ e) :
    l.filter p = (l.take s).filter p ++ ((l.take e).drop s).filter p ++ (l.drop e).filter p := by
  rw [← List.filter_append, ← List.filter_append]
  congr 1
  have h1 : l.take s = (l.take e).take s := by
    rw [List.take_take, Nat.min_eq_left hse]
  rw [h1, List.take_append_drop, List.take_append_drop]

/-- Reading a block in the middle of a list. -/
theorem drop_take_middle {α : Type} (A B C : List α) :
    ((A ++ B ++ C).drop A.length).take B.length = B := by
  rw [List.append_assoc, List.drop_left, List.take_left]

theorem u64_of_lt (n : Nat) (h : n < 2 ^ 64) : u64 (n : Int) = n := by
  unfold u64
  have : ((n : Int) % 2 ^ 64) = (n : Int) := Int.emod_eq_of_lt (by omega) (by exact_mod_cast h)
  rw [this]
  simp

theorem u64_natCast (n : Nat) : u64 (n : Int) = n % 2 ^ 64 := by
  unfold u64
  have : ((n : Int) % 2 ^ 64) = ((n % 2 ^ 64 : Nat) : Int) := by
    rw [Int.natCast_mod]; rfl
  rw [this, Int.toNat_natCast]

/-- One shift-and-or step doubles the window of bits that are or-ed together. -/
theorem smear_step (x y w : Nat)
    (h : ∀ i, y.testBit i = true ↔ ∃ j < w, x.testBit (i + j) = true) :
    ∀ i, (y ||| (y >>> w)).testBit i = true ↔ ∃ j < 2 * w, x.testBit (i + j) = true := by
  intro i
  rw [Nat.testBit_lor, Nat.testBit_shiftRight, Bool.or_eq_true, h, h]
  constructor
  · rintro (⟨j, hj, hb⟩ | ⟨j, hj, hb⟩)
    · exact ⟨j, by omega, hb⟩
    · exact ⟨w + j, by omega, by rw [← hb]; congr 1; omega⟩
  · rintro ⟨j, hj, hb⟩
    by_cases hjw : j < w
    · exact Or.inl ⟨j, hjw, hb⟩
    · exact Or.inr ⟨j - w, by omega, by rw [← hb]; congr 1; omega⟩

/-- A number whose bit `i` is the disjunction of the bits `i .. i+63` of `x < 2^64` is
`2^(size x) - 1`. -/
theorem smear_value (x s : Nat) (hx : x < 2 ^ 64)
    (h : ∀ i, s.testBit i = true ↔ ∃ j < 64, x.testBit (i + j) = true) :
    s = 2 ^ x.size - 1 := by
  apply Nat.eq_of_testBit_eq
  intro i
  rw [Nat.testBit_two_pow_sub_one, Bool.eq_iff_iff, h, decide_eq_true_iff, Nat.lt_size]
  constructor
  · rintro ⟨j, _, hb⟩
    have := Nat.testBit_implies_ge hb
    have : 2 ^ i ≤ 2 ^ (i + j) := Nat.pow_le_pow_right (by norm_num) (by omega)
    omega
  · intro hi
    obtain ⟨k, hk, hb⟩ := Nat.ge_two_pow_implies_high_bit_true hi
    have hk64 : k < 64 := by
      by_contra hc
      have := Nat.testBit_implies_ge hb
      have : 2 ^ 64 ≤ 2 ^ k := Nat.pow_le_pow_right (by norm_num) (by omega)
      omega
    exact ⟨k - i, by omega, by rw [← hb]; congr 1; omega⟩

/-- The shift-and-or sequence rounds a size between 1 and `2^63` up to a power of two. -/
theorem roundUp_eq (m : Nat) (h1 : 1 ≤ m) (h2 : m ≤ 2 ^ 63) :
    orderCloud_roundUp m = 2 ^ (m - 1).size := by
  have hm : ((m : Int) - 1) = ((m - 1 : Nat) : Int) := by omega
  have hx : u64 ((m : Int) - 1) = m - 1 := by
    rw [hm]; exact u64_of_lt _ (by omega)
  have s0 : ∀ i, (m - 1).testBit i = true ↔ ∃ j < 1, (m - 1).testBit (i + j) = true := by
    intro i
    constructor
    · intro h; exact ⟨0, by omega, h⟩
    · rintro ⟨j, hj, hb⟩
      have : j = 0 := by omega
      subst this; exact hb
  have s1 := smear_step _ _ 1 s0
  have s2 := smear_step _ _ 2 s1
  have s3 := smear_step _ _ 4 s2
  have s4 := smear_step _ _ 8 s3
  have s5 := smear_step _ _ 16 s4
  have s6 := smear_step _ _ 32 s5
  have hv := smear_value _ _ (by omega) s6
  have hsz : (m - 1).size ≤ 63 := Nat.size_le.2 (by omega)
  have hpow : 2 ^ (m - 1).size ≤ 2 ^ 63 := Nat.pow_le_pow_right (by norm_num) hsz
  have hpos : 0 < 2 ^ (m - 1).size := Nat.pow_pos (by norm_num)
  unfold orderCloud_roundUp
  simp only [hx]
  rw [hv]
  have : (((2 ^ (m - 1).size - 1 : Nat) : Int) + 1) = ((2 ^ (m - 1).size : Nat) : Int) := by
    omega
  rw [this]
  exact u64_of_lt _ (by omega)

theorem subVtableSize_eq (cha : CHA) (n : vtbl_t)
    (h : (cha.getRange n).1 ≤ (cha.getRange n).2)
    (hs : (cha.getRange n).2 - (cha.getRange n).1 + 1 < 2 ^ 64) :
    subVtableSize cha n = (cha.getRange n).2 - (cha.getRange n).1 + 1 := by
  unfold subVtableSize
  have : (((cha.getRange n).2 : Int) - ((cha.getRange n).1 : Int) + 1) =
      (((cha.getRange n).2 - (cha.getRange n).1 + 1 : Nat) : Int) := by omega
  rw [this]
  exact u64_of_lt _ hs

/-- The running maximum of the first loop of `orderCloud`. -/
theorem maxLoop_spec (f : vtbl_t → Nat) (pre : order_t) :
    ∀ a : Nat,
      a ≤ pre.foldl (fun max child => if f child > max then f child else max) a ∧
      (∀ n ∈ pre, f n ≤ pre.foldl (fun max child => if f child > max then f child else max) a) ∧
      (pre.foldl (fun max child => if f child > max then f child else max) a = a ∨
        ∃ n ∈ pre, f n = pre.foldl (fun max child => if f child > max then f child else max) a) := by
  induction pre with
  | nil => intro a; simp
  | cons c cs ih =>
    intro a
    simp only [List.foldl_cons, List.mem_cons, forall_eq_or_imp, exists_eq_or_imp]
    obtain ⟨h1, h2, h3⟩ := ih (if f c > a then f c else a)
    refine ⟨?_, ⟨?_, h2⟩, ?_⟩
    · by_cases hc : f c > a
      · rw [if_pos hc] at h1 ⊢; omega
      · rw [if_neg hc] at h1 ⊢; omega
    · by_cases hc : f c > a
      · rw [if_pos hc] at h1 ⊢; omega
      · rw [if_neg hc] at h1 ⊢; omega
    · rcases h3 with h3 | ⟨n, hn, h3⟩
      · by_cases hc : f c > a
        · rw [if_pos hc] at h3 ⊢
          exact Or.inr (Or.inl h3.symm)
        · rw [if_neg hc] at h3 ⊢
          exact Or.inl h3
      · exact Or.inr (Or.inr ⟨n, hn, h3⟩)

/-- On a non-empty preorder whose sizes lie between 1 and `2^63`, the first loop of
`orderCloud` returns the largest size. -/
theorem maxSize_spec (cha : CHA) (pre : order_t) (hne : pre ≠ [])
    (hs : ∀ n ∈ pre, (cha.getRange n).1 ≤ (cha.getRange n).2 ∧
      (cha.getRange n).2 - (cha.getRange n).1 + 1 ≤ 2 ^ 63) :
    (∃ n ∈ pre, (cha.getRange n).2 - (cha.getRange n).1 + 1 = orderCloud_maxSize cha pre) ∧
    (∀ n ∈ pre, (cha.getRange n).2 - (cha.getRange n).1 + 1 ≤ orderCloud_maxSize cha pre) := by
  have hsz : ∀ n ∈ pre, subVtableSize cha n = (cha.getRange n).2 - (cha.getRange n).1 + 1 :=
    fun n hn => subVtableSize_eq cha n (hs n hn).1 (by have := (hs n hn).2; omega)
  obtain ⟨_, h2, h3⟩ := maxLoop_spec (subVtableSize cha) pre 0
  have hdef : orderCloud_maxSize cha pre =
      pre.foldl (fun max child => if subVtableSize cha child > max then subVtableSize cha child
        else max) 0 := rfl
  rw [← hdef] at h2 h3
  refine ⟨?_, fun n hn => by rw [← hsz n hn]; exact h2 n hn⟩
  rcases h3 with h3 | ⟨n, hn, h3⟩
  · obtain ⟨c, cs, rfl⟩ := List.exists_cons_of_ne_nil hne
    have hc := h2 c (List.mem_cons_self _ _)
    rw [hsz c (List.mem_cons_self _ _)] at hc
    omega
  · exact ⟨n, hn, by rw [← hsz n hn]; exact h3⟩

theorem two_pow_land_pred (e : Nat) (he : e ≤ 63) :
    (2 ^ e) &&& u64 (((2 ^ e : Nat) : Int) - 1) = 0 := by
  have hpos : 0 < 2 ^ e := Nat.pow_pos (by norm_num)
  have hle : 2 ^ e ≤ 2 ^ 63 := Nat.pow_le_pow_right (by norm_num) he
  have : (((2 ^ e : Nat) : Int) - 1) = ((2 ^ e - 1 : Nat) : Int) := by omega
  rw [this, u64_of_lt _ (by omega)]
  apply Nat.eq_of_testBit_eq
  intro i
  rw [Nat.testBit_land, Nat.testBit_two_pow, Nat.testBit_two_pow_sub_one, Nat.zero_testBit]
  by_cases h : e = i
  · simp [h]
  · simp [h]

/-- The padding of `orderCloud` is the least number of entries that aligns the address
point. -/
theorem padSize_spec (K n : Nat) (hK : 0 < K) :
    (n + (if n % K = 0 then 0 else K - n % K)) % K = 0 ∧
    (if n % K = 0 then 0 else K - n % K) < K ∧
    ∀ q, (n + q) % K = 0 → (if n % K = 0 then 0 else K - n % K) ≤ q := by
  have hlt := Nat.mod_lt n hK
  have hdiv := Nat.div_add_mod n K
  by_cases h0 : n % K = 0
  · simp [h0, hK]
  · rw [if_neg h0]
    refine ⟨?_, by omega, ?_⟩
    · have : n + (K - n % K) = K * (n / K + 1) := by
        rw [Nat.mul_add, Nat.mul_one]; omega
      rw [this]; exact Nat.mul_mod_right _ _
    · intro q hq
      by_contra hc
      have hq' : q < K - n % K := by omega
      have h1 : n + q = K * (n / K) + (n % K + q) := by omega
      rw [h1, Nat.mul_add_mod, Nat.mod_eq_of_lt (by omega)] at hq
      omega

/-- One iteration of the second loop of `orderCloud` on a defined node. -/
theorem orderCloud_child_defined (cha : CHA) (dummy : vtbl_t) (K : Nat) (acc : interleaving_list_t)
    (v : vtbl_t) (hK : 0 < K) (hK32 : K ≤ 2 ^ 32) (hd : cha.isUndefined v.1 = false)
    (hs : (cha.getRange v).2 - (cha.getRange v).1 + 1 < 2 ^ 32) :
    orderCloud_child cha dummy K acc v =
      some (acc ++ List.replicate
        (if (acc.length + (cha.addrPt v - (cha.getRange v).1)) % K = 0 then 0
          else K - (acc.length + (cha.addrPt v - (cha.getRange v).1)) % K)
        ((dummy, (0 : Int)) : interleaving_t) ++ blockEntries cha v) := by
  have hp := (padSize_spec K (acc.length + (cha.addrPt v - (cha.getRange v).1)) hK).2.1
  unfold orderCloud_child blockEntries
  simp only [hd, Bool.false_eq_true, if_false]
  rw [if_neg (by omega), if_neg (by omega)]

theorem orderCloud_child_undefined (cha : CHA) (dummy : vtbl_t) (K : Nat)
    (acc : interleaving_list_t) (v : vtbl_t) (hd : cha.isUndefined v.1 = true) :
    orderCloud_child cha dummy K acc v = some acc := by
  unfold orderCloud_child
  simp [hd]

/-- The second loop of `orderCloud` runs to its end and only appends entries of the sentinel
and of the nodes it visits. -/
theorem orderFold_some (cha : CHA) (dummy : vtbl_t) (K : Nat) (hK : 0 < K) (hK32 : K ≤ 2 ^ 32)
    (pre : order_t)
    (hs : ∀ n ∈ pre, (cha.getRange n).2 - (cha.getRange n).1 + 1 < 2 ^ 32) :
    ∀ acc : interleaving_list_t, ∃ rest,
      pre.foldlM (orderCloud_child cha dummy K) acc = some (acc ++ rest) ∧
      (∀ e ∈ rest, e.1 = dummy ∨ e.1 ∈ pre) ∧
      rest.filter (fun e => decide (e.1 ≠ dummy)) =
        ((pre.filter (fun n => !cha.isUndefined n.1 && decide (n ≠ dummy))).flatMap
          (blockEntries cha)) := by
  induction pre with
  | nil => intro acc; exact ⟨[], by simp⟩
  | cons c cs ih =>
    intro acc
    have hcs : ∀ n ∈ cs, (cha.getRange n).2 - (cha.getRange n).1 + 1 < 2 ^ 32 :=
      fun n hn => hs n (List.mem_cons_of_mem _ hn)
    by_cases hd : cha.isUndefined c.1 = true
    · obtain ⟨rest, h1, h2, h3⟩ := ih hcs acc
      refine ⟨rest, ?_, fun e he => ?_, ?_⟩
      · rw [List.foldlM_cons, orderCloud_child_undefined cha dummy K acc c hd]
        exact h1
      · rcases h2 e he with h | h
        · exact Or.inl h
        · exact Or.inr (List.mem_cons_of_mem _ h)
      · rw [h3, List.filter_cons]
        simp [hd]
    · have hd' : cha.isUndefined c.1 = false := by simpa using hd
      have hstep := orderCloud_child_defined cha dummy K acc c hK hK32 hd'
        (hs c (List.mem_cons_self _ _))
      obtain ⟨rest, h1, h2, h3⟩ := ih hcs (acc ++ List.replicate
        (if (acc.length + (cha.addrPt c - (cha.getRange c).1)) % K = 0 then 0
          else K - (acc.length + (cha.addrPt c - (cha.getRange c).1)) % K)
        ((dummy, (0 : Int)) : interleaving_t) ++ blockEntries cha c)
      refine ⟨List.replicate
        (if (acc.length + (cha.addrPt c - (cha.getRange c).1)) % K = 0 then 0
          else K - (acc.length + (cha.addrPt c - (cha.getRange c).1)) % K)
        ((dummy, (0 : Int)) : interleaving_t) ++ blockEntries cha c ++ rest, ?_, ?_, ?_⟩
      · rw [List.foldlM_cons, hstep]
        simp only [Option.bind_eq_bind, Option.some_bind]
        rw [h1]
        simp [List.append_assoc]
      · intro e he
        simp only [List.mem_append, List.mem_replicate] at he
        rcases he with (⟨_, he⟩ | he) | he
        · exact Or.inl (by rw [he])
        · right
          unfold blockEntries at he
          obtain ⟨i, _, hi⟩ := List.mem_map.1 he
          rw [← hi]; exact List.mem_cons_self _ _
        · rcases h2 e he with h | h
          · exact Or.inl h
          · exact Or.inr (List.mem_cons_of_mem _ h)
      · rw [List.filter_append, List.filter_append, h3]
        have hrep : (List.replicate
            (if (acc.length + (cha.addrPt c - (cha.getRange c).1)) % K = 0 then 0
              else K - (acc.length + (cha.addrPt c - (cha.getRange c).1)) % K)
            ((dummy, (0 : Int)) : interleaving_t)).filter (fun e => decide (e.1 ≠ dummy)) = [] := by
          rw [List.filter_eq_nil_iff]
          intro e he
          rw [(List.mem_replicate.1 he).2]
          simp
        rw [hrep, List.nil_append, List.filter_cons]
        by_cases hcd : c = dummy
        · have : (blockEntries cha c).filter (fun e => decide (e.1 ≠ dummy)) = [] := by
            rw [List.filter_eq_nil_iff]
            intro e he
            unfold blockEntries at he
            obtain ⟨i, _, hi⟩ := List.mem_map.1 he
            rw [← hi]; simp [hcd]
          rw [this]
          simp [hcd]
        · have : (blockEntries cha c).filter (fun e => decide (e.1 ≠ dummy)) =
              blockEntries cha c := by
            rw [List.filter_eq_self]
            intro e he
            unfold blockEntries at he
            obtain ⟨i, _, hi⟩ := List.mem_map.1 he
            rw [← hi]; simpa using hcd
          rw [this]
          simp [hd', hcd]

/-- The list built by the second loop of `orderCloud`, split at a defined node `v`: the list
built for the nodes before `v`, the padding, the block of `v`, and the rest. -/
theorem orderFold_split (cha : CHA) (dummy : vtbl_t) (K : Nat) (hK : 0 < K) (hK32 : K ≤ 2 ^ 32)
    (pre1 : order_t) (v : vtbl_t) (pre2 : order_t)
    (hs : ∀ n ∈ pre1 ++ v :: pre2, (cha.getRange n).2 - (cha.getRange n).1 + 1 < 2 ^ 32)
    (hd : cha.isUndefined v.1 = false) :
    ∃ L1 rest : interleaving_list_t,
      pre1.foldlM (orderCloud_child cha dummy K) [] = some L1 ∧
      (pre1 ++ v :: pre2).foldlM (orderCloud_child cha dummy K) [] =
        some (L1 ++ List.replicate
          (if (L1.length + (cha.addrPt v - (cha.getRange v).1)) % K = 0 then 0
            else K - (L1.length + (cha.addrPt v - (cha.getRange v).1)) % K)
          ((dummy, (0 : Int)) : interleaving_t) ++ blockEntries cha v ++ rest) ∧
      (∀ e ∈ L1, e.1 = dummy ∨ e.1 ∈ pre1) ∧ (∀ e ∈ rest, e.1 = dummy ∨ e.1 ∈ pre2) := by
  obtain ⟨L1, h1, h2, _⟩ := orderFold_some cha dummy K hK hK32 pre1
    (fun n hn => hs n (List.mem_append_left _ hn)) []
  rw [List.nil_append] at h1
  obtain ⟨rest, h3, h4, _⟩ := orderFold_some cha dummy K hK hK32 pre2
    (fun n hn => hs n (List.mem_append_right _ (List.mem_cons_of_mem _ hn)))
    (L1 ++ List.replicate
      (if (L1.length + (cha.addrPt v - (cha.getRange v).1)) % K = 0 then 0
        else K - (L1.length + (cha.addrPt v - (cha.getRange v).1)) % K)
      ((dummy, (0 : Int)) : interleaving_t) ++ blockEntries cha v)
  refine ⟨L1, rest, h1, ?_, h2, h4⟩
  rw [List.foldlM_append, h1]
  simp only [Option.bind_eq_bind, Option.some_bind]
  rw [List.foldlM_cons, orderCloud_child_defined cha dummy K L1 v hK hK32 hd
    (hs v (by simp))]
  simp only [Option.bind_eq_bind, Option.some_bind]
  exact h3

/-- A member of a list splits it at its first occurrence. -/
theorem first_split {α : Type} [DecidableEq α] (a : α) (l : List α) (h : a ∈ l) :
    ∃ s t, l = s ++ a :: t ∧ a ∉ s := by
  induction l with
  | nil => simp at h
  | cons b bs ih =>
    by_cases hab : a = b
    · exact ⟨[], bs, by simp [hab], by simp⟩
    · have hbs : a ∈ bs := by
        rcases List.mem_cons.1 h with h | h
        · exact absurd h hab
        · exact h
      obtain ⟨s, t, hst, hs⟩ := ih hbs
      exact ⟨b :: s, t, by simp [hst], by simp [hab, hs]⟩

theorem indicesOf_append (v : vtbl_t) (A B : interleaving_list_t) :
    ∀ i, indicesOf v (A ++ B) i = indicesOf v A i ++ indicesOf v B (i + A.length) := by
  induction A with
  | nil => intro i; simp [indicesOf]
  | cons a as ih =>
    intro i
    simp only [List.cons_append, indicesOf, List.length_cons]
    have e : i + 1 + as.length = i + (as.length + 1) := by omega
    by_cases h : a.1 = v
    · simp [h, ih, e]
    · simp [h, ih, e]

theorem indicesOf_none (v : vtbl_t) (A : interleaving_list_t) (h : ∀ e ∈ A, e.1 ≠ v) :
    ∀ i, indicesOf v A i = [] := by
  induction A with
  | nil => intro i; simp [indicesOf]
  | cons a as ih =>
    intro i
    simp only [indicesOf]
    rw [if_neg (h a (List.mem_cons_self _ _))]
    exact ih (fun e he => h e (List.mem_cons_of_mem _ he)) _

theorem indicesOf_all (v : vtbl_t) (A : interleaving_list_t) (h : ∀ e ∈ A, e.1 = v) :
    ∀ i, indicesOf v A i = List.range' i A.length := by
  induction A with
  | nil => intro i; simp [indicesOf]
  | cons a as ih =>
    intro i
    simp only [indicesOf, List.length_cons]
    rw [if_pos (h a (List.mem_cons_self _ _)),
      ih (fun e he => h e (List.mem_cons_of_mem _ he)), List.range'_succ]

theorem blockEntries_length (cha : CHA) (v : vtbl_t) :
    (blockEntries cha v).length = (cha.getRange v).2 - (cha.getRange v).1 + 1 := by
  simp [blockEntries]

theorem blockEntries_fst (cha : CHA) (v : vtbl_t) : ∀ e ∈ blockEntries cha v, e.1 = v := by
  intro e he
  unfold blockEntries at he
  obtain ⟨i, _, hi⟩ := List.mem_map.1 he
  rw [← hi]

/-- The value of `max` and the alignment that `orderCloud` computes for sizes between 1 and
`2^63`. -/
theorem alignment_spec (cha : CHA) (pre : order_t) (hne : pre ≠ [])
    (hs : ∀ n ∈ pre, (cha.getRange n).1 ≤ (cha.getRange n).2 ∧
      (cha.getRange n).2 - (cha.getRange n).1 + 1 ≤ 2 ^ 63) :
    ∃ M K : Nat,
      (∃ n ∈ pre, (cha.getRange n).2 - (cha.getRange n).1 + 1 = M) ∧
      (∀ n ∈ pre, (cha.getRange n).2 - (cha.getRange n).1 + 1 ≤ M) ∧
      orderCloud_maxSize cha pre = M ∧
      orderCloud_roundUp M = K ∧
      orderCloud_alignment cha pre = some (K, (K * WORD_WIDTH) % 2 ^ 64) ∧
      (∃ e, K = 2 ^ e) ∧ M ≤ K ∧ (∀ e, M ≤ 2 ^ e → K ≤ 2 ^ e) ∧ K < 2 * M ∧ 1 ≤ K ∧
      (M ≤ 2 ^ 60 → (K * WORD_WIDTH) % 2 ^ 64 = K * WORD_WIDTH) := by
  obtain ⟨⟨n, hn, hM⟩, hall⟩ := maxSize_spec cha pre hne hs
  have hM1 : 1 ≤ orderCloud_maxSize cha pre := by rw [← hM]; omega
  have hM2 : orderCloud_maxSize cha pre ≤ 2 ^ 63 := by rw [← hM]; exact (hs n hn).2
  have hK := roundUp_eq _ hM1 hM2
  have hsz : (orderCloud_maxSize cha pre - 1).size ≤ 63 := Nat.size_le.2 (by omega)
  have hlt : orderCloud_maxSize cha pre - 1 < 2 ^ (orderCloud_maxSize cha pre - 1).size :=
    Nat.lt_size_self _
  have hpos : 0 < 2 ^ (orderCloud_maxSize cha pre - 1).size := Nat.pow_pos (by norm_num)
  have hpow : 2 ^ (orderCloud_maxSize cha pre - 1).size ≤ 2 ^ 63 :=
    Nat.pow_le_pow_right (by norm_num) hsz
  refine ⟨orderCloud_maxSize cha pre, 2 ^ (orderCloud_maxSize cha pre - 1).size,
    ⟨n, hn, hM⟩, hall, rfl, hK, ?_, ⟨_, rfl⟩, by omega, ?_, ?_, hpos, ?_⟩
  · unfold orderCloud_alignment
    simp only [hK]
    rw [if_neg (by rw [two_pow_land_pred _ hsz]; simp)]
    have hu : u64 (((2 ^ (orderCloud_maxSize cha pre - 1).size : Nat) : Int) * 8) =
        2 ^ (orderCloud_maxSize cha pre - 1).size * WORD_WIDTH % 2 ^ 64 := by
      have : ((2 ^ (orderCloud_maxSize cha pre - 1).size : Nat) : Int) * 8 =
          ((2 ^ (orderCloud_maxSize cha pre - 1).size * 8 : Nat) : Int) := by
        push_cast; rfl
      rw [this, u64_natCast]
      rfl
    rw [hu]
  · intro e he
    apply Nat.pow_le_pow_right (by norm_num)
    apply Nat.size_le.2
    omega
  · by_cases h0 : orderCloud_maxSize cha pre - 1 = 0
    · rw [h0]; simp; omega
    · have hs1 : (orderCloud_maxSize cha pre - 1).size - 1 < (orderCloud_maxSize cha pre - 1).size := by
        have : 0 < (orderCloud_maxSize cha pre - 1).size := Nat.size_pos.2 (by omega)
        omega
      have h2 := Nat.lt_size.1 hs1
      have h3 : 2 ^ (orderCloud_maxSize cha pre - 1).size =
          2 * 2 ^ ((orderCloud_maxSize cha pre - 1).size - 1) := by
        rw [← Nat.pow_succ']
        congr 1
        omega
      omega
  · intro h60
    apply Nat.mod_eq_of_lt
    have hsz60 : (orderCloud_maxSize cha pre - 1).size ≤ 60 := Nat.size_le.2 (by omega)
    have : 2 ^ (orderCloud_maxSize cha pre - 1).size ≤ 2 ^ 60 :=
      Nat.pow_le_pow_right (by norm_num) hsz60
    unfold WORD_WIDTH
    omega

/-- On a rooted non-empty cloud with sizes below `2^32`, `orderCloud` returns: the alignment
is `K · 8` for a positive `K ≤ 2^32`, and the list is the one its second loop builds. -/
theorem orderCloud_eq (cha : CHA) (dummy : vtbl_t) (vtbl : vtbl_name_t)
    (hroot : cha.isRoot vtbl = true) (hne : cha.preorder (vtbl, 0) ≠ [])
    (hs : ∀ n ∈ cha.preorder (vtbl, 0), (cha.getRange n).1 ≤ (cha.getRange n).2 ∧
      (cha.getRange n).2 - (cha.getRange n).1 + 1 < 2 ^ 32) :
    ∃ (K : Nat) (L : interleaving_list_t), 0 < K ∧ K ≤ 2 ^ 32 ∧
      orderCloud_alignment cha (cha.preorder (vtbl, 0)) = some (K, K * WORD_WIDTH) ∧
      (cha.preorder (vtbl, 0)).foldlM (orderCloud_child cha dummy K) [] = some L ∧
      orderCloud cha dummy vtbl = some (K * WORD_WIDTH, L) := by
  obtain ⟨M, K, ⟨n, hn, hM⟩, _, _, _, hal, _, _, hmin, _, hK1, h60⟩ :=
    alignment_spec cha (cha.preorder (vtbl, 0)) hne
      (fun n hn => ⟨(hs n hn).1, by have := (hs n hn).2; omega⟩)
  have hM32 : M ≤ 2 ^ 32 := by rw [← hM]; have := (hs n hn).2; omega
  have hK32 : K ≤ 2 ^ 32 := hmin 32 hM32
  rw [h60 (by omega)] at hal
  obtain ⟨L, hL, _, _⟩ := orderFold_some cha dummy K (by omega) hK32 (cha.preorder (vtbl, 0))
    (fun n hn => (hs n hn).2) []
  rw [List.nil_append] at hL
  refine ⟨K, L, by omega, hK32, hal, hL, ?_⟩
  unfold orderCloud
  simp only [hroot, Bool.not_true, Bool.false_eq_true, if_false, hal, hL]

theorem vcallConst_constInt (cha : CHA) (nli : vtbl_t → Option (List Nat)) (v : vtbl_t)
    (CI : Instruction) (x : Value) (h : vcallConst cha nli v CI = some x) :
    ∃ c, x = Value.constInt c := by
  unfold vcallConst at h
  split at h
  · obtain ⟨a, _, ha⟩ := Option.map_eq_some'.1 h
    exact ⟨_, ha.symm⟩
  · simp at h

/-- What `vcallConst` is on a call with a literal argument. -/
theorem vcallConst_some (cha : CHA) (nli : vtbl_t → Option (List Nat)) (v : vtbl_t)
    (CI : Instruction) (h : (vcallConst cha nli v CI).isSome = true) :
    ∃ oldLit newIndex, CI.operands.head? = some (Value.constInt oldLit) ∧
      translateVtblInd cha nli v (Int.tdiv oldLit 8) true = some newIndex ∧
      vcallConst cha nli v CI = some (Value.constInt (newIndex * 8)) := by
  unfold vcallConst at h ⊢
  split at h
  · rename_i oldLit heq
    obtain ⟨newIndex, hn⟩ := Option.isSome_iff_exists.1 (by simpa using h)
    exact ⟨oldLit, newIndex, heq, hn, by simp [heq, hn]⟩
  · simp at h

theorem substOperand_nil (cha : CHA) (nli : vtbl_t → Option (List Nat)) (v : vtbl_t)
    (o : Value) : substOperand cha nli v [] o = o := by
  simp [substOperand]

theorem substBody_nil (cha : CHA) (nli : vtbl_t → Option (List Nat)) (v : vtbl_t)
    (body : List Instruction) : substBody cha nli v [] body = body := by
  unfold substBody
  have : (fun (inst : Instruction) =>
      ({ inst with operands := inst.operands.map (substOperand cha nli v []) } : Instruction)) =
      id := by
    funext inst
    have : inst.operands.map (substOperand cha nli v []) = inst.operands := by
      conv_rhs => rw [← List.map_id inst.operands]
      apply List.map_congr_left
      intro o _
      exact substOperand_nil cha nli v o
    simp [this]
  rw [this, List.map_id]

theorem substOperand_constInt (cha : CHA) (nli : vtbl_t → Option (List Nat)) (v : vtbl_t)
    (calls : List Instruction) (c : Int) :
    substOperand cha nli v calls (Value.constInt c) = Value.constInt c := by
  unfold substOperand
  have : calls.find? (fun CI => CI.isVCallIndexCall &&
      decide (Value.constInt c = Value.inst CI.id)) = none := by
    rw [List.find?_eq_none]
    intro x _
    simp
  rw [this]

/-- Appending an instruction that is not a call of the intrinsic changes no operand. -/
theorem substOperand_snoc_other (cha : CHA) (nli : vtbl_t → Option (List Nat)) (v : vtbl_t)
    (calls : List Instruction) (CI : Instruction) (h : CI.isVCallIndexCall = false) (o : Value) :
    substOperand cha nli v (calls ++ [CI]) o = substOperand cha nli v calls o := by
  unfold substOperand
  rw [List.find?_append]
  have : [CI].find? (fun CI => CI.isVCallIndexCall && decide (o = Value.inst CI.id)) = none := by
    simp [h]
  rw [this, Option.or_none]

/-- One `replaceAllUsesWith` step on an operand. -/
theorem substOperand_snoc_call (cha : CHA) (nli : vtbl_t → Option (List Nat)) (v : vtbl_t)
    (calls : List Instruction) (CI : Instruction) (newValue : Value)
    (hcalls : ∀ C ∈ calls, C.isVCallIndexCall = true → (vcallConst cha nli v C).isSome = true)
    (hcall : CI.isVCallIndexCall = true) (hval : vcallConst cha nli v CI = some newValue)
    (o : Value) :
    (if substOperand cha nli v calls o = Value.inst CI.id then newValue
      else substOperand cha nli v calls o) = substOperand cha nli v (calls ++ [CI]) o := by
  unfold substOperand
  rw [List.find?_append]
  cases hf : calls.find? (fun CI => CI.isVCallIndexCall && decide (o = Value.inst CI.id)) with
  | some C =>
    have hC := List.mem_of_find?_eq_some hf
    have hp := List.find?_some hf
    simp only [Bool.and_eq_true, decide_eq_true_eq] at hp
    obtain ⟨x, hx⟩ := Option.isSome_iff_exists.1 (hcalls C hC hp.1)
    obtain ⟨c, hc⟩ := vcallConst_constInt cha nli v C x hx
    have hor : ∀ y : Option Instruction, (some C).or y = some C := fun y => rfl
    simp only [hor, hx, Option.getD_some, hc]
    rw [if_neg (by simp)]
  | none =>
    have hor : ∀ y : Option Instruction, (none : Option Instruction).or y = y := fun y => rfl
    simp only [hor]
    by_cases ho : o = Value.inst CI.id
    · rw [if_pos ho]
      have : [CI].find? (fun CI => CI.isVCallIndexCall && decide (o = Value.inst CI.id)) =
          some CI := by
        simp [hcall, ho]
      rw [this]
      simp [hval]
    · rw [if_neg ho]
      have : [CI].find? (fun CI => CI.isVCallIndexCall && decide (o = Value.inst CI.id)) =
          none := by
        simp [ho]
      rw [this]

theorem replaceAllUsesWith_subst (cha : CHA) (nli : vtbl_t → Option (List Nat)) (v : vtbl_t)
    (calls : List Instruction) (CI : Instruction) (newValue : Value) (body : List Instruction)
    (hcalls : ∀ C ∈ calls, C.isVCallIndexCall = true → (vcallConst cha nli v C).isSome = true)
    (hcall : CI.isVCallIndexCall = true) (hval : vcallConst cha nli v CI = some newValue) :
    replaceAllUsesWith (substBody cha nli v calls body) CI.id newValue =
      substBody cha nli v (calls ++ [CI]) body := by
  unfold replaceAllUsesWith substBody
  rw [List.map_map]
  apply List.map_congr_left
  intro inst _
  simp only [Function.comp, List.map_map]
  congr 1
  apply List.map_congr_left
  intro o _
  exact substOperand_snoc_call cha nli v calls CI newValue hcalls hcall hval o

theorem substBody_snoc_other (cha : CHA) (nli : vtbl_t → Option (List Nat)) (v : vtbl_t)
    (calls : List Instruction) (CI : Instruction) (h : CI.isVCallIndexCall = false)
    (body : List Instruction) :
    substBody cha nli v (calls ++ [CI]) body = substBody cha nli v calls body := by
  unfold substBody
  apply List.map_congr_left
  intro inst _
  congr 1
  apply List.map_congr_left
  intro o _
  exact substOperand_snoc_other cha nli v calls CI h o

/-- Loop invariant of the instruction walk of `createThunkFunctions`: when the walk is at
position `k`, the calls before `k` have been rewritten. -/
theorem rewriteVCallIndex_inv (cha : CHA) (nli : vtbl_t → Option (List Nat)) (v : vtbl_t)
    (body : List Instruction)
    (hlit : ∀ CI ∈ body, CI.isVCallIndexCall = true → (vcallConst cha nli v CI).isSome = true) :
    ∀ n k, k + n = body.length →
      rewriteVCallIndex cha nli v n k (substBody cha nli v (body.take k) body) =
        .done (substBody cha nli v body body) := by
  intro n
  induction n with
  | zero =>
    intro k hk
    have : body.take k = body := List.take_of_length_le (by omega)
    rw [this]
    rfl
  | succ n ih =>
    intro k hk
    have hlt : k < body.length := by omega
    have hget : (substBody cha nli v (body.take k) body)[k]? =
        some { body[k] with
          operands := body[k].operands.map (substOperand cha nli v (body.take k)) } := by
      unfold substBody
      rw [List.getElem?_map, List.getElem?_eq_getElem hlt]
      rfl
    have htake : body.take (k + 1) = body.take k ++ [body[k]] := by
      rw [List.take_succ, List.getElem?_eq_getElem hlt]
      rfl
    have hmem : body[k] ∈ body := List.getElem_mem _
    have hcalls : ∀ C ∈ body.take k, C.isVCallIndexCall = true →
        (vcallConst cha nli v C).isSome = true :=
      fun C hC => hlit C (List.mem_of_mem_take hC)
    unfold rewriteVCallIndex
    rw [hget]
    simp only
    by_cases hcall : body[k].isVCallIndexCall = true
    · obtain ⟨oldLit, newIndex, hhead, htr, hval⟩ :=
        vcallConst_some cha nli v body[k] (hlit _ hmem hcall)
      have hhead' : (body[k].operands.map (substOperand cha nli v (body.take k))).head? =
          some (Value.constInt oldLit) := by
        rw [List.head?_map, hhead]
        simp [substOperand_constInt]
      have hW : ((WORD_WIDTH : Nat) : Int) = 8 := rfl
      simp only [hcall, if_true, hhead', hW, htr]
      have := replaceAllUsesWith_subst cha nli v (body.take k) body[k]
        (Value.constInt (newIndex * 8)) body hcalls hcall hval
      rw [this, ← htake]
      exact ih (k + 1) (by omega)
    · have hcall' : body[k].isVCallIndexCall = false := by simpa using hcall
      simp only [hcall', Bool.false_eq_true, if_false]
      rw [← substBody_snoc_other cha nli v (body.take k) body[k] hcall' body, ← htake]
      exact ih (k + 1) (by omega)

theorem Outcome.andThen_done {σ : Type} (s : σ) (f : σ → Outcome σ) :
    (Outcome.done s).andThen f = f s := rfl

theorem Outcome.andThen_abort {σ : Type} (s : σ) (f : σ → Outcome σ) :
    (Outcome.abort s).andThen f = .abort s := rfl

theorem Outcome.eq_done_of_not_abort {σ : Type} (o : Outcome σ) (h : o.isAbort = false) :
    o = .done o.state := by
  cases o with
  | done s => rfl
  | abort s => simp [Outcome.isAbort] at h

/-- A loop of steps that has stopped at an assertion stays there. -/
theorem foldl_andThen_abort {σ α : Type} (f : σ → α → Outcome σ) (l : List α) (s : σ) :
    l.foldl (fun (o : Outcome σ) x => o.andThen (fun s => f s x)) (Outcome.abort s) =
      Outcome.abort s := by
  induction l with
  | nil => rfl
  | cons x xs ih => rw [List.foldl_cons, Outcome.andThen_abort]; exact ih

/-- A property of the state that every step keeps, whether it completes or stops, holds at
the end of a loop of steps. -/
theorem foldl_andThen_inv {σ α : Type} (R : σ → Prop) (f : σ → α → Outcome σ)
    (hf : ∀ s x, R s → R (f s x).state) (l : List α) :
    ∀ o : Outcome σ, R o.state →
      R (l.foldl (fun (o : Outcome σ) x => o.andThen (fun s => f s x)) o).state := by
  induction l with
  | nil => intro o h; exact h
  | cons x xs ih =>
    intro o h
    rw [List.foldl_cons]
    apply ih
    cases o with
    | done s => rw [Outcome.andThen_done]; exact hf s x h
    | abort s => rw [Outcome.andThen_abort]; exact h

/-- A loop of steps that completes has completed every step: a relation between the state
before and after each completed step, indexed by the elements, composes along the list. -/
theorem foldl_andThen_done {σ α : Type} (Q : σ → List α → σ → Prop) (f : σ → α → Outcome σ)
    (h0 : ∀ s, Q s [] s)
    (hstep : ∀ s x s1 xs s2, f s x = .done s1 → Q s1 xs s2 → Q s (x :: xs) s2) (l : List α) :
    ∀ s s2, l.foldl (fun (o : Outcome σ) x => o.andThen (fun s => f s x)) (Outcome.done s) =
      Outcome.done s2 → Q s l s2 := by
  induction l with
  | nil =>
    intro s s2 h
    simp only [List.foldl_nil] at h
    cases h
    exact h0 s
  | cons x xs ih =>
    intro s s2 h
    rw [List.foldl_cons, Outcome.andThen_done] at h
    cases hx : f s x with
    | done s1 => rw [hx] at h; exact hstep s x s1 xs s2 hx (ih s1 s2 h)
    | abort s1 => rw [hx, foldl_andThen_abort] at h; cases h

theorem replaceUser_names (M : Module) (oldName : String) (user : User) (newName : String)
    (newUser : User) :
    (M.replaceUser oldName user newName newUser).globals.map (fun g => g.name) =
      M.globals.map (fun g => g.name) := by
  unfold Module.replaceUser
  simp only [List.map_map]
  apply List.map_congr_left
  intro g _
  simp only [Function.comp]
  split_ifs <;> rfl

theorem replaceUser_functions (M : Module) (oldName : String) (user : User) (newName : String)
    (newUser : User) :
    (M.replaceUser oldName user newName newUser).functions = M.functions := rfl

/-- The user loop of `createNewVTable` changes neither the names of the globals nor the
functions. -/
theorem createNewVTable_user_names (cha : CHA) (vtbl : vtbl_name_t) (v : vtbl_t) (s : State)
    (user : User) :
    (createNewVTable_user cha vtbl v s user).state.M.globals.map (fun g => g.name) =
      s.M.globals.map (fun g => g.name) ∧
    (createNewVTable_user cha vtbl v s user).state.M.functions = s.M.functions := by
  unfold createNewVTable_user
  cases user with
  | other => exact ⟨rfl, rfl⟩
  | gep index =>
    cases index with
    | none => exact ⟨rfl, rfl⟩
    | some oldConst =>
      simp only
      cases createNewVTable_newAddrPt cha s.newLayoutInds v (u64 oldConst) with
      | none => exact ⟨rfl, rfl⟩
      | some r =>
        cases r with
        | none => exact ⟨rfl, rfl⟩
        | some newAddrPt => exact ⟨replaceUser_names _ _ _ _ _, rfl⟩

theorem createNewVTable_node_names (cha : CHA) (vtbl : vtbl_name_t) (s : State) (v : vtbl_t)
    (N : List String) (F : List Function)
    (h : s.M.globals.map (fun g => g.name) = N ∧ s.M.functions = F) :
    (createNewVTable_node cha vtbl s v).state.M.globals.map (fun g => g.name) = N ∧
    (createNewVTable_node cha vtbl s v).state.M.functions = F := by
  unfold createNewVTable_node
  simp only
  have key : ∀ o : Outcome State,
      (o.state.M.globals.map (fun g => g.name) = N ∧ o.state.M.functions = F) →
      ((o.andThen (fun s =>
        if cha.isUndefined v.1 then .done s
        else
          match s.M.getGlobalVariable v.1 with
          | none => .abort s
          | some globalVar =>
            globalVar.users.foldl
              (fun o user => o.andThen (fun s => createNewVTable_user cha vtbl v s user))
              (.done s))).state.M.globals.map (fun g => g.name) = N ∧
       (o.andThen (fun s =>
        if cha.isUndefined v.1 then .done s
        else
          match s.M.getGlobalVariable v.1 with
          | none => .abort s
          | some globalVar =>
            globalVar.users.foldl
              (fun o user => o.andThen (fun s => createNewVTable_user cha vtbl v s user))
              (.done s))).state.M.functions = F) := by
    intro o ho
    cases o with
    | abort t => exact ho
    | done t =>
      rw [Outcome.andThen_done]
      by_cases hu : cha.isUndefined v.1 = true
      · rw [if_pos hu]; exact ho
      · rw [if_neg hu]
        cases t.M.getGlobalVariable v.1 with
        | none => exact ho
        | some globalVar =>
          exact foldl_andThen_inv
            (fun s' => s'.M.globals.map (fun g => g.name) = N ∧ s'.M.functions = F)
            (fun s user => createNewVTable_user cha vtbl v s user)
            (fun s' user hs' => by
              have := createNewVTable_user_names cha vtbl v s' user
              exact ⟨this.1.trans hs'.1, this.2.trans hs'.2⟩)
            globalVar.users (.done t) ho
  apply key
  by_cases hd : cha.isDefined v = true
  · rw [if_pos hd]
    by_cases hs : (s.newVTableStartAddrMap v).isSome = true
    · rw [if_pos hs]; exact h
    · rw [if_neg hs]
      cases newVtblAddressConst cha s.newLayoutInds s.cloudStartMap v with
      | none => exact h
      | some a => exact h
  · rw [if_neg hd]; exact h

/-- The instruction walk keeps no module state; the element step of `createThunkFunctions`
leaves the globals of the module alone. -/
theorem createThunkFunctions_elem_globals (cha : CHA) (nli : vtbl_t → Option (List Nat))
    (vtbl : vtbl_name_t) (M : Module) (vtblInd : Nat) (c : Constant) :
    (createThunkFunctions_elem cha nli vtbl M vtblInd c).state.globals = M.globals := by
  unfold createThunkFunctions_elem
  cases getVthunkFunction c with
  | none => rfl
  | some r =>
    cases r with
    | none => rfl
    | some thunkF =>
      simp only
      split_ifs
      · rfl
      · rfl
      · generalize rewriteVCallIndex cha nli _ _ _ _ = o
        cases o with
        | done b => rfl
        | abort b => rfl

theorem createThunkFunctions_elems_globals (cha : CHA) (nli : vtbl_t → Option (List Nat))
    (vtbl : vtbl_name_t) (cs : List Constant) :
    ∀ (vtblInd : Nat) (M : Module),
      (createThunkFunctions_elems cha nli vtbl cs vtblInd M).state.globals = M.globals := by
  induction cs with
  | nil => intro _ _; rfl
  | cons c cs ih =>
    intro vtblInd M
    unfold createThunkFunctions_elems
    have h := createThunkFunctions_elem_globals cha nli vtbl M vtblInd c
    cases hc : createThunkFunctions_elem cha nli vtbl M vtblInd c with
    | done M1 =>
      rw [hc] at h
      rw [Outcome.andThen_done, ih]
      exact h
    | abort M1 =>
      rw [hc] at h
      exact h

/-- `createThunkFunctions` leaves the globals of the module alone, whether it completes or
stops at an assertion. -/
theorem createThunkFunctions_globals (cha : CHA) (nli : vtbl_t → Option (List Nat))
    (rootName : vtbl_name_t) (M : Module) :
    (createThunkFunctions cha nli rootName M).state.globals = M.globals := by
  unfold createThunkFunctions
  exact foldl_andThen_inv (fun M1 => M1.globals = M.globals)
    (fun M1 (vtbl : vtbl_t) => createThunkFunctions_vtbl cha nli M1 vtbl.1)
    (fun M1 vtbl h => by
      simp only at h ⊢
      unfold createThunkFunctions_vtbl
      split_ifs
      · exact h
      · exact h
      · rw [createThunkFunctions_elems_globals]; exact h)
    (cha.preorder (rootName, 0)) (.done M) rfl

/-- A completed `createNewVTable` has added the global `_SD{vtbl}` and no other. -/
theorem createNewVTable_done_names (cha : CHA) (vtbl : vtbl_name_t) (s s1 : State)
    (h : createNewVTable cha vtbl s = .done s1) :
    s1.M.globals.map (fun g => g.name) =
      s.M.globals.map (fun g => g.name) ++ [NEW_VTABLE_NAME vtbl] := by
  unfold createNewVTable at h
  simp only at h
  cases he : createNewVTable_elems cha s.dummyVtable s.M ((s.interleavingMap vtbl).getD [])
      ([], s.vthunksToRemove) with
  | abort acc => rw [he] at h; cases h
  | done acc =>
    obtain ⟨newVtableElems, vthunksToRemove⟩ := acc
    rw [he] at h
    simp only at h
    cases ha : s.alignmentMap vtbl with
    | none => rw [ha] at h; cases h
    | some alignment =>
      rw [ha] at h
      simp only at h
      have hinv := foldl_andThen_inv
        (fun s' : State => s'.M.globals.map (fun g => g.name) =
            s.M.globals.map (fun g => g.name) ++ [NEW_VTABLE_NAME vtbl] ∧
          s'.M.functions = s.M.functions)
        (fun s' v => createNewVTable_node cha vtbl s' v)
        (fun s' v hs' => createNewVTable_node_names cha vtbl s' v _ _ hs')
        (cha.preorder (vtbl, 0))
        (.done { s with
          vthunksToRemove := vthunksToRemove
          M := { s.M with globals := s.M.globals ++
            [{ name := NEW_VTABLE_NAME vtbl, initializer := newVtableElems,
               alignment := alignment, users := [] }] }
          cloudStartMap := updName s.cloudStartMap (NEW_VTABLE_NAME vtbl) true })
        (by
          refine ⟨?_, rfl⟩
          simp only [Outcome.state, List.map_append, List.map_cons, List.map_nil])
      have e : (cha.preorder (vtbl, 0)).foldl
          (fun (o : Outcome State) v => o.andThen (fun s => createNewVTable_node cha vtbl s v))
          (.done { s with
            vthunksToRemove := vthunksToRemove
            M := { s.M with globals := s.M.globals ++
              [{ name := NEW_VTABLE_NAME vtbl, initializer := newVtableElems,
                 alignment := alignment, users := [] }] }
            cloudStartMap := updName s.cloudStartMap (NEW_VTABLE_NAME vtbl) true }) =
          .done s1 := h
      rw [e] at hinv
      exact hinv.1

/-- A completed pass of the second loop of `buildNewLayouts` over one root has added the
global `_SD{vtbl}` and no other. -/
theorem emitCloud_done_names (cha : CHA) (s : State) (vtbl : vtbl_name_t) (s1 : State)
    (h : emitCloud cha s vtbl = .done s1) :
    s1.M.globals.map (fun g => g.name) =
      s.M.globals.map (fun g => g.name) ++ [NEW_VTABLE_NAME vtbl] := by
  unfold emitCloud at h
  have hg := createThunkFunctions_globals cha s.newLayoutInds vtbl s.M
  cases hc : createThunkFunctions cha s.newLayoutInds vtbl s.M with
  | abort M1 =>
    rw [hc] at h
    simp only [Outcome.bind, Outcome.andThen] at h
    cases h
  | done M1 =>
    rw [hc] at h hg
    simp only [Outcome.bind, Outcome.andThen, id] at h
    have := createNewVTable_done_names cha vtbl _ s1 h
    rw [this]
    simp only [Outcome.state] at hg
    rw [hg]

/-- The planning step leaves the module alone, whether it completes or stops. -/
theorem planCloud_M (cha : CHA) (fuel : Nat) (s : State) (vtbl : vtbl_name_t) :
    (planCloud cha fuel s vtbl).state.M = s.M := by
  unfold planCloud
  simp only
  have key : ∀ o : Outcome State, o.state.M = s.M →
      (o.andThen (fun s =>
        match s.interleavingMap vtbl with
        | none => .abort s
        | some interleaving =>
          .done { s with
            newLayoutInds :=
              calculateNewLayoutInds s.dummyVtable interleaving s.newLayoutInds })).state.M =
        s.M := by
    intro o ho
    cases o with
    | abort t => exact ho
    | done t =>
      rw [Outcome.andThen_done]
      cases t.interleavingMap vtbl with
      | none => exact ho
      | some l => exact ho
  apply key
  split_ifs
  · rfl
  · cases interleaveCloud cha fuel s.prePadMap vtbl with
    | none => rfl
    | some r => rfl
  · cases orderCloud cha s.dummyVtable vtbl with
    | none => rfl
    | some r => rfl

/-- The range step leaves the module alone, whether it completes or stops. -/
theorem rangesOfCloud_M (cha : CHA) (fuel : Nat) (s : State) (vtbl : vtbl_name_t) :
    (rangesOfCloud cha fuel s vtbl).state.M = s.M := by
  unfold rangesOfCloud
  cases calculateVPtrRanges cha s.newLayoutInds s.cloudStartMap fuel s.rangeMap s.memRangeMap
      vtbl with
  | none => rfl
  | some r =>
    simp only
    split_ifs <;> rfl

/-- The three loops of `buildNewLayouts` and the module: planning and the range phase leave
it alone; a completed emission loop has added one `_SD` global per root, in order. -/
theorem phases_module (cha : CHA) (fuel : Nat) (s : State) :
    (forRoots cha (planCloud cha fuel) s).state.M = s.M ∧
    (forRoots cha (rangesOfCloud cha fuel) s).state.M = s.M ∧
    (∀ s1, forRoots cha (emitCloud cha) s = .done s1 →
      s1.M.globals.map (fun g => g.name) =
        s.M.globals.map (fun g => g.name) ++ cha.roots.map NEW_VTABLE_NAME) := by
  refine ⟨?_, ?_, ?_⟩
  · exact foldl_andThen_inv (fun s' : State => s'.M = s.M) (planCloud cha fuel)
      (fun s' v h => (planCloud_M cha fuel s' v).trans h) cha.roots (.done s) rfl
  · exact foldl_andThen_inv (fun s' : State => s'.M = s.M) (rangesOfCloud cha fuel)
      (fun s' v h => (rangesOfCloud_M cha fuel s' v).trans h) cha.roots (.done s) rfl
  · intro s1 h
    exact foldl_andThen_done
      (fun (a : State) (l : List vtbl_name_t) (b : State) =>
        b.M.globals.map (fun g => g.name) =
          a.M.globals.map (fun g => g.name) ++ l.map NEW_VTABLE_NAME)
      (emitCloud cha) (fun a => by simp)
      (fun a x a1 xs a2 hx hq => by
        simp only at hq ⊢
        rw [hq, emitCloud_done_names cha a x a1 hx]
        simp)
      cha.roots s s1 h

/-- The indices that `indicesOf` lists are the positions of the entries of `v`. -/
theorem mem_indicesOf (v : vtbl_t) (L : interleaving_list_t) :
    ∀ k i, i ∈ indicesOf v L k ↔ ∃ j e, i = k + j ∧ L[j]? = some e ∧ e.1 = v := by
  induction L with
  | nil => intro k i; simp [indicesOf]
  | cons a as ih =>
    intro k i
    have key : (∃ j e, i = k + j ∧ (a :: as)[j]? = some e ∧ e.1 = v) ↔
        ((i = k ∧ a.1 = v) ∨ ∃ j e, i = k + 1 + j ∧ as[j]? = some e ∧ e.1 = v) := by
      constructor
      · rintro ⟨j, e, hi, hj, he⟩
        cases j with
        | zero =>
          left
          simp only [List.getElem?_cons_zero, Option.some.injEq] at hj
          exact ⟨by omega, by rw [hj]; exact he⟩
        | succ j =>
          right
          simp only [List.getElem?_cons_succ] at hj
          exact ⟨j, e, by omega, hj, he⟩
      · rintro (⟨hi, ha⟩ | ⟨j, e, hi, hj, he⟩)
        · exact ⟨0, a, by omega, by simp, ha⟩
        · exact ⟨j + 1, e, by omega, by simpa using hj, he⟩
    rw [key]
    simp only [indicesOf]
    by_cases h : a.1 = v
    · rw [if_pos h, List.mem_cons, ih]
      simp [h]
    · rw [if_neg h, ih]
      simp [h]

/-- The clone name determines the layout class, for a fixed thunk. -/
theorem NEW_VTHUNK_NAME_inj (t L1 L2 : String) :
    NEW_VTHUNK_NAME t L1 = NEW_VTHUNK_NAME t L2 ↔ L1 = L2 := by
  constructor
  · intro h
    unfold NEW_VTHUNK_NAME at h
    have hd := congrArg String.data h
    simp only [String.data_append] at hd
    have h1 := List.append_cancel_right hd
    have h2 := List.append_cancel_left h1
    exact String.ext h2
  · intro h; rw [h]

theorem getFunction_append_self (M : Module) (f : Function) :
    (Module.getFunction { M with functions := M.functions ++ [f] } f.name).isSome = true := by
  unfold Module.getFunction
  simp only [List.find?_append]
  cases M.functions.find? (fun g => decide (g.name = f.name)) with
  | some g => rfl
  | none => simp

/-- In a list `A ++ B`, an element that is not in `B` comes before an element that is not in
`A`. -/
theorem index_lt_of_append {α : Type} (A B : List α) (i j : Nat) (x y : α)
    (hx : (A ++ B)[i]? = some x) (hy : (A ++ B)[j]? = some y) (hxB : x ∉ B) (hyA : y ∉ A) :
    i < j := by
  by_contra hc
  have hj : j < A.length ∨ A.length ≤ j := by omega
  rcases hj with hj | hj
  · rw [List.getElem?_append_left hj] at hy
    exact hyA (List.getElem?_mem hy)
  · rw [List.getElem?_append_right (by omega)] at hx
    exact hxB (List.getElem?_mem hx)

/-- Reading a list of pairs that is written out as a flat list. -/
theorem flatMap_pair_getElem? {α β : Type} (f g : α → β) (l : List α) :
    ∀ k, (l.flatMap (fun r => [f r, g r]))[2 * k]? = (l[k]?).map f ∧
      (l.flatMap (fun r => [f r, g r]))[2 * k + 1]? = (l[k]?).map g := by
  induction l with
  | nil => intro k; simp
  | cons a as ih =>
    intro k
    simp only [List.flatMap_cons, List.cons_append, List.nil_append]
    cases k with
    | zero => simp
    | succ k =>
      have e1 : 2 * (k + 1) = (2 * k + 1) + 1 := by omega
      have e2 : 2 * (k + 1) + 1 = (2 * k + 1 + 1) + 1 := by omega
      rw [e2, e1]
      simp only [List.getElem?_cons_succ]
      exact ih k

theorem flatMap_pair_length {α β : Type} (f g : α → β) (l : List α) :
    (l.flatMap (fun r => [f r, g r])).length = 2 * l.length := by
  induction l with
  | nil => rfl
  | cons a as ih =>
    simp only [List.flatMap_cons, List.length_append, List.length_cons, List.length_nil, ih]
    omega

/-- The calls of `buildNewLayouts`, loop by loop. -/
theorem calls_loops (interleave : Bool) (roots : List vtbl_name_t) :
    (∀ x ∈ roots.flatMap (fun vtbl =>
        [if interleave then PhaseCall.interleaveCloud vtbl else PhaseCall.orderCloud vtbl,
         PhaseCall.calculateNewLayoutInds vtbl]), x.loop = 1) ∧
    (∀ x ∈ roots.flatMap (fun vtbl =>
        [PhaseCall.createThunkFunctions vtbl, PhaseCall.createNewVTable vtbl]), x.loop = 2) ∧
    (∀ x ∈ roots.flatMap (fun vtbl =>
        [PhaseCall.calculateVPtrRanges vtbl, PhaseCall.verifyVPtrRanges vtbl]), x.loop = 3) := by
  refine ⟨?_, ?_, ?_⟩
  · intro x hx
    obtain ⟨r, _, hr⟩ := List.mem_flatMap.1 hx
    simp only [List.mem_cons, List.mem_singleton, List.not_mem_nil, or_false] at hr
    rcases hr with rfl | rfl
    · cases interleave <;> rfl
    · rfl
  · intro x hx
    obtain ⟨r, _, hr⟩ := List.mem_flatMap.1 hx
    simp only [List.mem_cons, List.mem_singleton, List.not_mem_nil, or_false] at hr
    rcases hr with rfl | rfl <;> rfl
  · intro x hx
    obtain ⟨r, _, hr⟩ := List.mem_flatMap.1 hx
    simp only [List.mem_cons, List.mem_singleton, List.not_mem_nil, or_false] at hr
    rcases hr with rfl | rfl <;> rfl

/-- A call of an earlier loop comes before a call of a later loop. -/
theorem calls_ordered (interleave : Bool) (roots : List vtbl_name_t) (i j : Nat)
    (x y : PhaseCall)
    (hx : (buildNewLayouts_calls interleave roots)[i]? = some x)
    (hy : (buildNewLayouts_calls interleave roots)[j]? = some y)
    (hxy : x.loop < y.loop) : i < j := by
  obtain ⟨h1, h2, h3⟩ := calls_loops interleave roots
  have hxl : x.loop = 1 ∨ x.loop = 2 ∨ x.loop = 3 := by
    cases x <;> simp [PhaseCall.loop]
  have hyl : y.loop = 1 ∨ y.loop = 2 ∨ y.loop = 3 := by
    cases y <;> simp [PhaseCall.loop]
  unfold buildNewLayouts_calls at hx hy
  by_cases hy3 : y.loop = 3
  · refine index_lt_of_append _ _ i j x y hx hy (fun h => ?_) (fun h => ?_)
    · have := h3 x h; omega
    · rcases List.mem_append.1 h with h | h
      · have := h1 y h; omega
      · have := h2 y h; omega
  · rw [List.append_assoc] at hx hy
    refine index_lt_of_append _ _ i j x y hx hy (fun h => ?_) (fun h => ?_)
    · rcases List.mem_append.1 h with h | h
      · have := h2 x h; omega
      · have := h3 x h; omega
    · have := h1 y h
      omega

/-- In the second loop each `createThunkFunctions` call is directly followed by the
`createNewVTable` call for the same root. -/
theorem calls_thunk_then_emit (interleave : Bool) (roots : List vtbl_name_t) (i : Nat)
    (r : vtbl_name_t)
    (h : (buildNewLayouts_calls interleave roots)[i]? = some (PhaseCall.createThunkFunctions r)) :
    (buildNewLayouts_calls interleave roots)[i + 1]? = some (PhaseCall.createNewVTable r) := by
  obtain ⟨h1, h2, h3⟩ := calls_loops interleave roots
  unfold buildNewLayouts_calls at h ⊢
  have hlen1 := flatMap_pair_length
    (fun vtbl => if interleave then PhaseCall.interleaveCloud vtbl else PhaseCall.orderCloud vtbl)
    PhaseCall.calculateNewLayoutInds roots
  have hlen2 := flatMap_pair_length PhaseCall.createThunkFunctions PhaseCall.createNewVTable roots
  rw [List.append_assoc] at h ⊢
  have hi1 : 2 * roots.length ≤ i := by
    by_contra hc
    rw [List.getElem?_append_left (by omega)] at h
    have := h1 _ (List.getElem?_mem h)
    simp [PhaseCall.loop] at this
  rw [List.getElem?_append_right (by omega)] at h ⊢
  rw [hlen1] at h ⊢
  have hi2 : i - 2 * roots.length < 2 * roots.length := by
    by_contra hc
    rw [List.getElem?_append_right (by omega)] at h
    have := h3 _ (List.getElem?_mem h)
    simp [PhaseCall.loop] at this
  rw [List.getElem?_append_left (by omega)] at h
  have e : i + 1 - 2 * roots.length = (i - 2 * roots.length) + 1 := by omega
  rw [e]
  obtain ⟨k, hk⟩ : ∃ k, i - 2 * roots.length = 2 * k ∨ i - 2 * roots.length = 2 * k + 1 :=
    ⟨(i - 2 * roots.length) / 2, by omega⟩
  have hp := flatMap_pair_getElem? PhaseCall.createThunkFunctions PhaseCall.createNewVTable roots k
  rcases hk with hk | hk
  · rw [hk] at h ⊢
    rw [hp.1] at h
    rw [List.getElem?_append_left (by omega), hp.2]
    cases hr : roots[k]? with
    | none => rw [hr] at h; simp at h
    | some r' =>
      rw [hr] at h
      simp only [Option.map_some', Option.some.injEq, PhaseCall.createThunkFunctions.injEq] at h
      rw [h]; rfl
  · rw [hk, hp.2] at h
    cases hr : roots[k]? with
    | none => rw [hr] at h; simp at h
    | some r' => rw [hr] at h; simp at h

/-- In a list with distinct names, erasing the first element of a name leaves no element of
that name. -/
theorem eraseP_name {α : Type} (f : α → String) (n : String) (l : List α)
    (hnd : (l.map f).Nodup) : ∀ g ∈ l.eraseP (fun g => decide (f g = n)), f g ≠ n := by
  induction l with
  | nil => intro g hg; simp at hg
  | cons a as ih =>
    intro g hg
    rw [List.map_cons, List.nodup_cons] at hnd
    by_cases ha : f a = n
    · rw [List.eraseP_cons_of_pos (by simpa using ha)] at hg
      intro hgn
      exact hnd.1 (by rw [ha, ← hgn]; exact List.mem_map_of_mem f hg)
    · rw [List.eraseP_cons_of_neg (by simpa using ha)] at hg
      rcases List.mem_cons.1 hg with rfl | hg
      · exact ha
      · exact ih hnd.2 g hg

/-- One step of the first loop of `removeOldLayouts` that completes. -/
theorem removeOldLayouts_global_done (M M1 : Module) (n : vtbl_name_t)
    (h : removeOldLayouts_global M n = .done M1) :
    M1.functions = M.functions ∧
    M1.globals = M.globals.eraseP (fun g => decide (g.name = n)) := by
  unfold removeOldLayouts_global at h
  cases hg : M.getGlobalVariable n with
  | none => rw [hg] at h; cases h
  | some var =>
    rw [hg] at h
    simp only at h
    split_ifs at h
    cases h
    exact ⟨rfl, rfl⟩

/-- The first loop of `removeOldLayouts`, when it completes, keeps the functions, only
removes globals, and leaves no global with one of the names it walked. -/
theorem removeOldLayouts_globals_done (names : List vtbl_name_t) :
    ∀ M M1 : Module,
      names.foldl (fun (o : Outcome Module) name =>
        o.andThen (fun M => removeOldLayouts_global M name)) (.done M) = .done M1 →
      M1.functions = M.functions ∧ M1.globals.Sublist M.globals ∧
      ((M.globals.map (fun g => g.name)).Nodup →
        ∀ n ∈ names, ∀ g ∈ M1.globals, g.name ≠ n) := by
  intro M M1 h
  exact foldl_andThen_done
    (fun (a : Module) (l : List vtbl_name_t) (b : Module) =>
      b.functions = a.functions ∧ b.globals.Sublist a.globals ∧
      ((a.globals.map (fun g => g.name)).Nodup → ∀ n ∈ l, ∀ g ∈ b.globals, g.name ≠ n))
    (fun M n => removeOldLayouts_global M n)
    (fun a => ⟨rfl, List.Sublist.refl _, fun _ n hn => by simp at hn⟩)
    (fun a x a1 xs a2 hx hq => by
      obtain ⟨hf, hg⟩ := removeOldLayouts_global_done a a1 x hx
      obtain ⟨q1, q2, q3⟩ := hq
      have hsub : a1.globals.Sublist a.globals := by
        rw [hg]; exact List.eraseP_sublist _
      refine ⟨q1.trans hf, q2.trans hsub, fun hnd n hn g hgm => ?_⟩
      have hnd1 : (a1.globals.map (fun g => g.name)).Nodup :=
        List.Nodup.sublist (List.Sublist.map _ hsub) hnd
      rcases List.mem_cons.1 hn with rfl | hn
      · have hg1 : g ∈ a1.globals := q2.subset hgm
        rw [hg] at hg1
        exact eraseP_name (fun g : GlobalVariable => g.name) n a.globals hnd g hg1
      · exact q3 hnd1 n hn g hgm)
    names M M1 h

/-- What a completed `removeOldLayouts` leaves in the module. -/
theorem removeOldLayouts_done (cha : CHA) (s s1 : State)
    (h : removeOldLayouts cha s = .done s1)
    (hnd : (s.M.globals.map (fun g => g.name)).Nodup) :
    (∀ n ∈ cha.oldVTables, ∀ g ∈ s1.M.globals, g.name ≠ n) ∧
    (∀ f ∈ s1.M.functions, sd_isVthunk f.name = true →
      f.hasUsers = true ∧ f.name ∉ s.vthunksToRemove) ∧
    (∀ f ∈ s1.M.functions, f ∈ s.M.functions) ∧
    s1.M.globals.Sublist s.M.globals := by
  unfold removeOldLayouts at h
  cases hfold : cha.oldVTables.foldl (fun (o : Outcome Module) name =>
      o.andThen (fun M => removeOldLayouts_global M name)) (.done s.M) with
  | abort M1 => rw [hfold] at h; simp [Outcome.bind] at h
  | done M1 =>
    rw [hfold] at h
    simp only [Outcome.bind, Outcome.done.injEq] at h
    obtain ⟨hf, hsub, hnames⟩ := removeOldLayouts_globals_done cha.oldVTables s.M M1 hfold
    subst h
    simp only [Module.eraseFunctions]
    refine ⟨hnames hnd, fun f hfm hthunk => ?_, fun f hfm => ?_, hsub⟩
    · simp only [List.mem_filter, decide_eq_true_eq, hf] at hfm
      obtain ⟨⟨hmem, hnot1⟩, hnot2⟩ := hfm
      refine ⟨?_, hnot1⟩
      by_contra hu
      apply hnot2
      apply List.mem_map.2
      refine ⟨f, ?_, rfl⟩
      simp only [List.mem_filter, decide_eq_true_eq, Bool.and_eq_true, Bool.not_eq_true']
      exact ⟨⟨hmem, hnot1⟩, hthunk, by simpa using hu⟩
    · simp only [List.mem_filter, decide_eq_true_eq, hf] at hfm
      exact hfm.1.1

/-- The counting loop of `calculateVPtrRanges` counts the defined nodes of the interval. -/
theorem defCountLoop_eq (cha : CHA) (pre : order_t) :
    ∀ (n j c : Nat), j + n ≤ pre.length →
      defCountLoop cha pre n j c =
        some (c + ((pre.drop j).take n).countP (fun v => cha.isDefined v)) := by
  intro n
  induction n with
  | zero => intro j c _; simp [defCountLoop]
  | succ n ih =>
    intro j c h
    have hj : j < pre.length := by omega
    have hd : pre.drop j = pre[j] :: pre.drop (j + 1) := List.drop_eq_getElem_cons hj
    unfold defCountLoop
    rw [List.getElem?_eq_getElem hj]
    simp only
    rw [ih (j + 1) _ (by omega), hd, List.take_succ_cons, List.countP_cons]
    congr 1
    by_cases hdef : cha.isDefined pre[j] = true
    · simp [hdef]; omega
    · simp [hdef]

theorem definedCount_eq (cha : CHA) (pre : order_t) (s e : Nat) :
    definedCount cha pre s e = ((pre.drop s).take (e - s)).countP (fun v => cha.isDefined v) := by
  unfold definedCount
  rw [List.drop_take]

/-- The first index of an interval of naturals at which a predicate holds. -/
theorem find?_range'_first (p : Nat → Bool) :
    ∀ (n s s1 : Nat), s ≤ s1 → s1 < s + n → p s1 = true →
      (∀ j, s ≤ j → j < s1 → p j = false) → (List.range' s n).find? p = some s1 := by
  intro n
  induction n with
  | zero => intro s s1 h1 h2; omega
  | succ n ih =>
    intro s s1 h1 h2 hp hmin
    rw [List.range'_succ, List.find?_cons]
    by_cases hs : s = s1
    · subst hs; rw [hp]
    · rw [hmin s (le_refl _) (by omega)]
      exact ih (s + 1) s1 (by omega) (by omega) hp (fun j hj1 hj2 => hmin j (by omega) hj2)

/-- An interval with a defined node has a first defined node. -/
theorem exists_first_defined (cha : CHA) (pre : order_t) (s e : Nat)
    (hc : definedCount cha pre s e ≠ 0) :
    ∃ s1 v, s ≤ s1 ∧ s1 < e ∧ pre[s1]? = some v ∧ cha.isDefined v = true ∧
      (∀ j w, s ≤ j → j < s1 → pre[j]? = some w → cha.isDefined w = false) := by
  have hex : ∃ k, s ≤ k ∧ k < e ∧ ∃ v, pre[k]? = some v ∧ cha.isDefined v = true := by
    rw [definedCount] at hc
    have hpos : 0 < ((pre.take e).drop s).countP (fun v => cha.isDefined v) := by omega
    obtain ⟨v, hv, hdef⟩ := List.countP_pos_iff.1 hpos
    obtain ⟨i, hi⟩ := List.getElem?_of_mem hv
    rw [List.getElem?_drop] at hi
    have hlt : s + i < e := by
      by_contra hcon
      rw [List.getElem?_take, if_neg hcon] at hi
      cases hi
    rw [List.getElem?_take, if_pos hlt] at hi
    exact ⟨s + i, by omega, hlt, v, hi, hdef⟩
  classical
  let P : Nat → Prop := fun k => s ≤ k ∧ k < e ∧ ∃ v, pre[k]? = some v ∧ cha.isDefined v = true
  have hP : ∃ k, P k := hex
  obtain ⟨h1, h2, v, h3, h4⟩ := Nat.find_spec hP
  refine ⟨Nat.find hP, v, h1, h2, h3, h4, fun j w hj1 hj2 hw => ?_⟩
  by_contra hcon
  have : P j := ⟨hj1, by omega, w, hw, by simpa using hcon⟩
  exact Nat.find_min hP hj2 this

theorem firstDefined_eq (cha : CHA) (pre : order_t) (s e s1 : Nat) (v : vtbl_t)
    (h1 : s ≤ s1) (h2 : s1 < e) (hv : pre[s1]? = some v) (hdef : cha.isDefined v = true)
    (hmin : ∀ j w, s ≤ j → j < s1 → pre[j]? = some w → cha.isDefined w = false) :
    firstDefined cha pre s e = some s1 := by
  unfold firstDefined
  apply find?_range'_first _ (e - s) s s1 h1 (by omega)
  · simp only [hv, hdef]
  · intro j hj1 hj2
    cases hw : pre[j]? with
    | none => rfl
    | some w => simp only [hmin j w hj1 hj2 hw]

/-- The loop that skips leading undefined nodes stops at the first defined node. -/
theorem skipUndefinedLoop_eq (cha : CHA) (pre : order_t) (e s1 : Nat) (v : vtbl_t)
    (hv : pre[s1]? = some v) (hdef : cha.isDefined v = true) :
    ∀ (d s fuel : Nat), s + d = s1 → d < fuel →
      (∀ j w, s ≤ j → j < s1 → pre[j]? = some w → cha.isDefined w = false) →
      (∀ j, s ≤ j → j < s1 → j < pre.length) → s1 < e →
      skipUndefinedLoop cha pre fuel s e = some s1 := by
  intro d
  induction d with
  | zero =>
    intro s fuel hs hf _ _ _
    have : s = s1 := by omega
    subst this
    cases fuel with
    | zero => omega
    | succ fuel =>
      unfold skipUndefinedLoop
      rw [hv]
      have : cha.isUndefinedVtbl v = false := by
        simp only [CHA.isDefined, Bool.not_eq_true'] at hdef
        exact hdef
      simp [this]
  | succ d ih =>
    intro s fuel hs hf hmin hlen he
    cases fuel with
    | zero => omega
    | succ fuel =>
      have hslt : s < pre.length := hlen s (le_refl _) (by omega)
      have hw : pre[s]? = some pre[s] := List.getElem?_eq_getElem hslt
      have hund := hmin s pre[s] (le_refl _) (by omega) hw
      have hund' : cha.isUndefinedVtbl pre[s] = true := by
        simp only [CHA.isDefined, Bool.not_eq_false'] at hund
        exact hund
      unfold skipUndefinedLoop
      rw [hw]
      simp only [hund', Bool.true_and, decide_eq_true_eq]
      rw [if_pos (by omega)]
      exact ih (s + 1) fuel (by omega) (by omega)
        (fun j w hj1 hj2 hjw => hmin j w (by omega) hj2 hjw)
        (fun j hj1 hj2 => hlen j (by omega) hj2) he

/-- The loop over the ranges of one node in `calculateVPtrRanges` appends, in order, the
entries of the intervals that hold a defined node. -/
theorem memRangesLoop_eq (cha : CHA) (nli : vtbl_t → Option (List Nat))
    (csm : String → Bool) (pre : order_t) (fuel : Nat) (hfuel : pre.length < fuel)
    (R : List range_t) :
    ∀ acc : List mem_range_t,
      (∀ it ∈ R, it.2 ≤ pre.length) →
      (∀ it ∈ R, definedCount cha pre it.1 it.2 ≠ 0 →
        (memRangeOf cha nli csm pre it).isSome = true) →
      memRangesLoop cha nli csm pre fuel R acc =
        some (acc ++ R.filterMap (memRangeOf cha nli csm pre)) := by
  induction R with
  | nil => intro acc _ _; simp [memRangesLoop]
  | cons it rest ih =>
    intro acc hlen haddr
    have hlen' : ∀ it ∈ rest, it.2 ≤ pre.length := fun x hx => hlen x (List.mem_cons_of_mem _ hx)
    have haddr' : ∀ it ∈ rest, definedCount cha pre it.1 it.2 ≠ 0 →
        (memRangeOf cha nli csm pre it).isSome = true :=
      fun x hx => haddr x (List.mem_cons_of_mem _ hx)
    have hite := hlen it (List.mem_cons_self _ _)
    unfold memRangesLoop
    by_cases hse : it.1 ≤ it.2
    · rw [defCountLoop_eq cha pre (it.2 - it.1) it.1 0 (by omega), Nat.zero_add,
        ← definedCount_eq]
      simp only
      by_cases hc : definedCount cha pre it.1 it.2 = 0
      · rw [if_pos hc, ih acc hlen' haddr', List.filterMap_cons]
        have : memRangeOf cha nli csm pre it = none := by simp [memRangeOf, hc]
        rw [this]
      · rw [if_neg hc]
        obtain ⟨s1, v, h1, h2, hv, hdef, hmin⟩ := exists_first_defined cha pre it.1 it.2 hc
        have hskip := skipUndefinedLoop_eq cha pre it.2 s1 v hv hdef (s1 - it.1) it.1 fuel
          (by omega) (by omega) hmin (fun j _ hj2 => by omega) h2
        have hfd := firstDefined_eq cha pre it.1 it.2 s1 v h1 h2 hv hdef hmin
        have hsome := haddr it (List.mem_cons_self _ _) hc
        have hmr : memRangeOf cha nli csm pre it =
            (newVtblAddressConst cha nli csm v).map
              (fun a => (a, definedCount cha pre it.1 it.2)) := by
          simp only [memRangeOf, hc, if_false, hfd, hv]
        rw [hmr] at hsome
        obtain ⟨a, ha⟩ := Option.isSome_iff_exists.1 (by simpa using hsome)
        rw [hskip]
        simp only [hv, ha]
        rw [ih _ hlen' haddr', List.filterMap_cons, hmr, ha]
        simp
    · have h0 : it.2 - it.1 = 0 := by omega
      have hc : definedCount cha pre it.1 it.2 = 0 := by
        rw [definedCount_eq, h0]; simp
      rw [h0]
      simp only [defCountLoop, if_true]
      rw [ih acc hlen' haddr', List.filterMap_cons]
      have : memRangeOf cha nli csm pre it = none := by simp [memRangeOf, hc]
      rw [this]

theorem some_getD_of_isSome {α : Type} (o : Option α) (d : α) (h : o.isSome = true) :
    o = some (o.getD d) := by
  cases o with
  | none => simp at h
  | some a => rfl

/-- A loop that assigns to each key of a duplicate-free list a value computed from the value
the map held at that key. -/
theorem foldlM_upd_nodup {β : Type} (step : (vtbl_t → β) → vtbl_t → Option (vtbl_t → β))
    (g : vtbl_t → β → Option β)
    (hstep : ∀ m v, step m v = (g v (m v)).map (upd m v)) (l : order_t) (hnd : l.Nodup) :
    ∀ m0 : vtbl_t → β, (∀ v ∈ l, (g v (m0 v)).isSome = true) →
      ∃ m1, l.foldlM step m0 = some m1 ∧ (∀ v ∈ l, g v (m0 v) = some (m1 v)) ∧
        (∀ v, v ∉ l → m1 v = m0 v) := by
  induction l with
  | nil => intro m0 _; exact ⟨m0, rfl, by simp, fun _ _ => rfl⟩
  | cons a as ih =>
    intro m0 hsome
    rw [List.nodup_cons] at hnd
    obtain ⟨r, hr⟩ := Option.isSome_iff_exists.1 (hsome a (List.mem_cons_self _ _))
    have hm0 : ∀ v ∈ as, upd m0 a r v = m0 v := by
      intro v hv
      have : v ≠ a := fun h => hnd.1 (h ▸ hv)
      simp [upd, this]
    obtain ⟨m1, h1, h2, h3⟩ := ih hnd.2 (upd m0 a r) (fun v hv => by
      rw [hm0 v hv]; exact hsome v (List.mem_cons_of_mem _ hv))
    refine ⟨m1, ?_, ?_, ?_⟩
    · rw [List.foldlM_cons, hstep, hr]
      exact h1
    · intro v hv
      rcases List.mem_cons.1 hv with rfl | hv
      · rw [hr, h3 v hnd.1]
        simp [upd]
      · rw [← hm0 v hv]; exact h2 v hv
    · intro v hv
      rw [List.mem_cons, not_or] at hv
      rw [h3 v hv.2]
      simp [upd, hv.1]

theorem u64_lt (x : Int) : u64 x < 2 ^ 64 := by
  unfold u64
  have h1 : (0 : Int) ≤ x % 2 ^ 64 := Int.emod_nonneg _ (by norm_num)
  have h2 : x % 2 ^ 64 < 2 ^ 64 := Int.emod_lt_of_pos _ (by norm_num)
  omega

theorem u64_of_range (x : Int) (h0 : 0 ≤ x) (h1 : x < 2 ^ 64) : (u64 x : Int) = x := by
  unfold u64
  rw [Int.emod_eq_of_lt h0 h1]
  exact Int.toNat_of_nonneg h0

theorem positionsOf_lt (L : interleaving_list_t) (v : vtbl_t) :
    ∀ k ∈ positionsOf L v, k < 2 ^ 64 := by
  intro k hk
  unfold positionsOf at hk
  obtain ⟨e, _, rfl⟩ := List.mem_map.1 hk
  exact u64_lt _

theorem positionsOf_cons_self (e : vtbl_t × Int) (L : interleaving_list_t) :
    positionsOf (e :: L) e.1 = u64 e.2 :: positionsOf L e.1 := by
  unfold positionsOf
  rw [List.filter_cons_of_pos (by simp), List.map_cons]

theorem positionsOf_cons_ne (e : vtbl_t × Int) (L : interleaving_list_t) (v : vtbl_t)
    (h : v ≠ e.1) : positionsOf (e :: L) v = positionsOf L v := by
  unfold positionsOf
  rw [List.filter_cons_of_neg (by simpa using fun h1 => h h1.symm)]

theorem mapCount_false (m : old_new_map_t) (k : Nat) (h : mapCount m k = false) :
    k ∉ m.map (fun p => p.1) := by
  intro hk
  obtain ⟨p, hp, rfl⟩ := List.mem_map.1 hk
  have : mapCount m p.1 = true := by
    unfold mapCount
    exact List.any_eq_true.2 ⟨p, hp, by simp⟩
  rw [h] at this
  exact Bool.noConfusion this

theorem mapSet_keys (m : old_new_map_t) (k x : Nat) (h : mapCount m k = false) :
    (mapSet m k x).map (fun p => p.1) = m.map (fun p => p.1) ++ [k] := by
  unfold mapSet
  rw [h]
  simp

/-- The first loop of `verifyNewLayouts`: the keys of the map of a vtable other than the dummy
are, in order, the old positions of its entries, and no key is stored twice. -/
theorem verifyIndMapLoop_keys (dummy : vtbl_t) :
    ∀ (L : interleaving_list_t) (i : Nat) (indMap0 indMap1 : vtbl_t → Option old_new_map_t),
      verifyIndMapLoop dummy L i indMap0 = some indMap1 →
      (∀ v, (((indMap0 v).getD []).map (fun p => p.1)).Nodup) →
      (∀ v, (((indMap1 v).getD []).map (fun p => p.1)).Nodup) ∧
      (∀ v, v ≠ dummy → ((indMap1 v).getD []).map (fun p => p.1) =
        ((indMap0 v).getD []).map (fun p => p.1) ++ positionsOf L v) ∧
      indMap1 dummy = indMap0 dummy := by
  intro L
  induction L with
  | nil =>
    intro i indMap0 indMap1 h hnd
    unfold verifyIndMapLoop at h
    cases Option.some.inj h
    refine ⟨hnd, fun v _ => ?_, rfl⟩
    simp [positionsOf]
  | cons e rest ih =>
    intro i indMap0 indMap1 h hnd
    unfold verifyIndMapLoop at h
    simp only at h
    by_cases hd : e.1 = dummy
    · rw [if_pos hd] at h
      obtain ⟨h1, h2, h3⟩ := ih i indMap0 indMap1 h hnd
      refine ⟨h1, fun v hv => ?_, h3⟩
      rw [h2 v hv, positionsOf_cons_ne e rest v (by rw [hd]; exact hv)]
    · rw [if_neg hd] at h
      cases hm : indMap0 e.1 with
      | none =>
        rw [hm] at h
        simp only at h
        have hnd1 : ∀ v, (((upd indMap0 e.1 (some (mapSet [] (u64 e.2) i)) v).getD []).map
            (fun p => p.1)).Nodup := by
          intro v
          unfold upd
          by_cases hv : v = e.1
          · rw [if_pos hv]
            simp [mapSet, mapCount]
          · rw [if_neg hv]; exact hnd v
        obtain ⟨h1, h2, h3⟩ := ih (i + 1) _ indMap1 h hnd1
        refine ⟨h1, fun v hv => ?_, ?_⟩
        · rw [h2 v hv]
          by_cases hve : v = e.1
          · subst hve
            rw [positionsOf_cons_self]
            unfold upd
            rw [if_pos rfl, hm]
            simp [mapSet, mapCount]
          · rw [positionsOf_cons_ne e rest v hve]
            unfold upd
            rw [if_neg hve]
        · rw [h3]; unfold upd; rw [if_neg (fun h' => hd h'.symm)]
      | some m =>
        rw [hm] at h
        simp only at h
        by_cases hc : mapCount m (u64 e.2) = true
        · rw [if_pos hc] at h
          exact Option.noConfusion h
        · rw [if_neg hc] at h
          have hc1 : mapCount m (u64 e.2) = false := by simpa using hc
          have hkeys := mapSet_keys m (u64 e.2) i hc1
          have hm0 : ((indMap0 e.1).getD []).map (fun p => p.1) = m.map (fun p => p.1) := by
            rw [hm]; rfl
          have hnd1 : ∀ v, (((upd indMap0 e.1 (some (mapSet m (u64 e.2) i)) v).getD []).map
              (fun p => p.1)).Nodup := by
            intro v
            unfold upd
            by_cases hv : v = e.1
            · rw [if_pos hv]
              show ((mapSet m (u64 e.2) i).map (fun p => p.1)).Nodup
              rw [hkeys]
              have := hnd e.1
              rw [hm0] at this
              exact List.Nodup.append this (List.nodup_singleton _)
                (by
                  intro a ha hb
                  rw [List.mem_singleton] at hb
                  subst hb
                  exact mapCount_false m _ hc1 ha)
            · rw [if_neg hv]; exact hnd v
          obtain ⟨h1, h2, h3⟩ := ih (i + 1) _ indMap1 h hnd1
          refine ⟨h1, fun v hv => ?_, ?_⟩
          · rw [h2 v hv]
            by_cases hve : v = e.1
            · subst hve
              rw [positionsOf_cons_self]
              unfold upd
              rw [if_pos rfl, hm0]
              show (mapSet m (u64 e.2) i).map (fun p => p.1) ++ _ = _
              rw [hkeys]
              simp
            · rw [positionsOf_cons_ne e rest v hve]
              unfold upd
              rw [if_neg hve]
          · rw [h3]; unfold upd; rw [if_neg (fun h' => hd h'.symm)]

theorem foldl_min_le (ks : List Int) : ∀ k : Int,
    ks.foldl min k ≤ k ∧ ∀ x ∈ ks, ks.foldl min k ≤ x := by
  induction ks with
  | nil => intro k; exact ⟨le_refl _, fun x hx => absurd hx (List.not_mem_nil _)⟩
  | cons a ks ih =>
    intro k
    rw [List.foldl_cons]
    obtain ⟨h1, h2⟩ := ih (min k a)
    refine ⟨le_trans h1 (min_le_left _ _), fun x hx => ?_⟩
    rcases List.mem_cons.1 hx with rfl | hx
    · exact le_trans h1 (min_le_right _ _)
    · exact h2 x hx

theorem le_foldl_max (ks : List Int) : ∀ k : Int,
    k ≤ ks.foldl max k ∧ ∀ x ∈ ks, x ≤ ks.foldl max k := by
  induction ks with
  | nil => intro k; exact ⟨le_refl _, fun x hx => absurd hx (List.not_mem_nil _)⟩
  | cons a ks ih =>
    intro k
    rw [List.foldl_cons]
    obtain ⟨h1, h2⟩ := ih (max k a)
    refine ⟨le_trans (le_max_left _ _) h1, fun x hx => ?_⟩
    rcases List.mem_cons.1 hx with rfl | hx
    · exact le_trans (le_max_right _ _) h1
    · exact h2 x hx

theorem foldl_choice_mem (f : Int → Int → Int) (hf : ∀ a b, f a b = a ∨ f a b = b)
    (ks : List Int) : ∀ k : Int, ks.foldl f k ∈ k :: ks := by
  induction ks with
  | nil => intro k; exact List.mem_cons_self _ _
  | cons a ks ih =>
    intro k
    rw [List.foldl_cons]
    rcases List.mem_cons.1 (ih (f k a)) with h | h
    · rcases hf k a with h1 | h1
      · rw [h, h1]; exact List.mem_cons_self _ _
      · rw [h, h1]; exact List.mem_cons_of_mem _ (List.mem_cons_self _ _)
    · exact List.mem_cons_of_mem _ (List.mem_cons_of_mem _ h)

theorem perm_range'_of_nodup (l : List Nat) (lo n : Nat) (hnd : l.Nodup)
    (hin : ∀ x ∈ l, lo ≤ x ∧ x < lo + n) (hlen : l.length = n) :
    l.Perm (List.range' lo n) := by
  have hsub : l ⊆ List.range' lo n := by
    intro x hx
    rw [List.mem_range'_1]
    exact hin x hx
  exact (List.subperm_of_subset hnd hsub).perm_of_length_le (by rw [List.length_range', hlen])

/-- What a span and a size that agree say about distinct 64-bit keys: they are the values of
a range of consecutive numbers. -/
theorem dense_keys (keys : List Nat) (k : Int) (ks : List Int) (size : Nat)
    (hk : keys.map (fun (x : Nat) => (x : Int)) = k :: ks)
    (hnd : keys.Nodup) (hlt : ∀ x ∈ keys, x < 2 ^ 64)
    (h1 : u64 (ks.foldl max k - ks.foldl min k + 1) = size)
    (h2 : keys.length = size) :
    ∃ lo, keys.Perm (List.range' lo size) := by
  obtain ⟨hmin1, hmin2⟩ := foldl_min_le ks k
  obtain ⟨hmax1, hmax2⟩ := le_foldl_max ks k
  have hminmem := foldl_choice_mem min (fun a b => min_choice a b) ks k
  have hmaxmem := foldl_choice_mem max (fun a b => max_choice a b) ks k
  rw [← hk] at hminmem hmaxmem
  obtain ⟨a, ha, hae⟩ := List.mem_map.1 hminmem
  obtain ⟨b, hb, hbe⟩ := List.mem_map.1 hmaxmem
  have hall : ∀ x ∈ keys, a ≤ x ∧ x ≤ b := by
    intro x hx
    have hx1 : (x : Int) ∈ k :: ks := by
      rw [← hk]; exact List.mem_map.2 ⟨x, hx, rfl⟩
    have h3 : ks.foldl min k ≤ (x : Int) := by
      rcases List.mem_cons.1 hx1 with h | h
      · rw [h]; exact hmin1
      · exact hmin2 _ h
    have h4 : (x : Int) ≤ ks.foldl max k := by
      rcases List.mem_cons.1 hx1 with h | h
      · rw [h]; exact hmax1
      · exact hmax2 _ h
    rw [← hae] at h3
    rw [← hbe] at h4
    omega
  have hblt := hlt b hb
  have hle : a ≤ b := (hall a ha).2
  have hcast : ks.foldl max k - ks.foldl min k + 1 = ((b - a + 1 : Nat) : Int) := by
    rw [← hae, ← hbe]
    omega
  rw [hcast, u64_natCast] at h1
  have hpos : 0 < size := by
    rw [← h2]
    exact List.length_pos_of_mem ha
  have hd : b - a + 1 ≤ 2 ^ 64 := by omega
  have hd2 : b - a + 1 = size := by
    rcases Nat.lt_or_ge (b - a + 1) (2 ^ 64) with hlt2 | hge
    · rw [Nat.mod_eq_of_lt hlt2] at h1; exact h1
    · have : b - a + 1 = 2 ^ 64 := le_antisymm hd hge
      rw [this, Nat.mod_self] at h1
      omega
  refine ⟨a, perm_range'_of_nodup _ _ _ hnd ?_ h2⟩
  intro x hx
  have := hall x hx
  omega

/-- With interleaving, `verifyNewLayouts` returns `true` only when the body of its loop runs
to its end for every root. -/
theorem verifyRoots_true (cha : CHA) (dummy : vtbl_t) (prePadMap : vtbl_t → Nat)
    (interleavingMap : vtbl_name_t → Option interleaving_list_t) :
    ∀ roots : List vtbl_name_t,
      verifyRoots cha dummy true prePadMap interleavingMap roots = true →
      ∀ r ∈ roots, verifyCloud cha dummy true prePadMap interleavingMap r = none := by
  intro roots
  induction roots with
  | nil => intro _ r hr; exact absurd hr (List.not_mem_nil _)
  | cons a rest ih =>
    intro h r hr
    unfold verifyRoots at h
    have hcl : ∀ b, verifyCloud cha dummy true prePadMap interleavingMap a = some b →
        b = false := by
      intro b hb
      unfold verifyCloud at hb
      simp only [Bool.not_true, Bool.false_eq_true, if_false] at hb
      split at hb
      · exact (Option.some.inj hb).symm
      · split_ifs at hb
        · exact (Option.some.inj hb).symm
        · exact (Option.some.inj hb).symm
        · exact (Option.some.inj hb).symm
    cases hc : verifyCloud cha dummy true prePadMap interleavingMap a with
    | some b =>
      rw [hc] at h
      simp only at h
      rw [hcl b hc] at h
      exact Bool.noConfusion h
    | none =>
      rw [hc] at h
      simp only at h
      rcases List.mem_cons.1 hr with rfl | hr
      · exact hc
      · exact ih h r hr

/-- What the end of the body of the loop of `verifyNewLayouts` says, with interleaving. -/
theorem verifyCloud_none (cha : CHA) (dummy : vtbl_t) (prePadMap : vtbl_t → Nat)
    (interleavingMap : vtbl_name_t → Option interleaving_list_t) (vtbl : vtbl_name_t)
    (h : verifyCloud cha dummy true prePadMap interleavingMap vtbl = none) :
    ∃ indMap, verifyIndMapLoop dummy ((interleavingMap vtbl).getD []) 0 (fun _ => none) =
        some indMap ∧
      (∀ n ∈ cha.preorder (vtbl, 0), verifyDense cha prePadMap indMap n = true) ∧
      (∀ pt ∈ cha.preorder (vtbl, 0), cha.isUndefined pt.1 = false →
        ∀ child ∈ cha.children pt,
          verifyContained cha prePadMap (buildIndMap (cha.preorder (vtbl, 0))) pt child = true) ∧
      (∀ pt ∈ cha.preorder (vtbl, 0), cha.isUndefined pt.1 = false →
        ∀ child ∈ cha.children pt,
          verifyAgreement cha prePadMap (buildIndMap (cha.preorder (vtbl, 0))) indMap pt child =
            true) := by
  unfold verifyCloud at h
  simp only [Bool.not_true, Bool.false_eq_true, if_false] at h
  split at h
  · exact Option.noConfusion h
  · rename_i indMap hind
    refine ⟨indMap, hind, ?_⟩
    split_ifs at h with h1 h3 h4
    simp only [Bool.not_eq_true', Bool.not_eq_false] at h1 h3 h4
    refine ⟨fun n hn => List.all_eq_true.1 h1 n hn, fun pt hpt hu child hch => ?_,
      fun pt hpt hu child hch => ?_⟩
    · have := List.all_eq_true.1 h3 pt hpt
      rw [hu, Bool.false_or] at this
      exact List.all_eq_true.1 this child hch
    · have := List.all_eq_true.1 h4 pt hpt
      rw [hu, Bool.false_or] at this
      exact List.all_eq_true.1 this child hch

/-- What the density check of `verifyNewLayouts` says about a defined node. -/
theorem verifyDense_true (cha : CHA) (prePadMap : vtbl_t → Nat)
    (indMap : vtbl_t → Option old_new_map_t) (n : vtbl_t)
    (hu : cha.isUndefined n.1 = false) (h : verifyDense cha prePadMap indMap n = true) :
    ∃ (m : old_new_map_t) (k : Int) (ks : List Int), indMap n = some m ∧
      m.map (fun p => (p.1 : Int)) = k :: ks ∧
      u64 (ks.foldl max k - ks.foldl min k + 1) =
        u64 (((cha.getRange n).2 : Int) - (((cha.getRange n).1 : Int) - (prePadMap n : Int)) + 1) ∧
      m.length =
        u64 (((cha.getRange n).2 : Int) - (((cha.getRange n).1 : Int) - (prePadMap n : Int)) + 1) := by
  unfold verifyDense at h
  rw [hu, if_neg Bool.false_ne_true] at h
  split at h
  · exact Bool.noConfusion h
  · rename_i m hm
    simp only at h
    split at h
    · exact Bool.noConfusion h
    · rename_i k ks hk
      split_ifs at h with h1 h2
      exact ⟨m, k, ks, hm, hk, not_not.1 h1, not_not.1 h2⟩

/-- What the containment check of `verifyNewLayouts` says about an edge it looks at. -/
theorem verifyContained_true (cha : CHA) (prePadMap : vtbl_t → Nat) (orderMap : vtbl_t → Nat)
    (pt child : vtbl_t) (hu : cha.isUndefined child.1 = false)
    (ho : ¬ orderMap child < orderMap pt)
    (h : verifyContained cha prePadMap orderMap pt child = true) :
    u64 ((cha.addrPt pt : Int) - ((cha.getRange pt).1 : Int) + (prePadMap pt : Int)) ≤
      u64 ((cha.addrPt child : Int) - ((cha.getRange child).1 : Int) + (prePadMap child : Int)) ∧
    u64 (((cha.getRange pt).2 : Int) - (cha.addrPt pt : Int)) ≤
      u64 (((cha.getRange child).2 : Int) - (cha.addrPt child : Int)) := by
  unfold verifyContained at h
  rw [hu, if_neg Bool.false_ne_true, if_neg ho] at h
  simp only at h
  split_ifs at h with h1
  push_neg at h1
  exact h1

/-- The layout that `calculateNewLayoutInds` records from the empty state is strictly
increasing, for every key. -/
theorem calculateNewLayoutInds_sorted (dummy : vtbl_t) (L : interleaving_list_t) (k : vtbl_t)
    (inds : List Nat) (h : calculateNewLayoutInds dummy L (fun _ => none) k = some inds) :
    inds.Pairwise (fun a b => a < b) := by
  unfold calculateNewLayoutInds at h
  rw [newLayoutIndsLoop_eq] at h
  split_ifs at h
  have e := Option.some.inj h
  simp only [Option.getD_none, List.nil_append] at e
  rw [← e]
  exact (indicesOf_increasing k L 0).2

theorem sorted_getElem?_lt (inds : List Nat) (hs : inds.Pairwise (fun a b => a < b))
    (i j a b : Nat) (hij : i < j) (hi : inds[i]? = some a) (hj : inds[j]? = some b) : a < b := by
  obtain ⟨hi1, hi2⟩ := List.getElem?_eq_some_iff.1 hi
  obtain ⟨hj1, hj2⟩ := List.getElem?_eq_some_iff.1 hj
  rw [← hi2, ← hj2]
  exact List.pairwise_iff_getElem.1 hs i j hi1 hj1 hij

/-- The absolute branch of `translateVtblInd` on a vtable with a planned layout. -/
theorem translateVtblInd_absolute (cha : CHA) (newLayoutInds : vtbl_t → Option (List Nat))
    (v : vtbl_t) (inds : List Nat) (offset : Int)
    (hinds : newLayoutInds (if cha.isUndefinedVtbl v && cha.hasFirstDefinedChild v
      then cha.getFirstDefinedChild v else v) = some inds)
    (hrng : cha.hasRange (if cha.isUndefinedVtbl v && cha.hasFirstDefinedChild v
      then cha.getFirstDefinedChild v else v) = true) :
    translateVtblInd cha newLayoutInds v offset false =
      if translateVtblInd_assert inds offset = true
      then (inds[offset.toNat]?).map (fun (a : Nat) => (a : Int)) else none := by
  unfold translateVtblInd translateVtblInd_assert
  simp only [hinds, hrng, Bool.not_true, Bool.false_eq_true, if_false, decide_eq_true_eq]
  by_cases hc : 0 ≤ offset ∧ offset ≤ (inds.length : Int)
  · rw [if_neg (not_not.2 hc), if_pos hc]
    cases inds[offset.toNat]? <;> rfl
  · rw [if_pos hc, if_neg hc]

/-- The relative branch of `translateVtblInd` on a vtable with a planned layout. -/
theorem translateVtblInd_relative (cha : CHA) (newLayoutInds : vtbl_t → Option (List Nat))
    (v : vtbl_t) (inds : List Nat) (offset : Int)
    (hinds : newLayoutInds (if cha.isUndefinedVtbl v && cha.hasFirstDefinedChild v
      then cha.getFirstDefinedChild v else v) = some inds)
    (hrng : cha.hasRange (if cha.isUndefinedVtbl v && cha.hasFirstDefinedChild v
      then cha.getFirstDefinedChild v else v) = true)
    (r : Int)
    (h : translateVtblInd cha newLayoutInds v offset true = some r) :
    ∃ a b : Nat,
      0 ≤ ((cha.addrPt (if cha.isUndefinedVtbl v && cha.hasFirstDefinedChild v
        then cha.getFirstDefinedChild v else v) -
        (cha.getRange (if cha.isUndefinedVtbl v && cha.hasFirstDefinedChild v
        then cha.getFirstDefinedChild v else v)).1 : Nat) : Int) + offset ∧
      inds[(((cha.addrPt (if cha.isUndefinedVtbl v && cha.hasFirstDefinedChild v
        then cha.getFirstDefinedChild v else v) -
        (cha.getRange (if cha.isUndefinedVtbl v && cha.hasFirstDefinedChild v
        then cha.getFirstDefinedChild v else v)).1 : Nat) : Int) + offset).toNat]? = some a ∧
      inds[cha.addrPt (if cha.isUndefinedVtbl v && cha.hasFirstDefinedChild v
        then cha.getFirstDefinedChild v else v) -
        (cha.getRange (if cha.isUndefinedVtbl v && cha.hasFirstDefinedChild v
        then cha.getFirstDefinedChild v else v)).1]? = some b ∧
      r = (a : Int) - (b : Int) := by
  unfold translateVtblInd at h
  simp only [hinds, hrng, Bool.not_true, Bool.false_eq_true, if_false, if_true,
    Int.toNat_ofNat] at h
  generalize (if cha.isUndefinedVtbl v && cha.hasFirstDefinedChild v
    then cha.getFirstDefinedChild v else v) = name at h ⊢
  split_ifs at h with hc
  split at h
  · rename_i a b ha hb
    exact ⟨a, b, hc.1, ha, hb, (Option.some.inj h).symm⟩
  · exact Option.noConfusion h

/-- The relative branch of `translateVtblInd` returns when the index passes the range check
and both reads are inside the planned layout. -/
theorem translateVtblInd_relative_some (cha : CHA)
    (newLayoutInds : vtbl_t → Option (List Nat)) (v : vtbl_t) (inds : List Nat) (offset : Int)
    (hinds : newLayoutInds (if cha.isUndefinedVtbl v && cha.hasFirstDefinedChild v
      then cha.getFirstDefinedChild v else v) = some inds)
    (hrng : cha.hasRange (if cha.isUndefinedVtbl v && cha.hasFirstDefinedChild v
      then cha.getFirstDefinedChild v else v) = true)
    (h0 : 0 ≤ ((cha.addrPt (if cha.isUndefinedVtbl v && cha.hasFirstDefinedChild v
        then cha.getFirstDefinedChild v else v) -
        (cha.getRange (if cha.isUndefinedVtbl v && cha.hasFirstDefinedChild v
        then cha.getFirstDefinedChild v else v)).1 : Nat) : Int) + offset)
    (h1 : ((cha.addrPt (if cha.isUndefinedVtbl v && cha.hasFirstDefinedChild v
        then cha.getFirstDefinedChild v else v) -
        (cha.getRange (if cha.isUndefinedVtbl v && cha.hasFirstDefinedChild v
        then cha.getFirstDefinedChild v else v)).1 : Nat) : Int) + offset ≤
      (((cha.getRange (if cha.isUndefinedVtbl v && cha.hasFirstDefinedChild v
        then cha.getFirstDefinedChild v else v)).2 -
        (cha.getRange (if cha.isUndefinedVtbl v && cha.hasFirstDefinedChild v
        then cha.getFirstDefinedChild v else v)).1 : Nat) : Int))
    (h2 : (((cha.addrPt (if cha.isUndefinedVtbl v && cha.hasFirstDefinedChild v
        then cha.getFirstDefinedChild v else v) -
        (cha.getRange (if cha.isUndefinedVtbl v && cha.hasFirstDefinedChild v
        then cha.getFirstDefinedChild v else v)).1 : Nat) : Int) + offset).toNat < inds.length)
    (h3 : cha.addrPt (if cha.isUndefinedVtbl v && cha.hasFirstDefinedChild v
        then cha.getFirstDefinedChild v else v) -
        (cha.getRange (if cha.isUndefinedVtbl v && cha.hasFirstDefinedChild v
        then cha.getFirstDefinedChild v else v)).1 < inds.length) :
    (translateVtblInd cha newLayoutInds v offset true).isSome = true := by
  unfold translateVtblInd
  simp only [hinds, hrng, Bool.not_true, Bool.false_eq_true, if_false, if_true,
    Int.toNat_ofNat]
  rw [if_neg (not_not.2 ⟨h0, h1⟩)]
  rw [List.getElem?_eq_getElem h2, List.getElem?_eq_getElem h3]
  rfl

/-- `translateVtblInd` on a vtable without a planned layout returns the offset, or stops. -/
theorem translateVtblInd_no_layout (cha : CHA) (newLayoutInds : vtbl_t → Option (List Nat))
    (v : vtbl_t) (offset : Int) (isRelative : Bool)
    (hinds : newLayoutInds (if cha.isUndefinedVtbl v && cha.hasFirstDefinedChild v
      then cha.getFirstDefinedChild v else v) = none)
    (r : Int) (h : translateVtblInd cha newLayoutInds v offset isRelative = some r) :
    r = offset := by
  unfold translateVtblInd at h
  simp only [hinds] at h
  generalize (if cha.isUndefinedVtbl v && cha.hasFirstDefinedChild v
    then cha.getFirstDefinedChild v else v) = name at h
  split_ifs at h
  exact (Option.some.inj h).symm

/-- `translateVtblInd` stops on a vtable with a planned layout and no range. -/
theorem translateVtblInd_no_range (cha : CHA) (newLayoutInds : vtbl_t → Option (List Nat))
    (v : vtbl_t) (inds : List Nat) (offset : Int) (isRelative : Bool)
    (hinds : newLayoutInds (if cha.isUndefinedVtbl v && cha.hasFirstDefinedChild v
      then cha.getFirstDefinedChild v else v) = some inds)
    (hrng : cha.hasRange (if cha.isUndefinedVtbl v && cha.hasFirstDefinedChild v
      then cha.getFirstDefinedChild v else v) = false) :
    translateVtblInd cha newLayoutInds v offset isRelative = none := by
  unfold translateVtblInd
  simp only [hinds, hrng, Bool.not_false, if_true]

/-- With a budget of at most `m` rounds the `while(true)` loop of `fillVtablePart` does not
come to its end when the next `m` rounds all append an entry. -/
theorem fillLoop_short (cha : CHA) (pp : vtbl_t → Nat) (b : Bool) (pre : order_t)
    (hnd : pre.Nodup) (lp : vtbl_t → Int)
    (hlp : ∀ n ∈ pre, lp n = initLastPos cha pp b n) :
    ∀ (fuel m k : Nat) (pm : vtbl_t → Int) (part : interleaving_list_t),
      fuel ≤ m →
      (∀ n ∈ pre, cha.isUndefined n.1 = false →
        pm n = nthPos cha b n (min k (liveCount cha pp b n))) →
      (∀ j < m, sweepList cha pp b pre (k + j) ≠ []) →
      fillLoop cha b pre lp fuel pm part = none := by
  intro fuel
  induction fuel with
  | zero => intro m k pm part _ _ _; rfl
  | succ fuel ih =>
    intro m k pm part hf hpm hne
    obtain ⟨h1, h2⟩ := sweep_round cha pp b pre hnd lp pm k hlp hpm
    rw [fillLoop_succ, h1]
    have hk : sweepList cha pp b pre k ≠ [] := by
      have := hne 0 (by omega)
      simpa using this
    have hlen : ¬ (sweepList cha pp b pre k).length = 0 := by
      intro h; exact hk (List.length_eq_zero.1 h)
    rw [if_neg hlen]
    exact ih (m - 1) (k + 1) _ _ (by omega) h2
      (fun j hj => by
        have := hne (j + 1) (by omega)
        rwa [show k + (j + 1) = k + 1 + j by omega] at this)

theorem fillVtablePart_short (cha : CHA) (pp : vtbl_t → Nat) (b : Bool) (pre : order_t)
    (hnd : pre.Nodup) (R : Nat) (hmin : ∀ j < R, sweepList cha pp b pre j ≠ [])
    (fuel : Nat) (hf : fuel ≤ R) :
    fillVtablePart cha pp fuel [] pre b = none := by
  unfold fillVtablePart
  simp only
  exact fillLoop_short cha pp b pre hnd _ (fun n hn => by rw [initMaps_snd, if_pos hn])
    fuel R 0 _ [] hf
    (fun n hn _ => by rw [initMaps_fst, if_pos hn, Nat.zero_min, nthPos_zero])
    (fun j hj => by simpa using hmin j hj)

theorem length_filter_eq_sum {α : Type} (p : α → Bool) (l : List α) :
    (l.filter p).length = (l.map (fun n => if p n then 1 else 0)).sum := by
  induction l with
  | nil => rfl
  | cons a l ih =>
    by_cases h : p a = true
    · rw [List.filter_cons_of_pos h, List.length_cons, ih, List.map_cons, List.sum_cons,
        if_pos h]
      omega
    · rw [List.filter_cons_of_neg h, ih, List.map_cons, List.sum_cons, if_neg h]
      omega

theorem sweepList_length (cha : CHA) (pp : vtbl_t → Nat) (b : Bool) (pre : order_t) (k : Nat) :
    (sweepList cha pp b pre k).length =
      (pre.map (fun n => if cha.isUndefined n.1 = false ∧ k < liveCount cha pp b n
        then 1 else 0)).sum := by
  unfold sweepList
  rw [List.length_map, length_filter_eq_sum]
  congr 1
  apply List.map_congr_left
  intro n _
  cases cha.isUndefined n.1 <;> simp

theorem sum_map_add_nat {α : Type} (f g : α → Nat) (l : List α) :
    (l.map f).sum + (l.map g).sum = (l.map (fun n => f n + g n)).sum := by
  induction l with
  | nil => rfl
  | cons a l ih =>
    simp only [List.map_cons, List.sum_cons]
    omega

theorem rounds_length_step (cha : CHA) (pp : vtbl_t → Nat) (b : Bool) (pre : order_t)
    (k m : Nat) :
    (pre.map (fun n => if cha.isUndefined n.1 = false ∧ k < liveCount cha pp b n
        then 1 else 0)).sum +
      (pre.map (fun n => if cha.isUndefined n.1 = false
        then min m (liveCount cha pp b n - (k + 1)) else 0)).sum =
    (pre.map (fun n => if cha.isUndefined n.1 = false
        then min (m + 1) (liveCount cha pp b n - k) else 0)).sum := by
  rw [sum_map_add_nat]
  congr 1
  apply List.map_congr_left
  intro n _
  by_cases h1 : cha.isUndefined n.1 = false
  · by_cases h2 : k < liveCount cha pp b n
    · rw [if_pos ⟨h1, h2⟩, if_pos h1, if_pos h1]; omega
    · rw [if_neg (fun h => h2 h.2), if_pos h1, if_pos h1]; omega
  · rw [if_neg (fun h => h1 h.1), if_neg h1, if_neg h1]

theorem posFrom_length (cha : CHA) (pp : vtbl_t → Nat) (pre : order_t) :
    ∀ m k, (posFrom cha pp pre k m).length =
      (pre.map (fun n => if cha.isUndefined n.1 = false
        then min m (liveCount cha pp true n - k) else 0)).sum := by
  intro m
  induction m with
  | zero =>
    intro k
    simp [posFrom]
  | succ m ih =>
    intro k
    rw [posFrom, List.length_append, sweepList_length, ih (k + 1), rounds_length_step]

theorem negFrom_length (cha : CHA) (pp : vtbl_t → Nat) (pre : order_t) :
    ∀ m k, (negFrom cha pp pre k m).length =
      (pre.map (fun n => if cha.isUndefined n.1 = false
        then min m (liveCount cha pp false n - k) else 0)).sum := by
  intro m
  induction m with
  | zero =>
    intro k
    simp [negFrom]
  | succ m ih =>
    intro k
    rw [negFrom, List.length_append, sweepList_length, ih (k + 1), Nat.add_comm,
      rounds_length_step]

theorem sum_defined_eq (cha : CHA) (f g : vtbl_t → Nat) (pre : order_t)
    (h : ∀ n ∈ pre, cha.isUndefined n.1 = false → f n = g n) :
    (pre.map (fun n => if cha.isUndefined n.1 = false then f n else 0)).sum =
      ((pre.filter (fun n => !cha.isUndefined n.1)).map g).sum := by
  induction pre with
  | nil => rfl
  | cons a l ih =>
    have ih1 := ih (fun n hn => h n (List.mem_cons_of_mem _ hn))
    by_cases ha : cha.isUndefined a.1 = false
    · rw [List.filter_cons_of_pos (by simp [ha]), List.map_cons, List.sum_cons, List.map_cons,
        List.sum_cons, if_pos ha, ih1, h a (List.mem_cons_self _ _) ha]
    · rw [List.filter_cons_of_neg (by simpa using ha), List.map_cons, List.sum_cons,
        if_neg ha, ih1, Nat.zero_add]

/-- Under `first ≤ addrPt ≤ last` the number of rounds in which a node contributes is the
count of the claim. -/
theorem liveCount_eq_sideCount (cha : CHA) (pp : vtbl_t → Nat) (b : Bool) (n : vtbl_t)
    (h : (cha.getRange n).1 ≤ cha.addrPt n ∧ cha.addrPt n ≤ (cha.getRange n).2) :
    liveCount cha pp b n = sideCount cha pp b n := by
  unfold liveCount sideCount gapDir initPos initLastPos
  cases b
  · simp only [Bool.false_eq_true, if_false]
    omega
  · simp only [if_true]
    omega

/-- The sweeps, the number of entries and the largest per-node count of `fillVtablePart` over
a duplicate-free node list. -/
theorem fillVtablePart_rounds (cha : CHA) (pp : vtbl_t → Nat) (b : Bool) (pre : order_t)
    (hnd : pre.Nodup)
    (hinv : ∀ n ∈ pre, cha.isUndefined n.1 = false →
      (cha.getRange n).1 ≤ cha.addrPt n ∧ cha.addrPt n ≤ (cha.getRange n).2) :
    ∃ R L,
      (∀ fuel, R < fuel → fillVtablePart cha pp fuel [] pre b = some L) ∧
      (∀ fuel, fuel ≤ R → fillVtablePart cha pp fuel [] pre b = none) ∧
      L.length = ((pre.filter (fun n => !cha.isUndefined n.1)).map (sideCount cha pp b)).sum ∧
      (∀ n ∈ pre, cha.isUndefined n.1 = false → sideCount cha pp b n ≤ R) ∧
      (R = 0 ∨ ∃ n ∈ pre, cha.isUndefined n.1 = false ∧ sideCount cha pp b n = R) := by
  obtain ⟨R, hR, hnil, hmin⟩ := fillVtablePart_closed cha pp b pre hnd
  have hle : ∀ n ∈ pre, cha.isUndefined n.1 = false → liveCount cha pp b n ≤ R :=
    fun n hn hd => liveCount_le_rounds cha pp b pre n hn hd R (hnil R (le_refl _))
  refine ⟨R, _, hR, fun fuel hf => fillVtablePart_short cha pp b pre hnd R hmin fuel hf, ?_,
    fun n hn hd => by rw [← liveCount_eq_sideCount cha pp b n (hinv n hn hd)]; exact hle n hn hd,
    ?_⟩
  · have hsum : (pre.map (fun n => if cha.isUndefined n.1 = false
          then min R (liveCount cha pp b n - 0) else 0)).sum =
        ((pre.filter (fun n => !cha.isUndefined n.1)).map (sideCount cha pp b)).sum :=
      sum_defined_eq cha _ _ pre (fun n hn hd => by
        rw [← liveCount_eq_sideCount cha pp b n (hinv n hn hd)]
        have := hle n hn hd
        omega)
    cases b
    · simp only [Bool.false_eq_true, if_false]
      rw [negFrom_length, hsum]
    · simp only [if_true]
      rw [posFrom_length, hsum]
  · rcases Nat.eq_zero_or_pos R with h0 | hpos
    · exact Or.inl h0
    · right
      have hne := hmin (R - 1) (by omega)
      obtain ⟨e, he⟩ := List.exists_mem_of_ne_nil _ hne
      unfold sweepList at he
      obtain ⟨n, hn, _⟩ := List.mem_map.1 he
      obtain ⟨hn1, hn2⟩ := List.mem_filter.1 hn
      simp only [Bool.and_eq_true, Bool.not_eq_true', decide_eq_true_eq] at hn2
      refine ⟨n, hn1, hn2.1, ?_⟩
      rw [← liveCount_eq_sideCount cha pp b n (hinv n hn1 hn2.1)]
      have := hle n hn1 hn2.1
      omega

/-- The name of a thunk clone starts with `_S`, so it is no virtual-thunk name. -/
theorem sd_isVthunk_clone (t L : String) : sd_isVthunk (NEW_VTHUNK_NAME t L) = false := by
  unfold sd_isVthunk NEW_VTHUNK_NAME
  simp only [String.toList, String.data_append]
  simp [List.isPrefixOf]

/-- The thunk that the element loop of `createNewVTable` records for removal carries a
virtual-thunk name. -/
theorem createNewVTable_elem_thunk (cha : CHA) (dummy : vtbl_t) (M : Module)
    (ivtbl : interleaving_t) (c : Constant) (thunk : String)
    (h : createNewVTable_elem cha dummy M ivtbl = some (c, some thunk)) :
    sd_isVthunk thunk = true := by
  unfold createNewVTable_elem at h
  simp only at h
  split_ifs at h with h1 h2
  · simp at h
  · split at h
    · exact Option.noConfusion h
    · rename_i c0 hc0
      split at h
      · exact Option.noConfusion h
      · simp at h
      · rename_i t ht
        split_ifs at h
        have e := Option.some.inj h
        simp only [Prod.mk.injEq, Option.some.injEq] at e
        rw [← e.2]
        unfold getVthunkFunction at ht
        split at ht
        · split_ifs at ht with h3 h4
          · rw [← Option.some.inj (Option.some.inj ht)]; exact h3
          · simp at ht
        · simp at ht

/-- A function that is not in `vthunksToRemove` and whose name is no virtual-thunk name is
still in the module after `removeOldLayouts`. -/
theorem removeOldLayouts_keeps (cha : CHA) (s s1 : State)
    (h : removeOldLayouts cha s = .done s1) (f : Function) (hf : f ∈ s.M.functions)
    (hname : sd_isVthunk f.name = false) (hnot : f.name ∉ s.vthunksToRemove) :
    f ∈ s1.M.functions := by
  unfold removeOldLayouts at h
  cases hfold : cha.oldVTables.foldl (fun (o : Outcome Module) name =>
      o.andThen (fun M => removeOldLayouts_global M name)) (.done s.M) with
  | abort M1 => rw [hfold] at h; simp [Outcome.bind] at h
  | done M1 =>
    rw [hfold] at h
    simp only [Outcome.bind, Outcome.done.injEq] at h
    obtain ⟨hfun, _, _⟩ := removeOldLayouts_globals_done cha.oldVTables s.M M1 hfold
    subst h
    simp only [Module.eraseFunctions, List.mem_filter, decide_eq_true_eq, hfun]
    refine ⟨⟨hf, hnot⟩, ?_⟩
    intro hmem
    obtain ⟨g, hg, hgn⟩ := List.mem_map.1 hmem
    simp only [List.mem_filter, decide_eq_true_eq, Bool.and_eq_true, Bool.not_eq_true'] at hg
    rw [← hgn, hg.2.1] at hname
    exact Bool.noConfusion hname

/-- The record that `addCallSite` writes: both class-name fields are the class name read from
the metadata of argument operand 1. -/
theorem addCallSite_record (sd_isVtableName_ref : String → Bool)
    (getFunctionRange : String → String → List range_t)
    (args : List ArgOperand) (CallSite CallSite1 : CallSiteInst) (st st1 : ReturnRangeState)
    (h : addCallSite sd_isVtableName_ref getFunctionRange args CallSite st =
      some (st1, CallSite1)) :
    ∃ Arg2 ClassNameNode ClassName,
      getArgMetadata args 1 = some Arg2 ∧ Arg2.asMDNode = some ClassNameNode ∧
      sd_getClassNameFromMD sd_isVtableName_ref ClassNameNode 0 = some ClassName ∧
      (st1.CallSiteDebugLocs = st.CallSiteDebugLocs ∨
        ∃ (Loc : DebugLoc) (FunctionName : String) (r : range_t),
          st1.CallSiteDebugLocs = st.CallSiteDebugLocs ++
            [Loc.filename ++ ":" ++ toString Loc.line ++ ":" ++ toString Loc.col ++
              "," ++ ClassName ++ "," ++ ClassName ++ "," ++ FunctionName ++
              "," ++ toString r.1 ++ "," ++ toString r.2]) := by
  unfold addCallSite at h
  split at h
  · exact Option.noConfusion h
  · rename_i Arg2 hArg2
    split at h
    · exact Option.noConfusion h
    · rename_i ClassNameNode hnode
      split at h
      · exact Option.noConfusion h
      · split at h
        · exact Option.noConfusion h
        · rename_i PreciseNameNode hnode2
          cases Option.some.inj hnode2
          split at h
          · exact Option.noConfusion h
          · split at h
            · rename_i ClassName PreciseName FunctionName hC hP hF
              rw [hC] at hP
              cases Option.some.inj hP
              refine ⟨Arg2, ClassNameNode, ClassName, hArg2, hnode, hC, ?_⟩
              simp only at h
              split at h
              · left
                have e := Option.some.inj h
                simp only [Prod.mk.injEq] at e
                rw [← e.1]
                cases CallSite.debugLoc <;> rfl
              · right
                rename_i r rest hr
                have e := Option.some.inj h
                simp only [Prod.mk.injEq] at e
                rw [← e.1]
                cases CallSite.debugLoc with
                | none =>
                  exact ⟨DebugLoc.mk "" (st.pseudoDebugLoc / 65536) (st.pseudoDebugLoc % 65536),
                    FunctionName, r, rfl⟩
                | some l => exact ⟨l, FunctionName, r, rfl⟩
            · exact Option.noConfusion h

/-- The result of `addCallSite` does not depend on the metadata of argument operand 2. -/
theorem addCallSite_ignores_Arg3 (sd_isVtableName_ref : String → Bool)
    (getFunctionRange : String → String → List range_t)
    (a0 a1 : ArgOperand) (md md1 : Metadata) (rest : List ArgOperand)
    (CallSite : CallSiteInst) (st : ReturnRangeState) :
    addCallSite sd_isVtableName_ref getFunctionRange
        (a0 :: a1 :: ArgOperand.metadataAsValue md :: rest) CallSite st =
      addCallSite sd_isVtableName_ref getFunctionRange
        (a0 :: a1 :: ArgOperand.metadataAsValue md1 :: rest) CallSite st := by
  unfold addCallSite getArgMetadata
  simp only [List.getElem?_cons_succ, List.getElem?_cons_zero]

theorem getGlobalVariable_name (M : Module) (n : String) (g : GlobalVariable)
    (h : M.getGlobalVariable n = some g) : g.name = n := by
  unfold Module.getGlobalVariable at h
  have := List.find?_some h
  simpa using this

theorem find?_map_name (f : GlobalVariable → GlobalVariable) (hf : ∀ g, (f g).name = g.name)
    (n : String) : ∀ l : List GlobalVariable,
    (l.map f).find? (fun g => decide (g.name = n)) =
      (l.find? (fun g => decide (g.name = n))).map f := by
  intro l
  induction l with
  | nil => rfl
  | cons a l ih =>
    rw [List.map_cons]
    by_cases ha : a.name = n
    · rw [List.find?_cons_of_pos _ (by simp [hf, ha]), List.find?_cons_of_pos _ (by simp [ha])]
      rfl
    · rw [List.find?_cons_of_neg _ (by simp [hf, ha]), List.find?_cons_of_neg _ (by simp [ha]),
        ih]

theorem replaceUser_step_name (oldName : String) (user : User) (newName : String)
    (newUser : User) (g : GlobalVariable) :
    (if (if g.name = oldName then { g with users := g.users.erase user } else g).name = newName
      then { (if g.name = oldName then { g with users := g.users.erase user } else g) with
        users := (if g.name = oldName then { g with users := g.users.erase user }
          else g).users ++ [newUser] }
      else (if g.name = oldName then { g with users := g.users.erase user } else g)).name =
      g.name := by
  split_ifs <;> rfl

theorem replaceUser_step_users (oldName : String) (user : User) (newName : String)
    (newUser : User) (g : GlobalVariable) :
    (if (if g.name = oldName then { g with users := g.users.erase user } else g).name = newName
      then { (if g.name = oldName then { g with users := g.users.erase user } else g) with
        users := (if g.name = oldName then { g with users := g.users.erase user }
          else g).users ++ [newUser] }
      else (if g.name = oldName then { g with users := g.users.erase user } else g)).users =
      (if g.name = newName then
        (if g.name = oldName then g.users.erase user else g.users) ++ [newUser]
      else (if g.name = oldName then g.users.erase user else g.users)) := by
  by_cases h1 : g.name = oldName <;> by_cases h2 : g.name = newName
  · rw [if_pos h1, if_pos h2, if_pos h2, if_pos h1]
  · rw [if_pos h1, if_neg h2, if_neg h2, if_pos h1]
  · rw [if_neg h1, if_pos h2, if_pos h2, if_neg h1]
  · rw [if_neg h1, if_neg h2, if_neg h2, if_neg h1]

/-- The global that a name finds after `replaceUser`. -/
theorem replaceUser_get (M : Module) (oldName : String) (user : User) (newName : String)
    (newUser : User) (n : String) (g : GlobalVariable) (h : M.getGlobalVariable n = some g) :
    ∃ g1, (M.replaceUser oldName user newName newUser).getGlobalVariable n = some g1 ∧
      g1.users = (if n = newName then
          (if n = oldName then g.users.erase user else g.users) ++ [newUser]
        else (if n = oldName then g.users.erase user else g.users)) := by
  have hn := getGlobalVariable_name M n g h
  unfold Module.getGlobalVariable at h ⊢
  unfold Module.replaceUser
  simp only
  rw [find?_map_name _ (fun g => replaceUser_step_name oldName user newName newUser g), h]
  refine ⟨_, rfl, ?_⟩
  rw [replaceUser_step_users, hn]

/-- What one step of the user loop of `createNewVTable` does to the state: nothing, or one
`replaceUser` with the index read from the planned layout. -/
theorem createNewVTable_user_cases (cha : CHA) (vtbl : vtbl_name_t) (w : vtbl_t) (st : State)
    (user : User) :
    (createNewVTable_user cha vtbl w st user).state = st ∨
    ∃ (c : Int) (K : Nat) (M1 : Module), user = User.gep (some c) ∧
      createNewVTable_newAddrPt cha st.newLayoutInds w (u64 c) = some (some K) ∧
      M1 = Module.replaceUser st.M w.1 user (NEW_VTABLE_NAME vtbl)
        (User.gep (some (K : Int))) ∧
      createNewVTable_user cha vtbl w st user = .done { st with M := M1 } := by
  unfold createNewVTable_user
  cases user with
  | other => left; rfl
  | gep index =>
    cases index with
    | none => left; rfl
    | some c =>
      simp only
      cases hK : createNewVTable_newAddrPt cha st.newLayoutInds w (u64 c) with
      | none => left; rfl
      | some r =>
        cases r with
        | none => left; rfl
        | some K => right; exact ⟨c, K, _, rfl, hK, rfl, rfl⟩


/-- A step of the user loop of `createNewVTable` changes the module only. -/
theorem createNewVTable_user_fields (cha : CHA) (vtbl : vtbl_name_t) (w : vtbl_t) (st : State)
    (user : User) :
    (createNewVTable_user cha vtbl w st user).state.newLayoutInds = st.newLayoutInds ∧
    (createNewVTable_user cha vtbl w st user).state.cloudStartMap = st.cloudStartMap ∧
    (createNewVTable_user cha vtbl w st user).state.newVTableStartAddrMap =
      st.newVTableStartAddrMap := by
  rcases createNewVTable_user_cases cha vtbl w st user with h | ⟨c, K, M1, _, _, _, h⟩
  · rw [h]; exact ⟨rfl, rfl, rfl⟩
  · rw [h]; exact ⟨rfl, rfl, rfl⟩

/-- A step of the user loop of `createNewVTable` keeps every global findable. -/
theorem createNewVTable_user_exists (cha : CHA) (vtbl : vtbl_name_t) (w : vtbl_t) (st : State)
    (user : User) (n : String) (h : ∃ g, st.M.getGlobalVariable n = some g) :
    ∃ g, (createNewVTable_user cha vtbl w st user).state.M.getGlobalVariable n = some g := by
  rcases createNewVTable_user_cases cha vtbl w st user with h1 | ⟨c, K, M1, _, _, hM, h1⟩
  · rw [h1]; exact h
  · rw [h1, hM]
    obtain ⟨g, hg⟩ := h
    obtain ⟨g1, hg1, _⟩ := replaceUser_get st.M w.1 user (NEW_VTABLE_NAME vtbl)
      (User.gep (some (K : Int))) n g hg
    exact ⟨g1, hg1⟩

/-- A step of the user loop for a node whose name is not the name of the new global keeps the
users of the new global. -/
theorem createNewVTable_user_keeps_new (cha : CHA) (vtbl : vtbl_name_t) (w : vtbl_t)
    (st : State) (user x : User) (hw : w.1 ≠ NEW_VTABLE_NAME vtbl)
    (h : ∃ g, st.M.getGlobalVariable (NEW_VTABLE_NAME vtbl) = some g ∧ x ∈ g.users) :
    ∃ g, (createNewVTable_user cha vtbl w st user).state.M.getGlobalVariable
      (NEW_VTABLE_NAME vtbl) = some g ∧ x ∈ g.users := by
  rcases createNewVTable_user_cases cha vtbl w st user with h1 | ⟨c, K, M1, _, _, hM, h1⟩
  · rw [h1]; exact h
  · rw [h1, hM]
    obtain ⟨g, hg, hx⟩ := h
    obtain ⟨g1, hg1, hu⟩ := replaceUser_get st.M w.1 user (NEW_VTABLE_NAME vtbl)
      (User.gep (some (K : Int))) (NEW_VTABLE_NAME vtbl) g hg
    refine ⟨g1, hg1, ?_⟩
    rw [hu, if_pos rfl, if_neg (fun e => hw e.symm)]
    exact List.mem_append_left _ hx

/-- A step of the user loop for another node keeps the use of the address point of `v` among
the users of the old global of `v`. -/
theorem createNewVTable_user_keeps_old (cha : CHA) (vtbl : vtbl_name_t) (v w : vtbl_t)
    (st : State) (user : User) (c : Int)
    (hc : u64 c = cha.addrPt v) (hord : cha.getAddrPtOrder v.1 (cha.addrPt v) = v.2)
    (hwv : w ≠ v)
    (h : ∃ g, st.M.getGlobalVariable v.1 = some g ∧ User.gep (some c) ∈ g.users) :
    ∃ g, (createNewVTable_user cha vtbl w st user).state.M.getGlobalVariable v.1 = some g ∧
      User.gep (some c) ∈ g.users := by
  rcases createNewVTable_user_cases cha vtbl w st user with h1 | ⟨c1, K, M1, hu1, hK, hM, h1⟩
  · rw [h1]; exact h
  · rw [h1, hM]
    obtain ⟨g, hg, hx⟩ := h
    obtain ⟨g1, hg1, hu⟩ := replaceUser_get st.M w.1 user (NEW_VTABLE_NAME vtbl)
      (User.gep (some (K : Int))) v.1 g hg
    refine ⟨g1, hg1, ?_⟩
    rw [hu]
    have hmem : User.gep (some c) ∈ (if v.1 = w.1 then g.users.erase user else g.users) := by
      by_cases hn : v.1 = w.1
      · rw [if_pos hn]
        by_cases hne : User.gep (some c) = user
        · exfalso
          rw [hu1] at hne
          have hcc : c1 = c := by
            have := User.gep.inj hne
            exact (Option.some.inj this).symm
          rw [hcc, hc] at hK
          unfold createNewVTable_newAddrPt at hK
          simp only at hK
          rw [← hn, hord] at hK
          have h2 : v.2 ≠ w.2 := by
            intro e
            apply hwv
            exact Prod.ext hn.symm e.symm
          split_ifs at hK
          simp at hK
        · exact (List.mem_erase_of_ne hne).2 hx
      · rw [if_neg hn]; exact hx
    by_cases hN : v.1 = NEW_VTABLE_NAME vtbl
    · rw [if_pos hN]; exact List.mem_append_left _ hmem
    · rw [if_neg hN]; exact hmem

/-- The step of the user loop of `createNewVTable` for the use of the address point of `v`:
when it runs to its end, the new global has the use with the index read from the planned
layout at `addrPt(v) - first(v)`. -/
theorem createNewVTable_user_writes (cha : CHA) (vtbl : vtbl_name_t) (v : vtbl_t)
    (st st1 : State) (c : Int) (K : Nat)
    (hc : u64 c = cha.addrPt v) (hord : cha.getAddrPtOrder v.1 (cha.addrPt v) = v.2)
    (hK : ((st.newLayoutInds v).getD [])[cha.addrPt v - (cha.getRange v).1]? = some K)
    (hE : ∃ g, st.M.getGlobalVariable (NEW_VTABLE_NAME vtbl) = some g)
    (h : createNewVTable_user cha vtbl v st (User.gep (some c)) = .done st1) :
    ∃ g, st1.M.getGlobalVariable (NEW_VTABLE_NAME vtbl) = some g ∧
      User.gep (some (K : Int)) ∈ g.users := by
  have hnew : createNewVTable_newAddrPt cha st.newLayoutInds v (u64 c) = none ∨
      createNewVTable_newAddrPt cha st.newLayoutInds v (u64 c) = some (some K) := by
    rw [hc]
    unfold createNewVTable_newAddrPt
    simp only [hord, ne_eq, not_true_eq_false, if_false, Prod.mk.eta, hK]
    split_ifs
    · left; rfl
    · right; rfl
  unfold createNewVTable_user at h
  simp only at h
  rcases hnew with hn | hn
  · rw [hn] at h
    exact Outcome.noConfusion h
  · rw [hn] at h
    simp only [Outcome.done.injEq] at h
    obtain ⟨g, hg⟩ := hE
    obtain ⟨g1, hg1, hu⟩ := replaceUser_get st.M v.1 (User.gep (some c)) (NEW_VTABLE_NAME vtbl)
      (User.gep (some (K : Int))) (NEW_VTABLE_NAME vtbl) g hg
    rw [← h]
    refine ⟨g1, hg1, ?_⟩
    rw [hu, if_pos rfl]
    exact List.mem_append_right _ (List.mem_singleton.2 rfl)

/-- The user loop of `createNewVTable` for the node `w` keeps the planned layouts, the
registered globals and the recorded address constants. -/
theorem userLoop_fields (cha : CHA) (vtbl : vtbl_name_t) (w : vtbl_t) (U : List User)
    (st0 st1 : State)
    (h : U.foldl (fun (o : Outcome State) user =>
      o.andThen (fun s => createNewVTable_user cha vtbl w s user)) (.done st0) = .done st1) :
    st1.newLayoutInds = st0.newLayoutInds ∧ st1.cloudStartMap = st0.cloudStartMap ∧
    st1.newVTableStartAddrMap = st0.newVTableStartAddrMap := by
  have := foldl_andThen_inv
    (fun s : State => s.newLayoutInds = st0.newLayoutInds ∧
      s.cloudStartMap = st0.cloudStartMap ∧
      s.newVTableStartAddrMap = st0.newVTableStartAddrMap)
    (fun s user => createNewVTable_user cha vtbl w s user)
    (fun s user hs => by
      obtain ⟨h1, h2, h3⟩ := createNewVTable_user_fields cha vtbl w s user
      exact ⟨h1.trans hs.1, h2.trans hs.2.1, h3.trans hs.2.2⟩)
    U (.done st0) ⟨rfl, rfl, rfl⟩
  rw [h] at this
  exact this

/-- The user loop of `createNewVTable` for a node whose name is not the name of the new global
keeps the new global and its users. -/
theorem userLoop_keeps_new (cha : CHA) (vtbl : vtbl_name_t) (w : vtbl_t) (U : List User)
    (st0 st1 : State) (hw : w.1 ≠ NEW_VTABLE_NAME vtbl)
    (h : U.foldl (fun (o : Outcome State) user =>
      o.andThen (fun s => createNewVTable_user cha vtbl w s user)) (.done st0) = .done st1) :
    ((∃ g, st0.M.getGlobalVariable (NEW_VTABLE_NAME vtbl) = some g) →
      ∃ g, st1.M.getGlobalVariable (NEW_VTABLE_NAME vtbl) = some g) ∧
    ∀ x, (∃ g, st0.M.getGlobalVariable (NEW_VTABLE_NAME vtbl) = some g ∧ x ∈ g.users) →
      ∃ g, st1.M.getGlobalVariable (NEW_VTABLE_NAME vtbl) = some g ∧ x ∈ g.users := by
  constructor
  · intro hE
    have := foldl_andThen_inv
      (fun s : State => ∃ g, s.M.getGlobalVariable (NEW_VTABLE_NAME vtbl) = some g)
      (fun s user => createNewVTable_user cha vtbl w s user)
      (fun s user hs => createNewVTable_user_exists cha vtbl w s user _ hs)
      U (.done st0) hE
    rw [h] at this
    exact this
  · intro x hQ
    have := foldl_andThen_inv
      (fun s : State => ∃ g, s.M.getGlobalVariable (NEW_VTABLE_NAME vtbl) = some g ∧
        x ∈ g.users)
      (fun s user => createNewVTable_user cha vtbl w s user)
      (fun s user hs => createNewVTable_user_keeps_new cha vtbl w s user x hw hs)
      U (.done st0) hQ
    rw [h] at this
    exact this

/-- The user loop of `createNewVTable` for another node keeps the use of the address point of
`v` among the users of the old global of `v`. -/
theorem userLoop_keeps_old (cha : CHA) (vtbl : vtbl_name_t) (v w : vtbl_t) (U : List User)
    (st0 st1 : State) (c : Int)
    (hc : u64 c = cha.addrPt v) (hord : cha.getAddrPtOrder v.1 (cha.addrPt v) = v.2)
    (hwv : w ≠ v)
    (h : U.foldl (fun (o : Outcome State) user =>
      o.andThen (fun s => createNewVTable_user cha vtbl w s user)) (.done st0) = .done st1)
    (hP : ∃ g, st0.M.getGlobalVariable v.1 = some g ∧ User.gep (some c) ∈ g.users) :
    ∃ g, st1.M.getGlobalVariable v.1 = some g ∧ User.gep (some c) ∈ g.users := by
  have := foldl_andThen_inv
    (fun s : State => ∃ g, s.M.getGlobalVariable v.1 = some g ∧ User.gep (some c) ∈ g.users)
    (fun s user => createNewVTable_user cha vtbl w s user)
    (fun s user hs => createNewVTable_user_keeps_old cha vtbl v w s user c hc hord hwv hs)
    U (.done st0) hP
  rw [h] at this
  exact this

/-- The user loop of `createNewVTable` for the node `v`, run to its end over users that
include the use of the address point of `v`, leaves the rewritten use with the new global. -/
theorem userLoop_writes (cha : CHA) (vtbl : vtbl_name_t) (v : vtbl_t) (c : Int) (K : Nat)
    (nli : vtbl_t → Option (List Nat))
    (hc : u64 c = cha.addrPt v) (hord : cha.getAddrPtOrder v.1 (cha.addrPt v) = v.2)
    (hv : v.1 ≠ NEW_VTABLE_NAME vtbl)
    (hK : ((nli v).getD [])[cha.addrPt v - (cha.getRange v).1]? = some K) :
    ∀ (U : List User) (st0 st1 : State), User.gep (some c) ∈ U →
      st0.newLayoutInds = nli →
      (∃ g, st0.M.getGlobalVariable (NEW_VTABLE_NAME vtbl) = some g) →
      U.foldl (fun (o : Outcome State) user =>
        o.andThen (fun s => createNewVTable_user cha vtbl v s user)) (.done st0) = .done st1 →
      ∃ g, st1.M.getGlobalVariable (NEW_VTABLE_NAME vtbl) = some g ∧
        User.gep (some (K : Int)) ∈ g.users := by
  intro U
  induction U with
  | nil => intro st0 st1 hmem; exact absurd hmem (List.not_mem_nil _)
  | cons u U ih =>
    intro st0 st1 hmem hnli hE h
    rw [List.foldl_cons, Outcome.andThen_done] at h
    cases hstep : createNewVTable_user cha vtbl v st0 u with
    | abort s =>
      rw [hstep, foldl_andThen_abort] at h
      exact Outcome.noConfusion h
    | done s =>
      rw [hstep] at h
      have hs : s = (createNewVTable_user cha vtbl v st0 u).state := by rw [hstep]; rfl
      by_cases hu : u = User.gep (some c)
      · rw [hu] at hstep
        have hQ := createNewVTable_user_writes cha vtbl v st0 s c K hc hord
          (by rw [hnli]; exact hK) hE hstep
        exact (userLoop_keeps_new cha vtbl v U s st1 hv h).2 _ hQ
      · have hmem1 : User.gep (some c) ∈ U := by
          rcases List.mem_cons.1 hmem with e | e
          · exact absurd e.symm hu
          · exact e
        refine ih s st1 hmem1 ?_ ?_ h
        · rw [hs, (createNewVTable_user_fields cha vtbl v st0 u).1, hnli]
        · rw [hs]
          exact createNewVTable_user_exists cha vtbl v st0 u _ hE

/-- The body of the loop of `createNewVTable` over the cloud, when it runs to its end: the
address constant of a defined node is recorded once, and its users are walked. -/
theorem createNewVTable_node_done (cha : CHA) (vtbl : vtbl_name_t) (st st1 : State)
    (w : vtbl_t) (h : createNewVTable_node cha vtbl st w = .done st1) :
    (cha.isUndefined w.1 = true ∧ st1 = st) ∨
    (cha.isUndefined w.1 = false ∧ st.newVTableStartAddrMap w = none ∧
      ∃ a st0 gv, newVtblAddressConst cha st.newLayoutInds st.cloudStartMap w = some a ∧
        st0.M = st.M ∧ st0.newLayoutInds = st.newLayoutInds ∧
        st0.cloudStartMap = st.cloudStartMap ∧
        st0.newVTableStartAddrMap = upd st.newVTableStartAddrMap w (some a) ∧
        st.M.getGlobalVariable w.1 = some gv ∧
        gv.users.foldl (fun (o : Outcome State) user =>
          o.andThen (fun s => createNewVTable_user cha vtbl w s user)) (.done st0) =
            .done st1) := by
  unfold createNewVTable_node at h
  simp only [CHA.isDefined] at h
  by_cases hu : cha.isUndefined w.1 = true
  · left
    simp only [hu, Bool.not_true, Bool.false_eq_true, if_false, Outcome.andThen_done,
      if_true] at h
    exact ⟨hu, (Outcome.done.inj h).symm⟩
  · right
    have hu1 : cha.isUndefined w.1 = false := by simpa using hu
    simp only [hu1, Bool.not_false, if_true, Bool.false_eq_true, if_false] at h
    cases hm : st.newVTableStartAddrMap w with
    | some a0 =>
      rw [hm] at h
      simp only [Option.isSome_some, if_true, Outcome.andThen_abort] at h
      exact Outcome.noConfusion h
    | none =>
      rw [hm] at h
      simp only [Option.isSome_none, Bool.false_eq_true, if_false] at h
      cases ha : newVtblAddressConst cha st.newLayoutInds st.cloudStartMap w with
      | none =>
        rw [ha] at h
        simp only [Outcome.andThen_abort] at h
        exact Outcome.noConfusion h
      | some a =>
        rw [ha] at h
        simp only [Outcome.andThen_done] at h
        cases hg : st.M.getGlobalVariable w.1 with
        | none =>
          rw [hg] at h
          exact Outcome.noConfusion h
        | some gv =>
          rw [hg] at h
          simp only at h
          exact ⟨hu1, rfl, a,
            { st with newVTableStartAddrMap := upd st.newVTableStartAddrMap w (some a) }, gv,
            rfl, rfl, rfl, rfl, rfl, rfl, h⟩

/-- The loop of `createNewVTable` over the cloud, run to its end: every defined node has the
address constant of `newVtblAddressConst` recorded. -/
theorem nodeLoop_map (cha : CHA) (vtbl : vtbl_name_t) (l : List vtbl_t) (st st1 : State)
    (h : l.foldl (fun (o : Outcome State) v =>
      o.andThen (fun s => createNewVTable_node cha vtbl s v)) (.done st) = .done st1) :
    st1.newLayoutInds = st.newLayoutInds ∧ st1.cloudStartMap = st.cloudStartMap ∧
    (∀ w, (st.newVTableStartAddrMap w).isSome = true →
      st1.newVTableStartAddrMap w = st.newVTableStartAddrMap w) ∧
    (∀ w ∈ l, cha.isUndefined w.1 = false →
      st1.newVTableStartAddrMap w =
        newVtblAddressConst cha st.newLayoutInds st.cloudStartMap w ∧
      (st1.newVTableStartAddrMap w).isSome = true) := by
  refine foldl_andThen_done
    (fun (s : State) (l : List vtbl_t) (s2 : State) =>
      s2.newLayoutInds = s.newLayoutInds ∧ s2.cloudStartMap = s.cloudStartMap ∧
      (∀ w, (s.newVTableStartAddrMap w).isSome = true →
        s2.newVTableStartAddrMap w = s.newVTableStartAddrMap w) ∧
      (∀ w ∈ l, cha.isUndefined w.1 = false →
        s2.newVTableStartAddrMap w =
          newVtblAddressConst cha s.newLayoutInds s.cloudStartMap w ∧
        (s2.newVTableStartAddrMap w).isSome = true))
    (fun s v => createNewVTable_node cha vtbl s v)
    (fun s => ⟨rfl, rfl, fun _ _ => rfl, fun w hw => absurd hw (List.not_mem_nil _)⟩)
    ?_ l st st1 h
  intro s x s1 xs s2 hnode ⟨q1, q2, q3, q4⟩
  rcases createNewVTable_node_done cha vtbl s s1 x hnode with ⟨hu, rfl⟩ |
    ⟨hu, hnone, a, st0, gv, ha, _, h2, h3, h4, _, hfold⟩
  · refine ⟨q1, q2, q3, fun w hw hd => ?_⟩
    rcases List.mem_cons.1 hw with rfl | hw
    · rw [hu] at hd; exact Bool.noConfusion hd
    · exact q4 w hw hd
  · obtain ⟨f1, f2, f3⟩ := userLoop_fields cha vtbl x gv.users st0 s1 hfold
    have e1 : s1.newLayoutInds = s.newLayoutInds := f1.trans h2
    have e2 : s1.cloudStartMap = s.cloudStartMap := f2.trans h3
    have e3 : s1.newVTableStartAddrMap = upd s.newVTableStartAddrMap x (some a) := f3.trans h4
    have hx : s2.newVTableStartAddrMap x = some a := by
      rw [q3 x (by rw [e3]; unfold upd; rw [if_pos rfl]; rfl), e3]
      unfold upd
      rw [if_pos rfl]
    refine ⟨q1.trans e1, q2.trans e2, fun w hw => ?_, fun w hw hd => ?_⟩
    · have hne : w ≠ x := by
        intro e
        rw [e, hnone] at hw
        exact Bool.noConfusion hw
      have e4 : s1.newVTableStartAddrMap w = s.newVTableStartAddrMap w := by
        rw [e3]; unfold upd; rw [if_neg hne]
      rw [q3 w (by rw [e4]; exact hw), e4]
    · rcases List.mem_cons.1 hw with rfl | hw
      · rw [hx, ha]
        exact ⟨rfl, rfl⟩
      · have := q4 w hw hd
        rw [e1, e2] at this
        exact this

/-- The loop of `createNewVTable` over the cloud, run to its end: the uses already written to
the new global stay, and the use of the address point of a defined node `v` of the cloud is
written to the new global with the index read from the planned layout. -/
theorem nodeLoop_module (cha : CHA) (vtbl : vtbl_name_t) (v : vtbl_t) (c : Int) (K : Nat)
    (nli : vtbl_t → Option (List Nat))
    (hc : u64 c = cha.addrPt v) (hord : cha.getAddrPtOrder v.1 (cha.addrPt v) = v.2)
    (hK : ((nli v).getD [])[cha.addrPt v - (cha.getRange v).1]? = some K) :
    ∀ (l : List vtbl_t) (st st1 : State),
      l.foldl (fun (o : Outcome State) w =>
        o.andThen (fun s => createNewVTable_node cha vtbl s w)) (.done st) = .done st1 →
      (∀ w ∈ l, w.1 ≠ NEW_VTABLE_NAME vtbl) →
      st.newLayoutInds = nli →
      (∃ g, st.M.getGlobalVariable (NEW_VTABLE_NAME vtbl) = some g) →
      (∀ x, (∃ g, st.M.getGlobalVariable (NEW_VTABLE_NAME vtbl) = some g ∧ x ∈ g.users) →
        ∃ g, st1.M.getGlobalVariable (NEW_VTABLE_NAME vtbl) = some g ∧ x ∈ g.users) ∧
      (v ∈ l → cha.isUndefined v.1 = false →
        (∃ g, st.M.getGlobalVariable v.1 = some g ∧ User.gep (some c) ∈ g.users) →
        ∃ g, st1.M.getGlobalVariable (NEW_VTABLE_NAME vtbl) = some g ∧
          User.gep (some (K : Int)) ∈ g.users) := by
  intro l
  induction l with
  | nil =>
    intro st st1 h _ _ _
    rw [List.foldl_nil] at h
    cases Outcome.done.inj h
    exact ⟨fun x hx => hx, fun hv => absurd hv (List.not_mem_nil _)⟩
  | cons w l ih =>
    intro st st1 h hfresh hnli hE
    rw [List.foldl_cons, Outcome.andThen_done] at h
    have hfresh1 : ∀ w1 ∈ l, w1.1 ≠ NEW_VTABLE_NAME vtbl :=
      fun w1 hw1 => hfresh w1 (List.mem_cons_of_mem _ hw1)
    have hw : w.1 ≠ NEW_VTABLE_NAME vtbl := hfresh w (List.mem_cons_self _ _)
    cases hnode : createNewVTable_node cha vtbl st w with
    | abort s =>
      rw [hnode, foldl_andThen_abort] at h
      exact Outcome.noConfusion h
    | done s =>
      rw [hnode] at h
      rcases createNewVTable_node_done cha vtbl st s w hnode with ⟨hu, rfl⟩ |
        ⟨hu, _, a, st0, gv, _, hM, h2, _, _, hgv, hfold⟩
      · obtain ⟨i1, i2⟩ := ih s st1 h hfresh1 hnli hE
        refine ⟨i1, fun hv hd hP => ?_⟩
        rcases List.mem_cons.1 hv with e | hv
        · rw [e, hu] at hd; exact Bool.noConfusion hd
        · exact i2 hv hd hP
      · obtain ⟨k1, k2⟩ := userLoop_keeps_new cha vtbl w gv.users st0 s hw hfold
        obtain ⟨f1, _, _⟩ := userLoop_fields cha vtbl w gv.users st0 s hfold
        have hE0 : ∃ g, st0.M.getGlobalVariable (NEW_VTABLE_NAME vtbl) = some g := by
          rw [hM]; exact hE
        obtain ⟨i1, i2⟩ := ih s st1 h hfresh1 (f1.trans (h2.trans hnli)) (k1 hE0)
        refine ⟨fun x hx => i1 x (k2 x (by rw [hM]; exact hx)), fun hv hd hP => ?_⟩
        by_cases hwv : w = v
        · subst hwv
          obtain ⟨g, hg, hmem⟩ := hP
          rw [hgv] at hg
          cases Option.some.inj hg
          exact i1 _ (userLoop_writes cha vtbl w c K nli hc hord hw hK gv.users st0 s hmem
            (h2.trans hnli) hE0 hfold)
        · have hv1 : v ∈ l := by
            rcases List.mem_cons.1 hv with e | hv
            · exact absurd e.symm hwv
            · exact hv
          exact i2 hv1 hd (userLoop_keeps_old cha vtbl v w gv.users st0 s c hc hord hwv hfold
            (by rw [hM]; exact hP))

/-- What a successful `newVtblAddressConst` returns. -/
theorem newVtblAddressConst_some (cha : CHA) (nli : vtbl_t → Option (List Nat))
    (csm : String → Bool) (v : vtbl_t) (a : AddrConst)
    (h : newVtblAddressConst cha nli csm v = some a) :
    ∃ inds K, nli v = some inds ∧ inds[cha.addrPt v - (cha.getRange v).1]? = some K ∧
      a = { global := NEW_VTABLE_NAME (cha.getAncestor v), offset := K * WORD_WIDTH } := by
  unfold newVtblAddressConst at h
  simp only at h
  split_ifs at h
  all_goals (
    split at h
    · exact Option.noConfusion h
    · rename_i inds hinds
      split at h
      · exact Option.noConfusion h
      · rename_i K hK
        first
          | exact Option.noConfusion h
          | exact ⟨inds, K, hinds, hK, (Option.some.inj h).symm⟩)

/-- The start of `createNewVTable`, when it runs to its end: the new global is added, the
cloud is registered, and the loop over the cloud starts. -/
theorem createNewVTable_start (cha : CHA) (vtbl : vtbl_name_t) (s s1 : State)
    (h : createNewVTable cha vtbl s = .done s1) :
    ∃ (s2 : State) (gnew : GlobalVariable),
      s2.newLayoutInds = s.newLayoutInds ∧
      s2.cloudStartMap = updName s.cloudStartMap (NEW_VTABLE_NAME vtbl) true ∧
      s2.newVTableStartAddrMap = s.newVTableStartAddrMap ∧
      gnew.name = NEW_VTABLE_NAME vtbl ∧
      s2.M.globals = s.M.globals ++ [gnew] ∧
      (cha.preorder (vtbl, 0)).foldl (fun (o : Outcome State) v =>
        o.andThen (fun s => createNewVTable_node cha vtbl s v)) (.done s2) = .done s1 := by
  unfold createNewVTable at h
  simp only at h
  cases he : createNewVTable_elems cha s.dummyVtable s.M ((s.interleavingMap vtbl).getD [])
      ([], s.vthunksToRemove) with
  | abort acc => rw [he] at h; cases h
  | done acc =>
    obtain ⟨newVtableElems, vthunksToRemove⟩ := acc
    rw [he] at h
    simp only at h
    cases ha : s.alignmentMap vtbl with
    | none => rw [ha] at h; cases h
    | some alignment =>
      rw [ha] at h
      simp only at h
      refine ⟨_, GlobalVariable.mk (NEW_VTABLE_NAME vtbl) newVtableElems alignment [],
        ?_, ?_, ?_, ?_, ?_, h⟩ <;> rfl

theorem getGlobalVariable_append_left (M M2 : Module) (gnew : GlobalVariable) (n : String)
    (g : GlobalVariable) (hM : M2.globals = M.globals ++ [gnew])
    (h : M.getGlobalVariable n = some g) : M2.getGlobalVariable n = some g := by
  unfold Module.getGlobalVariable at h ⊢
  rw [hM, List.find?_append, h]
  rfl

theorem getGlobalVariable_append_new (M M2 : Module) (gnew : GlobalVariable)
    (hM : M2.globals = M.globals ++ [gnew]) :
    ∃ g, M2.getGlobalVariable gnew.name = some g := by
  unfold Module.getGlobalVariable
  rw [hM, List.find?_append]
  cases M.globals.find? (fun g => decide (g.name = gnew.name)) with
  | some g => exact ⟨g, rfl⟩
  | none =>
    refine ⟨gnew, ?_⟩
    simp

/-- `createNewVTable`, run to its end, on a defined node `v` of the cloud whose old global has
a constant `getelementptr` use of the address point of `v`: the index `K` of the rewritten
use, the result of `translateVtblInd` in absolute mode and the address constant recorded in
`newVTableStartAddrMap[v]` agree. -/
theorem createNewVTable_relocation (cha : CHA) (vtbl : vtbl_name_t) (s s1 : State)
    (v : vtbl_t) (g : GlobalVariable) (c : Int)
    (h : createNewVTable cha vtbl s = .done s1)
    (hv : v ∈ cha.preorder (vtbl, 0))
    (hdef : cha.isUndefined v.1 = false)
    (hrng : cha.hasRange v = true)
    (hfresh : ∀ w ∈ cha.preorder (vtbl, 0), w.1 ≠ NEW_VTABLE_NAME vtbl)
    (hg : s.M.getGlobalVariable v.1 = some g)
    (hu : User.gep (some c) ∈ g.users)
    (hc : u64 c = cha.addrPt v)
    (hord : cha.getAddrPtOrder v.1 (cha.addrPt v) = v.2) :
    ∃ K : Nat,
      translateVtblInd cha s.newLayoutInds v
        ((cha.addrPt v - (cha.getRange v).1 : Nat) : Int) false = some (K : Int) ∧
      s1.newVTableStartAddrMap v =
        some { global := NEW_VTABLE_NAME (cha.getAncestor v), offset := K * WORD_WIDTH } ∧
      ∃ g1, s1.M.getGlobalVariable (NEW_VTABLE_NAME vtbl) = some g1 ∧
        User.gep (some (K : Int)) ∈ g1.users := by
  obtain ⟨s2, gnew, e1, _, _, hname, hglob, hfold⟩ := createNewVTable_start cha vtbl s s1 h
  obtain ⟨_, _, _, m4⟩ := nodeLoop_map cha vtbl _ s2 s1 hfold
  obtain ⟨hmap, hsome⟩ := m4 v hv hdef
  cases ha : newVtblAddressConst cha s2.newLayoutInds s2.cloudStartMap v with
  | none =>
    rw [hmap, ha] at hsome
    exact Bool.noConfusion hsome
  | some a =>
    obtain ⟨inds, K, hinds, hK, hae⟩ := newVtblAddressConst_some cha _ _ v a ha
    rw [e1] at hinds
    refine ⟨K, ?_, by rw [hmap, ha, hae], ?_⟩
    · have hlt : cha.addrPt v - (cha.getRange v).1 < inds.length := by
        obtain ⟨hlt, _⟩ := List.getElem?_eq_some_iff.1 hK
        exact hlt
      unfold translateVtblInd
      simp only [CHA.isUndefinedVtbl, hdef, Bool.false_and, Bool.false_eq_true, if_false,
        hinds, hrng, Bool.not_true, Int.toNat_ofNat, hK]
      rw [if_neg (by omega)]
    · have hE : ∃ g0, s2.M.getGlobalVariable (NEW_VTABLE_NAME vtbl) = some g0 := by
        rw [← hname]
        exact getGlobalVariable_append_new s.M s2.M gnew hglob
      exact (nodeLoop_module cha vtbl v c K s.newLayoutInds hc hord
        (by rw [hinds]; exact hK) _ s2 s1 hfold hfresh e1 hE).2 hv hdef
        ⟨g, getGlobalVariable_append_left s.M s2.M gnew v.1 g hglob hg, hu⟩

/-- `createNewVTable`, run to its end, leaves the planned layouts as they are. -/
theorem createNewVTable_newLayoutInds (cha : CHA) (vtbl : vtbl_name_t) (s s1 : State)
    (h : createNewVTable cha vtbl s = .done s1) : s1.newLayoutInds = s.newLayoutInds := by
  obtain ⟨s2, gnew, e1, _, _, _, _, hfold⟩ := createNewVTable_start cha vtbl s s1 h
  exact (nodeLoop_map cha vtbl _ s2 s1 hfold).1.trans e1

/-- The three index computations of the relocation read the same cell.  For a defined sub-vtable `v` with a
planned layout that covers the index `addrPt(v) - first(v)`, whose address point the oracle
attributes to `v` and whose root has a registered new global, the index `K` that
`createNewVTable` writes into the rebuilt `getelementptr` of a use of the address point of `v`,
the result of `translateVtblInd(v, addrPt(v) - first(v), isRelative = false)` and the address
constant that `newVtblAddressConst` returns for `newVTableStartAddrMap[v]` agree: the latter
is the start of `_SD{root}` plus `K · 8`. -/
theorem relocation_helpers_agree (cha : CHA) (newLayoutInds : vtbl_t → Option (List Nat))
    (cloudStartMap : String → Bool) (v : vtbl_t) (inds : List Nat)
    (hdef : cha.isUndefined v.1 = false)
    (hinds : newLayoutInds v = some inds)
    (hlt : cha.addrPt v - (cha.getRange v).1 < inds.length)
    (hhas : cha.hasAddrPt v.1 (cha.addrPt v) = true)
    (hord : cha.getAddrPtOrder v.1 (cha.addrPt v) = v.2)
    (hrng : cha.hasRange v = true)
    (hanc : cha.hasAncestor v = true)
    (hroot : cha.isRoot (cha.getAncestor v) = true)
    (hnum : cha.getNumAddrPts v.1 ≠ 0)
    (hcloud : cloudStartMap (NEW_VTABLE_NAME (cha.getAncestor v)) = true) :
    ∃ K : Nat,
      createNewVTable_newAddrPt cha newLayoutInds v (cha.addrPt v) = some (some K) ∧
      translateVtblInd cha newLayoutInds v
        ((cha.addrPt v - (cha.getRange v).1 : Nat) : Int) false = some (K : Int) ∧
      newVtblAddressConst cha newLayoutInds cloudStartMap v =
        some { global := NEW_VTABLE_NAME (cha.getAncestor v), offset := K * WORD_WIDTH } := by
  have hget : inds[cha.addrPt v - (cha.getRange v).1]? =
      some (inds.get ⟨cha.addrPt v - (cha.getRange v).1, hlt⟩) := by
    rw [List.getElem?_eq_getElem hlt]; rfl
  refine ⟨inds.get ⟨cha.addrPt v - (cha.getRange v).1, hlt⟩, ?_, ?_, ?_⟩
  · unfold createNewVTable_newAddrPt
    simp only [hhas, Bool.not_true, Bool.false_eq_true, if_false, hord, ne_eq, not_true_eq_false,
      Prod.mk.eta, hinds, Option.getD_some, hget]
  · unfold translateVtblInd
    simp only [CHA.isUndefinedVtbl, hdef, Bool.false_and, Bool.false_eq_true, if_false, hinds,
      hrng, Bool.not_true, Int.toNat_ofNat, hget]
    rw [if_neg (by omega)]
  · unfold newVtblAddressConst
    simp only [hanc, hroot, Bool.not_true, Bool.false_eq_true, if_false, hinds, hget, hcloud]
    rw [if_neg hnum]

/-- The pre-pad update step.  For a defined parent `p` and a child `c` that is not
earlier than `p` in the preorder, one update of the pre-pad loop, with
`ppAP = addrPt(p) - first(p) + PrePad[p]` and `chAP = addrPt(c) - first(c) + PrePad[c]` taken
before the update, sets `PrePad[c]` to `ppAP - chAP` when `ppAP > chAP` and leaves it unchanged
otherwise, and changes no other entry.  The new value is `max(old PrePad[c], ppAP - chAP)`
whenever `ppAP ≤ chAP` or the old `PrePad[c]` is at most `ppAP - chAP`, in particular when the
old `PrePad[c]` is 0; in those cases `PrePad[c]` does not decrease. -/
theorem prePadChild_update (cha : CHA) (indMap : vtbl_t → Nat) (p c : vtbl_t)
    (prePadMap : vtbl_t → Nat)
    (hp : cha.isUndefined p.1 = false) (ho : ¬ indMap c < indMap p) :
    prePadChild cha indMap p prePadMap c c =
      (if cha.addrPt p - (cha.getRange p).1 + prePadMap p >
          cha.addrPt c - (cha.getRange c).1 + prePadMap c
        then cha.addrPt p - (cha.getRange p).1 + prePadMap p -
          (cha.addrPt c - (cha.getRange c).1 + prePadMap c)
        else prePadMap c) ∧
    (∀ v, v ≠ c → prePadChild cha indMap p prePadMap c v = prePadMap v) ∧
    ((cha.addrPt p - (cha.getRange p).1 + prePadMap p ≤
          cha.addrPt c - (cha.getRange c).1 + prePadMap c ∨
        prePadMap c ≤ cha.addrPt p - (cha.getRange p).1 + prePadMap p -
          (cha.addrPt c - (cha.getRange c).1 + prePadMap c)) →
      prePadChild cha indMap p prePadMap c c =
        max (prePadMap c) (cha.addrPt p - (cha.getRange p).1 + prePadMap p -
          (cha.addrPt c - (cha.getRange c).1 + prePadMap c)) ∧
      prePadMap c ≤ prePadChild cha indMap p prePadMap c c) := by
  have hval : prePadChild cha indMap p prePadMap c =
      upd prePadMap c
        (if cha.addrPt p - (cha.getRange p).1 + prePadMap p >
            cha.addrPt c - (cha.getRange c).1 + prePadMap c
          then cha.addrPt p - (cha.getRange p).1 + prePadMap p -
            (cha.addrPt c - (cha.getRange c).1 + prePadMap c)
          else prePadMap c) := by
    unfold prePadChild
    simp only [CHA.isUndefinedVtbl, hp, Bool.false_eq_true, if_false]
    rw [if_neg ho]
  have hc : prePadChild cha indMap p prePadMap c c =
      (if cha.addrPt p - (cha.getRange p).1 + prePadMap p >
          cha.addrPt c - (cha.getRange c).1 + prePadMap c
        then cha.addrPt p - (cha.getRange p).1 + prePadMap p -
          (cha.addrPt c - (cha.getRange c).1 + prePadMap c)
        else prePadMap c) := by
    rw [hval]; simp [upd]
  refine ⟨hc, fun v hv => by rw [hval]; simp [upd, hv], fun h => ?_⟩
  rw [hc]
  split_ifs with hgt
  · rcases h with h | h
    · omega
    · exact ⟨by rw [Nat.max_eq_right h], h⟩
  · have e : cha.addrPt p - (cha.getRange p).1 + prePadMap p -
        (cha.addrPt c - (cha.getRange c).1 + prePadMap c) = 0 := by omega
    rw [e]
    exact ⟨by simp, le_refl _⟩

/-- The functions that a completed `removeOldLayouts` leaves in a module whose functions have
distinct names: those that are not in `vthunksToRemove` and are not virtual thunks without
users. -/
theorem removeOldLayouts_functions (cha : CHA) (s s1 : State)
    (h : removeOldLayouts cha s = .done s1)
    (hfn : (s.M.functions.map (fun f => f.name)).Nodup) (f : Function) :
    f ∈ s1.M.functions ↔
      f ∈ s.M.functions ∧ f.name ∉ s.vthunksToRemove ∧
        (sd_isVthunk f.name = true → f.hasUsers = true) := by
  unfold removeOldLayouts at h
  cases hfold : cha.oldVTables.foldl (fun (o : Outcome Module) name =>
      o.andThen (fun M => removeOldLayouts_global M name)) (.done s.M) with
  | abort M1 => rw [hfold] at h; simp [Outcome.bind] at h
  | done M1 =>
    rw [hfold] at h
    simp only [Outcome.bind, Outcome.done.injEq] at h
    obtain ⟨hfun, _, _⟩ := removeOldLayouts_globals_done cha.oldVTables s.M M1 hfold
    subst h
    simp only [Module.eraseFunctions, List.mem_filter, decide_eq_true_eq, hfun]
    constructor
    · rintro ⟨⟨hmem, hnot⟩, hcol⟩
      refine ⟨hmem, hnot, fun hthunk => ?_⟩
      by_contra hu
      apply hcol
      apply List.mem_map.2
      refine ⟨f, ?_, rfl⟩
      simp only [List.mem_filter, decide_eq_true_eq, Bool.and_eq_true, Bool.not_eq_true']
      exact ⟨⟨hmem, hnot⟩, hthunk, by simpa using hu⟩
    · rintro ⟨hmem, hnot, huse⟩
      refine ⟨⟨hmem, hnot⟩, fun hcol => ?_⟩
      obtain ⟨g, hg, hgn⟩ := List.mem_map.1 hcol
      simp only [List.mem_filter, decide_eq_true_eq, Bool.and_eq_true,
        Bool.not_eq_true'] at hg
      obtain ⟨⟨hgm, _⟩, hgt, hgu⟩ := hg
      have hgf : g = f := List.inj_on_of_nodup_map hfn hgm hmem hgn
      rw [hgf] at hgt hgu
      rw [huse hgt] at hgu
      exact Bool.noConfusion hgu

/-! ## The claims -/

/-- C1 (code defect, scenario S6).  The cloud `A`, `B` is a forest with the containment
property, `buildNewLayouts` runs to its end in interleaved mode and `verifyNewLayouts`
accepts the planned layout.  `B` is padded by one cell, so the list holds the padding entry
`(B, 0)` at index 1 and the address-point entry `(B, 1)` at index 3.  After `buildNewLayouts`
`MemRangeMap[B]` is the single memory range `(base(_SDA) + 8, 1)`, which covers index 1 only,
the padding entry: `newVtblAddressConst` indexes `newLayoutInds[B]` with `addrPt - first` and
leaves `PrePad[B]` out.  For `A`, which has no padding, the range `(base(_SDA) + 16, 2)`
covers the indices 2 and 3, the address-point entries of `A` and `B`. -/
theorem memRangeMap_S6_misses_addrPt :
    (IsForest chaS6 (chaS6.preorder ("A", 0)) ∧ RangesOk chaS6 (chaS6.preorder ("A", 0)) ∧
      (chaS6.getRange ("A", 0)).2 - chaS6.addrPt ("A", 0) ≤
        (chaS6.getRange ("B", 0)).2 - chaS6.addrPt ("B", 0)) ∧
    (buildNewLayouts chaS6 20 (initState moduleS6 true)).isAbort = false ∧
    (buildNewLayouts chaS6 20 (initState moduleS6 true)).state.prePadMap ("B", 0) = 1 ∧
    (buildNewLayouts chaS6 20 (initState moduleS6 true)).state.interleavingMap "A" =
      some listS6 ∧
    verifyNewLayouts chaS6 dummyS true
      (buildNewLayouts chaS6 20 (initState moduleS6 true)).state.prePadMap
      (buildNewLayouts chaS6 20 (initState moduleS6 true)).state.interleavingMap = true ∧
    (buildNewLayouts chaS6 20 (initState moduleS6 true)).state.memRangeMap ("B", 0) =
      [({ global := "_SDA", offset := 8 }, 1)] ∧
    (buildNewLayouts chaS6 20 (initState moduleS6 true)).state.memRangeMap ("A", 0) =
      [({ global := "_SDA", offset := 16 }, 2)] ∧
    pos listS6 ("B", 0) (chaS6.addrPt ("B", 0)) = 3 ∧
    pos listS6 ("A", 0) (chaS6.addrPt ("A", 0)) = 2 ∧
    listS6[1]? = some (("B", 0), 0) := by
  refine ⟨⟨by decide, by decide, by decide⟩, by decide!, by decide!, by decide!, by decide!,
    by decide!, by decide!, by decide, by decide, by decide⟩

/-- C2 (index agreement, I4).  On a cloud that is a forest with a depth-first preorder, all
of whose nodes are defined, start without padding and satisfy the CHA invariant, and in
which every child has at least as many cells after the address point as its parent, the list
built by `interleaveCloud` places the cells of a parent `p` and of a child `c` at the same
distances from their address points: for every old position `i` of the padded range of `p`,
`pos(p, i) - pos(p, addrPt p) = pos(c, i + δ) - pos(c, addrPt c)` with
`δ = addrPt c - addrPt p`, and both entries are in the list. -/
theorem interleaveCloud_index_agreement (cha : CHA) (vtbl : vtbl_name_t)
    (prePadMap : vtbl_t → Nat)
    (hforest : IsForest cha (cha.preorder (vtbl, 0)))
    (hdfs : IsDepthFirst cha (vtbl, 0))
    (hranges : RangesOk cha (cha.preorder (vtbl, 0)))
    (hdef : ∀ n ∈ cha.preorder (vtbl, 0), cha.isUndefined n.1 = false)
    (hpp0 : ∀ n ∈ cha.preorder (vtbl, 0), prePadMap n = 0)
    (hafter : ∀ p ∈ cha.preorder (vtbl, 0), ∀ c ∈ cha.children p,
      (cha.getRange p).2 - cha.addrPt p ≤ (cha.getRange c).2 - cha.addrPt c) :
    ∃ L, (∃ f0, ∀ fuel, f0 ≤ fuel → interleaveCloud cha fuel prePadMap vtbl =
        some (prePadLoop cha (cha.preorder (vtbl, 0)) prePadMap, L)) ∧
      ∀ p ∈ cha.preorder (vtbl, 0), ∀ c ∈ cha.children p, ∀ i : Int,
        ((cha.getRange p).1 : Int) -
            (prePadLoop cha (cha.preorder (vtbl, 0)) prePadMap p : Int) ≤ i →
        i ≤ ((cha.getRange p).2 : Int) →
        (p, i) ∈ L ∧ (c, i + ((cha.addrPt c : Int) - (cha.addrPt p : Int))) ∈ L ∧
        (pos L p i : Int) - (pos L p (cha.addrPt p) : Int) =
          (pos L c (i + ((cha.addrPt c : Int) - (cha.addrPt p : Int))) : Int) -
            (pos L c (cha.addrPt c) : Int) := by
  obtain ⟨Rn, Rp, ⟨f0, hf0⟩, hRn, hRp⟩ := interleaveCloud_closed cha vtbl prePadMap hforest.1
  obtain ⟨L', ⟨f1, hf1⟩, hcount, _⟩ := interleaveCloud_count cha vtbl prePadMap
  have hLL : L' = negFrom cha (prePadLoop cha (cha.preorder (vtbl, 0)) prePadMap)
            (cha.preorder (vtbl, 0)) 0 Rn ++
          posFrom cha (prePadLoop cha (cha.preorder (vtbl, 0)) prePadMap)
            (cha.preorder (vtbl, 0)) 0 Rp := by
    have a := hf0 (max f0 f1) (le_max_left _ _)
    have b := hf1 (max f0 f1) (le_max_right _ _)
    rw [a] at b
    exact ((Prod.mk.inj (Option.some.inj b)).2).symm
  subst hLL
  have hpad := prePadLoop_forest cha (cha.preorder (vtbl, 0)) hforest prePadMap hpp0
  have hbefore : ∀ p ∈ cha.preorder (vtbl, 0), ∀ c ∈ cha.children p,
      relAddrPt cha p + prePadLoop cha (cha.preorder (vtbl, 0)) prePadMap p ≤
        relAddrPt cha c + prePadLoop cha (cha.preorder (vtbl, 0)) prePadMap c := by
    intro p hp c hc
    have := hpad p hp (hdef p hp) c hc
    omega
  refine ⟨_, ⟨f0, hf0⟩, ?_⟩
  intro p hp c hc i h1 h2
  have hcpre : c ∈ cha.preorder (vtbl, 0) := (hforest.2 p hp c hc).1
  obtain ⟨rp1, rp2⟩ := hranges p hp
  obtain ⟨rc1, rc2⟩ := hranges c hcpre
  have hb := hbefore p hp c hc
  have ha := hafter p hp c hc
  simp only [relAddrPt] at hb
  refine ⟨?_, ?_, agreement_closed cha (vtbl, 0) _ hforest hdfs hranges hdef hbefore hafter
    Rn Rp hRn hRp p c hp hc i h1 h2⟩
  · apply List.count_pos_iff.1
    rw [hcount p hp (hdef p hp) rp1 rp2 i, if_pos ⟨h1, h2⟩]
    omega
  · apply List.count_pos_iff.1
    rw [hcount c hcpre (hdef c hcpre) rc1 rc2, if_pos ⟨by omega, by omega⟩]
    omega

/-- Witness for C2 on the tree-shaped cloud `A -> (B -> D), C`, in which `D` is padded. -/
theorem interleaveCloud_index_agreement_witness :
    (IsForest chaT (chaT.preorder ("A", 0)) ∧ IsDepthFirst chaT ("A", 0) ∧
      RangesOk chaT (chaT.preorder ("A", 0))) ∧
    ∃ L, (∃ f0, ∀ fuel, f0 ≤ fuel → interleaveCloud chaT fuel (fun _ => 0) "A" =
        some (prePadLoop chaT (chaT.preorder ("A", 0)) (fun _ => 0), L)) ∧
      ∀ p ∈ chaT.preorder ("A", 0), ∀ c ∈ chaT.children p, ∀ i : Int,
        ((chaT.getRange p).1 : Int) -
            (prePadLoop chaT (chaT.preorder ("A", 0)) (fun _ => 0) p : Int) ≤ i →
        i ≤ ((chaT.getRange p).2 : Int) →
        (p, i) ∈ L ∧ (c, i + ((chaT.addrPt c : Int) - (chaT.addrPt p : Int))) ∈ L ∧
        (pos L p i : Int) - (pos L p (chaT.addrPt p) : Int) =
          (pos L c (i + ((chaT.addrPt c : Int) - (chaT.addrPt p : Int))) : Int) -
            (pos L c (chaT.addrPt c) : Int) :=
  ⟨⟨by decide, by decide, by decide⟩,
    interleaveCloud_index_agreement chaT "A" (fun _ => 0) (by decide) (by decide) (by decide)
      (by decide) (by decide) (by decide)⟩

/-- C3 (permutation, P1).  For every cloud, the list built by `interleaveCloud` contains,
for every defined vtable `v` of `preorder(root)` that satisfies the CHA invariant
`first ≤ addrPt ≤ last`, every old position of `[first(v) - PrePad[v], last(v)]` exactly once
and no other old position; every entry of the list carries a defined vtable of
`preorder(root)`, so undefined vtables and a sentinel outside the cloud contribute no
entry. -/
theorem interleaveCloud_permutation (cha : CHA) (vtbl : vtbl_name_t)
    (prePadMap : vtbl_t → Nat)
    (hranges : ∀ n ∈ cha.preorder (vtbl, 0), cha.isUndefined n.1 = false →
      (cha.getRange n).1 ≤ cha.addrPt n ∧ cha.addrPt n ≤ (cha.getRange n).2) :
    ∃ L, (∃ f0, ∀ fuel, f0 ≤ fuel → interleaveCloud cha fuel prePadMap vtbl =
        some (prePadLoop cha (cha.preorder (vtbl, 0)) prePadMap, L)) ∧
      (∀ v ∈ cha.preorder (vtbl, 0), cha.isUndefined v.1 = false →
        ∀ x : Int, L.count (v, x) =
          if ((cha.getRange v).1 : Int) -
              (prePadLoop cha (cha.preorder (vtbl, 0)) prePadMap v : Int) ≤ x ∧
            x ≤ ((cha.getRange v).2 : Int) then 1 else 0) ∧
      (∀ e ∈ L, e.1 ∈ cha.preorder (vtbl, 0) ∧ cha.isUndefined e.1.1 = false) ∧
      (∀ v x, cha.isUndefined v.1 = true → (v, x) ∉ L) ∧
      (∀ dummyVtable x, dummyVtable ∉ cha.preorder (vtbl, 0) → (dummyVtable, x) ∉ L) := by
  obtain ⟨L, hL, hcount, hmem⟩ := interleaveCloud_count cha vtbl prePadMap
  refine ⟨L, hL, ?_, hmem, ?_, ?_⟩
  · intro v hv hd x
    exact hcount v hv hd (hranges v hv hd).1 (hranges v hv hd).2 x
  · intro v x hu h
    have := (hmem (v, x) h).2
    simp only at this
    rw [hu] at this
    exact absurd this (by simp)
  · intro d x hd h
    exact hd (hmem (d, x) h).1

/-- Witness for C3 on scenario S3, where `B` is padded. -/
theorem interleaveCloud_permutation_witness :
    (∀ n ∈ chaS3.preorder ("A", 0), chaS3.isUndefined n.1 = false →
      (chaS3.getRange n).1 ≤ chaS3.addrPt n ∧ chaS3.addrPt n ≤ (chaS3.getRange n).2) ∧
    ∃ L, (∃ f0, ∀ fuel, f0 ≤ fuel → interleaveCloud chaS3 fuel (fun _ => 0) "A" =
        some (prePadLoop chaS3 (chaS3.preorder ("A", 0)) (fun _ => 0), L)) ∧
      (∀ v ∈ chaS3.preorder ("A", 0), chaS3.isUndefined v.1 = false →
        ∀ x : Int, L.count (v, x) =
          if ((chaS3.getRange v).1 : Int) -
              (prePadLoop chaS3 (chaS3.preorder ("A", 0)) (fun _ => 0) v : Int) ≤ x ∧
            x ≤ ((chaS3.getRange v).2 : Int) then 1 else 0) ∧
      (∀ e ∈ L, e.1 ∈ chaS3.preorder ("A", 0) ∧ chaS3.isUndefined e.1.1 = false) ∧
      (∀ v x, chaS3.isUndefined v.1 = true → (v, x) ∉ L) ∧
      (∀ dummyVtable x, dummyVtable ∉ chaS3.preorder ("A", 0) → (dummyVtable, x) ∉ L) :=
  ⟨by decide, interleaveCloud_permutation chaS3 "A" (fun _ => 0) (by decide)⟩

/-- C4 (meaning of `NewLayoutInds`).  On a cloud whose preorder lists no node twice, whose
defined nodes satisfy the CHA invariant and which does not contain the sentinel, after
`interleaveCloud` and `calculateNewLayoutInds` (started from the empty map) every defined
`v` of the cloud has `last - first + PrePad[v] + 1` recorded indices, in increasing order,
and for every `k ≤ last - first + PrePad[v]` the index `NewLayoutInds[v][k]` is the list
index of the entry `(v, first(v) - PrePad[v] + k)`: the entries of `v` appear in the list in
increasing old-position order. -/
theorem calculateNewLayoutInds_meaning (cha : CHA) (vtbl : vtbl_name_t)
    (prePadMap : vtbl_t → Nat) (dummyVtable : vtbl_t)
    (hnd : (cha.preorder (vtbl, 0)).Nodup)
    (hranges : ∀ n ∈ cha.preorder (vtbl, 0), cha.isUndefined n.1 = false →
      (cha.getRange n).1 ≤ cha.addrPt n ∧ cha.addrPt n ≤ (cha.getRange n).2)
    (hdummy : dummyVtable ∉ cha.preorder (vtbl, 0)) :
    ∃ L, (∃ f0, ∀ fuel, f0 ≤ fuel → interleaveCloud cha fuel prePadMap vtbl =
        some (prePadLoop cha (cha.preorder (vtbl, 0)) prePadMap, L)) ∧
      ∀ v ∈ cha.preorder (vtbl, 0), cha.isUndefined v.1 = false →
        ∃ inds, calculateNewLayoutInds dummyVtable L (fun _ => none) v = some inds ∧
          inds.Pairwise (fun a b => a < b) ∧
          inds.length = (cha.getRange v).2 - (cha.getRange v).1 +
            prePadLoop cha (cha.preorder (vtbl, 0)) prePadMap v + 1 ∧
          ∀ k, k ≤ (cha.getRange v).2 - (cha.getRange v).1 +
              prePadLoop cha (cha.preorder (vtbl, 0)) prePadMap v →
            (v, ((cha.getRange v).1 : Int) -
                (prePadLoop cha (cha.preorder (vtbl, 0)) prePadMap v : Int) + (k : Int)) ∈ L ∧
            inds[k]? = some (pos L v (((cha.getRange v).1 : Int) -
              (prePadLoop cha (cha.preorder (vtbl, 0)) prePadMap v : Int) + (k : Int))) := by
  obtain ⟨L, hL, hLnd, hinds⟩ :=
    newLayoutInds_interleaved cha vtbl prePadMap dummyVtable hnd hranges hdummy
  obtain ⟨L', ⟨f1, hf1⟩, hcount, _⟩ := interleaveCloud_count cha vtbl prePadMap
  obtain ⟨f0, hf0⟩ := hL
  have hLL : L' = L := by
    have a := hf0 (max f0 f1) (le_max_left _ _)
    have b := hf1 (max f0 f1) (le_max_right _ _)
    rw [a] at b
    exact ((Prod.mk.inj (Option.some.inj b)).2).symm
  subst hLL
  refine ⟨L', ⟨f0, hf0⟩, ?_⟩
  intro v hv hd
  obtain ⟨inds, h1, hsorted, h2, h3⟩ := hinds v hv hd
  refine ⟨inds, h1, hsorted, h2, fun k hk => ⟨?_, h3 k hk⟩⟩
  obtain ⟨r1, r2⟩ := hranges v hv hd
  apply List.count_pos_iff.1
  rw [hcount v hv hd r1 r2, if_pos ⟨by omega, by omega⟩]
  omega

/-- Witness for C4 on scenario S2: `NewLayoutInds[A] = [2, 4]` and
`NewLayoutInds[B] = [0, 1, 3, 5]`. -/
theorem calculateNewLayoutInds_meaning_witness :
    ((chaS2.preorder ("A", 0)).Nodup ∧ dummyS ∉ chaS2.preorder ("A", 0)) ∧
    ((interleaveCloud chaS2 10 (fun _ => 0) "A").map Prod.snd = some listS2 ∧
      calculateNewLayoutInds dummyS listS2 (fun _ => none) ("A", 0) = some [2, 4] ∧
      calculateNewLayoutInds dummyS listS2 (fun _ => none) ("B", 0) = some [0, 1, 3, 5]) ∧
    ∃ L, (∃ f0, ∀ fuel, f0 ≤ fuel → interleaveCloud chaS2 fuel (fun _ => 0) "A" =
        some (prePadLoop chaS2 (chaS2.preorder ("A", 0)) (fun _ => 0), L)) ∧
      ∀ v ∈ chaS2.preorder ("A", 0), chaS2.isUndefined v.1 = false →
        ∃ inds, calculateNewLayoutInds dummyS L (fun _ => none) v = some inds ∧
          inds.Pairwise (fun a b => a < b) ∧
          inds.length = (chaS2.getRange v).2 - (chaS2.getRange v).1 +
            prePadLoop chaS2 (chaS2.preorder ("A", 0)) (fun _ => 0) v + 1 ∧
          ∀ k, k ≤ (chaS2.getRange v).2 - (chaS2.getRange v).1 +
              prePadLoop chaS2 (chaS2.preorder ("A", 0)) (fun _ => 0) v →
            (v, ((chaS2.getRange v).1 : Int) -
                (prePadLoop chaS2 (chaS2.preorder ("A", 0)) (fun _ => 0) v : Int) + (k : Int)) ∈ L ∧
            inds[k]? = some (pos L v (((chaS2.getRange v).1 : Int) -
              (prePadLoop chaS2 (chaS2.preorder ("A", 0)) (fun _ => 0) v : Int) + (k : Int))) :=
  ⟨⟨by decide, by decide⟩, ⟨by decide, by decide, by decide⟩,
    calculateNewLayoutInds_meaning chaS2 "A" (fun _ => 0) dummyS (by decide) (by decide)
      (by decide)⟩

/-- C5 (code defect, scenario S6).  `buildNewLayouts` runs to its end.  The old global `B`
has one constant `getelementptr` use of its address point, index 1.  `createNewVTable`
rewrites it to `getelementptr(_SDA, 0, 1)`: the index is
`newLayoutInds[B][addrPt - first] = newLayoutInds[B][0] = 1`, the slot of the padding entry
`(B, 0)`, which holds a null pointer.  The entry `(B, addrPt B)` sits at index 3 of the list,
and slot 3 of `_SDA` holds `B::f`, the element of the old address-point cell: the index into
`newLayoutInds[B]` leaves `PrePad[B] = 1` out. -/
theorem createNewVTable_S6_misses_addrPt :
    (buildNewLayouts chaS6 20 (initState moduleS6 true)).isAbort = false ∧
    (buildNewLayouts chaS6 20 (initState moduleS6 true)).state.interleavingMap "A" =
      some listS6 ∧
    (buildNewLayouts chaS6 20 (initState moduleS6 true)).state.prePadMap ("B", 0) = 1 ∧
    (moduleS6.getGlobalVariable "B").map (fun g => g.users) =
      some [User.gep (some (chaS6.addrPt ("B", 0) : Int))] ∧
    (buildNewLayouts chaS6 20 (initState moduleS6 true)).state.M.getGlobalVariable "_SDA" =
      some { name := "_SDA",
             initializer := [.other "A::x", .null, .other "A::f", .other "B::f", .other "B::g",
               .other "B::h"],
             alignment := 8, users := [.gep (some 2), .gep (some 1)] } ∧
    ((buildNewLayouts chaS6 20 (initState moduleS6 true)).state.M.getGlobalVariable "B").map
      (fun g => g.users) = some [] ∧
    ((createNewVTable chaS6 "A"
        (forRoots chaS6 (planCloud chaS6 20) (initState moduleS6 true)).state).isAbort = false ∧
      ((createNewVTable chaS6 "A"
        (forRoots chaS6 (planCloud chaS6 20) (initState moduleS6 true)).state).state.M.getGlobalVariable
          "_SDA").map (fun g => g.users) = some [.gep (some 2), .gep (some 1)]) ∧
    pos listS6 ("B", 0) (chaS6.addrPt ("B", 0)) = 3 ∧
    listS6[1]? = some (("B", 0), 0) ∧
    (chaS6.getOldVTable "B")[chaS6.addrPt ("B", 0)]? = some (.other "B::f") := by
  refine ⟨by decide!, by decide!, by decide!, by decide, by decide!, by decide!,
    ⟨by decide!, by decide!⟩, by decide, by decide, by decide⟩

/-- C6 (code defect, scenario S3).  For `B` and the relative index `1`, which is in range,
`translateVtblInd` returns `newLayoutInds[B][1] - newLayoutInds[B][0] = 3 - 1 = 2`, while
the entry `(B, addrPt B + 1)` lies `4 - 3 = 1` list positions after the entry
`(B, addrPt B)`: both lookups leave `PrePad[B] = 1` out. -/
theorem translateVtblInd_S3_misses_prePad :
    (interleaveCloud chaS3 10 (fun _ => 0) "A").map (fun r => (r.1 ("B", 0), r.2)) =
      some (1, listS3) ∧
    translateVtblInd chaS3 (calculateNewLayoutInds dummyS listS3 (fun _ => none))
      ("B", 0) 1 true = some 2 ∧
    (pos listS3 ("B", 0) ((chaS3.addrPt ("B", 0) : Int) + 1) : Int) -
      (pos listS3 ("B", 0) (chaS3.addrPt ("B", 0)) : Int) = 1 := by
  refine ⟨by decide, by decide, by decide⟩

/-- C7 (pre-pad).  On a cloud that is a forest, whose nodes satisfy the CHA invariant (under
which the differences `addrPt - first` of the embedding are those of the source) and start
without padding, after the pre-pad loop of `interleaveCloud` every defined parent `p` and
every child `c` of `p` satisfy
`(addrPt p - first p) + PrePad[p] ≤ (addrPt c - first c) + PrePad[c]`, and `PrePad[c]` is
the least natural number for which this holds. -/
theorem prePadLoop_containment (cha : CHA) (vtbl : vtbl_name_t) (prePadMap : vtbl_t → Nat)
    (hforest : IsForest cha (cha.preorder (vtbl, 0)))
    (_hranges : RangesOk cha (cha.preorder (vtbl, 0)))
    (hpp0 : ∀ n ∈ cha.preorder (vtbl, 0), prePadMap n = 0) :
    ∀ p ∈ cha.preorder (vtbl, 0), cha.isUndefined p.1 = false → ∀ c ∈ cha.children p,
      (cha.addrPt p - (cha.getRange p).1) +
          prePadLoop cha (cha.preorder (vtbl, 0)) prePadMap p ≤
        (cha.addrPt c - (cha.getRange c).1) +
          prePadLoop cha (cha.preorder (vtbl, 0)) prePadMap c ∧
      ∀ x : Nat,
        (cha.addrPt p - (cha.getRange p).1) +
            prePadLoop cha (cha.preorder (vtbl, 0)) prePadMap p ≤
          (cha.addrPt c - (cha.getRange c).1) + x →
        prePadLoop cha (cha.preorder (vtbl, 0)) prePadMap c ≤ x := by
  intro p hp hd c hc
  have := prePadLoop_forest cha (cha.preorder (vtbl, 0)) hforest prePadMap hpp0 p hp hd c hc
  simp only [relAddrPt] at this
  constructor
  · omega
  · intro x hx
    omega

/-- Witness for C7 on the tree-shaped cloud `A -> (B -> D), C`, in which `D` receives one
cell of padding. -/
theorem prePadLoop_containment_witness :
    (IsForest chaT (chaT.preorder ("A", 0)) ∧ RangesOk chaT (chaT.preorder ("A", 0)) ∧
      prePadLoop chaT (chaT.preorder ("A", 0)) (fun _ => 0) ("D", 0) = 1) ∧
    ∀ p ∈ chaT.preorder ("A", 0), chaT.isUndefined p.1 = false → ∀ c ∈ chaT.children p,
      (chaT.addrPt p - (chaT.getRange p).1) +
          prePadLoop chaT (chaT.preorder ("A", 0)) (fun _ => 0) p ≤
        (chaT.addrPt c - (chaT.getRange c).1) +
          prePadLoop chaT (chaT.preorder ("A", 0)) (fun _ => 0) c ∧
      ∀ x : Nat,
        (chaT.addrPt p - (chaT.getRange p).1) +
            prePadLoop chaT (chaT.preorder ("A", 0)) (fun _ => 0) p ≤
          (chaT.addrPt c - (chaT.getRange c).1) + x →
        prePadLoop chaT (chaT.preorder ("A", 0)) (fun _ => 0) c ≤ x :=
  ⟨⟨by decide, by decide, by decide⟩,
    prePadLoop_containment chaT "A" (fun _ => 0) (by decide) (by decide) (by decide)⟩

/-- Indices of a contiguous block of a duplicate-free preorder. -/
theorem block_indices (pre : order_t) (hnd : pre.Nodup) (i n : Nat) (hin : i + n ≤ pre.length)
    (x : Nat) :
    (∃ d ∈ (pre.drop i).take n, ind pre d = x) ↔ i ≤ x ∧ x < i + n := by
  constructor
  · rintro ⟨d, hd, hx⟩
    obtain ⟨j, hj, hdj⟩ := List.mem_iff_getElem.1 hd
    rw [List.length_take, List.length_drop] at hj
    rw [List.getElem_take, List.getElem_drop] at hdj
    have hij : i + j < pre.length := by omega
    have : ind pre d = i + j := by
      rw [← hdj]
      unfold ind
      exact List.indexOf_getElem hnd (i + j) hij
    omega
  · rintro ⟨h1, h2⟩
    have hx : x < pre.length := by omega
    refine ⟨pre[x], ?_, ?_⟩
    · apply List.mem_iff_getElem.2
      refine ⟨x - i, ?_, ?_⟩
      · rw [List.length_take, List.length_drop]; omega
      · rw [List.getElem_take, List.getElem_drop]
        congr 1
        omega
    · unfold ind
      exact List.indexOf_getElem hnd x hx

/-- C8 (counterexample, scenario S1).  `calculateVPtrRangesHelper` yields
`RangeMap[A] = [[0,4)]`, not `[[0,12)]`; the address-point cells of `A, B, C, D` sit at the
list positions `4, 5, 6, 7`, which are not the indices covered by `RangeMap[A]`: the ranges
are over positions of `preorder(root)`, not over positions of the interleaving list. -/
theorem rangeMap_S1_not_list_positions :
    (calculateVPtrRangesHelper chaS1 (buildIndMap (chaS1.preorder ("A", 0))) 10 ("A", 0)
        (fun _ => none)).map (fun rm => rm ("A", 0)) = some (some [(0, 4)]) ∧
    ([(0, 4)] : List range_t) ≠ [(0, 12)] ∧
    (interleaveCloud chaS1 10 (fun _ => 0) "A").map Prod.snd = some listS1 ∧
    (chaS1.preorder ("A", 0)).map (fun d => pos listS1 d (chaS1.addrPt d)) = [4, 5, 6, 7] ∧
    ¬ (∀ x, inRanges [(0, 4)] x ↔ x ∈ [4, 5, 6, 7]) := by
  refine ⟨by decide, by decide, by decide, by decide, ?_⟩
  intro h
  have := (h 0).1 (by decide)
  revert this
  decide

/-- C8 (amended).  On an acyclic cloud whose preorders list the reachable nodes,
`calculateVPtrRangesHelper(root)`, started from the empty map, returns, and for every `v` of
the cloud `RangeMap[v]` is a sorted list of pairwise-disjoint half-open intervals over
positions of `preorder(root)` whose union is exactly the set of preorder positions of `v`
and of the nodes reachable from `v` through children. -/
theorem rangeMap_covers_descendants (cha : CHA) (vtbl : vtbl_name_t)
    (hacyc : Acyclic cha (vtbl, 0)) (hpre : PreorderIsReach cha (vtbl, 0)) :
    ∃ rm, (∃ f0, ∀ fuel, f0 ≤ fuel →
        calculateVPtrRangesHelper cha (buildIndMap (cha.preorder (vtbl, 0))) fuel (vtbl, 0)
          (fun _ => none) = some rm) ∧
      ∀ v ∈ cha.preorder (vtbl, 0), ∃ R, rm v = some R ∧
        R.Pairwise (fun a b => a.1 < b.1) ∧
        R.Pairwise (fun a b => ∀ x, ¬ ((a.1 ≤ x ∧ x < a.2) ∧ (b.1 ≤ x ∧ x < b.2))) ∧
        ∀ x, inRanges R x ↔
          ∃ d, Relation.ReflTransGen (childEdge cha) v d ∧
            ind (cha.preorder (vtbl, 0)) d = x := by
  obtain ⟨rm, hrm, hall⟩ := helper_cloud cha (vtbl, 0) hacyc hpre
  refine ⟨rm, hrm, ?_⟩
  intro v hv
  obtain ⟨R, hR, hgood, hcov⟩ := hall v hv
  have hpw := goodRanges_pairwise R hgood
  have hrv : Relation.ReflTransGen (childEdge cha) (vtbl, 0) v :=
    ((hpre (vtbl, 0) Relation.ReflTransGen.refl).2 v).1 hv
  refine ⟨R, hR, ?_, ?_, ?_⟩
  · have : ∀ a ∈ R, ∀ b ∈ R, a.2 < b.1 → a.1 < b.1 := by
      intro a ha b _ hab
      have := hgood.2 a ha
      omega
    exact hpw.imp_of_mem (fun {a b} ha hb hab => this a ha b hb hab)
  · exact hpw.imp (fun {a b} (hab : a.2 < b.1) x hx => by omega)
  · intro x
    rw [hcov]
    constructor
    · rintro ⟨d, hd, hx⟩; exact ⟨d, ((hpre v hrv).2 d).1 hd, hx⟩
    · rintro ⟨d, hd, hx⟩; exact ⟨d, ((hpre v hrv).2 d).2 hd, hx⟩

/-- Witness for C8 (amended) on scenario S1, the diamond, where `RangeMap[A] = [[0,4)]` and
`RangeMap[B] = [[1,2), [3,4)]`. -/
theorem rangeMap_covers_descendants_witness :
    (ReachLocal chaS1 ("A", 0) ∧
      (calculateVPtrRangesHelper chaS1 (buildIndMap (chaS1.preorder ("A", 0))) 10 ("A", 0)
        (fun _ => none)).map (fun rm => (rm ("A", 0), rm ("B", 0))) =
        some (some [(0, 4)], some [(1, 2), (3, 4)])) ∧
    ∃ rm, (∃ f0, ∀ fuel, f0 ≤ fuel →
        calculateVPtrRangesHelper chaS1 (buildIndMap (chaS1.preorder ("A", 0))) fuel ("A", 0)
          (fun _ => none) = some rm) ∧
      ∀ v ∈ chaS1.preorder ("A", 0), ∃ R, rm v = some R ∧
        R.Pairwise (fun a b => a.1 < b.1) ∧
        R.Pairwise (fun a b => ∀ x, ¬ ((a.1 ≤ x ∧ x < a.2) ∧ (b.1 ≤ x ∧ x < b.2))) ∧
        ∀ x, inRanges R x ↔
          ∃ d, Relation.ReflTransGen (childEdge chaS1) v d ∧
            ind (chaS1.preorder ("A", 0)) d = x :=
  ⟨⟨by decide, by decide⟩,
    rangeMap_covers_descendants chaS1 "A"
      (reachLocal_acyclic chaS1 ("A", 0) (by decide))
      (reachLocal_preorderIsReach chaS1 ("A", 0) (by decide))⟩

/-- C9 (range synthesis over preorder indices).  On an acyclic cloud in which `preorder(v)`
lists, without repetition, exactly `v` and the nodes reachable from `v` through children,
`calculateVPtrRangesHelper(root)`, started from the empty map, returns; in the resulting map
every `v` of the cloud has a list of non-empty intervals, each ending strictly below the
start of the next (hence sorted), whose union is `{ ind[d] | d ∈ preorder(v) }`; and the
three assertions of `verifyVPtrRanges` hold. -/
theorem calculateVPtrRangesHelper_synthesis (cha : CHA) (vtbl : vtbl_name_t)
    (hacyc : Acyclic cha (vtbl, 0)) (hpre : PreorderIsReach cha (vtbl, 0)) :
    ∃ rm, (∃ f0, ∀ fuel, f0 ≤ fuel →
        calculateVPtrRangesHelper cha (buildIndMap (cha.preorder (vtbl, 0))) fuel (vtbl, 0)
          (fun _ => none) = some rm) ∧
      (∀ v ∈ cha.preorder (vtbl, 0), ∃ R, rm v = some R ∧
        (∀ r ∈ R, r.1 < r.2) ∧
        R.Chain' (fun a b => a.2 < b.1) ∧
        R.Sorted (fun a b => a.1 < b.1) ∧
        ∀ x, inRanges R x ↔ ∃ d ∈ cha.preorder v, ind (cha.preorder (vtbl, 0)) d = x) ∧
      verifyVPtrRanges cha rm vtbl = true := by
  obtain ⟨rm, hrm, hall⟩ := helper_cloud cha (vtbl, 0) hacyc hpre
  have hroot : Relation.ReflTransGen (childEdge cha) (vtbl, 0) (vtbl, 0) :=
    Relation.ReflTransGen.refl
  refine ⟨rm, hrm, ?_, ?_⟩
  · intro v hv
    obtain ⟨R, hR, hgood, hcov⟩ := hall v hv
    refine ⟨R, hR, hgood.2, hgood.1, ?_, hcov⟩
    have hpw := goodRanges_pairwise R hgood
    have : ∀ a ∈ R, ∀ b ∈ R, a.2 < b.1 → a.1 < b.1 := by
      intro a ha b _ hab
      have := hgood.2 a ha
      omega
    exact hpw.imp_of_mem (fun {a b} ha hb hab => this a ha b hb hab)
  · apply verifyVPtrRanges_of_good cha vtbl rm (hpre _ hroot).1 _ hall
    intro v hv
    have hrv : Relation.ReflTransGen (childEdge cha) (vtbl, 0) v :=
      ((hpre _ hroot).2 v).1 hv
    refine ⟨(hpre v hrv).1, fun d hd => ?_⟩
    exact ((hpre _ hroot).2 d).2 (hrv.trans (((hpre v hrv).2 d).1 hd))

/-- Witness for C9 on scenario S1, the diamond. -/
theorem calculateVPtrRangesHelper_synthesis_witness :
    ReachLocal chaS1 ("A", 0) ∧
    ∃ rm, (∃ f0, ∀ fuel, f0 ≤ fuel →
        calculateVPtrRangesHelper chaS1 (buildIndMap (chaS1.preorder ("A", 0))) fuel ("A", 0)
          (fun _ => none) = some rm) ∧
      (∀ v ∈ chaS1.preorder ("A", 0), ∃ R, rm v = some R ∧
        (∀ r ∈ R, r.1 < r.2) ∧
        R.Chain' (fun a b => a.2 < b.1) ∧
        R.Sorted (fun a b => a.1 < b.1) ∧
        ∀ x, inRanges R x ↔ ∃ d ∈ chaS1.preorder v, ind (chaS1.preorder ("A", 0)) d = x) ∧
      verifyVPtrRanges chaS1 rm "A" = true :=
  ⟨by decide,
    calculateVPtrRangesHelper_synthesis chaS1 "A"
      (reachLocal_acyclic chaS1 ("A", 0) (by decide))
      (reachLocal_preorderIsReach chaS1 ("A", 0) (by decide))⟩

/-- C10 (single range for tree-shaped clouds).  On an acyclic cloud whose preorders list the
reachable nodes and in which the subtree of every node `v` occupies the contiguous block of
preorder positions that starts at `ind[v]`, `calculateVPtrRangesHelper` yields for every `v`
of the cloud exactly one interval: `RangeMap[v] = [[ind[v], ind[v] + |preorder(v)|)]`. -/
theorem calculateVPtrRangesHelper_single_range (cha : CHA) (vtbl : vtbl_name_t)
    (hacyc : Acyclic cha (vtbl, 0)) (hpre : PreorderIsReach cha (vtbl, 0))
    (hblock : SubtreesContiguous cha (vtbl, 0)) :
    ∃ rm, (∃ f0, ∀ fuel, f0 ≤ fuel →
        calculateVPtrRangesHelper cha (buildIndMap (cha.preorder (vtbl, 0))) fuel (vtbl, 0)
          (fun _ => none) = some rm) ∧
      ∀ v ∈ cha.preorder (vtbl, 0),
        rm v = some [(ind (cha.preorder (vtbl, 0)) v,
          ind (cha.preorder (vtbl, 0)) v + (cha.preorder v).length)] := by
  obtain ⟨rm, hrm, hall⟩ := helper_cloud cha (vtbl, 0) hacyc hpre
  have hroot : Relation.ReflTransGen (childEdge cha) (vtbl, 0) (vtbl, 0) :=
    Relation.ReflTransGen.refl
  refine ⟨rm, hrm, ?_⟩
  intro v hv
  obtain ⟨R, hR, hgood, hcov⟩ := hall v hv
  have hrv : Relation.ReflTransGen (childEdge cha) (vtbl, 0) v := ((hpre _ hroot).2 v).1 hv
  have hvv : v ∈ cha.preorder v := ((hpre v hrv).2 v).2 Relation.ReflTransGen.refl
  have hpos : 0 < (cha.preorder v).length := List.length_pos_of_mem hvv
  have hb := hblock v hv
  have hlen : ind (cha.preorder (vtbl, 0)) v + (cha.preorder v).length ≤
      (cha.preorder (vtbl, 0)).length := by
    have := congrArg List.length hb
    rw [List.length_take, List.length_drop] at this
    have h2 := (ind_lt_length (cha.preorder (vtbl, 0)) v).2 hv
    omega
  rw [hR]
  congr 1
  apply single_of_block R hgood _ _ hpos
  intro x
  rw [hcov]
  have key := block_indices (cha.preorder (vtbl, 0)) (hpre _ hroot).1
    (ind (cha.preorder (vtbl, 0)) v) (cha.preorder v).length hlen x
  rw [← hb] at key
  exact key

/-- Witness for C10 on the tree-shaped cloud `A -> (B -> D), C` with preorder `A, B, D, C`:
the ranges are `[0,4)`, `[1,3)`, `[2,3)` and `[3,4)`. -/
theorem calculateVPtrRangesHelper_single_range_witness :
    (ReachLocal chaT ("A", 0) ∧ SubtreesContiguous chaT ("A", 0) ∧
      (calculateVPtrRangesHelper chaT (buildIndMap (chaT.preorder ("A", 0))) 10 ("A", 0)
        (fun _ => none)).map (fun rm => [rm ("A", 0), rm ("B", 0), rm ("D", 0), rm ("C", 0)]) =
        some [some [(0, 4)], some [(1, 3)], some [(2, 3)], some [(3, 4)]]) ∧
    ∃ rm, (∃ f0, ∀ fuel, f0 ≤ fuel →
        calculateVPtrRangesHelper chaT (buildIndMap (chaT.preorder ("A", 0))) fuel ("A", 0)
          (fun _ => none) = some rm) ∧
      ∀ v ∈ chaT.preorder ("A", 0),
        rm v = some [(ind (chaT.preorder ("A", 0)) v,
          ind (chaT.preorder ("A", 0)) v + (chaT.preorder v).length)] :=
  ⟨⟨by decide, by decide, by decide⟩,
    calculateVPtrRangesHelper_single_range chaT "A"
      (reachLocal_acyclic chaT ("A", 0) (by decide))
      (reachLocal_preorderIsReach chaT ("A", 0) (by decide)) (by decide)⟩

/-- C11 (address-point cells sit adjacent).  For a cloud whose preorder lists no node twice and
whose nodes satisfy `first ≤ addrPt ≤ last`, `interleaveCloud` returns the list `N ++ P` made of
the negative part `N` and the positive part `P`, and the address-point entry of the `j`-th
defined node of the preorder is the entry at list index `|N| + j`.  Consequently the
address-point entries of the defined nodes of any preorder interval `[s, e)` form one
contiguous block of the list, in preorder order. -/
theorem interleaveCloud_addrPts_adjacent (cha : CHA) (vtbl : vtbl_name_t)
    (prePadMap : vtbl_t → Nat)
    (hnd : (cha.preorder (vtbl, 0)).Nodup)
    (hr : RangesOk cha (cha.preorder (vtbl, 0))) :
    ∃ N P : interleaving_list_t,
      (∃ f0, ∀ fuel, f0 ≤ fuel →
        fillVtablePart cha (prePadLoop cha (cha.preorder (vtbl, 0)) prePadMap) fuel []
          (cha.preorder (vtbl, 0)) false = some N ∧
        fillVtablePart cha (prePadLoop cha (cha.preorder (vtbl, 0)) prePadMap) fuel []
          (cha.preorder (vtbl, 0)) true = some P ∧
        interleaveCloud cha fuel prePadMap vtbl =
          some (prePadLoop cha (cha.preorder (vtbl, 0)) prePadMap, N ++ P)) ∧
      (∀ (j : Nat) (n : vtbl_t),
        ((cha.preorder (vtbl, 0)).filter (fun n => !cha.isUndefined n.1))[j]? = some n →
          (N ++ P)[N.length + j]? = some (n, (cha.addrPt n : Int))) ∧
      (∀ s e : Nat, s ≤ e →
        ((N ++ P).drop (N.length +
            (((cha.preorder (vtbl, 0)).take s).filter (fun n => !cha.isUndefined n.1)).length)).take
          ((((cha.preorder (vtbl, 0)).take e).drop s).filter
            (fun n => !cha.isUndefined n.1)).length =
        ((((cha.preorder (vtbl, 0)).take e).drop s).filter (fun n => !cha.isUndefined n.1)).map
          (fun n => (n, (cha.addrPt n : Int)))) := by
  obtain ⟨Rn, hn, _, _⟩ := fillVtablePart_closed cha
    (prePadLoop cha (cha.preorder (vtbl, 0)) prePadMap) false (cha.preorder (vtbl, 0)) hnd
  obtain ⟨Rp, hp, hp0, _⟩ := fillVtablePart_closed cha
    (prePadLoop cha (cha.preorder (vtbl, 0)) prePadMap) true (cha.preorder (vtbl, 0)) hnd
  simp only [if_true, Bool.false_eq_true, if_false] at hn hp
  have hP := posFrom_head cha _ _ Rp hp0
  rw [sweepList_zero_pos cha _ _ hr] at hP
  refine ⟨_, _, ⟨max Rn Rp + 1, fun fuel hf => ⟨hn fuel (by omega), hp fuel (by omega),
    interleaveCloud_eq cha fuel prePadMap vtbl _ _ (hn fuel (by omega)) (hp fuel (by omega))⟩⟩,
    ?_, ?_⟩
  · intro j n hj
    rw [hP, List.getElem?_append_right (by omega), Nat.add_sub_cancel_left]
    obtain ⟨hlt, he⟩ := List.getElem?_eq_some_iff.1 hj
    rw [List.getElem?_append_left (by simpa using hlt), List.getElem?_map, hj]
    rfl
  · intro s e hse
    rw [hP, filter_slice (fun n => !cha.isUndefined n.1) (cha.preorder (vtbl, 0)) s e hse]
    simp only [List.map_append]
    have := drop_take_middle
      (negFrom cha (prePadLoop cha (cha.preorder (vtbl, 0)) prePadMap)
          (cha.preorder (vtbl, 0)) 0 Rn ++
        (((cha.preorder (vtbl, 0)).take s).filter (fun n => !cha.isUndefined n.1)).map
          (fun n => (n, (cha.addrPt n : Int))))
      (((((cha.preorder (vtbl, 0)).take e).drop s).filter (fun n => !cha.isUndefined n.1)).map
          (fun n => (n, (cha.addrPt n : Int))))
      ((((cha.preorder (vtbl, 0)).drop e).filter (fun n => !cha.isUndefined n.1)).map
          (fun n => (n, (cha.addrPt n : Int))) ++
        posFrom cha (prePadLoop cha (cha.preorder (vtbl, 0)) prePadMap)
          (cha.preorder (vtbl, 0)) 1 (Rp - 1))
    simp only [List.length_append, List.length_map, List.append_assoc] at this ⊢
    exact this

theorem interleaveCloud_addrPts_adjacent_witness :
    ((chaT.preorder ("A", 0)).Nodup ∧ RangesOk chaT (chaT.preorder ("A", 0))) ∧
    ∃ N P : interleaving_list_t,
      (∃ f0, ∀ fuel, f0 ≤ fuel →
        fillVtablePart chaT (prePadLoop chaT (chaT.preorder ("A", 0)) (fun _ => 0)) fuel []
          (chaT.preorder ("A", 0)) false = some N ∧
        fillVtablePart chaT (prePadLoop chaT (chaT.preorder ("A", 0)) (fun _ => 0)) fuel []
          (chaT.preorder ("A", 0)) true = some P ∧
        interleaveCloud chaT fuel (fun _ => 0) "A" =
          some (prePadLoop chaT (chaT.preorder ("A", 0)) (fun _ => 0), N ++ P)) ∧
      (∀ (j : Nat) (n : vtbl_t),
        ((chaT.preorder ("A", 0)).filter (fun n => !chaT.isUndefined n.1))[j]? = some n →
          (N ++ P)[N.length + j]? = some (n, (chaT.addrPt n : Int))) ∧
      (∀ s e : Nat, s ≤ e →
        ((N ++ P).drop (N.length +
            (((chaT.preorder ("A", 0)).take s).filter (fun n => !chaT.isUndefined n.1)).length)).take
          ((((chaT.preorder ("A", 0)).take e).drop s).filter
            (fun n => !chaT.isUndefined n.1)).length =
        ((((chaT.preorder ("A", 0)).take e).drop s).filter (fun n => !chaT.isUndefined n.1)).map
          (fun n => (n, (chaT.addrPt n : Int)))) :=
  ⟨⟨by decide, by decide⟩,
    interleaveCloud_addrPts_adjacent chaT "A" (fun _ => 0) (by decide) (by decide)⟩

/-- C13, counterexample.  For one vtable of `2^61` cells the size lies between 1 and `2^63`
and `K = 2^61`, but the value stored in `alignmentMap` is the `uint64_t` product
`K * 8 = 0`, not `K · 8`. -/
theorem orderCloud_alignment_wraps :
    (∀ n ∈ chaHuge.preorder ("A", 0),
      (chaHuge.getRange n).1 ≤ (chaHuge.getRange n).2 ∧
      (chaHuge.getRange n).2 - (chaHuge.getRange n).1 + 1 ≤ 2 ^ 63) ∧
    orderCloud_alignment chaHuge (chaHuge.preorder ("A", 0)) = some (2 ^ 61, 0) ∧
    (0 : Nat) ≠ 2 ^ 61 * WORD_WIDTH := by
  decide

/-- C13, amended (alignment is the next power of two).  For a non-empty preorder whose
sub-vtable sizes `last - first + 1` lie between 1 and `2^63`, with `M` the largest of them,
the value `K` that the 64-bit shift-and-or sequence of `orderCloud` computes passes the
power-of-two assertion and is the least power of two that is at least `M`: `K` is a power of
two, `M ≤ K < 2·M`, `K ≥ 1`.  The value stored in `alignmentMap` is `K · 8` reduced modulo
`2^64`; it is `K · 8` whenever `M ≤ 2^60`. -/
theorem orderCloud_alignment_spec (cha : CHA) (pre : order_t) (hne : pre ≠ [])
    (hs : ∀ n ∈ pre, (cha.getRange n).1 ≤ (cha.getRange n).2 ∧
      (cha.getRange n).2 - (cha.getRange n).1 + 1 ≤ 2 ^ 63) :
    ∃ M K : Nat,
      (∃ n ∈ pre, (cha.getRange n).2 - (cha.getRange n).1 + 1 = M) ∧
      (∀ n ∈ pre, (cha.getRange n).2 - (cha.getRange n).1 + 1 ≤ M) ∧
      orderCloud_maxSize cha pre = M ∧
      orderCloud_roundUp M = K ∧
      orderCloud_alignment cha pre = some (K, (K * WORD_WIDTH) % 2 ^ 64) ∧
      (∃ e, K = 2 ^ e) ∧ M ≤ K ∧ (∀ e, M ≤ 2 ^ e → K ≤ 2 ^ e) ∧ K < 2 * M ∧ 1 ≤ K ∧
      (M ≤ 2 ^ 60 → (K * WORD_WIDTH) % 2 ^ 64 = K * WORD_WIDTH) :=
  alignment_spec cha pre hne hs

theorem orderCloud_alignment_spec_witness :
    (chaT.preorder ("A", 0) ≠ [] ∧
      ∀ n ∈ chaT.preorder ("A", 0), (chaT.getRange n).1 ≤ (chaT.getRange n).2 ∧
        (chaT.getRange n).2 - (chaT.getRange n).1 + 1 ≤ 2 ^ 63) ∧
    ∃ M K : Nat,
      (∃ n ∈ chaT.preorder ("A", 0), (chaT.getRange n).2 - (chaT.getRange n).1 + 1 = M) ∧
      (∀ n ∈ chaT.preorder ("A", 0), (chaT.getRange n).2 - (chaT.getRange n).1 + 1 ≤ M) ∧
      orderCloud_maxSize chaT (chaT.preorder ("A", 0)) = M ∧
      orderCloud_roundUp M = K ∧
      orderCloud_alignment chaT (chaT.preorder ("A", 0)) = some (K, (K * WORD_WIDTH) % 2 ^ 64) ∧
      (∃ e, K = 2 ^ e) ∧ M ≤ K ∧ (∀ e, M ≤ 2 ^ e → K ≤ 2 ^ e) ∧ K < 2 * M ∧ 1 ≤ K ∧
      (M ≤ 2 ^ 60 → (K * WORD_WIDTH) % 2 ^ 64 = K * WORD_WIDTH) :=
  ⟨⟨by decide, by decide⟩,
    orderCloud_alignment_spec chaT (chaT.preorder ("A", 0)) (by decide) (by decide)⟩

/-- C12 (orderer alignment, P6).  On a rooted cloud whose nodes satisfy
`first ≤ addrPt ≤ last`, have fewer than `2^32` cells, differ from the sentinel and have no
planned layout yet, `orderCloud` returns an alignment `A` and a list `L`, and after
`calculateNewLayoutInds` on `L` every defined `v` of the cloud has
`NewLayoutInds[v][addrPt(v) - first(v)] ≡ 0 (mod K)` with `K = A / 8`. -/
theorem orderCloud_addrPt_aligned (cha : CHA) (dummyVtable : vtbl_t) (vtbl : vtbl_name_t)
    (newLayoutInds : vtbl_t → Option (List Nat))
    (hroot : cha.isRoot vtbl = true)
    (hr : RangesOk cha (cha.preorder (vtbl, 0)))
    (hs : ∀ n ∈ cha.preorder (vtbl, 0), (cha.getRange n).2 - (cha.getRange n).1 + 1 < 2 ^ 32)
    (hd : dummyVtable ∉ cha.preorder (vtbl, 0))
    (hm : ∀ n ∈ cha.preorder (vtbl, 0), newLayoutInds n = none) :
    ∃ (A : Nat) (L : interleaving_list_t), orderCloud cha dummyVtable vtbl = some (A, L) ∧
      ∀ v ∈ cha.preorder (vtbl, 0), cha.isUndefined v.1 = false →
        ∃ (inds : List Nat) (k : Nat),
          calculateNewLayoutInds dummyVtable L newLayoutInds v = some inds ∧
          inds[cha.addrPt v - (cha.getRange v).1]? = some k ∧ k % (A / WORD_WIDTH) = 0 := by
  by_cases hne : cha.preorder (vtbl, 0) = []
  · refine ⟨0, [], ?_, fun v hv => by rw [hne] at hv; simp at hv⟩
    have hr0 : orderCloud_roundUp 0 = 0 := by decide
    have h0 : orderCloud_alignment cha [] = some (0, 0) := by
      unfold orderCloud_alignment
      simp only [orderCloud_maxSize, List.foldl_nil, hr0]
      decide
    unfold orderCloud
    simp [hroot, hne, h0]
  obtain ⟨K, L, hK, hK32, _, hL, hoc⟩ := orderCloud_eq cha dummyVtable vtbl hroot hne
    (fun n hn => ⟨by have := hr n hn; omega, hs n hn⟩)
  refine ⟨K * WORD_WIDTH, L, hoc, fun v hv hdef => ?_⟩
  obtain ⟨s, t, hst, hvs⟩ := first_split v _ hv
  obtain ⟨L1, rest, _, h2, h3, _⟩ := orderFold_split cha dummyVtable K hK hK32 s v t
    (by rw [← hst]; exact hs) hdef
  rw [← hst, hL] at h2
  have hLeq := Option.some.inj h2
  have hvd : v ≠ dummyVtable := fun h => hd (h ▸ hv)
  have hL1 : ∀ e ∈ L1 ++ List.replicate
      (if (L1.length + (cha.addrPt v - (cha.getRange v).1)) % K = 0 then 0
        else K - (L1.length + (cha.addrPt v - (cha.getRange v).1)) % K)
      ((dummyVtable, (0 : Int)) : interleaving_t), e.1 ≠ v := by
    intro e he
    rcases List.mem_append.1 he with he | he
    · rcases h3 e he with h | h
      · rw [h]; exact fun h' => hvd h'.symm
      · exact fun h' => hvs (h' ▸ h)
    · rw [(List.mem_replicate.1 he).2]; exact fun h' => hvd h'.symm
  have hinds : indicesOf v L 0 =
      List.range' (L1.length + (if (L1.length + (cha.addrPt v - (cha.getRange v).1)) % K = 0
        then 0 else K - (L1.length + (cha.addrPt v - (cha.getRange v).1)) % K))
        ((cha.getRange v).2 - (cha.getRange v).1 + 1) ++
      indicesOf v rest (0 + (L1 ++ List.replicate
        (if (L1.length + (cha.addrPt v - (cha.getRange v).1)) % K = 0 then 0
          else K - (L1.length + (cha.addrPt v - (cha.getRange v).1)) % K)
        ((dummyVtable, (0 : Int)) : interleaving_t)).length + (blockEntries cha v).length) := by
    rw [hLeq, List.append_assoc (L1 ++ _), indicesOf_append, indicesOf_none v _ hL1,
      List.nil_append, indicesOf_append, indicesOf_all v _ (blockEntries_fst cha v),
      blockEntries_length]
    simp
  have hrange := hr v hv
  have hpad := (padSize_spec K (L1.length + (cha.addrPt v - (cha.getRange v).1)) hK).1
  refine ⟨indicesOf v L 0, L1.length +
    (if (L1.length + (cha.addrPt v - (cha.getRange v).1)) % K = 0 then 0
      else K - (L1.length + (cha.addrPt v - (cha.getRange v).1)) % K) +
    (cha.addrPt v - (cha.getRange v).1), ?_, ?_, ?_⟩
  · unfold calculateNewLayoutInds
    rw [newLayoutIndsLoop_eq, hm v hv]
    have hnil : indicesOf v L 0 ≠ [] := by
      rw [hinds]
      intro h
      have := congrArg List.length h
      simp at this
    rw [if_neg (by simp [hvd, hnil])]
    simp
  · rw [hinds, List.getElem?_append_left (by simp; omega), List.getElem?_range' _ _ (by omega)]
    simp
  · have hA : K * WORD_WIDTH / WORD_WIDTH = K := Nat.mul_div_cancel _ (by decide)
    rw [hA]
    have e : L1.length + (if (L1.length + (cha.addrPt v - (cha.getRange v).1)) % K = 0 then 0
        else K - (L1.length + (cha.addrPt v - (cha.getRange v).1)) % K) +
        (cha.addrPt v - (cha.getRange v).1) =
      L1.length + (cha.addrPt v - (cha.getRange v).1) +
        (if (L1.length + (cha.addrPt v - (cha.getRange v).1)) % K = 0 then 0
          else K - (L1.length + (cha.addrPt v - (cha.getRange v).1)) % K) := by omega
    rw [e]
    exact hpad

theorem orderCloud_addrPt_aligned_witness :
    (chaT.isRoot "A" = true ∧ RangesOk chaT (chaT.preorder ("A", 0)) ∧
      (∀ n ∈ chaT.preorder ("A", 0), (chaT.getRange n).2 - (chaT.getRange n).1 + 1 < 2 ^ 32) ∧
      dummyS ∉ chaT.preorder ("A", 0)) ∧
    ∃ (A : Nat) (L : interleaving_list_t), orderCloud chaT dummyS "A" = some (A, L) ∧
      ∀ v ∈ chaT.preorder ("A", 0), chaT.isUndefined v.1 = false →
        ∃ (inds : List Nat) (k : Nat),
          calculateNewLayoutInds dummyS L (fun _ => none) v = some inds ∧
          inds[chaT.addrPt v - (chaT.getRange v).1]? = some k ∧ k % (A / WORD_WIDTH) = 0 :=
  ⟨⟨by decide, by decide, by decide, by decide⟩,
    orderCloud_addrPt_aligned chaT dummyS "A" (fun _ => none) (by decide) (by decide)
      (by decide) (by decide) (fun _ _ => rfl)⟩

/-- C14 (ordered layout keeps each sub-vtable intact, with minimal padding).  On a rooted cloud
whose preorder lists no node twice and not the sentinel, and whose nodes satisfy
`first ≤ addrPt ≤ last` and have fewer than `2^32` cells, `orderCloud` returns a list `L` and
the alignment `K · 8` such that: `L` without the entries of the sentinel is the concatenation,
over the defined nodes in preorder order, of `[(v, first(v)), .., (v, last(v))]`; and for every
defined node `v`, with `L1` the list built for the nodes before `v`, `L` is `L1`, then `p`
sentinel entries, then the entries of `v` at consecutive indices, then a rest, where no other
entry belongs to `v` and `p` is the least number that makes the position of the address point
of `v` a multiple of `K` (so `p < K`). -/
theorem orderCloud_blocks (cha : CHA) (dummyVtable : vtbl_t) (vtbl : vtbl_name_t)
    (hroot : cha.isRoot vtbl = true)
    (hnd : (cha.preorder (vtbl, 0)).Nodup)
    (hr : RangesOk cha (cha.preorder (vtbl, 0)))
    (hs : ∀ n ∈ cha.preorder (vtbl, 0), (cha.getRange n).2 - (cha.getRange n).1 + 1 < 2 ^ 32)
    (hd : dummyVtable ∉ cha.preorder (vtbl, 0)) :
    ∃ (K : Nat) (L : interleaving_list_t),
      orderCloud cha dummyVtable vtbl = some (K * WORD_WIDTH, L) ∧
      L.filter (fun e => decide (e.1 ≠ dummyVtable)) =
        ((cha.preorder (vtbl, 0)).filter (fun n => !cha.isUndefined n.1)).flatMap
          (blockEntries cha) ∧
      ∀ (pre1 : order_t) (v : vtbl_t) (pre2 : order_t),
        cha.preorder (vtbl, 0) = pre1 ++ v :: pre2 → cha.isUndefined v.1 = false →
        ∃ (L1 : interleaving_list_t) (p : Nat) (rest : interleaving_list_t),
          L = L1 ++ List.replicate p ((dummyVtable, (0 : Int)) : interleaving_t) ++
            blockEntries cha v ++ rest ∧
          pre1.foldlM (orderCloud_child cha dummyVtable K) [] = some L1 ∧
          (∀ e ∈ L1 ++ rest, e.1 ≠ v) ∧
          (L1.length + p + (cha.addrPt v - (cha.getRange v).1)) % K = 0 ∧ p < K ∧
          ∀ q, (L1.length + q + (cha.addrPt v - (cha.getRange v).1)) % K = 0 → p ≤ q := by
  by_cases hne : cha.preorder (vtbl, 0) = []
  · refine ⟨0, [], ?_, by simp [hne], fun pre1 v pre2 h => by rw [hne] at h; simp at h⟩
    have hr0 : orderCloud_roundUp 0 = 0 := by decide
    have h0 : orderCloud_alignment cha [] = some (0, 0) := by
      unfold orderCloud_alignment
      simp only [orderCloud_maxSize, List.foldl_nil, hr0]
      decide
    unfold orderCloud
    simp [hroot, hne, h0]
  obtain ⟨K, L, hK, hK32, _, hL, hoc⟩ := orderCloud_eq cha dummyVtable vtbl hroot hne
    (fun n hn => ⟨by have := hr n hn; omega, hs n hn⟩)
  refine ⟨K, L, hoc, ?_, ?_⟩
  · obtain ⟨rest, h1, _, h3⟩ := orderFold_some cha dummyVtable K hK hK32
      (cha.preorder (vtbl, 0)) hs []
    rw [List.nil_append, hL] at h1
    rw [Option.some.inj h1, h3]
    congr 1
    apply List.filter_congr
    intro n hn
    have : n ≠ dummyVtable := fun h => hd (h ▸ hn)
    simp [this]
  · intro pre1 v pre2 hsplit hdef
    obtain ⟨L1, rest, h1, h2, h3, h4⟩ := orderFold_split cha dummyVtable K hK hK32 pre1 v pre2
      (by rw [← hsplit]; exact hs) hdef
    rw [← hsplit, hL] at h2
    have hv : v ∈ cha.preorder (vtbl, 0) := by rw [hsplit]; simp
    have hvd : v ≠ dummyVtable := fun h => hd (h ▸ hv)
    rw [hsplit] at hnd
    have hnd' := List.nodup_append.1 hnd
    have hv1 : v ∉ pre1 := fun h => hnd'.2.2 h (List.mem_cons_self _ _)
    have hv2 : v ∉ pre2 := (List.nodup_cons.1 hnd'.2.1).1
    have hpad := padSize_spec K (L1.length + (cha.addrPt v - (cha.getRange v).1)) hK
    refine ⟨L1, _, rest, Option.some.inj h2, h1, ?_, ?_, hpad.2.1, ?_⟩
    · intro e he
      rcases List.mem_append.1 he with he | he
      · rcases h3 e he with h | h
        · rw [h]; exact fun h' => hvd h'.symm
        · exact fun h' => hv1 (h' ▸ h)
      · rcases h4 e he with h | h
        · rw [h]; exact fun h' => hvd h'.symm
        · exact fun h' => hv2 (h' ▸ h)
    · have e : ∀ p, L1.length + p + (cha.addrPt v - (cha.getRange v).1) =
          L1.length + (cha.addrPt v - (cha.getRange v).1) + p := by intro p; omega
      rw [e]; exact hpad.1
    · intro q hq
      apply hpad.2.2
      have e : L1.length + (cha.addrPt v - (cha.getRange v).1) + q =
          L1.length + q + (cha.addrPt v - (cha.getRange v).1) := by omega
      rw [e]; exact hq

theorem orderCloud_blocks_witness :
    (chaT.isRoot "A" = true ∧ (chaT.preorder ("A", 0)).Nodup ∧
      RangesOk chaT (chaT.preorder ("A", 0)) ∧
      (∀ n ∈ chaT.preorder ("A", 0), (chaT.getRange n).2 - (chaT.getRange n).1 + 1 < 2 ^ 32) ∧
      dummyS ∉ chaT.preorder ("A", 0)) ∧
    ∃ (K : Nat) (L : interleaving_list_t),
      orderCloud chaT dummyS "A" = some (K * WORD_WIDTH, L) ∧
      L.filter (fun e => decide (e.1 ≠ dummyS)) =
        ((chaT.preorder ("A", 0)).filter (fun n => !chaT.isUndefined n.1)).flatMap
          (blockEntries chaT) ∧
      ∀ (pre1 : order_t) (v : vtbl_t) (pre2 : order_t),
        chaT.preorder ("A", 0) = pre1 ++ v :: pre2 → chaT.isUndefined v.1 = false →
        ∃ (L1 : interleaving_list_t) (p : Nat) (rest : interleaving_list_t),
          L = L1 ++ List.replicate p ((dummyS, (0 : Int)) : interleaving_t) ++
            blockEntries chaT v ++ rest ∧
          pre1.foldlM (orderCloud_child chaT dummyS K) [] = some L1 ∧
          (∀ e ∈ L1 ++ rest, e.1 ≠ v) ∧
          (L1.length + p + (chaT.addrPt v - (chaT.getRange v).1)) % K = 0 ∧ p < K ∧
          ∀ q, (L1.length + q + (chaT.addrPt v - (chaT.getRange v).1)) % K = 0 → p ≤ q :=
  ⟨⟨by decide, by decide, by decide, by decide, by decide⟩,
    orderCloud_blocks chaT dummyS "A" (by decide) (by decide) (by decide) (by decide)
      (by decide)⟩

/-- C16 (relocation is consistent with the planner, P4).  Whenever `createNewVTable` runs
to its end on the cloud of `vtbl`, in which no vtable carries the name of the new global, for
every defined `v` of the cloud that has a range and whose old global has a constant
`getelementptr` use of the address point of `v`, there is an index `K` such that: the new
global `_SD{vtbl}` has the rewritten use `getelementptr(_SD{vtbl}, 0, K)` among its users;
`K` is `translateVtblInd(v, addrPt(v) - first(v), isRelative = false)` on the planned layouts,
which `createNewVTable` leaves as they are; and `newVTableStartAddrMap[v]` holds the start of
`_SD{root of v}` plus `K · 8`. -/
theorem relocation_consistent (cha : CHA) (vtbl : vtbl_name_t) (s s1 : State)
    (v : vtbl_t) (g : GlobalVariable) (c : Int)
    (h : createNewVTable cha vtbl s = .done s1)
    (hv : v ∈ cha.preorder (vtbl, 0))
    (hdef : cha.isUndefined v.1 = false)
    (hrng : cha.hasRange v = true)
    (hfresh : ∀ w ∈ cha.preorder (vtbl, 0), w.1 ≠ NEW_VTABLE_NAME vtbl)
    (hg : s.M.getGlobalVariable v.1 = some g)
    (hu : User.gep (some c) ∈ g.users)
    (hc : u64 c = cha.addrPt v)
    (hord : cha.getAddrPtOrder v.1 (cha.addrPt v) = v.2) :
    ∃ K : Nat,
      (∃ g1, s1.M.getGlobalVariable (NEW_VTABLE_NAME vtbl) = some g1 ∧
        User.gep (some (K : Int)) ∈ g1.users) ∧
      translateVtblInd cha s.newLayoutInds v
        ((cha.addrPt v - (cha.getRange v).1 : Nat) : Int) false = some (K : Int) ∧
      s1.newLayoutInds = s.newLayoutInds ∧
      s1.newVTableStartAddrMap v =
        some { global := NEW_VTABLE_NAME (cha.getAncestor v), offset := K * WORD_WIDTH } := by
  obtain ⟨K, h1, h2, h3⟩ :=
    createNewVTable_relocation cha vtbl s s1 v g c h hv hdef hrng hfresh hg hu hc hord
  exact ⟨K, h3, h1, createNewVTable_newLayoutInds cha vtbl s s1 h, h2⟩

theorem relocation_consistent_witness :
    (createNewVTable chaS6 "A"
      (forRoots chaS6 (planCloud chaS6 20) (initState moduleS6 true)).state).isAbort = false ∧
    ∃ K : Nat,
      (∃ g1, (createNewVTable chaS6 "A"
          (forRoots chaS6 (planCloud chaS6 20) (initState moduleS6 true)).state).state.M.getGlobalVariable
            (NEW_VTABLE_NAME "A") = some g1 ∧
        User.gep (some (K : Int)) ∈ g1.users) ∧
      translateVtblInd chaS6
        (forRoots chaS6 (planCloud chaS6 20) (initState moduleS6 true)).state.newLayoutInds
        ("B", 0) ((chaS6.addrPt ("B", 0) - (chaS6.getRange ("B", 0)).1 : Nat) : Int) false =
          some (K : Int) ∧
      (createNewVTable chaS6 "A"
        (forRoots chaS6 (planCloud chaS6 20) (initState moduleS6 true)).state).state.newLayoutInds =
        (forRoots chaS6 (planCloud chaS6 20) (initState moduleS6 true)).state.newLayoutInds ∧
      (createNewVTable chaS6 "A"
        (forRoots chaS6 (planCloud chaS6 20)
          (initState moduleS6 true)).state).state.newVTableStartAddrMap ("B", 0) =
        some { global := NEW_VTABLE_NAME (chaS6.getAncestor ("B", 0)),
               offset := K * WORD_WIDTH } :=
  ⟨by decide,
    relocation_consistent chaS6 "A"
      (forRoots chaS6 (planCloud chaS6 20) (initState moduleS6 true)).state
      (createNewVTable chaS6 "A"
        (forRoots chaS6 (planCloud chaS6 20) (initState moduleS6 true)).state).state
      ("B", 0)
      { name := "B", initializer := chaS6.getOldVTable "B", alignment := 8,
        users := [.gep (some 1)] }
      1
      (Outcome.eq_done_of_not_abort _ (by decide)) (by decide) (by decide) (by decide)
      (by decide) (by decide) (by decide) (by decide) (by decide)⟩

/-- C18 (range check of `translateVtblInd`).  For a defined sub-vtable `v` with
`first ≤ addrPt ≤ last` that has a planned layout of at least `last - first + 1` indices, the
relative-mode call `translateVtblInd(v, i, true)` fails exactly when
`(addrPt(v) - first(v)) + i` is negative or greater than `last(v) - first(v)`; for every other
`i` both vector lookups are within bounds and it returns the difference of the two values. -/
theorem translateVtblInd_range_check (cha : CHA) (newLayoutInds : vtbl_t → Option (List Nat))
    (v : vtbl_t) (inds : List Nat) (i : Int)
    (hdef : cha.isUndefined v.1 = false)
    (hinds : newLayoutInds v = some inds)
    (hrng : cha.hasRange v = true)
    (hr : (cha.getRange v).1 ≤ cha.addrPt v ∧ cha.addrPt v ≤ (cha.getRange v).2)
    (hlen : (cha.getRange v).2 - (cha.getRange v).1 + 1 ≤ inds.length) :
    (translateVtblInd cha newLayoutInds v i true = none ↔
      (((cha.addrPt v - (cha.getRange v).1 : Nat) : Int) + i < 0 ∨
       ((cha.addrPt v - (cha.getRange v).1 : Nat) : Int) + i >
         (((cha.getRange v).2 - (cha.getRange v).1 : Nat) : Int))) ∧
    (¬ (((cha.addrPt v - (cha.getRange v).1 : Nat) : Int) + i < 0 ∨
        ((cha.addrPt v - (cha.getRange v).1 : Nat) : Int) + i >
          (((cha.getRange v).2 - (cha.getRange v).1 : Nat) : Int)) →
      ∃ a b : Nat,
        inds[(((cha.addrPt v - (cha.getRange v).1 : Nat) : Int) + i).toNat]? = some a ∧
        inds[cha.addrPt v - (cha.getRange v).1]? = some b ∧
        translateVtblInd cha newLayoutInds v i true = some ((a : Int) - (b : Int))) := by
  have hb : cha.addrPt v - (cha.getRange v).1 < inds.length := by omega
  have hgb : inds[cha.addrPt v - (cha.getRange v).1]? =
      some (inds.get ⟨cha.addrPt v - (cha.getRange v).1, hb⟩) := by
    rw [List.getElem?_eq_getElem hb]; rfl
  by_cases hc : ((cha.addrPt v - (cha.getRange v).1 : Nat) : Int) + i < 0 ∨
      ((cha.addrPt v - (cha.getRange v).1 : Nat) : Int) + i >
        (((cha.getRange v).2 - (cha.getRange v).1 : Nat) : Int)
  · refine ⟨⟨fun _ => hc, fun _ => ?_⟩, fun h => absurd hc h⟩
    unfold translateVtblInd
    simp only [CHA.isUndefinedVtbl, hdef, Bool.false_and, Bool.false_eq_true, if_false, hinds,
      hrng, Bool.not_true, if_true, Int.toNat_ofNat]
    rw [if_pos (by omega)]
  · have ha : (((cha.addrPt v - (cha.getRange v).1 : Nat) : Int) + i).toNat < inds.length := by
      omega
    have hga : inds[(((cha.addrPt v - (cha.getRange v).1 : Nat) : Int) + i).toNat]? =
        some (inds.get ⟨_, ha⟩) := by
      rw [List.getElem?_eq_getElem ha]; rfl
    have hres : translateVtblInd cha newLayoutInds v i true =
        some (((inds.get ⟨_, ha⟩ : Nat) : Int) - ((inds.get ⟨_, hb⟩ : Nat) : Int)) := by
      unfold translateVtblInd
      simp only [CHA.isUndefinedVtbl, hdef, Bool.false_and, Bool.false_eq_true, if_false, hinds,
        hrng, Bool.not_true, if_true, Int.toNat_ofNat]
      rw [if_neg (by omega)]
      simp only [hga, hgb]
    refine ⟨⟨fun h => ?_, fun h => absurd h hc⟩, fun _ => ⟨_, _, hga, hgb, hres⟩⟩
    rw [hres] at h
    exact absurd h (by simp)

theorem translateVtblInd_range_check_witness :
    (translateVtblInd chaS2 (calculateNewLayoutInds dummyS listS2 (fun _ => none)) ("B", 0) 1
        true = none ↔
      (((chaS2.addrPt ("B", 0) - (chaS2.getRange ("B", 0)).1 : Nat) : Int) + 1 < 0 ∨
       ((chaS2.addrPt ("B", 0) - (chaS2.getRange ("B", 0)).1 : Nat) : Int) + 1 >
         (((chaS2.getRange ("B", 0)).2 - (chaS2.getRange ("B", 0)).1 : Nat) : Int))) ∧
    (¬ (((chaS2.addrPt ("B", 0) - (chaS2.getRange ("B", 0)).1 : Nat) : Int) + 1 < 0 ∨
        ((chaS2.addrPt ("B", 0) - (chaS2.getRange ("B", 0)).1 : Nat) : Int) + 1 >
          (((chaS2.getRange ("B", 0)).2 - (chaS2.getRange ("B", 0)).1 : Nat) : Int)) →
      ∃ a b : Nat,
        ([0, 1, 3, 5] : List Nat)[(((chaS2.addrPt ("B", 0) -
          (chaS2.getRange ("B", 0)).1 : Nat) : Int) + 1).toNat]? = some a ∧
        ([0, 1, 3, 5] : List Nat)[chaS2.addrPt ("B", 0) - (chaS2.getRange ("B", 0)).1]? =
          some b ∧
        translateVtblInd chaS2 (calculateNewLayoutInds dummyS listS2 (fun _ => none)) ("B", 0) 1
          true = some ((a : Int) - (b : Int))) :=
  translateVtblInd_range_check chaS2 (calculateNewLayoutInds dummyS listS2 (fun _ => none))
    ("B", 0) [0, 1, 3, 5] 1 (by decide) (by decide) (by decide) (by decide) (by decide)

/-- C15 (code defect, scenario S3).  In the interleaving list of S3 the entry at index 1 is
the prepad entry `(B, -1)`, whose old position is below `first(B) = 0`, so the claim makes
the slot null.  The element loop of `createNewVTable` compares the position with
`first(B)` as `uint64_t` values, where `-1` is `2^64 - 1` and not below `0`; it goes on to
read the operand `-1` of the old array of `B` and stops there, after one element, instead of
pushing a null pointer. -/
theorem createNewVTable_S3_prepad_slot_not_null :
    (interleaveCloud chaS3 10 (fun _ => 0) "A").map (fun r => r.2) = some listS3 ∧
    listS3[1]? = some (("B", 0), -1) ∧
    (-1 : Int) < ((chaS3.getRange ("B", 0)).1 : Int) ∧
    ¬ (u64 (-1) < (chaS3.getRange ("B", 0)).1) ∧
    createNewVTable_elem chaS3 dummyS moduleS3 (("B", 0), -1) = none ∧
    createNewVTable_elem chaS3 dummyS moduleS3 (("B", 0), -1) ≠ some (Constant.null, none) ∧
    createNewVTable_elems chaS3 dummyS moduleS3 listS3 ([], []) =
      .abort ([Constant.other "A::x"], []) := by
  refine ⟨by decide, by decide, by decide, by decide, by decide, by decide, by decide⟩

/-- C19 (code defect).  With the roots `A`, `C` in ordered mode, the list of `A` is the
ordered layout of `A` and the list of `C` holds the non-sentinel entry `(C, 0)` twice, yet
`verifyNewLayouts` returns `true`: the statement `if (!interleave) return true;` stands inside
the loop over the roots and ends the function after the first root.  With the same lists in
interleaved mode it returns `false`. -/
theorem verifyNewLayouts_ordered_stops_at_first_root :
    chaTwo.roots = ["A", "C"] ∧
    (orderCloud chaTwo dummyS "A").map (fun r => r.2) = mapTwo "A" ∧
    mapTwo "C" = some [(("C", 0), 0), (("C", 0), 0), (("C", 0), 1)] ∧
    ("C", 0) ≠ dummyS ∧
    verifyCloud chaTwo dummyS false (fun _ => 0) mapTwo "A" = some true ∧
    verifyCloud chaTwo dummyS false (fun _ => 0) mapTwo "C" = some false ∧
    verifyNewLayouts chaTwo dummyS false (fun _ => 0) mapTwo = true ∧
    verifyNewLayouts chaTwo dummyS true (fun _ => 0) mapTwo = false := by
  refine ⟨by decide, by decide, by decide, by decide, by decide, by decide, by decide,
    by decide⟩

/-- C20, counterexample.  On scenario S4 with one more user of the old vtable of `Left` that
is not a constant `getelementptr`, `buildNewLayouts` stops at the assertion
`assert(userCE && userCE->getOpcode() == GEP_OPCODE)` of `createNewVTable`.  At that point
the thunk clone `_SVTDerived_ZTv0_n16_f` has been inserted, the global `_SDBase` has been
added, and the uses of the old vtables of `Base`, `Derived` and `Left` have been rewritten
into uses of `_SDBase`. -/
theorem buildNewLayouts_abort_after_mutation :
    (buildNewLayouts chaS4 20 (initState moduleS4other true)).isAbort = true ∧
    (buildNewLayouts chaS4 20 (initState moduleS4other true)).state.M.functions.map
        (fun f => f.name) = ["_ZTv0_n16_f", "_SVTDerived_ZTv0_n16_f"] ∧
    (buildNewLayouts chaS4 20 (initState moduleS4other true)).state.M.globals.map
        (fun g => (g.name, g.users)) =
      [("Base", []), ("Derived", []), ("Left", [User.other]), ("Right", [User.gep (some 0)]),
       ("_SDBase", [User.gep (some 2), User.gep (some 3), User.gep (some 4)])] ∧
    moduleS4other.functions.map (fun f => f.name) = ["_ZTv0_n16_f"] ∧
    moduleS4other.globals.map (fun g => (g.name, g.users)) =
      [("Base", [User.gep (some 0)]), ("Derived", [User.gep (some 2)]),
       ("Left", [User.gep (some 0), User.other]), ("Right", [User.gep (some 0)])] := by
  refine ⟨by decide, by decide, by decide, by decide, by decide⟩

/-- C20, amended (where `buildNewLayouts` can stop).  If an assertion fails in the first loop
of `buildNewLayouts` (`interleaveCloud`, `orderCloud`, `calculateNewLayoutInds`, for any
root), then `buildNewLayouts` stops there and the module is the one it was given: no `_SD`
global has been added, no thunk clone inserted, no use rewritten.  The later phases keep no
such guarantee: when the first and the second loop have completed, the module holds one new
global `_SD{root}` per root, and an assertion that fails in `calculateVPtrRanges` or
`verifyVPtrRanges` leaves the module in that state. -/
theorem buildNewLayouts_abort_points (cha : CHA) (fuel : Nat) (s : State) :
    (∀ s1, forRoots cha (planCloud cha fuel) s = .abort s1 →
      buildNewLayouts cha fuel s = .abort s1 ∧ s1.M = s.M) ∧
    (∀ s1 s2, forRoots cha (planCloud cha fuel) s = .done s1 →
      forRoots cha (emitCloud cha) s1 = .done s2 →
      buildNewLayouts cha fuel s = forRoots cha (rangesOfCloud cha fuel) s2 ∧
      (buildNewLayouts cha fuel s).state.M = s2.M ∧
      s2.M.globals.map (fun g => g.name) =
        s.M.globals.map (fun g => g.name) ++ cha.roots.map NEW_VTABLE_NAME) := by
  refine ⟨fun s1 h1 => ?_, fun s1 s2 h1 h2 => ?_⟩
  · have hM := (phases_module cha fuel s).1
    rw [h1] at hM
    refine ⟨?_, hM⟩
    unfold buildNewLayouts
    rw [h1]
    rfl
  · have hM := (phases_module cha fuel s).1
    rw [h1] at hM
    have hb : buildNewLayouts cha fuel s = forRoots cha (rangesOfCloud cha fuel) s2 := by
      unfold buildNewLayouts
      rw [h1, Outcome.andThen_done, h2, Outcome.andThen_done]
    refine ⟨hb, ?_, ?_⟩
    · rw [hb]; exact (phases_module cha fuel s2).2.1
    · rw [(phases_module cha fuel s1).2.2 s2 h2]
      simp only [Outcome.state] at hM
      rw [hM]

theorem buildNewLayouts_abort_points_witness :
    ∃ s1 s2, forRoots chaS4 (planCloud chaS4 20) (initState moduleS4 true) = .done s1 ∧
      forRoots chaS4 (emitCloud chaS4) s1 = .done s2 ∧
      buildNewLayouts chaS4 20 (initState moduleS4 true) =
        forRoots chaS4 (rangesOfCloud chaS4 20) s2 ∧
      (buildNewLayouts chaS4 20 (initState moduleS4 true)).state.M = s2.M ∧
      s2.M.globals.map (fun g => g.name) = ["Base", "Derived", "Left", "Right", "_SDBase"] :=
  ⟨_, _,
    Outcome.eq_done_of_not_abort
      (forRoots chaS4 (planCloud chaS4 20) (initState moduleS4 true)) (by decide),
    Outcome.eq_done_of_not_abort
      (forRoots chaS4 (emitCloud chaS4)
        (forRoots chaS4 (planCloud chaS4 20) (initState moduleS4 true)).state) (by decide),
    ((buildNewLayouts_abort_points chaS4 20 (initState moduleS4 true)).2 _ _
      (Outcome.eq_done_of_not_abort
        (forRoots chaS4 (planCloud chaS4 20) (initState moduleS4 true)) (by decide))
      (Outcome.eq_done_of_not_abort
        (forRoots chaS4 (emitCloud chaS4)
          (forRoots chaS4 (planCloud chaS4 20) (initState moduleS4 true)).state)
        (by decide))).1,
    ((buildNewLayouts_abort_points chaS4 20 (initState moduleS4 true)).2 _ _
      (Outcome.eq_done_of_not_abort
        (forRoots chaS4 (planCloud chaS4 20) (initState moduleS4 true)) (by decide))
      (Outcome.eq_done_of_not_abort
        (forRoots chaS4 (emitCloud chaS4)
          (forRoots chaS4 (planCloud chaS4 20) (initState moduleS4 true)).state)
        (by decide))).2.1,
    by decide⟩

/-- C22 (thunk clone naming and idempotence, P5).  The clone of the thunk `t` for the layout
class `L` is named `"_SVT" ++ L ++ t`; for a fixed thunk two layout classes give the same
clone name exactly when they are equal; when the element step of `createThunkFunctions` meets
a thunk whose clone name already exists in the module it returns the module unchanged; when
it creates a clone, the clone carries that name and is appended to the functions of the
module; and processing the same element a second time gives the module that processing it
once gave. -/
theorem thunk_clone_naming (cha : CHA) (newLayoutInds : vtbl_t → Option (List Nat))
    (vtbl : vtbl_name_t) (M : Module) (vtblInd : Nat) (c : Constant) :
    (∀ t L : String, NEW_VTHUNK_NAME t L = "_SVT" ++ L ++ t) ∧
    (∀ t L1 L2 : String, NEW_VTHUNK_NAME t L1 = NEW_VTHUNK_NAME t L2 ↔ L1 = L2) ∧
    (∀ thunkF, getVthunkFunction c = some (some thunkF) →
      (M.getFunction (NEW_VTHUNK_NAME thunkF
        (cha.getLayoutClassName (vtbl, cha.getVTableOrder vtbl vtblInd)))).isSome = true →
      createThunkFunctions_elem cha newLayoutInds vtbl M vtblInd c = .done M) ∧
    (∀ thunkF M1, getVthunkFunction c = some (some thunkF) →
      (M.getFunction (NEW_VTHUNK_NAME thunkF
        (cha.getLayoutClassName (vtbl, cha.getVTableOrder vtbl vtblInd)))).isSome = false →
      createThunkFunctions_elem cha newLayoutInds vtbl M vtblInd c = .done M1 →
      ∃ body, M1 = { M with functions := M.functions ++
        [{ name := NEW_VTHUNK_NAME thunkF
            (cha.getLayoutClassName (vtbl, cha.getVTableOrder vtbl vtblInd)),
           body := body }] }) ∧
    (∀ M1, createThunkFunctions_elem cha newLayoutInds vtbl M vtblInd c = .done M1 →
      createThunkFunctions_elem cha newLayoutInds vtbl M1 vtblInd c = .done M1) := by
  have hexists : ∀ thunkF (M0 : Module), getVthunkFunction c = some (some thunkF) →
      (M0.getFunction (NEW_VTHUNK_NAME thunkF
        (cha.getLayoutClassName (vtbl, cha.getVTableOrder vtbl vtblInd)))).isSome = true →
      createThunkFunctions_elem cha newLayoutInds vtbl M0 vtblInd c = .done M0 := by
    intro thunkF M0 hc hf
    unfold createThunkFunctions_elem
    simp only [hc, hf, if_true]
  have hnew : ∀ thunkF M1, getVthunkFunction c = some (some thunkF) →
      (M.getFunction (NEW_VTHUNK_NAME thunkF
        (cha.getLayoutClassName (vtbl, cha.getVTableOrder vtbl vtblInd)))).isSome = false →
      createThunkFunctions_elem cha newLayoutInds vtbl M vtblInd c = .done M1 →
      ∃ body, M1 = { M with functions := M.functions ++
        [{ name := NEW_VTHUNK_NAME thunkF
            (cha.getLayoutClassName (vtbl, cha.getVTableOrder vtbl vtblInd)),
           body := body }] } := by
    intro thunkF M1 hc hf h
    unfold createThunkFunctions_elem at h
    simp only [hc, hf, Bool.false_eq_true, if_false] at h
    by_cases hd : M.declaresVCallIndex = true
    · have hnot : (!M.declaresVCallIndex) = false := by simp [hd]
      simp only [hnot, Bool.false_eq_true, if_false] at h
      generalize rewriteVCallIndex cha newLayoutInds _ _ _ _ = o at h
      cases o with
      | done b =>
        simp only [Outcome.bind, Outcome.done.injEq] at h
        exact ⟨b, h.symm⟩
      | abort b => simp [Outcome.bind] at h
    · have hnot : (!M.declaresVCallIndex) = true := by simpa using hd
      simp only [hnot, if_true, Outcome.done.injEq] at h
      exact ⟨_, h.symm⟩
  refine ⟨fun _ _ => rfl, NEW_VTHUNK_NAME_inj, fun thunkF => hexists thunkF M, hnew, ?_⟩
  intro M1 h
  cases hc : getVthunkFunction c with
  | none =>
    unfold createThunkFunctions_elem at h
    simp [hc] at h
  | some r =>
    cases r with
    | none =>
      unfold createThunkFunctions_elem at h ⊢
      simp only [hc, Outcome.done.injEq] at h ⊢
    | some thunkF =>
      cases hf : (M.getFunction (NEW_VTHUNK_NAME thunkF
          (cha.getLayoutClassName (vtbl, cha.getVTableOrder vtbl vtblInd)))).isSome with
      | true =>
        rw [hexists thunkF M hc hf] at h
        cases h
        exact hexists thunkF M hc hf
      | false =>
        obtain ⟨body, hM1⟩ := hnew thunkF M1 hc hf h
        apply hexists thunkF M1 hc
        rw [hM1]
        exact getFunction_append_self M _

theorem thunk_clone_naming_witness :
    NEW_VTHUNK_NAME "_ZTv0_n16_f" "Derived" = "_SVTDerived_ZTv0_n16_f" ∧
    createThunkFunctions_elem chaS4 (calculateNewLayoutInds dummyS listS4 (fun _ => none))
      "Derived" moduleS4 3 (.bitcast "_ZTv0_n16_f" true) =
      .done (createThunkFunctions_elem chaS4
        (calculateNewLayoutInds dummyS listS4 (fun _ => none))
        "Derived" moduleS4 3 (.bitcast "_ZTv0_n16_f" true)).state ∧
    (createThunkFunctions_elem chaS4 (calculateNewLayoutInds dummyS listS4 (fun _ => none))
      "Derived" moduleS4 3 (.bitcast "_ZTv0_n16_f" true)).state.functions.map (fun f => f.name) =
      ["_ZTv0_n16_f", "_SVTDerived_ZTv0_n16_f"] ∧
    createThunkFunctions_elem chaS4 (calculateNewLayoutInds dummyS listS4 (fun _ => none))
      "Derived" (createThunkFunctions_elem chaS4
        (calculateNewLayoutInds dummyS listS4 (fun _ => none))
        "Derived" moduleS4 3 (.bitcast "_ZTv0_n16_f" true)).state 3
        (.bitcast "_ZTv0_n16_f" true) =
      .done (createThunkFunctions_elem chaS4
        (calculateNewLayoutInds dummyS listS4 (fun _ => none))
        "Derived" moduleS4 3 (.bitcast "_ZTv0_n16_f" true)).state :=
  ⟨by decide, by decide, by decide,
    (thunk_clone_naming chaS4 (calculateNewLayoutInds dummyS listS4 (fun _ => none))
      "Derived" moduleS4 3 (.bitcast "_ZTv0_n16_f" true)).2.2.2.2 _ (by decide)⟩

/-- C23 (code defect).  After the planning of scenario S3 the pass holds `PrePad[B] = 1`.
`clearAnalysisResults` empties `newLayoutInds` and `interleavingMap` and leaves `prePadMap`
as it is: `PrePad[B]` is still 1 after the call. -/
theorem clearAnalysisResults_keeps_prePad :
    (forRoots chaS3 (planCloud chaS3 10) (initState moduleS3 true)).isAbort = false ∧
    (forRoots chaS3 (planCloud chaS3 10) (initState moduleS3 true)).state.prePadMap ("B", 0) =
      1 ∧
    (forRoots chaS3 (planCloud chaS3 10) (initState moduleS3 true)).state.interleavingMap "A" =
      some listS3 ∧
    (clearAnalysisResults
      (forRoots chaS3 (planCloud chaS3 10) (initState moduleS3 true)).state).prePadMap
        ("B", 0) = 1 ∧
    (clearAnalysisResults
      (forRoots chaS3 (planCloud chaS3 10) (initState moduleS3 true)).state).interleavingMap
        "A" = none ∧
    [("A", 0), ("B", 0)].map (clearAnalysisResults
      (forRoots chaS3 (planCloud chaS3 10) (initState moduleS3 true)).state).newLayoutInds =
        [none, none] := by
  refine ⟨by decide, by decide, by decide, by decide, by decide, by decide⟩

/-- C24 (code defect, diamond `chaD`).  `D` is a child of `B` and of `C`, all defined.  The
pre-pad loop first sets `PrePad[D] = 3` (update by `B`); the update by the second parent `C`
finds `ppAP = 5`, `chAP = 0 + 3` and stores `PrePad[D] = 5 - 3 = 2`, which is not
`max(3, 2)` and is below the value held before.  The loop ends with `PrePad[D] = 2`, so the
cells before the address point of `B` (3) and of `C` (5) do not fit before the address point
of `D` (0 + 2): the step-1.5 test of `verifyNewLayouts` fails for both pairs and
`verifyNewLayouts` rejects the layout that `interleaveCloud` planned. -/
theorem prePadChild_decreases :
    prePadChild chaD (buildIndMap (chaD.preorder ("A", 0))) ("B", 0) (fun _ => 0) ("D", 0)
      ("D", 0) = 3 ∧
    prePadChild chaD (buildIndMap (chaD.preorder ("A", 0))) ("C", 0)
      (prePadChild chaD (buildIndMap (chaD.preorder ("A", 0))) ("B", 0) (fun _ => 0) ("D", 0))
      ("D", 0) ("D", 0) = 2 ∧
    max 3 (5 - (0 + 3)) ≠ 2 ∧
    prePadLoop chaD (chaD.preorder ("A", 0)) (fun _ => 0) ("D", 0) = 2 ∧
    (("D", 0) ∈ chaD.children ("B", 0) ∧ ("D", 0) ∈ chaD.children ("C", 0) ∧
      (chaD.preorder ("A", 0)).all (fun v => !chaD.isUndefined v.1) = true) ∧
    (interleaveCloud chaD 20 (fun _ => 0) "A").map
        (fun r => (chaD.preorder ("A", 0)).map r.1) = some [0, 0, 0, 2] ∧
    ¬ (chaD.addrPt ("B", 0) - (chaD.getRange ("B", 0)).1 +
        prePadLoop chaD (chaD.preorder ("A", 0)) (fun _ => 0) ("B", 0) ≤
      chaD.addrPt ("D", 0) - (chaD.getRange ("D", 0)).1 +
        prePadLoop chaD (chaD.preorder ("A", 0)) (fun _ => 0) ("D", 0)) ∧
    ¬ (chaD.addrPt ("C", 0) - (chaD.getRange ("C", 0)).1 +
        prePadLoop chaD (chaD.preorder ("A", 0)) (fun _ => 0) ("C", 0) ≤
      chaD.addrPt ("D", 0) - (chaD.getRange ("D", 0)).1 +
        prePadLoop chaD (chaD.preorder ("A", 0)) (fun _ => 0) ("D", 0)) ∧
    verifyContained chaD (prePadLoop chaD (chaD.preorder ("A", 0)) (fun _ => 0))
      (buildIndMap (chaD.preorder ("A", 0))) ("B", 0) ("D", 0) = false ∧
    verifyContained chaD (prePadLoop chaD (chaD.preorder ("A", 0)) (fun _ => 0))
      (buildIndMap (chaD.preorder ("A", 0))) ("C", 0) ("D", 0) = false ∧
    (interleaveCloud chaD 20 (fun _ => 0) "A").map
        (fun r => verifyNewLayouts chaD dummyS true r.1
          (fun n => if n = "A" then some r.2 else none)) = some false := by
  refine ⟨by decide, by decide, by decide, by decide, ⟨by decide, by decide, by decide⟩,
    by decide!, by decide, by decide, by decide, by decide, by decide!⟩

/-- C28 (index mapper postcondition).  For every list `L` and with `NewLayoutInds` initially
empty, after `calculateNewLayoutInds` every vtable `v` other than the sentinel that occurs in
`L` has `NewLayoutInds[v]` equal to a strictly increasing sequence whose members are exactly
the list indices `i` with `L[i].v = v` (so sentinel entries advance the index without being
recorded) and whose length is the number of entries tagged `v`; the sentinel gets no entry,
and neither does a vtable that does not occur in `L`. -/
theorem calculateNewLayoutInds_postcondition (dummyVtable : vtbl_t) (L : interleaving_list_t) :
    (∀ v, v ≠ dummyVtable → (∃ e ∈ L, e.1 = v) →
      ∃ inds, calculateNewLayoutInds dummyVtable L (fun _ => none) v = some inds ∧
        inds.Pairwise (fun a b => a < b) ∧
        (∀ i, i ∈ inds ↔ ∃ e, L[i]? = some e ∧ e.1 = v) ∧
        inds.length = (L.filter (fun e => decide (e.1 = v))).length) ∧
    calculateNewLayoutInds dummyVtable L (fun _ => none) dummyVtable = none ∧
    (∀ v, (∀ e ∈ L, e.1 ≠ v) → calculateNewLayoutInds dummyVtable L (fun _ => none) v = none) := by
  refine ⟨?_, ?_, ?_⟩
  · intro v hv ⟨e, he, hev⟩
    have hne : indicesOf v L 0 ≠ [] := by
      obtain ⟨j, hj⟩ := List.getElem?_of_mem he
      have : j ∈ indicesOf v L 0 := (mem_indicesOf v L 0 j).2 ⟨j, e, by omega, hj, hev⟩
      exact List.ne_nil_of_mem this
    refine ⟨indicesOf v L 0, ?_, (indicesOf_increasing v L 0).2, ?_, indicesOf_length v L 0⟩
    · unfold calculateNewLayoutInds
      rw [newLayoutIndsLoop_eq, if_neg (by simp [hv, hne])]
      simp
    · intro i
      rw [mem_indicesOf]
      constructor
      · rintro ⟨j, e, hi, hj, he⟩
        have : i = j := by omega
        subst this
        exact ⟨e, hj, he⟩
      · rintro ⟨e, hj, he⟩
        exact ⟨i, e, by omega, hj, he⟩
  · unfold calculateNewLayoutInds
    rw [newLayoutIndsLoop_eq, if_pos (Or.inl rfl)]
  · intro v hv
    unfold calculateNewLayoutInds
    rw [newLayoutIndsLoop_eq, if_pos (Or.inr (indicesOf_none v L hv 0))]

theorem calculateNewLayoutInds_postcondition_witness :
    calculateNewLayoutInds dummyS
      [(dummyS, 0), (("A", 0), 0), (dummyS, 0), (("B", 0), 0), (("A", 0), 1)] (fun _ => none)
      ("A", 0) = some [1, 4] ∧
    calculateNewLayoutInds dummyS
      [(dummyS, 0), (("A", 0), 0), (dummyS, 0), (("B", 0), 0), (("A", 0), 1)] (fun _ => none)
      dummyS = none :=
  ⟨by decide,
    (calculateNewLayoutInds_postcondition dummyS
      [(dummyS, 0), (("A", 0), 0), (dummyS, 0), (("B", 0), 0), (("A", 0), 1)]).2.1⟩

/-- C29, counterexample.  With the roots `A`, `C` the calls of `buildNewLayouts` are, in
order: planning of `A` and of `C`, then `createThunkFunctions(A)`, `createNewVTable(A)`,
`createThunkFunctions(C)`, `createNewVTable(C)`, then the range calls.  The call
`createNewVTable(A)` (position 5) comes before `createThunkFunctions(C)` (position 6), and
`calculateVPtrRanges(A)` (position 8) comes after `createThunkFunctions(A)` (position 4). -/
theorem buildNewLayouts_calls_two_roots :
    buildNewLayouts_calls true ["A", "C"] =
      [.interleaveCloud "A", .calculateNewLayoutInds "A",
       .interleaveCloud "C", .calculateNewLayoutInds "C",
       .createThunkFunctions "A", .createNewVTable "A",
       .createThunkFunctions "C", .createNewVTable "C",
       .calculateVPtrRanges "A", .verifyVPtrRanges "A",
       .calculateVPtrRanges "C", .verifyVPtrRanges "C"] ∧
    (buildNewLayouts_calls true ["A", "C"])[5]? = some (.createNewVTable "A") ∧
    (buildNewLayouts_calls true ["A", "C"])[6]? = some (.createThunkFunctions "C") ∧
    (buildNewLayouts_calls true ["A", "C"])[4]? = some (.createThunkFunctions "A") ∧
    (buildNewLayouts_calls true ["A", "C"])[8]? = some (.calculateVPtrRanges "A") := by
  refine ⟨by decide, by decide, by decide, by decide, by decide⟩

/-- C29, amended (phase ordering in `buildNewLayouts`).  In the sequence of calls that
`buildNewLayouts` makes, for any list of roots and either mode: every planning call
(`interleaveCloud`, `orderCloud`, `calculateNewLayoutInds`, for any root) precedes every
`createThunkFunctions` and every `createNewVTable` call; each `createThunkFunctions(r)` call
is directly followed by `createNewVTable(r)` for the same root, so the thunks of a later
root are created after the new vtable of an earlier root has been emitted; and every
`calculateVPtrRanges` and `verifyVPtrRanges` call comes after every `createThunkFunctions`
and every `createNewVTable` call. -/
theorem buildNewLayouts_calls_order (interleave : Bool) (roots : List vtbl_name_t) :
    (∀ (i j : Nat) (x y : PhaseCall), (buildNewLayouts_calls interleave roots)[i]? = some x →
      (buildNewLayouts_calls interleave roots)[j]? = some y →
      x.loop < y.loop → i < j) ∧
    (∀ i r, (buildNewLayouts_calls interleave roots)[i]? =
        some (PhaseCall.createThunkFunctions r) →
      (buildNewLayouts_calls interleave roots)[i + 1]? = some (PhaseCall.createNewVTable r)) :=
  ⟨fun i j x y hx hy hxy => calls_ordered interleave roots i j x y hx hy hxy,
    fun i r h => calls_thunk_then_emit interleave roots i r h⟩

theorem buildNewLayouts_calls_order_witness :
    (buildNewLayouts_calls true ["A", "C"])[6]? = some (PhaseCall.createThunkFunctions "C") ∧
    (buildNewLayouts_calls true ["A", "C"])[6 + 1]? = some (PhaseCall.createNewVTable "C") ∧
    (PhaseCall.createNewVTable "C").loop < (PhaseCall.calculateVPtrRanges "A").loop :=
  ⟨by decide,
    (buildNewLayouts_calls_order true ["A", "C"]).2 6 "C" (by decide), by decide⟩

/-- C30, counterexample.  On scenario S4 `createThunkFunctions` creates and rewrites the clone
`_SVTDerived_ZTv0_n16_f`; afterwards the body of the clone still holds the call
`getVCallIndex(16)`, next to the instruction that now uses the constant 56. -/
theorem createThunkFunctions_S4_call_remains :
    ((createThunkFunctions chaS4 (calculateNewLayoutInds dummyS listS4 (fun _ => none)) "Base"
        moduleS4).isAbort = false) ∧
    ((createThunkFunctions chaS4 (calculateNewLayoutInds dummyS listS4 (fun _ => none)) "Base"
        moduleS4).state.getFunction "_SVTDerived_ZTv0_n16_f").map (fun f => f.body) =
      some [{ id := 0, isVCallIndexCall := true, operands := [.constInt 16] },
        { id := 1, isVCallIndexCall := false, operands := [.other 0, .constInt 56] },
        { id := 2, isVCallIndexCall := false, operands := [.inst 1] }] := by
  refine ⟨by decide, by decide⟩

/-- C30, amended (the rewritten thunk keeps the call, without uses).  In a clone in which
every call of `getVCallIndex` has a literal argument that `translateVtblInd` accepts, the
instruction walk of `createThunkFunctions` runs to its end and leaves every instruction in
its place: the calls of `getVCallIndex` are still in the body of the clone, at the same
positions; but no operand of any instruction of the clone is the result of such a call any
more. -/
theorem rewriteVCallIndex_keeps_call (cha : CHA) (newLayoutInds : vtbl_t → Option (List Nat))
    (v : vtbl_t) (body : List Instruction)
    (hlit : ∀ CI ∈ body, CI.isVCallIndexCall = true →
      (vcallConst cha newLayoutInds v CI).isSome = true) :
    ∃ body1, rewriteVCallIndex cha newLayoutInds v body.length 0 body = .done body1 ∧
      body1.map (fun inst => (inst.id, inst.isVCallIndexCall)) =
        body.map (fun inst => (inst.id, inst.isVCallIndexCall)) ∧
      ∀ inst ∈ body1, ∀ o ∈ inst.operands, ∀ CI ∈ body1, CI.isVCallIndexCall = true →
        o ≠ Value.inst CI.id := by
  have h := rewriteVCallIndex_inv cha newLayoutInds v body hlit body.length 0 (by omega)
  rw [List.take_zero, substBody_nil] at h
  refine ⟨_, h, ?_, ?_⟩
  · unfold substBody
    rw [List.map_map]
    rfl
  · intro inst hinst o ho CI hCI hcall
    unfold substBody at hinst hCI
    obtain ⟨inst0, _, rfl⟩ := List.mem_map.1 hinst
    obtain ⟨CI0, hCI0, rfl⟩ := List.mem_map.1 hCI
    simp only at ho hcall ⊢
    obtain ⟨o0, _, rfl⟩ := List.mem_map.1 ho
    unfold substOperand
    cases hf : body.find? (fun C => C.isVCallIndexCall && decide (o0 = Value.inst C.id)) with
    | some C =>
      have hC := List.mem_of_find?_eq_some hf
      have hp := List.find?_some hf
      simp only [Bool.and_eq_true, decide_eq_true_eq] at hp
      obtain ⟨x, hx⟩ := Option.isSome_iff_exists.1 (hlit C hC hp.1)
      obtain ⟨k, hk⟩ := vcallConst_constInt cha newLayoutInds v C x hx
      simp only [hx, Option.getD_some, hk]
      simp
    | none =>
      simp only
      intro heq
      have := List.find?_eq_none.1 hf CI0 hCI0
      simp [hcall, heq] at this

theorem rewriteVCallIndex_keeps_call_witness :
    ∃ body1, rewriteVCallIndex chaS4 (calculateNewLayoutInds dummyS listS4 (fun _ => none))
        ("Derived", 0) bodyS4.length 0 bodyS4 = .done body1 ∧
      body1.map (fun inst => (inst.id, inst.isVCallIndexCall)) =
        bodyS4.map (fun inst => (inst.id, inst.isVCallIndexCall)) ∧
      ∀ inst ∈ body1, ∀ o ∈ inst.operands, ∀ CI ∈ body1, CI.isVCallIndexCall = true →
        o ≠ Value.inst CI.id :=
  rewriteVCallIndex_keeps_call chaS4 (calculateNewLayoutInds dummyS listS4 (fun _ => none))
    ("Derived", 0) bodyS4 (by decide)

/-- C21, counterexample.  On scenario S4 with one more function, the virtual thunk
`_ZTv0_n24_g`, which is no element of an old vtable and has a user, `buildNewLayouts` followed
by `removeOldLayouts` runs to its end, and the function `_ZTv0_n24_g`, whose name starts with
`_ZTv`, is still in the module (the old vtables and the thunk `_ZTv0_n16_f` are gone). -/
theorem removeOldLayouts_keeps_used_thunk :
    ((buildNewLayouts chaS4 20 (initState moduleS4used true)).andThen
      (removeOldLayouts chaS4)).isAbort = false ∧
    ((buildNewLayouts chaS4 20 (initState moduleS4used true)).andThen
      (removeOldLayouts chaS4)).state.M.functions.map (fun f => f.name) =
        ["_ZTv0_n24_g", "_SVTDerived_ZTv0_n16_f"] ∧
    sd_isVthunk "_ZTv0_n24_g" = true ∧
    ((buildNewLayouts chaS4 20 (initState moduleS4used true)).andThen
      (removeOldLayouts chaS4)).state.M.globals.map (fun g => g.name) = ["_SDBase"] ∧
    moduleS4used.functions.map (fun f => (f.name, f.hasUsers)) =
      [("_ZTv0_n16_f", false), ("_ZTv0_n24_g", true)] := by
  refine ⟨by decide!, by decide!, by decide, by decide!, by decide⟩

/-- C21, amended (final module state).  When `removeOldLayouts` returns on a module whose
globals have distinct names and whose functions have distinct names (as after a
`buildNewLayouts` that returned), the resulting module holds no global variable with the name
of an old vtable, and its functions are exactly the functions of the module it was given that
are not in `vthunksToRemove` (the thunks that `createNewVTable` replaced in an emitted slot)
and are not virtual thunks without a user.  So every function left whose name starts with
`_ZTv` or `_ZTcv` has a user, and a virtual thunk that has a user and is not in
`vthunksToRemove` stays in the module. -/
theorem removeOldLayouts_final (cha : CHA) (s s1 : State)
    (h : removeOldLayouts cha s = .done s1)
    (hnd : (s.M.globals.map (fun g => g.name)).Nodup)
    (hfn : (s.M.functions.map (fun f => f.name)).Nodup) :
    (∀ n ∈ cha.oldVTables, ∀ g ∈ s1.M.globals, g.name ≠ n) ∧
    (∀ f, f ∈ s1.M.functions ↔
      f ∈ s.M.functions ∧ f.name ∉ s.vthunksToRemove ∧
        (sd_isVthunk f.name = true → f.hasUsers = true)) ∧
    (∀ f ∈ s1.M.functions, sd_isVthunk f.name = true →
      f.hasUsers = true ∧ f.name ∉ s.vthunksToRemove) ∧
    (∀ f ∈ s1.M.functions, f ∈ s.M.functions) ∧
    (∀ f ∈ s.M.functions, sd_isVthunk f.name = true → f.hasUsers = true →
      f.name ∉ s.vthunksToRemove → f ∈ s1.M.functions) := by
  obtain ⟨h1, h2, h3, _⟩ := removeOldLayouts_done cha s s1 h hnd
  exact ⟨h1, fun f => removeOldLayouts_functions cha s s1 h hfn f, h2, h3,
    fun f hf _ hu hnot => (removeOldLayouts_functions cha s s1 h hfn f).2 ⟨hf, hnot, fun _ => hu⟩⟩

theorem removeOldLayouts_final_witness :
    ((buildNewLayouts chaS4 20 (initState moduleS4used true)).isAbort = false ∧
      (buildNewLayouts chaS4 20 (initState moduleS4used true)).state.vthunksToRemove =
        ["_ZTv0_n16_f"] ∧
      (buildNewLayouts chaS4 20 (initState moduleS4used true)).state.M.functions.map
        (fun f => (f.name, f.hasUsers)) =
        [("_ZTv0_n16_f", false), ("_ZTv0_n24_g", true), ("_SVTDerived_ZTv0_n16_f", false)]) ∧
    ((∀ n ∈ chaS4.oldVTables, ∀ g ∈ (removeOldLayouts chaS4
        (buildNewLayouts chaS4 20 (initState moduleS4used true)).state).state.M.globals,
        g.name ≠ n) ∧
    (∀ f, f ∈ (removeOldLayouts chaS4
        (buildNewLayouts chaS4 20 (initState moduleS4used true)).state).state.M.functions ↔
      f ∈ (buildNewLayouts chaS4 20 (initState moduleS4used true)).state.M.functions ∧
        f.name ∉ (buildNewLayouts chaS4 20
          (initState moduleS4used true)).state.vthunksToRemove ∧
        (sd_isVthunk f.name = true → f.hasUsers = true)) ∧
    (∀ f ∈ (removeOldLayouts chaS4
        (buildNewLayouts chaS4 20 (initState moduleS4used true)).state).state.M.functions,
      sd_isVthunk f.name = true →
      f.hasUsers = true ∧ f.name ∉
        (buildNewLayouts chaS4 20 (initState moduleS4used true)).state.vthunksToRemove) ∧
    (∀ f ∈ (removeOldLayouts chaS4
        (buildNewLayouts chaS4 20 (initState moduleS4used true)).state).state.M.functions,
      f ∈ (buildNewLayouts chaS4 20 (initState moduleS4used true)).state.M.functions) ∧
    (∀ f ∈ (buildNewLayouts chaS4 20 (initState moduleS4used true)).state.M.functions,
      sd_isVthunk f.name = true → f.hasUsers = true →
      f.name ∉ (buildNewLayouts chaS4 20
        (initState moduleS4used true)).state.vthunksToRemove →
      f ∈ (removeOldLayouts chaS4
        (buildNewLayouts chaS4 20 (initState moduleS4used true)).state).state.M.functions)) :=
  ⟨⟨by decide!, by decide!, by decide!⟩,
    removeOldLayouts_final chaS4
      (buildNewLayouts chaS4 20 (initState moduleS4used true)).state
      (removeOldLayouts chaS4
        (buildNewLayouts chaS4 20 (initState moduleS4used true)).state).state
      (Outcome.eq_done_of_not_abort _ (by decide!)) (by decide!) (by decide!)⟩

/-- C27 (memory-range materialisation, phase C).  On a cloud whose preorder lists no node
twice, with enough fuel, when the range helper returns `RangeMap`, the intervals of the
`RangeMap` lists end within the preorder, the nodes of the cloud have no memory ranges yet and
`newVtblAddressConst` returns for the first defined node of every interval that holds one:
`calculateVPtrRanges` returns, and for every `v` of the preorder `MemRangeMap[v]` holds, in
the order of the intervals `[s, e)` of `RangeMap[v]`, one entry for each interval that holds
a defined node and nothing for the others; the entry is the address constant of
`preorder[s1]`, with `s1` the smallest index of `[s, e)` whose node is defined, together with
the number of defined nodes of `preorder[s..e)`; and the loop that skips the leading undefined
nodes returns `s1` on the preorder cut off at `e`, so it reads no index `≥ e`. -/
theorem calculateVPtrRanges_memRanges (cha : CHA) (newLayoutInds : vtbl_t → Option (List Nat))
    (cloudStartMap : String → Bool) (fuel : Nat)
    (rangeMap rangeMap1 : vtbl_t → Option (List range_t))
    (memRangeMap : vtbl_t → List mem_range_t) (vtbl : vtbl_name_t)
    (hnd : (cha.preorder (vtbl, 0)).Nodup)
    (hfuel : (cha.preorder (vtbl, 0)).length < fuel)
    (hhelper : calculateVPtrRangesHelper cha (buildIndMap (cha.preorder (vtbl, 0))) fuel
      (vtbl, 0) rangeMap = some rangeMap1)
    (hempty : ∀ v ∈ cha.preorder (vtbl, 0), memRangeMap v = [])
    (hlen : ∀ v ∈ cha.preorder (vtbl, 0), ∀ it ∈ (rangeMap1 v).getD [],
      it.2 ≤ (cha.preorder (vtbl, 0)).length)
    (haddr : ∀ v ∈ cha.preorder (vtbl, 0), ∀ it ∈ (rangeMap1 v).getD [],
      definedCount cha (cha.preorder (vtbl, 0)) it.1 it.2 ≠ 0 →
      (memRangeOf cha newLayoutInds cloudStartMap (cha.preorder (vtbl, 0)) it).isSome = true) :
    ∃ memRangeMap1,
      calculateVPtrRanges cha newLayoutInds cloudStartMap fuel rangeMap memRangeMap vtbl =
        some (rangeMap1, memRangeMap1) ∧
      ∀ v ∈ cha.preorder (vtbl, 0),
        memRangeMap1 v = ((rangeMap1 v).getD []).filterMap
          (memRangeOf cha newLayoutInds cloudStartMap (cha.preorder (vtbl, 0))) ∧
        ∀ it ∈ (rangeMap1 v).getD [],
          definedCount cha (cha.preorder (vtbl, 0)) it.1 it.2 ≠ 0 →
          ∃ s1 w, firstDefined cha (cha.preorder (vtbl, 0)) it.1 it.2 = some s1 ∧
            it.1 ≤ s1 ∧ s1 < it.2 ∧ (cha.preorder (vtbl, 0))[s1]? = some w ∧
            cha.isDefined w = true ∧
            skipUndefinedLoop cha ((cha.preorder (vtbl, 0)).take it.2) fuel it.1 it.2 =
              some s1 := by
  have hg : ∀ v ∈ cha.preorder (vtbl, 0), ∀ acc,
      memRangesLoop cha newLayoutInds cloudStartMap (cha.preorder (vtbl, 0)) fuel
        ((rangeMap1 v).getD []) acc =
      some (acc ++ ((rangeMap1 v).getD []).filterMap
        (memRangeOf cha newLayoutInds cloudStartMap (cha.preorder (vtbl, 0)))) :=
    fun v hv acc => memRangesLoop_eq cha newLayoutInds cloudStartMap _ fuel hfuel _ acc
      (hlen v hv) (haddr v hv)
  obtain ⟨m1, hm1, hm2, _⟩ := foldlM_upd_nodup
    (fun mrm v =>
      match memRangesLoop cha newLayoutInds cloudStartMap (cha.preorder (vtbl, 0)) fuel
          ((rangeMap1 v).getD []) (mrm v) with
      | none => none
      | some l => some (upd mrm v l))
    (fun v acc => memRangesLoop cha newLayoutInds cloudStartMap (cha.preorder (vtbl, 0)) fuel
      ((rangeMap1 v).getD []) acc)
    (fun m v => by
      simp only
      cases memRangesLoop cha newLayoutInds cloudStartMap (cha.preorder (vtbl, 0)) fuel
        ((rangeMap1 v).getD []) (m v) <;> rfl)
    (cha.preorder (vtbl, 0)) hnd memRangeMap
    (fun v hv => by beta_reduce; rw [hg v hv]; rfl)
  refine ⟨m1, ?_, fun v hv => ⟨?_, ?_⟩⟩
  · unfold calculateVPtrRanges
    simp only [hhelper]
    split
    · rename_i heq
      exact absurd (hm1.symm.trans heq) (by simp)
    · rename_i x heq
      rw [Option.some.inj (hm1.symm.trans heq)]
  · have := hm2 v hv
    rw [hg v hv, hempty v hv, List.nil_append] at this
    exact (Option.some.inj this).symm
  · intro it hit hc
    obtain ⟨s1, w, h1, h2, hw, hdef, hmin⟩ :=
      exists_first_defined cha (cha.preorder (vtbl, 0)) it.1 it.2 hc
    have hle := hlen v hv it hit
    refine ⟨s1, w, firstDefined_eq cha _ it.1 it.2 s1 w h1 h2 hw hdef hmin, h1, h2, hw, hdef,
      ?_⟩
    apply skipUndefinedLoop_eq cha _ it.2 s1 w _ hdef (s1 - it.1) it.1 fuel (by omega)
      (by omega) _ _ h2
    · rw [List.getElem?_take, if_pos h2]; exact hw
    · intro j x hj1 hj2 hx
      rw [List.getElem?_take, if_pos (by omega)] at hx
      exact hmin j x hj1 hj2 hx
    · intro j _ hj2
      rw [List.length_take]
      omega

theorem calculateVPtrRanges_memRanges_witness :
    ((chaU.preorder ("P", 0)).Nodup ∧ chaU.isUndefined "U" = true) ∧
    ∃ memRangeMap1,
      calculateVPtrRanges chaU
        (calculateNewLayoutInds dummyS
          [(("P", 0), 0), (("P", 0), 1), (("P", 0), 2), (("C", 0), 0)] (fun _ => none))
        (fun n => n = "_SDP") 10 (fun _ => none) (fun _ => []) "P" =
        some ((calculateVPtrRangesHelper chaU (buildIndMap (chaU.preorder ("P", 0))) 10
          ("P", 0) (fun _ => none)).getD (fun _ => none), memRangeMap1) ∧
      ∀ v ∈ chaU.preorder ("P", 0),
        memRangeMap1 v = ((((calculateVPtrRangesHelper chaU
            (buildIndMap (chaU.preorder ("P", 0))) 10 ("P", 0) (fun _ => none)).getD
            (fun _ => none)) v).getD []).filterMap
          (memRangeOf chaU
            (calculateNewLayoutInds dummyS
              [(("P", 0), 0), (("P", 0), 1), (("P", 0), 2), (("C", 0), 0)] (fun _ => none))
            (fun n => n = "_SDP") (chaU.preorder ("P", 0))) ∧
        ∀ it ∈ (((calculateVPtrRangesHelper chaU
            (buildIndMap (chaU.preorder ("P", 0))) 10 ("P", 0) (fun _ => none)).getD
            (fun _ => none)) v).getD [],
          definedCount chaU (chaU.preorder ("P", 0)) it.1 it.2 ≠ 0 →
          ∃ s1 w, firstDefined chaU (chaU.preorder ("P", 0)) it.1 it.2 = some s1 ∧
            it.1 ≤ s1 ∧ s1 < it.2 ∧ (chaU.preorder ("P", 0))[s1]? = some w ∧
            chaU.isDefined w = true ∧
            skipUndefinedLoop chaU ((chaU.preorder ("P", 0)).take it.2) 10 it.1 it.2 =
              some s1 :=
  ⟨⟨by decide, by decide⟩,
    calculateVPtrRanges_memRanges chaU
      (calculateNewLayoutInds dummyS
        [(("P", 0), 0), (("P", 0), 1), (("P", 0), 2), (("C", 0), 0)] (fun _ => none))
      (fun n => n = "_SDP") 10 (fun _ => none)
      ((calculateVPtrRangesHelper chaU (buildIndMap (chaU.preorder ("P", 0))) 10
        ("P", 0) (fun _ => none)).getD (fun _ => none))
      (fun _ => []) "P" (by decide) (by decide)
      (some_getD_of_isSome _ _ (by decide)) (fun _ _ => rfl) (by decide) (by decide)⟩

/-- C25, counterexample.  For the cloud of the one vtable `A` with the cells 0..1 and no
prepad, the list `(A, 1), (A, 2)` passes `verifyNewLayouts` with interleaving: it has two
entries for `A` and the span of their old positions is two.  The old positions are 1 and 2,
not 0 and 1: the old position `first(A) - PrePad[A] = 0` is carried by no entry. -/
theorem verifyNewLayouts_accepts_shifted_positions :
    verifyNewLayouts chaOne dummyS true (fun _ => 0)
      (fun n => if n = "A" then some [(("A", 0), 1), (("A", 0), 2)] else none) = true ∧
    chaOne.roots = ["A"] ∧ chaOne.preorder ("A", 0) = [("A", 0)] ∧
    chaOne.isUndefined "A" = false ∧ chaOne.getRange ("A", 0) = (0, 1) ∧
    positionsOf [(("A", 0), 1), (("A", 0), 2)] ("A", 0) = [1, 2] ∧
    0 ∉ positionsOf [(("A", 0), 1), (("A", 0), 2)] ("A", 0) := by
  refine ⟨by decide, by decide, by decide, by decide, by decide, by decide, by decide⟩

/-- C25, amended (what the density check pins).  With interleaving enabled, whenever
`verifyNewLayouts` returns `true`, for every root and every defined `v` of its preorder the
old positions (as `uint64_t` values) carried by the entries tagged `v` in
`InterleavingList[root]` are pairwise distinct, there are
`last(v) - (first(v) - PrePad[v]) + 1` of them (in `uint64_t` arithmetic), and they are the
numbers of one range of consecutive integers of that length.  Where the range starts is not
checked. -/
theorem verifyNewLayouts_density (cha : CHA) (dummyVtable : vtbl_t) (prePadMap : vtbl_t → Nat)
    (interleavingMap : vtbl_name_t → Option interleaving_list_t)
    (h : verifyNewLayouts cha dummyVtable true prePadMap interleavingMap = true)
    (root : vtbl_name_t) (hr : root ∈ cha.roots) (v : vtbl_t)
    (hv : v ∈ cha.preorder (root, 0)) (hd : cha.isUndefined v.1 = false) :
    (positionsOf ((interleavingMap root).getD []) v).Nodup ∧
    (positionsOf ((interleavingMap root).getD []) v).length =
      u64 (((cha.getRange v).2 : Int) - (((cha.getRange v).1 : Int) - (prePadMap v : Int)) + 1) ∧
    ∃ lo, (positionsOf ((interleavingMap root).getD []) v).Perm
      (List.range' lo
        (u64 (((cha.getRange v).2 : Int) - (((cha.getRange v).1 : Int) - (prePadMap v : Int))
          + 1))) := by
  unfold verifyNewLayouts at h
  have hc := verifyRoots_true cha dummyVtable prePadMap interleavingMap cha.roots h root hr
  obtain ⟨indMap, hind, hdense, _, _⟩ :=
    verifyCloud_none cha dummyVtable prePadMap interleavingMap root hc
  obtain ⟨m, k, ks, hm, hk, h1, h2⟩ :=
    verifyDense_true cha prePadMap indMap v hd (hdense v hv)
  obtain ⟨hnd, hkeys, hdummy⟩ :=
    verifyIndMapLoop_keys dummyVtable _ 0 (fun _ => none) indMap hind
      (fun _ => List.nodup_nil)
  have hne : v ≠ dummyVtable := by
    intro he
    rw [he, hdummy] at hm
    exact Option.noConfusion hm
  have hkv : m.map (fun p => p.1) = positionsOf ((interleavingMap root).getD []) v := by
    have := hkeys v hne
    rw [hm] at this
    simpa using this
  have hndv : (m.map (fun p => p.1)).Nodup := by
    have := hnd v
    rw [hm] at this
    exact this
  have hlen : (m.map (fun p => p.1)).length = m.length := List.length_map _ _
  rw [← hkv]
  refine ⟨hndv, by rw [hlen, h2], ?_⟩
  apply dense_keys (m.map (fun p => p.1)) k ks _ _ hndv _ h1 (by rw [hlen, h2])
  · rw [List.map_map]; exact hk
  · intro x hx
    rw [hkv] at hx
    exact positionsOf_lt _ _ x hx

theorem verifyNewLayouts_density_witness :
    verifyNewLayouts chaS2 dummyS true (fun _ => 0)
      (fun n => if n = "A" then some listS2 else none) = true ∧
    (positionsOf listS2 ("B", 0)).Nodup ∧
    (positionsOf listS2 ("B", 0)).length =
      u64 (((chaS2.getRange ("B", 0)).2 : Int) - (((chaS2.getRange ("B", 0)).1 : Int) -
        ((0 : Nat) : Int)) + 1) ∧
    ∃ lo, (positionsOf listS2 ("B", 0)).Perm
      (List.range' lo
        (u64 (((chaS2.getRange ("B", 0)).2 : Int) - (((chaS2.getRange ("B", 0)).1 : Int) -
          ((0 : Nat) : Int)) + 1))) :=
  ⟨by decide,
    verifyNewLayouts_density chaS2 dummyS (fun _ => 0)
      (fun n => if n = "A" then some listS2 else none) (by decide) "A" (by decide) ("B", 0)
      (by decide) (by decide)⟩

/-- C26, counterexample.  In the chain `P`, `U`, `C` with `U` undefined, `interleaveCloud`
gives the prepads 0, 2, 0 and the list `(P,0), (P,1), (P,2), (C,0)`, and `verifyNewLayouts`
returns `true` on them with interleaving.  `P` and `C` are defined and `C` is reachable from
`P` through the children edges `P`, `U` and `U`, `C`, but
`(addrPt(P) - first(P)) + PrePad[P] = 2` is greater than
`(addrPt(C) - first(C)) + PrePad[C] = 0`, and `last(P) - addrPt(P) = 0`,
`last(C) - addrPt(C) = 0`. -/
theorem verifyNewLayouts_skips_undefined_link :
    (interleaveCloud chaU 20 (fun _ => 0) "P").map
        (fun r => (r.2, [("P", 0), ("U", 0), ("C", 0)].map r.1)) =
      some ([(("P", 0), 0), (("P", 0), 1), (("P", 0), 2), (("C", 0), 0)], [0, 2, 0]) ∧
    verifyNewLayouts chaU dummyS true (fun v => if v = ("U", 0) then 2 else 0)
      (fun n => if n = "P" then some [(("P", 0), 0), (("P", 0), 1), (("P", 0), 2), (("C", 0), 0)]
        else none) = true ∧
    chaU.roots = ["P"] ∧ ("U", 0) ∈ chaU.children ("P", 0) ∧ ("C", 0) ∈ chaU.children ("U", 0) ∧
    chaU.isUndefined "P" = false ∧ chaU.isUndefined "C" = false ∧
    chaU.isUndefined "U" = true ∧
    ¬ (((chaU.addrPt ("P", 0) : Int) - (chaU.getRange ("P", 0)).1) + ((0 : Nat) : Int) ≤
      ((chaU.addrPt ("C", 0) : Int) - (chaU.getRange ("C", 0)).1) + ((0 : Nat) : Int)) := by
  refine ⟨by decide, by decide, by decide, by decide, by decide, by decide, by decide,
    by decide, by decide⟩

/-- C26, amended (containment along the edges that are looked at).  With interleaving
enabled, whenever `verifyNewLayouts` returns `true`, every pair `(p, c)` of a cloud in which
`c` is reached from `p` through one or more edges from a defined vtable of the cloud to a
defined child that is not earlier in the preorder satisfies, in `uint64_t` arithmetic,
`(addrPt(p) - first(p)) + PrePad[p] <= (addrPt(c) - first(c)) + PrePad[c]` and
`last(p) - addrPt(p) <= last(c) - addrPt(c)`; the same holds for the integers when none of
the four differences wraps.  A path through an undefined vtable, or to a child that is
earlier in the preorder, is not checked. -/
theorem verifyNewLayouts_containment (cha : CHA) (dummyVtable : vtbl_t)
    (prePadMap : vtbl_t → Nat) (interleavingMap : vtbl_name_t → Option interleaving_list_t)
    (h : verifyNewLayouts cha dummyVtable true prePadMap interleavingMap = true)
    (root : vtbl_name_t) (hr : root ∈ cha.roots) (p c : vtbl_t)
    (hpc : Relation.TransGen (checkedEdge cha (root, 0)) p c) :
    u64 ((cha.addrPt p : Int) - ((cha.getRange p).1 : Int) + (prePadMap p : Int)) ≤
      u64 ((cha.addrPt c : Int) - ((cha.getRange c).1 : Int) + (prePadMap c : Int)) ∧
    u64 (((cha.getRange p).2 : Int) - (cha.addrPt p : Int)) ≤
      u64 (((cha.getRange c).2 : Int) - (cha.addrPt c : Int)) ∧
    ((∀ v, v = p ∨ v = c →
        0 ≤ (cha.addrPt v : Int) - ((cha.getRange v).1 : Int) + (prePadMap v : Int) ∧
        (cha.addrPt v : Int) - ((cha.getRange v).1 : Int) + (prePadMap v : Int) < 2 ^ 64 ∧
        0 ≤ ((cha.getRange v).2 : Int) - (cha.addrPt v : Int) ∧
        ((cha.getRange v).2 : Int) - (cha.addrPt v : Int) < 2 ^ 64) →
      ((cha.addrPt p : Int) - ((cha.getRange p).1 : Int)) + (prePadMap p : Int) ≤
        ((cha.addrPt c : Int) - ((cha.getRange c).1 : Int)) + (prePadMap c : Int) ∧
      ((cha.getRange p).2 : Int) - (cha.addrPt p : Int) ≤
        ((cha.getRange c).2 : Int) - (cha.addrPt c : Int)) := by
  unfold verifyNewLayouts at h
  have hc := verifyRoots_true cha dummyVtable prePadMap interleavingMap cha.roots h root hr
  obtain ⟨indMap, _, _, hcont, _⟩ :=
    verifyCloud_none cha dummyVtable prePadMap interleavingMap root hc
  have hedge : ∀ a b, checkedEdge cha (root, 0) a b →
      u64 ((cha.addrPt a : Int) - ((cha.getRange a).1 : Int) + (prePadMap a : Int)) ≤
        u64 ((cha.addrPt b : Int) - ((cha.getRange b).1 : Int) + (prePadMap b : Int)) ∧
      u64 (((cha.getRange a).2 : Int) - (cha.addrPt a : Int)) ≤
        u64 (((cha.getRange b).2 : Int) - (cha.addrPt b : Int)) := by
    intro a b ⟨ha, hau, hb, hbu, ho⟩
    exact verifyContained_true cha prePadMap _ a b hbu ho (hcont a ha hau b hb)
  have hchain : u64 ((cha.addrPt p : Int) - ((cha.getRange p).1 : Int) + (prePadMap p : Int)) ≤
        u64 ((cha.addrPt c : Int) - ((cha.getRange c).1 : Int) + (prePadMap c : Int)) ∧
      u64 (((cha.getRange p).2 : Int) - (cha.addrPt p : Int)) ≤
        u64 (((cha.getRange c).2 : Int) - (cha.addrPt c : Int)) := by
    induction hpc with
    | single hab => exact hedge _ _ hab
    | tail _ hbc ih =>
      have := hedge _ _ hbc
      exact ⟨le_trans ih.1 this.1, le_trans ih.2 this.2⟩
  refine ⟨hchain.1, hchain.2, fun hb => ?_⟩
  obtain ⟨p1, p2, p3, p4⟩ := hb p (Or.inl rfl)
  obtain ⟨c1, c2, c3, c4⟩ := hb c (Or.inr rfl)
  have e1 := u64_of_range _ p1 p2
  have e2 := u64_of_range _ p3 p4
  have e3 := u64_of_range _ c1 c2
  have e4 := u64_of_range _ c3 c4
  have h1 := hchain.1
  have h2 := hchain.2
  constructor
  · rw [← e1, ← e3]; exact_mod_cast h1
  · rw [← e2, ← e4]; exact_mod_cast h2

theorem verifyNewLayouts_containment_witness :
    verifyNewLayouts chaS2 dummyS true (fun _ => 0)
      (fun n => if n = "A" then some listS2 else none) = true ∧
    checkedEdge chaS2 ("A", 0) ("A", 0) ("B", 0) ∧
    (u64 ((chaS2.addrPt ("A", 0) : Int) - ((chaS2.getRange ("A", 0)).1 : Int) +
        ((0 : Nat) : Int)) ≤
      u64 ((chaS2.addrPt ("B", 0) : Int) - ((chaS2.getRange ("B", 0)).1 : Int) +
        ((0 : Nat) : Int)) ∧
    u64 (((chaS2.getRange ("A", 0)).2 : Int) - (chaS2.addrPt ("A", 0) : Int)) ≤
      u64 (((chaS2.getRange ("B", 0)).2 : Int) - (chaS2.addrPt ("B", 0) : Int)) ∧
    ((∀ v, v = ("A", 0) ∨ v = ("B", 0) →
        0 ≤ (chaS2.addrPt v : Int) - ((chaS2.getRange v).1 : Int) + ((0 : Nat) : Int) ∧
        (chaS2.addrPt v : Int) - ((chaS2.getRange v).1 : Int) + ((0 : Nat) : Int) < 2 ^ 64 ∧
        0 ≤ ((chaS2.getRange v).2 : Int) - (chaS2.addrPt v : Int) ∧
        ((chaS2.getRange v).2 : Int) - (chaS2.addrPt v : Int) < 2 ^ 64) →
      ((chaS2.addrPt ("A", 0) : Int) - ((chaS2.getRange ("A", 0)).1 : Int)) +
          ((0 : Nat) : Int) ≤
        ((chaS2.addrPt ("B", 0) : Int) - ((chaS2.getRange ("B", 0)).1 : Int)) +
          ((0 : Nat) : Int) ∧
      ((chaS2.getRange ("A", 0)).2 : Int) - (chaS2.addrPt ("A", 0) : Int) ≤
        ((chaS2.getRange ("B", 0)).2 : Int) - (chaS2.addrPt ("B", 0) : Int))) :=
  ⟨by decide, by decide,
    verifyNewLayouts_containment chaS2 dummyS (fun _ => 0)
      (fun n => if n = "A" then some listS2 else none) (by decide) "A" (by decide)
      ("A", 0) ("B", 0) (Relation.TransGen.single (by decide))⟩

/-- C31 (code defect).  On a vtable with a planned layout `newInds` and a range, the absolute
branch of `translateVtblInd` reads `newInds[offset]` whenever the condition of its assertion,
`0 <= offset && offset <= newInds.size()`, holds.  The condition holds at
`offset = newInds.size()`, where the read is one past the end of the vector; at every other
offset that it admits the read is inside the vector.  In scenario S2, `NewLayoutInds[A]` is
`[2, 4]`: the offset 2 passes the assertion and `newInds[2]` does not exist, while the offset
1 gives 4. -/
theorem translateVtblInd_absolute_reads_past_end :
    (∀ (cha : CHA) (newLayoutInds : vtbl_t → Option (List Nat)) (v : vtbl_t)
        (inds : List Nat) (offset : Int),
      newLayoutInds (if cha.isUndefinedVtbl v && cha.hasFirstDefinedChild v
        then cha.getFirstDefinedChild v else v) = some inds →
      cha.hasRange (if cha.isUndefinedVtbl v && cha.hasFirstDefinedChild v
        then cha.getFirstDefinedChild v else v) = true →
      translateVtblInd cha newLayoutInds v offset false =
        if translateVtblInd_assert inds offset = true
        then (inds[offset.toNat]?).map (fun (a : Nat) => (a : Int)) else none) ∧
    (∀ inds : List Nat, translateVtblInd_assert inds (inds.length : Int) = true ∧
      inds[((inds.length : Nat) : Int).toNat]? = none) ∧
    (∀ (inds : List Nat) (offset : Int), translateVtblInd_assert inds offset = true →
      offset ≠ (inds.length : Int) → (inds[offset.toNat]?).isSome = true) ∧
    calculateNewLayoutInds dummyS listS2 (fun _ => none) ("A", 0) = some [2, 4] ∧
    chaS2.hasRange ("A", 0) = true ∧
    translateVtblInd_assert [2, 4] 2 = true ∧
    ([2, 4] : List Nat)[(2 : Int).toNat]? = none ∧
    translateVtblInd chaS2 (calculateNewLayoutInds dummyS listS2 (fun _ => none)) ("A", 0) 2
      false = none ∧
    translateVtblInd chaS2 (calculateNewLayoutInds dummyS listS2 (fun _ => none)) ("A", 0) 1
      false = some 4 := by
  refine ⟨fun cha nli v inds offset h1 h2 => translateVtblInd_absolute cha nli v inds offset h1 h2,
    fun inds => ⟨?_, ?_⟩, fun inds offset h hne => ?_, by decide, by decide, by decide,
    by decide, by decide, by decide⟩
  · unfold translateVtblInd_assert
    simp
  · rw [Int.toNat_ofNat]
    exact List.getElem?_eq_none (le_refl _)
  · unfold translateVtblInd_assert at h
    have h1 := of_decide_eq_true h
    have hlt : offset.toNat < inds.length := by omega
    rw [List.getElem?_eq_getElem hlt]
    rfl

/-- C32 (index translation preserves order).  With `NewLayoutInds` produced by
`calculateNewLayoutInds` from the empty state, for every vtable `v`: whenever
`translateVtblInd(v, 0, relative)` returns, it returns 0; whenever it returns for two
offsets `i < j`, the value for `i` is below the value for `j`; and it does return for every
offset `i` of a vtable with a planned layout and a range whose index
`addrPt - first + i` passes the range check and lies, like `addrPt - first`, inside the
planned layout. -/
theorem translateVtblInd_relative_increasing (cha : CHA) (dummyVtable : vtbl_t)
    (L : interleaving_list_t) (v : vtbl_t) :
    (∀ r, translateVtblInd cha (calculateNewLayoutInds dummyVtable L (fun _ => none)) v 0
        true = some r → r = 0) ∧
    (∀ (i j a b : Int), i < j →
      translateVtblInd cha (calculateNewLayoutInds dummyVtable L (fun _ => none)) v i true =
        some a →
      translateVtblInd cha (calculateNewLayoutInds dummyVtable L (fun _ => none)) v j true =
        some b →
      a < b) ∧
    (∀ (inds : List Nat) (i : Int),
      calculateNewLayoutInds dummyVtable L (fun _ => none)
        (if cha.isUndefinedVtbl v && cha.hasFirstDefinedChild v
          then cha.getFirstDefinedChild v else v) = some inds →
      cha.hasRange (if cha.isUndefinedVtbl v && cha.hasFirstDefinedChild v
        then cha.getFirstDefinedChild v else v) = true →
      0 ≤ ((cha.addrPt (if cha.isUndefinedVtbl v && cha.hasFirstDefinedChild v
          then cha.getFirstDefinedChild v else v) -
          (cha.getRange (if cha.isUndefinedVtbl v && cha.hasFirstDefinedChild v
          then cha.getFirstDefinedChild v else v)).1 : Nat) : Int) + i →
      ((cha.addrPt (if cha.isUndefinedVtbl v && cha.hasFirstDefinedChild v
          then cha.getFirstDefinedChild v else v) -
          (cha.getRange (if cha.isUndefinedVtbl v && cha.hasFirstDefinedChild v
          then cha.getFirstDefinedChild v else v)).1 : Nat) : Int) + i ≤
        (((cha.getRange (if cha.isUndefinedVtbl v && cha.hasFirstDefinedChild v
          then cha.getFirstDefinedChild v else v)).2 -
          (cha.getRange (if cha.isUndefinedVtbl v && cha.hasFirstDefinedChild v
          then cha.getFirstDefinedChild v else v)).1 : Nat) : Int) →
      (((cha.addrPt (if cha.isUndefinedVtbl v && cha.hasFirstDefinedChild v
          then cha.getFirstDefinedChild v else v) -
          (cha.getRange (if cha.isUndefinedVtbl v && cha.hasFirstDefinedChild v
          then cha.getFirstDefinedChild v else v)).1 : Nat) : Int) + i).toNat < inds.length →
      cha.addrPt (if cha.isUndefinedVtbl v && cha.hasFirstDefinedChild v
          then cha.getFirstDefinedChild v else v) -
          (cha.getRange (if cha.isUndefinedVtbl v && cha.hasFirstDefinedChild v
          then cha.getFirstDefinedChild v else v)).1 < inds.length →
      (translateVtblInd cha (calculateNewLayoutInds dummyVtable L (fun _ => none)) v i
        true).isSome = true) := by
  refine ⟨fun r h => ?_, fun i j a b hij hi hj => ?_,
    fun inds i h1 h2 h3 h4 h5 h6 =>
      translateVtblInd_relative_some cha _ v inds i h1 h2 h3 h4 h5 h6⟩
  · cases hn : calculateNewLayoutInds dummyVtable L (fun _ => none)
        (if cha.isUndefinedVtbl v && cha.hasFirstDefinedChild v
          then cha.getFirstDefinedChild v else v) with
    | none => exact translateVtblInd_no_layout cha _ v 0 true hn r h
    | some inds =>
      cases hr : cha.hasRange (if cha.isUndefinedVtbl v && cha.hasFirstDefinedChild v
          then cha.getFirstDefinedChild v else v) with
      | false =>
        rw [translateVtblInd_no_range cha _ v inds 0 true hn hr] at h
        exact Option.noConfusion h
      | true =>
        obtain ⟨a, b, _, ha, hb, hres⟩ := translateVtblInd_relative cha _ v inds 0 hn hr r h
        rw [add_zero, Int.toNat_ofNat, hb] at ha
        have := Option.some.inj ha
        omega
  · cases hn : calculateNewLayoutInds dummyVtable L (fun _ => none)
        (if cha.isUndefinedVtbl v && cha.hasFirstDefinedChild v
          then cha.getFirstDefinedChild v else v) with
    | none =>
      rw [translateVtblInd_no_layout cha _ v i true hn a hi,
        translateVtblInd_no_layout cha _ v j true hn b hj]
      exact hij
    | some inds =>
      cases hr : cha.hasRange (if cha.isUndefinedVtbl v && cha.hasFirstDefinedChild v
          then cha.getFirstDefinedChild v else v) with
      | false =>
        rw [translateVtblInd_no_range cha _ v inds i true hn hr] at hi
        exact Option.noConfusion hi
      | true =>
        obtain ⟨a1, b1, hi0, hia, hib, hires⟩ :=
          translateVtblInd_relative cha _ v inds i hn hr a hi
        obtain ⟨a2, b2, hj0, hja, hjb, hjres⟩ :=
          translateVtblInd_relative cha _ v inds j hn hr b hj
        rw [hib] at hjb
        have hb := Option.some.inj hjb
        have hlt := sorted_getElem?_lt inds (calculateNewLayoutInds_sorted dummyVtable L _ inds hn)
          _ _ a1 a2 (by omega) hia hja
        omega

/-- C33 (the round-robin sweep terminates with an exact entry count).  For every node list
without repetition whose defined nodes satisfy `first <= addrPt <= last`, and every `PrePad`,
there is a number `R` such that the `while(true)` loop of `fillVtablePart` comes to its end
with every budget of more than `R` sweeps and with no budget of `R` sweeps or fewer, so it
makes exactly `R + 1` sweeps; the list it returns has exactly as many entries as the sum,
over the defined nodes, of `last - addrPt + 1` (positive side) or of
`addrPt - first + PrePad` (negative side); and `R` is the largest of these per-node counts:
no defined node has a larger one, and `R` is 0 or the count of a defined node. -/
theorem fillVtablePart_sweeps_and_count (cha : CHA) (prePadMap : vtbl_t → Nat)
    (positivePartOn_Off : Bool) (nodesInPreorder : order_t)
    (hnd : nodesInPreorder.Nodup)
    (hinv : ∀ n ∈ nodesInPreorder, cha.isUndefined n.1 = false →
      (cha.getRange n).1 ≤ cha.addrPt n ∧ cha.addrPt n ≤ (cha.getRange n).2) :
    ∃ R L,
      (∀ fuel, R < fuel →
        fillVtablePart cha prePadMap fuel [] nodesInPreorder positivePartOn_Off = some L) ∧
      (∀ fuel, fuel ≤ R →
        fillVtablePart cha prePadMap fuel [] nodesInPreorder positivePartOn_Off = none) ∧
      L.length = ((nodesInPreorder.filter (fun n => !cha.isUndefined n.1)).map
        (sideCount cha prePadMap positivePartOn_Off)).sum ∧
      (∀ n ∈ nodesInPreorder, cha.isUndefined n.1 = false →
        sideCount cha prePadMap positivePartOn_Off n ≤ R) ∧
      (R = 0 ∨ ∃ n ∈ nodesInPreorder, cha.isUndefined n.1 = false ∧
        sideCount cha prePadMap positivePartOn_Off n = R) :=
  fillVtablePart_rounds cha prePadMap positivePartOn_Off nodesInPreorder hnd hinv

theorem fillVtablePart_sweeps_and_count_witness :
    (fillVtablePart chaS2 (fun _ => 0) 2 [] (chaS2.preorder ("A", 0)) true = none ∧
      fillVtablePart chaS2 (fun _ => 0) 3 [] (chaS2.preorder ("A", 0)) true =
        some [(("A", 0), 0), (("B", 0), 2), (("A", 0), 1), (("B", 0), 3)] ∧
      (chaS2.preorder ("A", 0)).map (sideCount chaS2 (fun _ => 0) true) = [2, 2]) ∧
    ∃ R L,
      (∀ fuel, R < fuel →
        fillVtablePart chaS2 (fun _ => 0) fuel [] (chaS2.preorder ("A", 0)) true = some L) ∧
      (∀ fuel, fuel ≤ R →
        fillVtablePart chaS2 (fun _ => 0) fuel [] (chaS2.preorder ("A", 0)) true = none) ∧
      L.length = (((chaS2.preorder ("A", 0)).filter (fun n => !chaS2.isUndefined n.1)).map
        (sideCount chaS2 (fun _ => 0) true)).sum ∧
      (∀ n ∈ chaS2.preorder ("A", 0), chaS2.isUndefined n.1 = false →
        sideCount chaS2 (fun _ => 0) true n ≤ R) ∧
      (R = 0 ∨ ∃ n ∈ chaS2.preorder ("A", 0), chaS2.isUndefined n.1 = false ∧
        sideCount chaS2 (fun _ => 0) true n = R) :=
  ⟨⟨by decide, by decide, by decide⟩,
    fillVtablePart_sweeps_and_count chaS2 (fun _ => 0) true (chaS2.preorder ("A", 0))
      (by decide) (by decide)⟩

/-- C34 (rewritten thunk clones are never classified as virtual thunks).  For every
layout-class name `L` and every thunk name `t`, `sd_isVthunk("_SVT" ++ L ++ t)` is false.  So
when `removeOldLayouts` returns, every function with a clone name that was in the module and
not in `vthunksToRemove` is still in the module: the sweep over the functions without users
does not select it.  And a thunk that the element loop of `createNewVTable` puts into
`vthunksToRemove` has a virtual-thunk name, so it is no clone either. -/
theorem clone_never_classified_as_vthunk :
    (∀ L t : String, sd_isVthunk (NEW_VTHUNK_NAME t L) = false) ∧
    (∀ (cha : CHA) (s s1 : State), removeOldLayouts cha s = .done s1 →
      ∀ f ∈ s.M.functions, ∀ L t : String, f.name = NEW_VTHUNK_NAME t L →
        f.name ∉ s.vthunksToRemove → f ∈ s1.M.functions) ∧
    (∀ (cha : CHA) (dummyVtable : vtbl_t) (M : Module) (ivtbl : interleaving_t)
        (c : Constant) (thunk : String),
      createNewVTable_elem cha dummyVtable M ivtbl = some (c, some thunk) →
      sd_isVthunk thunk = true ∧ ∀ L t : String, thunk ≠ NEW_VTHUNK_NAME t L) := by
  refine ⟨fun L t => sd_isVthunk_clone t L, fun cha s s1 h f hf L t hname hnot => ?_,
    fun cha dummy M ivtbl c thunk h => ?_⟩
  · exact removeOldLayouts_keeps cha s s1 h f hf (by rw [hname]; exact sd_isVthunk_clone t L)
      hnot
  · have ht := createNewVTable_elem_thunk cha dummy M ivtbl c thunk h
    refine ⟨ht, fun L t he => ?_⟩
    rw [he, sd_isVthunk_clone] at ht
    exact Bool.noConfusion ht

/-- C35 (code defect).  Whenever `addCallSite` returns, both class-name fields of the record
it may have appended are the class name read from the metadata of argument operand 1: the
node `PreciseNameNode` is taken from `Arg2`, not from `Arg3`.  The result of `addCallSite`
is the same for every metadata carried by argument operand 2.  In scenario S5 operand 1
carries `_ZTV1A` and operand 2 carries `_ZTV1B`; the record is
`a.cpp:3:7,_ZTV1A,_ZTV1A,f,0,1`, whose third field is `_ZTV1A`. -/
theorem addCallSite_preciseName_from_Arg2 :
    (∀ (sd_isVtableName_ref : String → Bool)
        (getFunctionRange : String → String → List range_t)
        (args : List ArgOperand) (CallSite CallSite1 : CallSiteInst)
        (st st1 : ReturnRangeState),
      addCallSite sd_isVtableName_ref getFunctionRange args CallSite st =
        some (st1, CallSite1) →
      ∃ Arg2 ClassNameNode ClassName,
        getArgMetadata args 1 = some Arg2 ∧ Arg2.asMDNode = some ClassNameNode ∧
        sd_getClassNameFromMD sd_isVtableName_ref ClassNameNode 0 = some ClassName ∧
        (st1.CallSiteDebugLocs = st.CallSiteDebugLocs ∨
          ∃ (Loc : DebugLoc) (FunctionName : String) (r : range_t),
            st1.CallSiteDebugLocs = st.CallSiteDebugLocs ++
              [Loc.filename ++ ":" ++ toString Loc.line ++ ":" ++ toString Loc.col ++
                "," ++ ClassName ++ "," ++ ClassName ++ "," ++ FunctionName ++
                "," ++ toString r.1 ++ "," ++ toString r.2])) ∧
    (∀ (sd_isVtableName_ref : String → Bool)
        (getFunctionRange : String → String → List range_t)
        (a0 a1 : ArgOperand) (md md1 : Metadata) (rest : List ArgOperand)
        (CallSite : CallSiteInst) (st : ReturnRangeState),
      addCallSite sd_isVtableName_ref getFunctionRange
          (a0 :: a1 :: ArgOperand.metadataAsValue md :: rest) CallSite st =
        addCallSite sd_isVtableName_ref getFunctionRange
          (a0 :: a1 :: ArgOperand.metadataAsValue md1 :: rest) CallSite st) ∧
    (getArgMetadata argsS5 1).bind (fun md => sd_getClassNameFromMD (fun _ => true) md 0) =
      some "_ZTV1A" ∧
    (getArgMetadata argsS5 2).bind (fun md => sd_getClassNameFromMD (fun _ => true) md 0) =
      some "_ZTV1B" ∧
    (addCallSite (fun _ => true) (fun _ _ => [(0, 1)]) argsS5 callSiteS5 stateS5).map
        (fun r => r.1.CallSiteDebugLocs) = some ["a.cpp:3:7,_ZTV1A,_ZTV1A,f,0,1"] ∧
    ("a.cpp:3:7,_ZTV1A,_ZTV1A,f,0,1".splitOn ",")[2]? = some "_ZTV1A" := by
  refine ⟨fun isVt getFR args cs cs1 st st1 h =>
      addCallSite_record isVt getFR args cs cs1 st st1 h,
    fun isVt getFR a0 a1 md md1 rest cs st =>
      addCallSite_ignores_Arg3 isVt getFR a0 a1 md md1 rest cs st,
    by decide, by decide, by decide, by decide!⟩

end SDLayoutBuilder
